import Mathlib

/-!
# Verification development for the unigene clustering pipeline (Kp)

Shallow embedding of the C sources

* `dfs_cluster.c`      (namespace `DfsCluster`)
* `spanning_tree.c`    (namespace `SpanningTree`)
* `format_lookup.c`    (namespace `FormatLookup`)
* `scan_sequences.c`   (namespace `ScanSequences`)

C arrays indexed by sequence id are functions on `Nat`; C `int`/`uint` values are
`Nat`/`Int` (the 32-bit wrap is written out where the claim depends on it).
Recursive C functions whose termination depends on the data carry a fuel
argument and return `Option`; `none` means the fuel ran out (or, where noted, that
an `assert` aborted the program).
-/

set_option autoImplicit false

/-! ## dfs_cluster.c -/

namespace DfsCluster

/-- The C struct `fasta_t { int s2; int score; }`: one adjacency entry. -/
structure fasta_t where
  s2 : Nat
  score : Int
deriving DecidableEq

/-- The state that `cc_dfs_visit` reads and writes: the `color` array, the
global `tree_edges` / `back_edges` arrays and the component under construction
(`*component`, whose length is `*component_size`). -/
structure dfs_state where
  color : Nat → Bool
  tree_edges : Nat → List Nat
  back_edges : Nat → List Nat
  component : List Nat

/-- Array store `a[i] = v`. -/
def store {α : Type} (a : Nat → α) (i : Nat) (v : α) : Nat → α :=
  fun j => if j = i then v else a j

/-- The `for(i=0;i<n_fasta[n];i++)` loop of `cc_dfs_visit` (lines 141-151) over the
remaining adjacency entries of node `n`; `visit` is the recursive call. -/
def cc_dfs_edges (chimeric : Nat → Bool) (visit : dfs_state → Nat → Option dfs_state)
    (n : Nat) : List fasta_t → dfs_state → Option dfs_state
  | [], st => some st
  | e :: es, st =>
    if chimeric e.s2 then cc_dfs_edges chimeric visit n es st
    else if st.color e.s2 = false then
      match visit st e.s2 with
      | none => none
      | some st1 =>
        cc_dfs_edges chimeric visit n es
          { st1 with tree_edges := store st1.tree_edges n (st1.tree_edges n ++ [e.s2]) }
    else
      cc_dfs_edges chimeric visit n es
        { st with back_edges := store st.back_edges n (st.back_edges n ++ [e.s2]) }

/-- `cc_dfs_visit` (lines 132-152).  The first argument is the recursion fuel. -/
def cc_dfs_visit (adj : Nat → List fasta_t) (chimeric : Nat → Bool) :
    Nat → dfs_state → Nat → Option dfs_state
  | 0, _, _ => none
  | fuel + 1, st, n =>
    cc_dfs_edges chimeric (cc_dfs_visit adj chimeric fuel) n (adj n)
      { st with color := store st.color n true, component := st.component ++ [n] }

/-- The component-discovery loop of `connected_components` (lines 169-180) over the
ids still to be scanned; `comps` is `components[0 .. n_components)`. -/
def cc_loop (adj : Nat → List fasta_t) (chimeric : Nat → Bool) (fuel : Nat) :
    List Nat → dfs_state → List (List Nat) → Option (dfs_state × List (List Nat))
  | [], st, comps => some (st, comps)
  | i :: is, st, comps =>
    if st.color i then cc_loop adj chimeric fuel is st comps
    else if chimeric i then cc_loop adj chimeric fuel is st comps
    else
      match cc_dfs_visit adj chimeric fuel { st with component := [] } i with
      | none => none
      | some st1 => cc_loop adj chimeric fuel is st1 (comps ++ [st1.component])

/-- The state after the `CA(...)` allocations at the top of `connected_components`. -/
def dfs_init : dfs_state :=
  { color := fun _ => false, tree_edges := fun _ => [], back_edges := fun _ => [],
    component := [] }

/-- State of the articulation scan: the `level` array, `arti_points`, `n_arti`. -/
structure arti_state where
  level : Nat → Nat
  arti_points : Nat → Bool
  n_arti : Nat

/-- `INT_MAX`. -/
def INT_MAX : Nat := 2147483647

/-- The tree-edge loop of `scan_artipoint` (lines 53-61); carries `atri_point`
and `min`. -/
def scan_artipoint_children (scan : arti_state → Nat → Nat → Option (Nat × arti_state))
    (l : Nat) : List Nat → arti_state → Bool → Nat → Option (Bool × Nat × arti_state)
  | [], st, atri_point, min => some (atri_point, min, st)
  | c :: cs, st, atri_point, min =>
    match scan st c (l + 1) with
    | none => none
    | some (child_level, st1) =>
      if child_level = INT_MAX then
        scan_artipoint_children scan l cs st1 true min
      else
        scan_artipoint_children scan l cs st1
          (if child_level ≥ l then true else atri_point)
          (if child_level < min then child_level else min)

/-- The back-edge loop of `scan_artipoint` (lines 63-65). -/
def scan_artipoint_back (level : Nat → Nat) : List Nat → Nat → Nat
  | [], min => min
  | b :: bs, min => scan_artipoint_back level bs (if level b < min then level b else min)

/-- `scan_artipoint` (lines 45-73); returns `min` and the new state.  The first
argument is the recursion fuel. -/
def scan_artipoint (tree_edges back_edges : Nat → List Nat) :
    Nat → arti_state → Nat → Nat → Option (Nat × arti_state)
  | 0, _, _, _ => none
  | fuel + 1, st, node, l =>
    match scan_artipoint_children (scan_artipoint tree_edges back_edges fuel) l
        (tree_edges node) { st with level := store st.level node l } false INT_MAX with
    | none => none
    | some (atri_point, min, st1) =>
      let min1 := scan_artipoint_back st1.level (back_edges node) min
      if atri_point && l != 0 then
        some (min1, { st1 with arti_points := store st1.arti_points node true,
                               n_arti := st1.n_arti + 1 })
      else some (min1, st1)

/-- `scan_arti_points` (lines 75-86) for one component; `level` is freshly
`calloc`ed for every component. -/
def scan_arti_points (tree_edges back_edges : Nat → List Nat) (fuel : Nat)
    (component : List Nat) (arti_points : Nat → Bool) (n_arti : Nat) :
    Option ((Nat → Bool) × Nat) :=
  match component with
  | [] => some (arti_points, n_arti)
  | [_] => some (arti_points, n_arti)
  | root :: _ :: _ =>
    let ap := if (tree_edges root).length > 1 then store arti_points root true
              else arti_points
    match scan_artipoint tree_edges back_edges fuel
        { level := fun _ => 0, arti_points := ap, n_arti := n_arti } root 0 with
    | none => none
    | some (_, st) => some (st.arti_points, st.n_arti)

/-- The reporting loop of `connected_components` (lines 188-212), keeping only its
effect on `arti_points` / `n_arti`. -/
def arti_loop (tree_edges back_edges : Nat → List Nat) (fuel : Nat) :
    List (List Nat) → (Nat → Bool) → Nat → Option ((Nat → Bool) × Nat)
  | [], ap, na => some (ap, na)
  | c :: cs, ap, na =>
    if c.length > 1 then
      match scan_arti_points tree_edges back_edges fuel c ap na with
      | none => none
      | some (ap1, na1) => arti_loop tree_edges back_edges fuel cs ap1 na1
    else arti_loop tree_edges back_edges fuel cs ap na

/-- What `connected_components` leaves behind. -/
structure cc_result where
  components : List (List Nat)
  tree_edges : Nat → List Nat
  back_edges : Nat → List Nat
  arti_points : Nat → Bool
  n_arti : Nat

/-- `connected_components` (lines 154-237).  The recursion depth of both scans is
at most `n_seq`, which is the fuel handed to them. -/
def connected_components (n_seq : Nat) (adj : Nat → List fasta_t)
    (chimeric : Nat → Bool) : Option cc_result :=
  match cc_loop adj chimeric n_seq (List.range n_seq) dfs_init [] with
  | none => none
  | some (st, comps) =>
    match arti_loop st.tree_edges st.back_edges n_seq comps (fun _ => false) 0 with
    | none => none
    | some (ap, na) =>
      some { components := comps, tree_edges := st.tree_edges,
             back_edges := st.back_edges, arti_points := ap, n_arti := na }

/-- Adjacency input given as a list of per-node lists of `(s2, score)`. -/
def adj_of (l : List (List (Nat × Int))) : Nat → List fasta_t :=
  fun i => (l.getD i []).map (fun p => { s2 := p.1, score := p.2 })

/-- A chimera marking given as the list of marked ids. -/
def chimeric_of (l : List Nat) : Nat → Bool := fun i => decide (i ∈ l)

/-! ### Specification-level notions for the search -/

/-- Big-step relation of the search.  `Run adj chimeric st n none st'` is one call
`cc_dfs_visit(n)` taking state `st` to `st'`; `Run adj chimeric st n (some es) st'`
is the rest `es` of the adjacency loop of node `n`. -/
inductive Run (adj : Nat → List fasta_t) (chimeric : Nat → Bool) :
    dfs_state → Nat → Option (List fasta_t) → dfs_state → Prop
  | visit (st : dfs_state) (n : Nat) (st' : dfs_state) :
      Run adj chimeric
        { st with color := store st.color n true, component := st.component ++ [n] }
        n (some (adj n)) st' →
      Run adj chimeric st n none st'
  | done (st : dfs_state) (n : Nat) : Run adj chimeric st n (some []) st
  | skip (st : dfs_state) (n : Nat) (e : fasta_t) (es : List fasta_t) (st' : dfs_state) :
      chimeric e.s2 = true →
      Run adj chimeric st n (some es) st' →
      Run adj chimeric st n (some (e :: es)) st'
  | tree (st : dfs_state) (n : Nat) (e : fasta_t) (es : List fasta_t)
      (st1 st' : dfs_state) :
      chimeric e.s2 = false → st.color e.s2 = false →
      Run adj chimeric st e.s2 none st1 →
      Run adj chimeric
        { st1 with tree_edges := store st1.tree_edges n (st1.tree_edges n ++ [e.s2]) }
        n (some es) st' →
      Run adj chimeric st n (some (e :: es)) st'
  | back (st : dfs_state) (n : Nat) (e : fasta_t) (es : List fasta_t) (st' : dfs_state) :
      chimeric e.s2 = false → st.color e.s2 = true →
      Run adj chimeric
        { st with back_edges := store st.back_edges n (st.back_edges n ++ [e.s2]) }
        n (some es) st' →
      Run adj chimeric st n (some (e :: es)) st'

/-- `TreeHeight te n k`: every chain of tree edges starting at `n` has fewer than
`k` nodes. -/
def TreeHeight (te : Nat → List Nat) : Nat → Nat → Prop
  | _, 0 => False
  | n, k + 1 => ∀ c ∈ te n, TreeHeight te c k

/-- Number of ids below `n_seq` that are still uncoloured. -/
def uncolored (n_seq : Nat) (st : dfs_state) : Nat :=
  ((Finset.range n_seq).filter (fun v => st.color v = false)).card

/-- The loop invariant behind the partition property. -/
def PartInv (chimeric : Nat → Bool) (st : dfs_state) (comps : List (List Nat)) : Prop :=
  (∀ v, st.color v = true ↔ v ∈ comps.flatten) ∧ comps.flatten.Nodup ∧
  (∀ v, st.color v = true → chimeric v = false)

/-- The loop invariant behind the termination of the articulation scan. -/
def HeightInv (n_seq : Nat) (st : dfs_state) (comps : List (List Nat)) : Prop :=
  (∀ x, st.color x = false → st.tree_edges x = []) ∧
  ∀ c ∈ comps, ∀ r, c.head? = some r → ∀ te : Nat → List Nat,
    (∀ x, st.color x = true → te x = st.tree_edges x) → TreeHeight te r n_seq

/-- An adjacency edge between two non-chimeric ids: `w` is listed under `u`. -/
def Linked (adj : Nat → List fasta_t) (chimeric : Nat → Bool) (u w : Nat) : Prop :=
  chimeric u = false ∧ chimeric w = false ∧ ∃ e ∈ adj u, e.s2 = w

/-- Joined by a path of adjacency edges all of whose nodes are non-chimeric. -/
def Joined (adj : Nat → List fasta_t) (chimeric : Nat → Bool) : Nat → Nat → Prop :=
  Relation.ReflTransGen (Linked adj chimeric)

/-- Symmetric adjacency input: `v` is listed under `u` iff `u` is listed under `v`. -/
def SymmetricAdj (n_seq : Nat) (adj : Nat → List fasta_t) : Prop :=
  ∀ u v, u < n_seq → v < n_seq → ((∃ e ∈ adj u, e.s2 = v) ↔ (∃ e ∈ adj v, e.s2 = u))

/-- The loop invariant behind the connectivity property. -/
def ConnInv (n_seq : Nat) (adj : Nat → List fasta_t) (chimeric : Nat → Bool)
    (st : dfs_state) (comps : List (List Nat)) : Prop :=
  PartInv chimeric st comps ∧ (∀ v, st.color v = true → v < n_seq) ∧
  (∀ c ∈ comps, ∀ x ∈ c, ∀ y, Linked adj chimeric x y → y ∈ c) ∧
  (∀ c ∈ comps, ∀ x ∈ c, ∀ y ∈ c, Joined adj chimeric x y)

/-- An adjacency edge between non-chimeric ids, neither of which is `v`. -/
def LinkedAvoid (adj : Nat → List fasta_t) (chimeric : Nat → Bool) (v a b : Nat) : Prop :=
  Linked adj chimeric a b ∧ a ≠ v ∧ b ≠ v

/-- Joined by a path of adjacency edges that does not touch `v`. -/
def JoinedAvoid (adj : Nat → List fasta_t) (chimeric : Nat → Bool) (v : Nat) :
    Nat → Nat → Prop :=
  Relation.ReflTransGen (LinkedAvoid adj chimeric v)

/-- Deleting `v` and its edges leaves the remaining members of the component of
`v` not all mutually connected: two of them, `x` and `y`, are not joined by any
path that avoids `v`. -/
def Cut (adj : Nat → List fasta_t) (chimeric : Nat → Bool) (v : Nat) : Prop :=
  ∃ x y, x ≠ v ∧ y ≠ v ∧ Joined adj chimeric v x ∧ Joined adj chimeric v y ∧
    ¬ JoinedAvoid adj chimeric v x y

/-- Joined by a path all of whose nodes satisfy `P`. -/
def JoinedIn (adj : Nat → List fasta_t) (chimeric : Nat → Bool) (P : Nat → Prop) :
    Nat → Nat → Prop :=
  Relation.ReflTransGen (fun a b => Linked adj chimeric a b ∧ P a ∧ P b)

/-- All non-chimeric neighbours of `x` are coloured. -/
def Closed (adj : Nat → List fasta_t) (chimeric : Nat → Bool) (col : Nat → Bool)
    (x : Nat) : Prop :=
  ∀ y, Linked adj chimeric x y → col y = true

/-- The ids coloured between two states of the search. -/
def NewIn (col col' : Nat → Bool) (v : Nat) : Prop := col v = false ∧ col' v = true

/-- Some node of `New` has a neighbour that was coloured before (`col`) and sits
at a level below `t`. -/
def Esc (adj : Nat → List fasta_t) (chimeric : Nat → Bool) (col : Nat → Bool)
    (level : Nat → Nat) (New : Nat → Prop) (t : Nat) : Prop :=
  ∃ v y, New v ∧ Linked adj chimeric v y ∧ col y = true ∧ level y < t

/-- What is known of the coloured ids when a visit at level `l` starts: each is
finished (all neighbours coloured) or is joined to the root `r` through coloured
ids and sits at a level below `l`. -/
def VisitInv (adj : Nat → List fasta_t) (chimeric : Nat → Bool) (r : Nat)
    (col : Nat → Bool) (level : Nat → Nat) (l : Nat) : Prop :=
  ∀ y, col y = true → Closed adj chimeric col y ∨
    (JoinedIn adj chimeric (fun z => col z = true) r y ∧ level y < l)

/-- What is known of the coloured ids other than `n` inside the adjacency loop of
node `n` at level `l`. -/
def LoopInv (adj : Nat → List fasta_t) (chimeric : Nat → Bool) (r n : Nat)
    (col : Nat → Bool) (level : Nat → Nat) (l : Nat) : Prop :=
  ∀ y, col y = true → y ≠ n → Closed adj chimeric col y ∨
    (JoinedIn adj chimeric (fun z => col z = true) r y ∧ level y < l ∧
      JoinedAvoid adj chimeric n r y)

/-- What `scan_artipoint(n, l)` has done, in terms of the visit of `n` that built
the tree below `n` (colours `col` before, `col'` after the visit). -/
structure VisitRes (adj : Nat → List fasta_t) (chimeric : Nat → Bool)
    (te : Nat → List Nat) (r n l : Nat) (col col' : Nat → Bool)
    (ast ast' : arti_state) (mn : Nat) : Prop where
  frame : ∀ v, ¬ NewIn col col' v →
    ast'.level v = ast.level v ∧ ast'.arti_points v = ast.arti_points v
  lev : ∀ v, NewIn col col' v → l ≤ ast'.level v
  mn_le : mn ≤ INT_MAX
  mn_iff : ∀ t, t ≤ l → (mn < t ↔ Esc adj chimeric col ast.level (NewIn col col') t)
  root_flag : l = 0 → ast'.arti_points n = ast.arti_points n
  flag_cut : ∀ v, NewIn col col' v → ¬ (v = n ∧ l = 0) → ast.arti_points v = false →
    ast'.arti_points v = true → Cut adj chimeric v
  unflag_conn : ∀ v, NewIn col col' v → ¬ (v = n ∧ l = 0) → ast'.arti_points v = false →
    ∀ x, NewIn col col' x → x ≠ v → JoinedAvoid adj chimeric v r x
  tree_conn : ∀ x, NewIn col col' x → JoinedIn adj chimeric (NewIn col col') n x
  closed : ∀ v, NewIn col col' v → Closed adj chimeric col' v
  kids_sep : l = 0 → (te n).Pairwise (fun a b => ¬ JoinedAvoid adj chimeric n a b)
  kids_cover : ∀ x, NewIn col col' x → x ≠ n → ∃ c ∈ te n, JoinedAvoid adj chimeric n c x
  kids_linked : ∀ c ∈ te n, Linked adj chimeric n c ∧ c ≠ n

/-- What the tree-edge loop of `scan_artipoint` has done over the children `cs`
that the rest of the adjacency loop of node `n` appended (and the back edges `bs`
it appended), from the accumulators `atri`, `mn0` to `atri'`, `mn'`. -/
structure LoopRes (adj : Nat → List fasta_t) (chimeric : Nat → Bool)
    (r n l : Nat) (col col' : Nat → Bool) (ast ast' : arti_state)
    (atri atri' : Bool) (mn0 mn' : Nat) (cs bs : List Nat) : Prop where
  frame : ∀ v, ¬ NewIn col col' v →
    ast'.level v = ast.level v ∧ ast'.arti_points v = ast.arti_points v
  lev : ∀ v, NewIn col col' v → l + 1 ≤ ast'.level v
  mn_le : mn' ≤ INT_MAX
  mn_iff : ∀ t, t ≤ l →
    (mn' < t ↔ mn0 < t ∨ Esc adj chimeric col ast.level (NewIn col col') t)
  atri_mono : atri = true → atri' = true
  atri_cut : l ≠ 0 → atri = false → atri' = true → Cut adj chimeric n
  unatri_conn : l ≠ 0 → atri' = false →
    ∀ x, NewIn col col' x → JoinedAvoid adj chimeric n r x
  flag_cut : ∀ v, NewIn col col' v → ast.arti_points v = false →
    ast'.arti_points v = true → Cut adj chimeric v
  unflag_conn : ∀ v, NewIn col col' v → ast'.arti_points v = false →
    ∀ x, NewIn col col' x → x ≠ v → JoinedAvoid adj chimeric v r x
  tree_conn : ∀ x, NewIn col col' x →
    JoinedIn adj chimeric (fun z => NewIn col col' z ∨ z = n) n x
  closed : ∀ v, NewIn col col' v → Closed adj chimeric col' v
  kids_sep : l = 0 → cs.Pairwise (fun a b => ¬ JoinedAvoid adj chimeric n a b)
  kids_cover : ∀ x, NewIn col col' x → ∃ c ∈ cs, JoinedAvoid adj chimeric n c x
  kids_linked : ∀ c ∈ cs, NewIn col col' c ∧ Linked adj chimeric n c
  backs : ∀ b ∈ bs, col' b = true ∧ Linked adj chimeric n b

/-- What the articulation scan of one component does to `arti_points`: ids outside
the component keep their flag, and an unflagged member ends up flagged iff
deleting it disconnects the component. -/
def CompSpec (adj : Nat → List fasta_t) (chimeric : Nat → Bool) (n_seq : Nat)
    (te be : Nat → List Nat) (c : List Nat) : Prop :=
  ∀ (ap : Nat → Bool) (na : Nat), ∃ ap' na',
    (if c.length > 1 then scan_arti_points te be n_seq c ap na else some (ap, na)) =
      some (ap', na') ∧
    (∀ v, v ∉ c → ap' v = ap v) ∧
    (∀ v ∈ c, ap v = false → (ap' v = true ↔ Cut adj chimeric v))

/-- The loop invariant behind the articulation-point property. -/
def ArtiInv (n_seq : Nat) (adj : Nat → List fasta_t) (chimeric : Nat → Bool)
    (st : dfs_state) (comps : List (List Nat)) : Prop :=
  ConnInv n_seq adj chimeric st comps ∧
  (∀ x, st.color x = false → st.tree_edges x = [] ∧ st.back_edges x = []) ∧
  ∀ c ∈ comps, ∀ te be : Nat → List Nat,
    (∀ x, st.color x = true → te x = st.tree_edges x ∧ be x = st.back_edges x) →
    CompSpec adj chimeric n_seq te be c

/-- The targets of the adjacency entries `es` that are not chimeric, in adjacency
order: the entries the loop of `cc_dfs_visit` does not skip. -/
def live_targets (chimeric : Nat → Bool) (es : List fasta_t) : List Nat :=
  (es.filter (fun e => !chimeric e.s2)).map (fun e => e.s2)

/-- No uncoloured node has an edge recorded. -/
def EdgeFree (st : dfs_state) : Prop :=
  ∀ x, st.color x = false → st.tree_edges x = [] ∧ st.back_edges x = []

/-- Invariant of the discovery loop for the edge lists: an uncoloured node has no
edge recorded, and the two lists of a coloured node hold, between them, the
non-chimeric targets of its adjacency entries, one cell per entry. -/
def ListsInv (adj : Nat → List fasta_t) (chimeric : Nat → Bool) (st : dfs_state)
    (_comps : List (List Nat)) : Prop :=
  EdgeFree st ∧ ∀ x, st.color x = true →
    (st.tree_edges x ++ st.back_edges x).Perm (live_targets chimeric (adj x))

end DfsCluster

namespace DfsCluster

/-- `a` is `x` or an ancestor of `x` in the forest given by the tree edges `te`. -/
def TreeAnc (te : Nat → List Nat) : Nat → Nat → Prop :=
  Relation.ReflTransGen (fun p c => c ∈ te p)

/-- The component `c` with the tree edges `te` is a rooted tree: its first member is
the target of no tree edge, every other member is the target of exactly one tree
edge, whose source is a member, and every member is reached from the first one
along tree edges. -/
def RootedTree (te : Nat → List Nat) (c : List Nat) : Prop :=
  ∃ root rest, c = root :: rest ∧ (∀ x, root ∉ te x) ∧
    (∀ v ∈ rest, ∃ p ∈ c, (te p).count v = 1 ∧ ∀ x, x ≠ p → v ∉ te x) ∧
    ∀ v ∈ c, TreeAnc te root v

/-- The loop invariant behind the tree property: the targets of tree edges are
coloured, the members of the components are coloured, and every component is a
rooted tree. -/
def TreeInv (st : dfs_state) (comps : List (List Nat)) : Prop :=
  (∀ x v, v ∈ st.tree_edges x → st.color v = true) ∧
  (∀ c ∈ comps, ∀ v ∈ c, st.color v = true) ∧
  ∀ c ∈ comps, RootedTree st.tree_edges c

end DfsCluster

namespace DfsCluster

/-- The loop `for(i...) if (scan(x[i])) return 1;` followed by `return 0`: the
tree-edge loop of `scan_forward` (lines 92-94) and that of `scan_descendant`
(lines 108-109). -/
def scan_forward_loop (scan : Nat → Option Bool) : List Nat → Option Bool
  | [] => some false
  | c :: cs =>
    match scan c with
    | none => none
    | some true => some true
    | some false => scan_forward_loop scan cs

/-- `scan_forward` (lines 88-97): is `candidate` in the tree below `ancestor`?
The first argument is the recursion fuel. -/
def scan_forward (tree_edges : Nat → List Nat) : Nat → Nat → Nat → Option Bool
  | 0, _, _ => none
  | fuel + 1, candidate, ancestor =>
    if ancestor = candidate then some true
    else scan_forward_loop (scan_forward tree_edges fuel candidate) (tree_edges ancestor)

/-- The back-edge loop of `scan_descendant` (lines 102-106); `scan` is
`scan_forward(candidate, .)`. -/
def scan_descendant_back (scan : Nat → Option Bool) (candidate : Nat) :
    List Nat → Option Bool
  | [] => some false
  | b :: bs =>
    if b = candidate then scan_descendant_back scan candidate bs
    else
      match scan b with
      | none => none
      | some true => some true
      | some false => scan_descendant_back scan candidate bs

/-- `scan_descendant` (lines 99-114).  `ffuel` is the fuel handed to
`scan_forward`, the next argument the fuel of the recursion itself. -/
def scan_descendant (tree_edges back_edges : Nat → List Nat) (ffuel : Nat) :
    Nat → Nat → Nat → Option Bool
  | 0, _, _ => none
  | fuel + 1, candidate, descendant =>
    match scan_descendant_back (scan_forward tree_edges ffuel candidate) candidate
        (back_edges descendant) with
    | none => none
    | some true => some true
    | some false =>
      scan_forward_loop (scan_descendant tree_edges back_edges ffuel fuel candidate)
        (tree_edges descendant)

/-- The loop of `scan_atri_point` (lines 123-125). -/
def scan_atri_point_loop (scan : Nat → Option Bool) : List Nat → Option Bool
  | [] => some false
  | c :: cs =>
    match scan c with
    | none => none
    | some false => some true
    | some true => scan_atri_point_loop scan cs

/-- `scan_atri_point` (lines 116-128); `fuel` bounds the depth of both recursions. -/
def scan_atri_point (tree_edges back_edges : Nat → List Nat) (fuel : Nat)
    (candidate : Nat) : Option Bool :=
  scan_atri_point_loop (scan_descendant tree_edges back_edges fuel fuel candidate)
    (tree_edges candidate)

/-- The tree-edge loop of `scan_artipoint` (lines 53-61) with the record `ret` of
the values returned by the calls threaded through. -/
def scan_artipoint_children_ret
    (scan : arti_state → (Nat → Nat) → Nat → Nat → Option (Nat × arti_state × (Nat → Nat)))
    (l : Nat) : List Nat → arti_state → (Nat → Nat) → Bool → Nat →
      Option (Bool × Nat × arti_state × (Nat → Nat))
  | [], st, ret, atri_point, min => some (atri_point, min, st, ret)
  | c :: cs, st, ret, atri_point, min =>
    match scan st ret c (l + 1) with
    | none => none
    | some (child_level, st1, ret1) =>
      if child_level = INT_MAX then
        scan_artipoint_children_ret scan l cs st1 ret1 true min
      else
        scan_artipoint_children_ret scan l cs st1 ret1
          (if child_level ≥ l then true else atri_point)
          (if child_level < min then child_level else min)

/-- `scan_artipoint` (lines 45-73) with a record of what every call returned:
`ret node` is set to the value that the call for `node` returns.  Apart from the
record it is `scan_artipoint`, line by line. -/
def scan_artipoint_ret (tree_edges back_edges : Nat → List Nat) :
    Nat → arti_state → (Nat → Nat) → Nat → Nat → Option (Nat × arti_state × (Nat → Nat))
  | 0, _, _, _, _ => none
  | fuel + 1, st, ret, node, l =>
    match scan_artipoint_children_ret (scan_artipoint_ret tree_edges back_edges fuel) l
        (tree_edges node) { st with level := store st.level node l } ret false INT_MAX with
    | none => none
    | some (atri_point, min, st1, ret1) =>
      let min1 := scan_artipoint_back st1.level (back_edges node) min
      if atri_point && l != 0 then
        some (min1, { st1 with arti_points := store st1.arti_points node true,
                               n_arti := st1.n_arti + 1 }, store ret1 node min1)
      else some (min1, st1, store ret1 node min1)

/-- The values `low(w)` of the nodes `ws`, in the words of the description. -/
def low_children (low : Nat → Option Nat) : List Nat → Option (List Nat)
  | [] => some []
  | w :: ws =>
    match low w, low_children low ws with
    | some a, some as => some (a :: as)
    | _, _ => none

/-- In the words of the description: `low(v) = min(l(v), low(w) for each child w,
l(w) for each back-edge target w)`.  The first argument is the recursion fuel. -/
def low (tree_edges back_edges : Nat → List Nat) (l : Nat → Nat) : Nat → Nat → Option Nat
  | 0, _ => none
  | fuel + 1, v =>
    match low_children (low tree_edges back_edges l fuel) (tree_edges v) with
    | none => none
    | some lows => some ((lows ++ (back_edges v).map l).foldl min (l v))

/-- The value `scan_artipoint` computes for `v`: the least of the values returned
for the children and of the levels of the back-edge targets, `INT_MAX` if there
are none. -/
def RetEq (te be : Nat → List Nat) (lv ret : Nat → Nat) (v : Nat) : Prop :=
  ret v = ((te v).map ret ++ (be v).map lv).foldl min INT_MAX

/-- What `scan_artipoint_ret(n, l)` has done, in terms of the visit of `n` that
built the tree below `n` (colours `col` before, `col'` after the visit). -/
structure VisitRet (te be : Nat → List Nat) (n l : Nat) (col col' : Nat → Bool)
    (ast ast' : arti_state) (ret ret' : Nat → Nat) (mn : Nat) : Prop where
  frame : ∀ v, ¬ NewIn col col' v →
    ast'.level v = ast.level v ∧ ast'.arti_points v = ast.arti_points v ∧ ret' v = ret v
  lev_self : ast'.level n = l
  lev_kids : ∀ p, NewIn col col' p → ∀ w ∈ te p, ast'.level w = ast'.level p + 1
  bound : ∀ v, NewIn col col' v → ast'.level v ≤ INT_MAX ∧ ret' v ≤ INT_MAX
  ret_self : ret' n = mn
  ret_eq : ∀ v, NewIn col col' v → RetEq te be ast'.level ret' v
  root_flag : l = 0 → ast'.arti_points n = ast.arti_points n
  flag : ∀ v, NewIn col col' v → ¬ (v = n ∧ l = 0) → ast.arti_points v = false →
    (ast'.arti_points v = true ↔ ∃ k ∈ te v, ast'.level v ≤ ret' k)
  kids_new : ∀ p, NewIn col col' p → ∀ w ∈ te p, NewIn col col' w
  backs_col : ∀ p, NewIn col col' p → ∀ b ∈ be p, col' b = true

/-- What the tree-edge loop of `scan_artipoint_ret` has done over the children `cs`
that the rest of the adjacency loop of node `n` appended (and the back edges `bs`
it appended), from the accumulators `atri`, `mn0` to `atri'`, `mn'`. -/
structure LoopRet (te be : Nat → List Nat) (n l : Nat) (col col' : Nat → Bool)
    (ast ast' : arti_state) (ret ret' : Nat → Nat)
    (atri atri' : Bool) (mn0 mn' : Nat) (cs bs : List Nat) : Prop where
  frame : ∀ v, ¬ NewIn col col' v →
    ast'.level v = ast.level v ∧ ast'.arti_points v = ast.arti_points v ∧ ret' v = ret v
  lev_cs : ∀ c ∈ cs, ast'.level c = l + 1
  lev_kids : ∀ p, NewIn col col' p → ∀ w ∈ te p, ast'.level w = ast'.level p + 1
  bound : ∀ v, NewIn col col' v → ast'.level v ≤ INT_MAX ∧ ret' v ≤ INT_MAX
  mn_eq : mn' = (cs.map ret').foldl min mn0
  atri_iff : atri' = true ↔ atri = true ∨ ∃ k ∈ cs, l ≤ ret' k
  ret_eq : ∀ v, NewIn col col' v → RetEq te be ast'.level ret' v
  flag : ∀ v, NewIn col col' v → ast.arti_points v = false →
    (ast'.arti_points v = true ↔ ∃ k ∈ te v, ast'.level v ≤ ret' k)
  cs_new : ∀ c ∈ cs, NewIn col col' c
  kids_new : ∀ p, NewIn col col' p → ∀ w ∈ te p, NewIn col col' w
  bs_col : ∀ b ∈ bs, col' b = true
  backs_col : ∀ p, NewIn col col' p → ∀ b ∈ be p, col' b = true

/-- What the traced articulation scan of the component `c` does: it returns, the
root sits at level 0 and every tree edge goes one level down, every member's
returned value obeys `RetEq`, flags change at non-root members only, and such a
member, unflagged before, ends up flagged iff one of its children returned a
value not below its level. -/
def RetSpec (n_seq : Nat) (te be : Nat → List Nat) (c : List Nat) : Prop :=
  ∀ root rest, c = root :: rest → ∀ (ap : Nat → Bool) (na : Nat) (ret0 : Nat → Nat),
    ∃ mn ast' ret,
      scan_artipoint_ret te be n_seq
        { level := fun _ => 0, arti_points := ap, n_arti := na } ret0 root 0 =
        some (mn, ast', ret) ∧
      ast'.level root = 0 ∧
      (∀ p ∈ c, ∀ w ∈ te p, ast'.level w = ast'.level p + 1) ∧
      (∀ v ∈ c, ast'.level v ≤ INT_MAX ∧ ret v ≤ INT_MAX) ∧
      (∀ v ∈ c, RetEq te be ast'.level ret v) ∧
      (∀ v, v ∉ rest → ast'.arti_points v = ap v) ∧
      (∀ v ∈ rest, ap v = false →
        (ast'.arti_points v = true ↔ ∃ k ∈ te v, ast'.level v ≤ ret k))

/-- The loop invariant behind the returned values of the articulation scan. -/
def RetInv (n_seq : Nat) (st : dfs_state) (comps : List (List Nat)) : Prop :=
  EdgeFree st ∧
  ∀ c ∈ comps, ∀ te be : Nat → List Nat,
    (∀ x, st.color x = true → te x = st.tree_edges x ∧ be x = st.back_edges x) →
    RetSpec n_seq te be c

/-- The loop invariant behind the absence of cross edges: every back edge of a
member joins it to one of its ancestors or descendants in the tree. -/
def AncInv (st : dfs_state) (comps : List (List Nat)) : Prop :=
  ∀ c ∈ comps, ∀ x ∈ c, ∀ b ∈ st.back_edges x,
    TreeAnc st.tree_edges b x ∨ TreeAnc st.tree_edges x b

/-- Everything the discovery loop maintains that the comparison of the two
articulation tests needs. -/
def ScanInv (n_seq : Nat) (adj : Nat → List fasta_t) (chimeric : Nat → Bool)
    (st : dfs_state) (comps : List (List Nat)) : Prop :=
  ConnInv n_seq adj chimeric st comps ∧ HeightInv n_seq st comps ∧ TreeInv st comps ∧
  ListsInv adj chimeric st comps ∧ AncInv st comps ∧ RetInv n_seq st comps

end DfsCluster

/-! ## format_lookup.c -/

namespace FormatLookup

/-- The C struct `word_t { uint seq_id; uint seq_pos; }`: one posting. -/
structure word_t where
  seq_id : Nat
  seq_pos : Nat
deriving DecidableEq

/-- Unsigned 32-bit wrap. -/
def u32 (x : Nat) : Nat := x % 4294967296

/-- `sizeof(word_t)` and `sizeof(lookupmeta_t)`: two `uint` fields each. -/
def sizeof_word_t : Nat := 8

/-- `sizeof(uint)`. -/
def sizeof_uint : Nat := 4

/-- `limit = (mem_coresize*1024*1024)/sizeof(word_t)` (line 197).  The product is a
32-bit `int` (wrapped two's complement), converted to the 64-bit `size_t` of the
divisor, divided, and stored in the `uint limit`. -/
def limit_of (mem_coresize : Int) : Nat :=
  let prod : Int := (mem_coresize * 1024 * 1024 + 2147483648) % 4294967296 - 2147483648
  u32 ((prod % 18446744073709551616).toNat / sizeof_word_t)

/-- `mask = (0x1 << wordsize*2) - 1` (line 199) in 32-bit arithmetic. -/
def mask_of (wordsize : Nat) : Nat :=
  u32 (u32 (1 <<< (wordsize * 2)) + 4294967295)

/-- `fread(seq, sizeof(uchar), length, binfile)`: the first `length` bytes of the
buffer are overwritten with the sequence, the rest of the buffer keeps what it
held. -/
def fread (seq : Nat → Nat) (data : List Nat) : Nat → Nat :=
  fun j => if j < data.length then data.getD j 0 else seq j

/-- Array store `a[i] = v`. -/
def store {α : Type} (a : Nat → α) (i : Nat) (v : α) : Nat → α :=
  fun j => if j = i then v else a j

/-- The loop `for(j=0;j<wordsize;j++) word = (word << 2) | seq[j];` (lines 221-223),
run for the remaining `k` letters from index `j`. -/
def first_word (seq : Nat → Nat) : Nat → Nat → Nat → Nat
  | 0, _, word => word
  | k + 1, j, word => first_word seq k (j + 1) (u32 (word <<< 2) ||| seq j)

/-- One step of the rolling word: `word = ((word << 2) & mask) | seq[j]`. -/
def next_word (mask : Nat) (seq : Nat → Nat) (word j : Nat) : Nat :=
  (u32 (word <<< 2) &&& mask) ||| seq j

/-- State of the counting pass: the `n_words` column of `lookup_meta`, `total` and
the read buffer `seq`. -/
structure count_state where
  n_words : Nat → Nat
  total : Nat
  seq : Nat → Nat

/-- The loop `for(;j<length;j++)` of the counting pass (lines 226-230), for the
remaining `k = length - j` letters. -/
def count_words (mask : Nat) (seq : Nat → Nat) :
    Nat → Nat → Nat → (Nat → Nat) → Nat → (Nat → Nat) × Nat
  | 0, _, _, n_words, total => (n_words, total)
  | k + 1, j, word, n_words, total =>
    let word1 := next_word mask seq word j
    count_words mask seq k (j + 1) word1 (store n_words word1 (n_words word1 + 1)) (total + 1)

/-- The body of the counting loop for one sequence (lines 207-232). -/
def count_seq (wordsize mask : Nat) (forward_only : Bool) (seq_id : Nat)
    (data : List Nat) (st : count_state) : count_state :=
  let seq := fread st.seq data
  if forward_only && seq_id % 2 = 1 then { st with seq := seq }
  else
    let word := first_word seq wordsize 0 0
    let r := count_words mask seq (data.length - wordsize) wordsize word
      (store st.n_words word (st.n_words word + 1)) (st.total + 1)
    { n_words := r.1, total := r.2, seq := seq }

/-- The counting loop `while(seq_id<n_seq && total < limit)` (lines 206-233) over the
sequences not yet read; returns the final state and `seq_id`. -/
def count_loop (wordsize mask limit : Nat) (forward_only : Bool) :
    List (List Nat) → Nat → count_state → count_state × Nat
  | [], seq_id, st => (st, seq_id)
  | data :: rest, seq_id, st =>
    if u32 st.total < limit then
      count_loop wordsize mask limit forward_only rest (seq_id + 1)
        (count_seq wordsize mask forward_only seq_id data st)
    else (st, seq_id)

/-- The censoring loop (lines 239-246): a word whose count passes the test gets
count 0.  `cens n_words total` stands for the floating-point test
`n_words > expect*50`. -/
def censor (mask : Nat) (cens : Nat → Nat → Bool) (total : Nat) (n_words : Nat → Nat) :
    Nat → Nat :=
  fun word => if word ≤ mask ∧ cens (n_words word) total = true then 0 else n_words word

/-- The test `n_words > expect*50` with `expect = total/mask` read in exact
arithmetic. -/
def censor_exact (mask : Nat) (n_words total : Nat) : Bool :=
  decide (50 * total < n_words * mask)

/-- The `fill` array (lines 251-254): `fill[word]` is the number of postings of all
smaller word codes. -/
def fill_of (n_words : Nat → Nat) : Nat → Nat
  | 0 => 0
  | word + 1 => fill_of n_words word + n_words word

/-- The `start_pos` column of `lookup_meta` (lines 252-256). -/
def start_pos_of (mask : Nat) (n_words : Nat → Nat) : Nat → Nat
  | 0 => 5 * sizeof_uint + sizeof_word_t * (mask + 1)
  | word + 1 => start_pos_of mask n_words word + n_words word * sizeof_word_t

/-- State of the filling pass: the `fill` cursors, `lookup_data` (`none` is a cell
never written) and the read buffer. -/
structure fill_state where
  fill : Nat → Nat
  lookup_data : Nat → Option word_t
  seq : Nat → Nat

/-- The loop `for(;j<length;j++)` of the filling pass (lines 278-283). -/
def fill_words (wordsize mask seq_id : Nat) (seq : Nat → Nat) :
    Nat → Nat → Nat → (Nat → Nat) → (Nat → Option word_t) →
      (Nat → Nat) × (Nat → Option word_t)
  | 0, _, _, fill, ld => (fill, ld)
  | k + 1, j, word, fill, ld =>
    let word1 := next_word mask seq word j
    fill_words wordsize mask seq_id seq k (j + 1) word1
      (store fill word1 (fill word1 + 1))
      (store ld (fill word1) (some { seq_id := seq_id, seq_pos := u32 (j + 4294967296 - wordsize) }))

/-- The body of the filling loop for one sequence (lines 263-285). -/
def fill_seq (wordsize mask : Nat) (forward_only : Bool) (seq_id : Nat)
    (data : List Nat) (st : fill_state) : fill_state :=
  let seq := fread st.seq data
  if forward_only && seq_id % 2 = 1 then { st with seq := seq }
  else
    let word := first_word seq wordsize 0 0
    let r := fill_words wordsize mask seq_id seq (data.length - wordsize) wordsize word
      (store st.fill word (st.fill word + 1))
      (store st.lookup_data (st.fill word) (some { seq_id := seq_id, seq_pos := 0 }))
    { fill := r.1, lookup_data := r.2, seq := seq }

/-- The filling loop `while(seq_id < end_seq)` (lines 262-286) over the sequences
`start_seq .. end_seq-1`. -/
def fill_loop (wordsize mask : Nat) (forward_only : Bool) :
    List (List Nat) → Nat → fill_state → fill_state
  | [], _, st => st
  | data :: rest, seq_id, st =>
    fill_loop wordsize mask forward_only rest (seq_id + 1)
      (fill_seq wordsize mask forward_only seq_id data st)

/-- The counting pass of `build_lookuptable` (lines 197-233) from `start_seq`: the
state it ends in and `end_seq`. -/
def count_pass (seqs : List (List Nat)) (mem_coresize : Int) (wordsize : Nat)
    (forward_only : Bool) (start_seq : Nat) : count_state × Nat :=
  count_loop wordsize (mask_of wordsize) (limit_of mem_coresize) forward_only
    (seqs.drop start_seq) start_seq
    { n_words := fun _ => 0, total := 0, seq := fun _ => 0 }

/-- What `build_lookuptable` hands back: the two columns of `lookup_meta`,
`*ld`, `*total_words`, the id one past the last sequence read, and the return
value `end_seq - start_seq - 1`. -/
structure table where
  n_words : Nat → Nat
  start_pos : Nat → Nat
  lookup_data : Nat → Option word_t
  total : Nat
  end_seq : Nat
  ret : Nat

/-- `build_lookuptable` (lines 184-291).  `seqs` is the sequence database in id
order, `lookup_meta` arrives zeroed from the caller. -/
def build_lookuptable (seqs : List (List Nat)) (mem_coresize : Int) (wordsize : Nat)
    (forward_only : Bool) (cens : Nat → Nat → Bool) (start_seq : Nat) : table :=
  let mask := mask_of wordsize
  let r := count_pass seqs mem_coresize wordsize forward_only start_seq
  let st := r.1
  let end_seq := r.2
  let n_words := censor mask cens st.total st.n_words
  let fs := fill_loop wordsize mask forward_only
    ((seqs.drop start_seq).take (end_seq - start_seq)) start_seq
    { fill := fill_of n_words, lookup_data := fun _ => none, seq := st.seq }
  { n_words := n_words, start_pos := start_pos_of mask n_words,
    lookup_data := fs.lookup_data, total := st.total, end_seq := end_seq,
    ret := u32 (end_seq + 4294967296 - start_seq - 1) }

/-- One shard file as written by `create_lookup_tables`: the header fields of
`write_header` (start, stop, table number, table size), then the
`lookup_meta` array and the first `total` cells of `lookup_data`. -/
structure shard where
  start : Nat
  stop : Nat
  table_number : Nat
  table_size : Nat
  n_words : Nat → Nat
  start_pos : Nat → Nat
  lookup_data : Nat → Option word_t

/-- The loop `while(i < n_seq)` of `create_lookup_tables` (lines 313-336); the
first argument bounds the number of shards written, `none` means the bound was
reached with the loop still running. -/
def create_loop (seqs : List (List Nat)) (mem_coresize : Int) (wordsize : Nat)
    (forward_only : Bool) (cens : Nat → Nat → Bool) :
    Nat → Nat → Nat → Option (List shard)
  | 0, i, _ => if i < seqs.length then none else some []
  | fuel + 1, i, table_number =>
    if i < seqs.length then
      let t := build_lookuptable seqs mem_coresize wordsize forward_only cens i
      let sh : shard :=
        { start := i, stop := u32 (i + t.ret), table_number := table_number,
          table_size := t.total, n_words := t.n_words, start_pos := t.start_pos,
          lookup_data := t.lookup_data }
      match create_loop seqs mem_coresize wordsize forward_only cens fuel
          (u32 (i + u32 (t.ret + 1))) (table_number + 1) with
      | none => none
      | some rest => some (sh :: rest)
    else some []

/-- `create_lookup_tables` (lines 293-340): the shards written, in order.  Every
shard that holds an id advances `i`, so `n_seq` iterations are enough whenever
the loop terminates. -/
def create_lookup_tables (seqs : List (List Nat)) (mem_coresize : Int) (wordsize : Nat)
    (forward_only : Bool) (cens : Nat → Nat → Bool) : Option (List shard) :=
  create_loop seqs mem_coresize wordsize forward_only cens seqs.length 0 0

/-- The posting list of `word` in a table: the `n_words[word]` cells of
`lookup_data` from the cell where the postings of the smaller word codes end
(the scanner rebuilds these offsets the same way, `open_lookupfile` lines
616-619). -/
def postings (n_words : Nat → Nat) (lookup_data : Nat → Option word_t) (word : Nat) :
    List (Option word_t) :=
  (List.range (n_words word)).map (fun k => lookup_data (fill_of n_words word + k))

/-- Sum of the stored counts `n_words` over all `4^w` word codes `0 .. mask`. -/
def sum_n_words (mask : Nat) (n_words : Nat → Nat) : Nat :=
  ((List.range (mask + 1)).map n_words).sum

/-- The header as `write_header` (lines 170-182) writes it: six 4-byte fields, in
file order.  `magic` is `LOOKUP_MAGIC` (declared in a header file). -/
def write_header (magic wordsize start stop table_size tn : Nat) : List Nat :=
  [magic, wordsize, start, stop, tn, table_size]

/-- Byte offset, from the start of the shard file written by
`create_lookup_tables` (lines 329-331: header, then the `mask+1` descriptors, then
`lookup_data`), of the first posting of `word`. -/
def posting_offset (magic wordsize : Nat) (sh : shard) (word : Nat) : Nat :=
  sizeof_uint * (write_header magic wordsize sh.start sh.stop sh.table_size
      sh.table_number).length +
    sizeof_word_t * (mask_of wordsize + 1) + sizeof_word_t * fill_of sh.n_words word

/-- Number of counted word occurrences that belong to censored words. -/
def censored_total (mask : Nat) (cens : Nat → Nat → Bool) (total : Nat)
    (n_words : Nat → Nat) : Nat :=
  ((List.range (mask + 1)).map
    (fun word => if cens (n_words word) total = true then n_words word else 0)).sum

/-- `Covers n_seq i shards`: the shards tile the ids `i .. n_seq-1` in order: each
shard starts where the previous one's stored (inclusive) end leaves off, holds
at least one id, and the last one's stored end is `n_seq - 1`. -/
def Covers (n_seq : Nat) : Nat → List shard → Prop
  | i, [] => i = n_seq
  | i, sh :: rest => sh.start = i ∧ sh.start ≤ sh.stop ∧ Covers n_seq (sh.stop + 1) rest

/-- Invariant of the counting pass: the counts of the word codes `0 .. mask` add
up to `total`, and the read buffer holds 2-bit codes. -/
def CountInv (w : Nat) (st : count_state) : Prop :=
  sum_n_words (mask_of w) st.n_words = st.total ∧ ∀ j, st.seq j < 4

/-- The base-4 value of the `w` codes `seq[p .. p+w)`, first code most
significant. -/
def window_code (seq : Nat → Nat) (p : Nat) : Nat → Nat
  | 0 => 0
  | w + 1 => window_code seq p w * 4 + seq (p + w)

/-- The rolling part of the word walk of the filling pass (lines 277-282) for the
remaining `k = length - j` letters: the words and the values `j - wordsize` written
as `seq_pos`. -/
def seq_words_rolling (wordsize mask : Nat) (seq : Nat → Nat) :
    Nat → Nat → Nat → List (Nat × Nat)
  | 0, _, _ => []
  | k + 1, j, word =>
    (next_word mask seq word j, u32 (j + 4294967296 - wordsize)) ::
      seq_words_rolling wordsize mask seq k (j + 1) (next_word mask seq word j)

/-- All `(word, seq_pos)` pairs the filling pass writes for one sequence, in order:
the word of `seq[0 .. w)` with position 0 (lines 271-276), then the rolling
words. -/
def seq_words (wordsize mask : Nat) (seq : Nat → Nat) (length : Nat) : List (Nat × Nat) :=
  (first_word seq wordsize 0 0, 0) ::
    seq_words_rolling wordsize mask seq (length - wordsize) wordsize
      (first_word seq wordsize 0 0)

end FormatLookup

/-! ## scan_sequences.c -/

namespace ScanSequences

/-- `SCORE_THRESHOLD` (line 12). -/
def SCORE_THRESHOLD : Int := 75

/-- `INT_MIN`. -/
def INT_MIN : Int := -2147483648

/-- The C struct `wordhit_t { int db_seq; int di; int pos; int length; }`. -/
structure wordhit_t where
  db_seq : Nat
  di : Int
  pos : Int
  length : Int
deriving DecidableEq

/-- A posting of the loaded lookup table, `word_t { uint seq_id; uint seq_pos; }`. -/
structure word_t where
  seq_id : Nat
  seq_pos : Nat
deriving DecidableEq

/-- The C struct `hit_report_t` (the fields `fasta_scan` fills in). -/
structure hit_report_t where
  db_seq : Nat
  min_di : Int
  max_di : Int
  score : Int
  start : Int
  «end» : Int
  s_start : Int
  s_end : Int
deriving DecidableEq

/-- What an array cell outside the data holds in the model. -/
def hit0 : wordhit_t := { db_seq := 0, di := 0, pos := 0, length := 0 }

/-- Array read `hits[i]`. -/
def aget (hits : List wordhit_t) (i : Nat) : wordhit_t := hits.getD i hit0

/-- Exchange of `hits[i]` and `hits[j]` (the `t = hits[min]; ...` swap, and the
field-wise XOR `SWAP` of lines 300-303, which is only run for `min != k`). -/
def swap (hits : List wordhit_t) (i j : Nat) : List wordhit_t :=
  (hits.set i (aget hits j)).set j (aget hits i)

/-- Array store `a[i] = v`. -/
def store {α : Type} (a : Nat → α) (i : Nat) (v : α) : Nat → α :=
  fun j => if j = i then v else a j

/-- Unsigned 32-bit wrap. -/
def u32 (x : Nat) : Nat := x % 4294967296

/-- `mergesort_compare` (lines 36-48), also `wordhit_compare` (lines 153-170). -/
def mergesort_compare (a b : wordhit_t) : Int :=
  if a.db_seq < b.db_seq then -1
  else if a.db_seq > b.db_seq then 1
  else if a.di < b.di then -1
  else if a.di > b.di then 1
  else if a.pos < b.pos then -1
  else if a.pos > b.pos then 1
  else 0

/-- The inner loop of a selection sort, `for(j=i+1;j<e;j++) if (gt hits[min] hits[j])
min = j;`, for the remaining `k = e - j` cells. -/
def sel_min (gt : wordhit_t → wordhit_t → Bool) (hits : List wordhit_t) :
    Nat → Nat → Nat → Nat
  | 0, min, _ => min
  | k + 1, min, j =>
    sel_min gt hits k (if gt (aget hits min) (aget hits j) then j else min) (j + 1)

/-- The selection sorts of lines 79-90, 120-131 and 294-305: the outer loop
`for(i=s;i<e;i++)` for the remaining `k = e - i` cells, on the sub-array
`hits[s..e)` indexed from 0. -/
def sel_sort (gt : wordhit_t → wordhit_t → Bool) :
    Nat → Nat → List wordhit_t → List wordhit_t
  | 0, _, hits => hits
  | k + 1, i, hits =>
    let min := sel_min gt hits k i (i + 1)
    sel_sort gt k (i + 1) (if min ≠ i then swap hits i min else hits)

/-- The merge loop of lines 60-77 (and 102-118) on the two sorted halves: while
both have cells left the left one is taken iff `take_left`, then what is left of
either half follows.  The first argument bounds the number of steps. -/
def merge_halves (take_left : wordhit_t → wordhit_t → Bool) :
    Nat → List wordhit_t → List wordhit_t → List wordhit_t
  | 0, l, r => l ++ r
  | _ + 1, [], r => r
  | _ + 1, l, [] => l
  | k + 1, a :: l, b :: r =>
    if take_left a b then a :: merge_halves take_left k l (b :: r)
    else b :: merge_halves take_left k (a :: l) r

/-- `wordhit_mergesort_actual` (lines 52-92) on the sub-array `hits[s..e)` given as
a list; the first argument is the recursion fuel. -/
def wordhit_mergesort_actual : Nat → List wordhit_t → List wordhit_t
  | 0, hits => hits
  | fuel + 1, hits =>
    if hits.length > 7 then
      let half := hits.length / 2
      merge_halves (fun a b => mergesort_compare a b = -1) hits.length
        (wordhit_mergesort_actual fuel (hits.take half))
        (wordhit_mergesort_actual fuel (hits.drop half))
    else
      sel_sort (fun a b => mergesort_compare a b = 1) hits.length 0 hits

/-- `wordhit_mergesort(hits, 0, n)` (lines 135-141). -/
def wordhit_mergesort (hits : List wordhit_t) : List wordhit_t :=
  wordhit_mergesort_actual hits.length hits

/-- `mergesort_bypos_actual` (lines 94-133) on the sub-array `hits[s..e)`: the two
halves are sorted by `wordhit_mergesort_actual` (lines 100-101) and merged by
`pos`. -/
def mergesort_bypos_actual (hits : List wordhit_t) : List wordhit_t :=
  if hits.length > 7 then
    let half := hits.length / 2
    merge_halves (fun a b => a.pos < b.pos) hits.length
      (wordhit_mergesort_actual hits.length (hits.take half))
      (wordhit_mergesort_actual hits.length (hits.drop half))
  else
    sel_sort (fun a b => b.pos < a.pos) hits.length 0 hits

/-- The sorting step of `single_source_shortest_path` (lines 291-306) on the group
`hits[i..j)`. -/
def sort_bypos (group : List wordhit_t) : List wordhit_t :=
  if group.length > 10 then mergesort_bypos_actual group
  else sel_sort (fun a b => b.pos < a.pos) group.length 0 group

/-- The inner `while` of `combine_hits` (lines 268-271): the number of cells after
`hits[i]` that continue its run; `d` is `j - i` for the first cell of `rest`. -/
def run_length (h : wordhit_t) : Int → List wordhit_t → Nat
  | _, [] => 0
  | d, x :: rest =>
    if h.db_seq = x.db_seq ∧ h.di = x.di ∧ x.pos - h.pos = d then
      run_length h (d + 1) rest + 1
    else 0

/-- `combine_hits` (lines 263-282): the first `f` cells of the array on return.  The
first argument bounds the number of runs. -/
def combine_hits (wordsize : Nat) : Nat → List wordhit_t → List wordhit_t
  | 0, _ => []
  | _, [] => []
  | fuel + 1, h :: rest =>
    let n := run_length h 1 rest
    { db_seq := h.db_seq, di := h.di, pos := h.pos,
      length := ((n + 1 : Nat) : Int) + (wordsize : Int) - 1 } ::
      combine_hits wordsize fuel (rest.drop n)

/-- `adjmatrix[k*n_nodes + l]` after the initialisation of lines 309-324 for the
sorted group `g` (`n_nodes = g.length + 2`, node `k` in `1..g.length` is
`g[k-1]`). -/
def adjmatrix (g : List wordhit_t) (k l : Nat) : Int :=
  if 1 ≤ k ∧ k ≤ g.length ∧ l = g.length + 1 then 1
  else if k = 0 ∧ 1 ≤ l ∧ l ≤ g.length then 1
  else if 1 ≤ k ∧ k ≤ g.length ∧ 1 ≤ l ∧ l ≤ g.length ∧
      (aget g (k - 1)).pos < (aget g (l - 1)).pos then
    |(aget g (k - 1)).di - (aget g (l - 1)).di| +
      |(aget g (k - 1)).pos + (aget g (k - 1)).length - (aget g (l - 1)).pos| + 1
  else 0

/-- The `pred` and `score` arrays. -/
structure sssp_state where
  pred : Nat → Int
  score : Nat → Int

/-- The body of the relaxation loops (lines 337-347) for one pair `(k, l)`. -/
def relax (g : List wordhit_t) (k : Nat) (st : sssp_state) (l : Nat) : sssp_state :=
  if adjmatrix g k l ≠ 0 then
    let s := if 0 < l ∧ l < g.length + 1 then
        st.score k - adjmatrix g k l + (aget g (l - 1)).length
      else st.score k
    if s > st.score l then
      { pred := store st.pred l (k : Int), score := store st.score l s }
    else st
  else st

/-- The relaxation `for(k...) for(l...)` (lines 335-349). -/
def relax_all (g : List wordhit_t) (st : sssp_state) : sssp_state :=
  (List.range (g.length + 2)).foldl
    (fun st k => (List.range (g.length + 2)).foldl (relax g k) st) st

/-- The state initialisation of lines 327-332. -/
def sssp_init : sssp_state :=
  { pred := fun _ => -1, score := fun k => if k = 0 then 0 else INT_MIN }

/-- `single_source_shortest_path` (lines 284-352) on the group `hits[i..j)`: the
group as sorted in place, and the `pred` / `score` arrays; `n_nodes` is the
length of the group + 2. -/
def single_source_shortest_path (group : List wordhit_t) : List wordhit_t × sssp_state :=
  (sort_bypos group, relax_all (sort_bypos group) sssp_init)

/-- The arg-max loop of `fasta_scan` (lines 406-409) for `k = 1 .. n_nodes-1`. -/
def argmax_score (score : Nat → Int) (n_nodes : Nat) : Nat :=
  (List.range (n_nodes - 1)).foldl
    (fun max k => if score (k + 1) > score max then k + 1 else max) 0

/-- What the trace-back loop of lines 410-427 carries. -/
structure trace_state where
  min_di : Int
  max_di : Int
  start : Int
  s_start : Int

/-- The trace-back loop `while(k!=0)` (lines 415-427); `hit k` is `hits[i+k-1]`.  The
first argument bounds the number of steps, `none` means the bound was reached. -/
def trace_back (hit : Int → wordhit_t) (pred : Nat → Int) :
    Nat → Int → trace_state → Option trace_state
  | 0, k, t => if k = 0 then some t else none
  | fuel + 1, k, t =>
    if k = 0 then some t
    else
      let t1 : trace_state :=
        if (hit k).di < t.min_di then { t with min_di := (hit k).di }
        else if (hit k).di > t.max_di then { t with max_di := (hit k).di }
        else t
      let t2 : trace_state :=
        if pred k.toNat = 0 then
          { t1 with start := (hit k).pos, s_start := (hit k).pos + (hit k).di }
        else t1
      trace_back hit pred fuel (pred k.toNat) t2

/-- The body of the group loop of `fasta_scan` (lines 403-440) for the group
`hits[i..j)`: the report appended to `report_hits`, if any.  `before` and `after`
are the cells `hits[i-1]` and `hits[j]`, which the code reads when the arg-max is
the source or the sink.  `none` means the trace-back did not end. -/
def scan_group (before after : wordhit_t) (group : List wordhit_t) :
    Option (Option hit_report_t) :=
  let r := single_source_shortest_path group
  let g := r.1
  let n_nodes := g.length + 2
  let max := argmax_score r.2.score n_nodes
  let hit : Int → wordhit_t := fun k =>
    if k ≤ 0 then before else if k.toNat ≤ g.length then aget g (k.toNat - 1) else after
  let h := hit max
  match trace_back hit r.2.pred n_nodes max
      { min_di := h.di, max_di := h.di, start := h.pos + h.length,
        s_start := h.pos + h.di + h.length } with
  | none => none
  | some t =>
    if r.2.score max ≥ SCORE_THRESHOLD then
      some (some { db_seq := (aget g 0).db_seq, min_di := t.min_di - 5,
                   max_di := t.max_di + 5, score := r.2.score max, start := t.start,
                   «end» := h.pos + h.length, s_start := t.s_start,
                   s_end := h.pos + h.di + h.length })
    else some none

/-- The cells of the array up to the end of the group that starts with `h`: the
`while(j < f && hits[j].db_seq == hits[i].db_seq) j++` of line 401. -/
def group_of (h : wordhit_t) (rest : List wordhit_t) : List wordhit_t :=
  h :: rest.takeWhile (fun x => decide (x.db_seq = h.db_seq))

/-- The group loop of `fasta_scan` (lines 400-443) over the cells not yet
consumed; `before` is the cell just before them.  The first argument bounds the
number of groups. -/
def scan_groups : Nat → wordhit_t → List wordhit_t → Option (List hit_report_t)
  | 0, _, hits => if hits = [] then some [] else none
  | _, _, [] => some []
  | fuel + 1, before, h :: rest =>
    let group := group_of h rest
    let tail := rest.dropWhile (fun x => decide (x.db_seq = h.db_seq))
    let sorted := sort_bypos group
    match scan_group before (tail.headD hit0) group with
    | none => none
    | some rep =>
      match scan_groups fuel (sorted.getLastD hit0) tail with
      | none => none
      | some reps =>
        match rep with
        | some x => some (x :: reps)
        | none => some reps

/-- The loaded lookup table: `lookup word` is the posting list
`lookup_data[word][0 .. lookup_meta[word].n_words)`. -/
structure ltable where
  wordsize : Nat
  mask : Nat
  ltable_start : Nat
  ltable_end : Nat
  lookup : Nat → List word_t

/-- The words `find_wordmatches` visits, each with the value `i - wordsize` it
records as `pos`: first the word built by `for(i=0;i<wordsize;i++) word = (word << 2)
+ seq[i]` (with `i = wordsize` when it is looked up), then one word per
`i = wordsize .. length-1` from `word = ((word << 2) & mask) + seq[i]`. -/
def first_word (seq : Nat → Nat) : Nat → Nat → Nat → Nat
  | 0, _, word => word
  | k + 1, i, word => first_word seq k (i + 1) (u32 (u32 (word <<< 2) + seq i))

/-- The rolling part of the word walk (lines 212-217, 246-256) for the remaining
`k = length - i` letters. -/
def rolling_words (mask wordsize : Nat) (seq : Nat → Nat) :
    Nat → Nat → Nat → List (Nat × Nat)
  | 0, _, _ => []
  | k + 1, i, word =>
    let word1 := u32 ((u32 (word <<< 2) &&& mask) + seq i)
    (word1, i - wordsize) :: rolling_words mask wordsize seq k (i + 1) word1

/-- All `(word, pos)` pairs of the walk over the query. -/
def query_words (t : ltable) (seq : Nat → Nat) (length : Nat) : List (Nat × Nat) :=
  (first_word seq t.wordsize 0 0, 0) ::
    rolling_words t.mask t.wordsize seq (length - t.wordsize) t.wordsize
      (first_word seq t.wordsize 0 0)

/-- The counting pass (lines 205-217): `hits_byseq` after it. -/
def count_hits (t : ltable) (words : List (Nat × Nat)) : Nat → Nat :=
  words.foldl (fun hb wp =>
    (t.lookup wp.1).foldl (fun hb p =>
      store hb (p.seq_id - t.ltable_start) (hb (p.seq_id - t.ltable_start) + 1)) hb)
    (fun _ => 0)

/-- The censoring loop (lines 220-226): `hits_byseq` after it. -/
def censor_hits (t : ltable) (seq_id : Nat) (hb : Nat → Nat) : Nat → Nat :=
  fun j =>
    if j < t.ltable_end - t.ltable_start then
      if j + t.ltable_start ≥ seq_id ∧ ((hb j : Int) * 2 ≥ SCORE_THRESHOLD) then hb j else 0
    else hb j

/-- `n_hits` after the censoring loop. -/
def count_kept (t : ltable) (hb : Nat → Nat) : Nat :=
  ((List.range (t.ltable_end - t.ltable_start)).map hb).sum

/-- The second pass (lines 234-256): the word hits in the order they are written;
`length` is left unset by the code (0 here). -/
def emit_hits (t : ltable) (hb : Nat → Nat) (words : List (Nat × Nat)) : List wordhit_t :=
  words.flatMap (fun wp =>
    (t.lookup wp.1).filterMap (fun p =>
      if hb (p.seq_id - t.ltable_start) > 0 then
        some { db_seq := p.seq_id, di := (p.seq_pos : Int) - (wp.2 : Int),
               pos := (wp.2 : Int), length := 0 }
      else none))

/-- `find_wordmatches` (lines 190-261); `none` is the `NULL` return. -/
def find_wordmatches (t : ltable) (seq : Nat → Nat) (seq_id length : Nat) :
    Option (List wordhit_t) :=
  let words := query_words t seq length
  let hb := censor_hits t seq_id (count_hits t words)
  if count_kept t hb = 0 then none
  else some (emit_hits t hb words)

/-- `fasta_scan` (lines 354-449): the reports written to `report_hits`.  The outer
`none` means a loop bound of the model was reached. -/
def fasta_scan (t : ltable) (seq : Nat → Nat) (seq_id length : Nat) :
    Option (List hit_report_t) :=
  match find_wordmatches t seq seq_id length with
  | none => some []
  | some hits =>
    let sorted := wordhit_mergesort hits
    let combined := combine_hits t.wordsize sorted.length sorted
    scan_groups combined.length hit0 combined

/-- `reverse_complement` (lines 624-634). -/
def reverse_complement (seq : List Nat) : List Nat :=
  (List.range seq.length).map (fun i => seq.getD (seq.length - i - 1) 0 ^^^ 3)

/-- The read buffer holding `data` from index 0 (zero elsewhere). -/
def buffer_of (data : List Nat) : Nat → Nat := fun i => data.getD i 0

/-- Consecutive cells of one run: same target, same diagonal, `pos` one higher. -/
def Continues (a b : wordhit_t) : Prop :=
  a.db_seq = b.db_seq ∧ a.di = b.di ∧ b.pos = a.pos + 1

/-- A run: every cell continues the one before it. -/
def IsRun (r : List wordhit_t) : Prop := r ≠ [] ∧ List.Chain' Continues r

/-- The hit `combine_hits` writes for a run: target, diagonal and `pos` of its first
cell, and `length = (last_pos - first_pos) + w`. -/
def run_hit (wordsize : Nat) (r : List wordhit_t) : wordhit_t :=
  { db_seq := (r.headD hit0).db_seq, di := (r.headD hit0).di, pos := (r.headD hit0).pos,
    length := (r.getLastD hit0).pos - (r.headD hit0).pos + (wordsize : Int) }

/-- A sequence of hits of the group with strictly increasing query position. -/
def IsChain (group chain : List wordhit_t) : Prop :=
  chain ≠ [] ∧ (∀ h ∈ chain, h ∈ group) ∧ List.Chain' (fun a b => a.pos < b.pos) chain

/-- The sort key of `mergesort_compare`: (target, diagonal, pos) in lexicographic
order. -/
def key (h : wordhit_t) : ℕ ×ₗ ℤ ×ₗ ℤ := toLex (h.db_seq, toLex (h.di, h.pos))

/-- Invariant of the relaxation once the source row has been processed: the source
keeps score 0; every hit node either hangs off the source with score
`length - 1` or off a hit node of lower `pos` whose score accounts for its own;
a hit's score is at least `length - 1`; the sink is untouched or hangs off a hit
node that scores at least as much. -/
structure DPInv (g : List wordhit_t) (st : sssp_state) : Prop where
  src : st.score 0 = 0
  hitn : ∀ l, 1 ≤ l → l ≤ g.length →
    (st.pred l = 0 ∧ st.score l = (aget g (l - 1)).length - 1) ∨
    (∃ k, 1 ≤ k ∧ k ≤ g.length ∧ st.pred l = (k : Int) ∧
      (aget g (k - 1)).pos < (aget g (l - 1)).pos ∧
      st.score l ≤ st.score k - adjmatrix g k l + (aget g (l - 1)).length)
  low : ∀ l, 1 ≤ l → l ≤ g.length → (aget g (l - 1)).length - 1 ≤ st.score l
  sink : st.score (g.length + 1) = INT_MIN ∨
    ∃ k, 1 ≤ k ∧ k ≤ g.length ∧ st.pred (g.length + 1) = (k : Int) ∧
      st.score (g.length + 1) ≤ st.score k

/-- Number of hit nodes of the group at a lower `pos` than node `l`: a bound on
the number of trace-back steps from `l`. -/
def pos_rank (g : List wordhit_t) (l : Nat) : Nat :=
  ((Finset.range (g.length + 1)).filter
    (fun k => 1 ≤ k ∧ (aget g (k - 1)).pos < (aget g (l - 1)).pos)).card

/-- The best score `fasta_scan` selects for a group: `score[max]`. -/
def best_score (group : List wordhit_t) : Int :=
  (single_source_shortest_path group).2.score
    (argmax_score (single_source_shortest_path group).2.score (group.length + 2))

/-- A shard is well formed when every posting names a sequence of its range. -/
def WellFormed (t : ltable) : Prop :=
  ∀ word, ∀ p ∈ t.lookup word, t.ltable_start ≤ p.seq_id ∧ p.seq_id < t.ltable_end

/-- A query of 77 letters (2-bit codes) whose 12-letter words are all different. -/
def example_query : List Nat :=
  [2, 1, 3, 0, 0, 0, 2, 0, 1, 0, 0, 3, 3, 0, 1, 0, 3, 0, 0, 1, 0, 3, 0, 1, 0, 1, 2, 3, 1, 0,
   2, 1, 0, 1, 2, 0, 0, 0, 1, 3, 3, 2, 3, 3, 2, 2, 1, 1, 1, 0, 2, 3, 2, 3, 2, 0, 0, 3, 1, 2,
   1, 3, 3, 0, 0, 2, 2, 2, 3, 3, 0, 0, 2, 3, 0, 0, 2]

/-- The `(word, pos)` pairs of the walk over `example_query` for word size 12. -/
def example_words : List (Nat × Nat) :=
  (first_word (buffer_of example_query) 12 0 0, 0) ::
    rolling_words 16777215 12 (buffer_of example_query) 65 12
      (first_word (buffer_of example_query) 12 0 0)

/-- A shard for ids 0..7 of word size 12 in which sequence 5 holds every word of
`example_query` at the position the walk records for it. -/
def example_table : ltable :=
  { wordsize := 12, mask := 16777215, ltable_start := 0, ltable_end := 8,
    lookup := fun w =>
      (example_words.filter (fun wp => decide (wp.1 = w))).map
        (fun wp => { seq_id := 5, seq_pos := wp.2 }) }

/-- A stable sort by `mergesort_compare` (an insertion sort): the reference the
word "stable" is read against. -/
def stable_sort (hits : List wordhit_t) : List wordhit_t :=
  hits.insertionSort (fun a b => mergesort_compare a b ≤ 0)


/-- The censoring loop (lines 220-226) with the hit-count test left out: only the
targets below the query id are dropped. -/
def keep_hits (t : ltable) (seq_id : Nat) (hb : Nat → Nat) : Nat → Nat :=
  fun j =>
    if j < t.ltable_end - t.ltable_start then
      if j + t.ltable_start ≥ seq_id then hb j else 0
    else hb j

/-- `find_wordmatches` without the hit-count censor. -/
def find_wordmatches_uncensored (t : ltable) (seq : Nat → Nat) (seq_id length : Nat) :
    Option (List wordhit_t) :=
  let words := query_words t seq length
  let hb := keep_hits t seq_id (count_hits t words)
  if count_kept t hb = 0 then none
  else some (emit_hits t hb words)

/-- `fasta_scan` run on the word hits of `find_wordmatches_uncensored`. -/
def fasta_scan_uncensored (t : ltable) (seq : Nat → Nat) (seq_id length : Nat) :
    Option (List hit_report_t) :=
  match find_wordmatches_uncensored t seq seq_id length with
  | none => some []
  | some hits =>
    let sorted := wordhit_mergesort hits
    let combined := combine_hits t.wordsize sorted.length sorted
    scan_groups combined.length hit0 combined

/-- The mask `open_lookupfile` computes (line 597), `(0x1 << (wordsize*2)) - 1` in
32-bit arithmetic.  For a word size of 16 or more the shift count is 32 or more,
which C leaves undefined; the shift instruction of the x86 build takes the count
modulo 32 (a shift by 32 leaves the 1 where it is, a shift by 34 is a shift by 2),
and so does this definition. -/
def open_lookupfile_mask (wordsize : Nat) : Nat :=
  u32 (u32 (1 <<< ((wordsize * 2) % 32)) + 4294967295)

/-- The table `open_lookupfile` (lines 576-622) loads from a shard file written by
`create_lookup_tables`: the id range of the header with `ltable_end` one past the
stored end, and for every word its `n_words` postings, found behind those of the
smaller word codes.  A cell the builder never wrote reads as `(0, 0)`. -/
def open_lookupfile (wordsize : Nat) (sh : FormatLookup.shard) : ltable :=
  { wordsize := wordsize, mask := open_lookupfile_mask wordsize, ltable_start := sh.start,
    ltable_end := sh.stop + 1,
    lookup := fun word =>
      (FormatLookup.postings sh.n_words sh.lookup_data word).map (fun c =>
        match c with
        | some p => { seq_id := p.seq_id, seq_pos := p.seq_pos }
        | none => { seq_id := 0, seq_pos := 0 }) }

/-- The reads of scenario S1, AAAACCCCGGGG and CCCCGGGGTTTT, as 2-bit codes. -/
def s1_sequences : List (List Nat) :=
  [[0, 0, 0, 0, 1, 1, 1, 1, 2, 2, 2, 2], [1, 1, 1, 1, 2, 2, 2, 2, 3, 3, 3, 3]]

/-- The shard of scenario S1: the table the scanner loads from the one shard that
`create_lookup_tables` writes for `s1_sequences` with word size 4. -/
def s1_table : Option ltable :=
  match FormatLookup.create_lookup_tables s1_sequences 1 4 false
      (FormatLookup.censor_exact (FormatLookup.mask_of 4)) with
  | some [sh] => some (open_lookupfile 4 sh)
  | _ => none

/-- The postings of the shard of scenario S1, word by word (codes of AAAA, AAAC,
AACC, ACCC, CCCC, CCCG, CCGG, CGGG, GGGG, GGGT, GGTT, GTTT, TTTT). -/
def s1_lookup (word : Nat) : List word_t :=
  if word = 0 then [⟨0, 0⟩] else if word = 1 then [⟨0, 0⟩] else if word = 5 then [⟨0, 1⟩]
  else if word = 21 then [⟨0, 2⟩] else if word = 85 then [⟨0, 3⟩, ⟨1, 0⟩]
  else if word = 86 then [⟨0, 4⟩, ⟨1, 0⟩] else if word = 90 then [⟨0, 5⟩, ⟨1, 1⟩]
  else if word = 106 then [⟨0, 6⟩, ⟨1, 2⟩] else if word = 170 then [⟨0, 7⟩, ⟨1, 3⟩]
  else if word = 171 then [⟨1, 4⟩] else if word = 175 then [⟨1, 5⟩]
  else if word = 191 then [⟨1, 6⟩] else if word = 255 then [⟨1, 7⟩] else []

/-- A query of 103 letters whose 12-letter words are all different. -/
def censor_query : List Nat :=
  [2, 1, 3, 0, 0, 0, 2, 0, 1, 0, 0, 3, 3, 0, 1, 0, 3, 0, 0, 1, 0, 3, 0, 1, 0, 1, 2, 3, 1, 0, 2,
   1, 0, 1, 2, 0, 0, 0, 1, 3, 3, 2, 3, 3, 2, 2, 1, 1, 1, 0, 2, 3, 2, 3, 2, 0, 0, 3, 1, 2, 1,
   3, 3, 0, 0, 2, 2, 2, 3, 3, 0, 0, 2, 3, 0, 0, 2, 3, 2, 3, 2, 0, 3, 2, 1, 0, 3, 0, 1, 2, 1,
   1, 3, 3, 3, 0, 1, 3, 3, 2, 1, 3, 2]

/-- The query `censor_query` with the letters at 12, 25, 38, ... (every 13th) changed:
it shares with the query the eight 12-letter words that start at 0, 13, ..., 91. -/
def censor_target : List Nat :=
  [2, 1, 3, 0, 0, 0, 2, 0, 1, 0, 0, 3, 2, 0, 1, 0, 3, 0, 0, 1, 0, 3, 0, 1, 0, 3, 2, 3, 1, 0, 2,
   1, 0, 1, 2, 0, 0, 0, 3, 3, 3, 2, 3, 3, 2, 2, 1, 1, 1, 0, 2, 2, 2, 3, 2, 0, 0, 3, 1, 2, 1,
   3, 3, 0, 2, 2, 2, 2, 3, 3, 0, 0, 2, 3, 0, 0, 2, 0, 2, 3, 2, 0, 3, 2, 1, 0, 3, 0, 1, 2, 2,
   1, 3, 3, 3, 0, 1, 3, 3, 2, 1, 3, 2]

/-- The `(word, pos)` pairs of the word walk over `censor_target` for word size 12. -/
def censor_words : List (Nat × Nat) :=
  (first_word (buffer_of censor_target) 12 0 0, 0) ::
    rolling_words 16777215 12 (buffer_of censor_target) 91 12
      (first_word (buffer_of censor_target) 12 0 0)

/-- A shard of word size 12 for the id 1, holding the words of `censor_target` at
the positions the word walk of the builder records for them. -/
def censor_table : ltable :=
  { wordsize := 12, mask := 16777215, ltable_start := 1, ltable_end := 2,
    lookup := fun w =>
      (censor_words.filter (fun wp => decide (wp.1 = w))).map
        (fun wp => { seq_id := 1, seq_pos := wp.2 }) }

end ScanSequences

/-! ## ka-backup-before-lookup-table-mods.c -/

namespace KaBackup

/-- `WORDSIZE` (line 601). -/
def WORDSIZE : Nat := 9

/-- The loop of `dna_to_int` (lines 607-625) for the remaining `k = WORDSIZE - i`
letters; characters are their ASCII codes, a read past the end of the list gives
the terminating NUL. -/
def dna_to_int_loop (dna_string : List Nat) : Nat → Nat → Int → Int
  | 0, _, key => key
  | k + 1, i, key =>
    if dna_string.getD i 0 = 65 then dna_to_int_loop dna_string k (i + 1) (key * 4)
    else if dna_string.getD i 0 = 67 then dna_to_int_loop dna_string k (i + 1) (key * 4 + 1)
    else if dna_string.getD i 0 = 71 then dna_to_int_loop dna_string k (i + 1) (key * 4 + 2)
    else if dna_string.getD i 0 = 84 then dna_to_int_loop dna_string k (i + 1) (key * 4 + 3)
    else -1

/-- `dna_to_int` (lines 602-628); `key << 2` is `key * 4` (no overflow within 9
letters). -/
def dna_to_int (dna_string : List Nat) : Int :=
  dna_to_int_loop dna_string WORDSIZE 0 0

/-- The digit of an uppercase letter: A=0, C=1, G=2, T=3. -/
def digit (c : Nat) : Nat :=
  if c = 65 then 0 else if c = 67 then 1 else if c = 71 then 2 else 3

/-- The base-4 number with the given letters as digits, first letter most
significant. -/
def base4 (word : List Nat) : Nat := word.foldl (fun acc c => acc * 4 + digit c) 0

/-- An uppercase A, C, G or T. -/
def IsACGT (c : Nat) : Prop := c = 65 ∨ c = 67 ∨ c = 71 ∨ c = 84

/-- The letter of a digit. -/
def letter (d : Nat) : Nat :=
  if d = 0 then 65 else if d = 1 then 67 else if d = 2 then 71 else 84

/-- The word of `n` letters whose base-4 value is `key`. -/
def int_to_dna : Nat → Nat → List Nat
  | 0, _ => []
  | n + 1, key => int_to_dna n (key / 4) ++ [letter (key % 4)]

/-- The ASCII lowercase of an uppercase letter. -/
def lower (c : Nat) : Nat := c + 32

/-- A read as `polya_truncate` sees it: the fields `sequence`, `quality` and
`length` of `sequence_t` (the struct is declared in `ka.h`).  Letters are ASCII
codes. -/
structure sequence_t where
  sequence : List Nat
  quality : List Nat
  length : Nat
deriving DecidableEq

/-- One entry of `candidates` (lines 397-402). -/
structure candidate_t where
  truncate_pos : Nat
  a_length : Nat
  a_qual : Nat
  pasta_qual : Nat
deriving DecidableEq

/-- The loop `while(j<length && sequence[j]=='A')` (lines 415-418) for at most `k`
more letters; carries `(j, na, qual)`. -/
def a_run (s : sequence_t) : Nat → Nat → Nat → Nat → Nat × Nat × Nat
  | 0, j, na, qual => (j, na, qual)
  | k + 1, j, na, qual =>
    if j < s.length ∧ s.sequence.getD j 0 = 65 then
      a_run s k (j + 1) (na + 1) (qual + s.quality.getD j 0)
    else (j, na, qual)

/-- The loop `while(k<length && (k-j)<na)` (lines 422-424) for at most `f` more
letters; carries `(k, pasta_qual)`. -/
def pasta (s : sequence_t) (j na : Nat) : Nat → Nat → Nat → Nat × Nat
  | 0, k, pq => (k, pq)
  | f + 1, k, pq =>
    if k < s.length ∧ k - j < na then pasta s j na f (k + 1) (pq + s.quality.getD k 0)
    else (k, pq)

/-- The test of lines 425-426, `k>j && qual/na > (pasta_qual/(k-j))*1.5 &&
length-j < length/3`; the comparison of the `int` quotient with the `double`
product is `2*(qual/na) > 3*(pasta_qual/(k-j))`. -/
def accepts (s : sequence_t) (j na qual k pasta_qual : Nat) : Bool :=
  decide (k > j ∧ 2 * (qual / na) > 3 * (pasta_qual / (k - j)) ∧
    s.length - j < s.length / 3)

/-- The scan `while(j<seqobj->length)` of the poly-A pass (lines 412-443) from index
`j`: the candidates collected.  Every round advances `j`; the first argument
bounds the number of rounds. -/
def polya_scan (s : sequence_t) : Nat → Nat → List candidate_t → List candidate_t
  | 0, _, cands => cands
  | fuel + 1, j, cands =>
    if j < s.length then
      if s.sequence.getD j 0 = 65 then
        let r := a_run s (s.length - (j + 1)) (j + 1) 1 (s.quality.getD j 0)
        if r.2.1 > 11 then
          let p := pasta s r.1 r.2.1 r.2.1 r.1 0
          if accepts s r.1 r.2.1 r.2.2 p.1 p.2 then
            polya_scan s fuel r.1
              (cands ++ [{ truncate_pos := r.1, a_length := r.2.1, a_qual := r.2.2 / r.2.1,
                           pasta_qual := p.2 / (p.1 - r.1) }])
          else polya_scan s fuel r.1 cands
        else polya_scan s fuel r.1 cands
      else polya_scan s fuel (j + 1) cands
    else cands

/-- The candidates of a read: the scan from index 0. -/
def polya_candidates (s : sequence_t) : List candidate_t :=
  polya_scan s s.length 0 []

/-- The cell `candidates[j]`. -/
def cand_get (cands : List candidate_t) (j : Nat) : candidate_t :=
  cands.getD j { truncate_pos := 0, a_length := 0, a_qual := 0, pasta_qual := 0 }

/-- The selection of lines 452-458: `select` ends as the index of the first
candidate of largest `a_length` (with one candidate the loop is skipped and
`select` is 0, which is what the loop would give). -/
def select_candidate (cands : List candidate_t) : Nat :=
  (List.range cands.length).foldl
    (fun select j =>
      if (cand_get cands j).a_length > (cand_get cands select).a_length then j else select) 0

/-- The body of the first loop of `polya_truncate` (lines 409-471) for one read:
the read after the poly-A pass.  `sequence` is cut to `truncate_pos + 1` bytes with
a NUL at `truncate_pos` (lines 462-465), so `truncate_pos` letters stay.  `quality`
is an array of `uint` cells of 4 bytes, and line 466 cuts its block to
`truncate_pos + 1` bytes as well: the cells that stay inside the block are the
first `(truncate_pos + 1) / 4`. -/
def polya_truncate_read (s : sequence_t) : sequence_t :=
  if (polya_candidates s).length > 0 then
    { sequence := s.sequence.take
        (cand_get (polya_candidates s) (select_candidate (polya_candidates s))).truncate_pos,
      quality := s.quality.take
        (((cand_get (polya_candidates s)
          (select_candidate (polya_candidates s))).truncate_pos + 1) / 4),
      length :=
        (cand_get (polya_candidates s) (select_candidate (polya_candidates s))).truncate_pos }
  else s

/-- The candidate `c` stands for a run of `c.a_length` letters A, at least 12, that
starts at index `start`, cannot be extended to either side, ends just before
`c.truncate_pos`, and is followed by less than a third of the read. -/
def ARun (s : sequence_t) (c : candidate_t) (start : Nat) : Prop :=
  12 ≤ c.a_length ∧ start + c.a_length = c.truncate_pos ∧ c.truncate_pos ≤ s.length ∧
  (∀ i, start ≤ i → i < c.truncate_pos → s.sequence.getD i 0 = 65) ∧
  (start = 0 ∨ s.sequence.getD (start - 1) 0 ≠ 65) ∧
  (c.truncate_pos = s.length ∨ s.sequence.getD c.truncate_pos 0 ≠ 65) ∧
  s.length - c.truncate_pos < s.length / 3

/-- A read of 30 letters C and 12 letters A of quality 30 followed by 5 letters C
of quality 5. -/
def polya_example : sequence_t :=
  { sequence := List.replicate 30 67 ++ List.replicate 12 65 ++ List.replicate 5 67,
    quality := List.replicate 42 30 ++ List.replicate 5 5,
    length := 47 }

end KaBackup

/-! ## spanning_tree.c -/

namespace SpanningTree

/-- `INT_MIN`. -/
def INT_MIN : Int := -2147483648

/-- One adjacency entry `fasta_scores[n][k]`: the fields `s2` and `score` that
`spanning_tree` reads (the struct is declared in `ka.h`). -/
structure fasta_t where
  s2 : Nat
  score : Int
deriving DecidableEq

/-- One record of `assembly_order`: the fields `s1`, `s2`, `score` that
`spanning_tree` writes (the struct is declared in `ka.h`). -/
structure asm_order_t where
  s1 : Int
  s2 : Nat
  score : Int
deriving DecidableEq

/-- The arrays of `spanning_tree`: `used`, the keys `q[j].key` and the predecessors
`p`. -/
structure prim_state where
  used : Nat → Bool
  key : Nat → Int
  p : Nat → Int

/-- Array store `a[i] = v`. -/
def store {α : Type} (a : Nat → α) (i : Nat) (v : α) : Nat → α :=
  fun j => if j = i then v else a j

/-- The inner loop of the root search (lines 226-231) over the adjacency entries
of the member `v`; carries `(root, max_score)`. -/
def find_root_entries (v : Nat) : List fasta_t → Int × Int → Int × Int
  | [], acc => acc
  | e :: es, acc =>
    find_root_entries v es (if e.score > acc.2 then ((v : Int), e.score) else acc)

/-- The root search (lines 222-232) over the members of the component. -/
def find_root (adj : Nat → List fasta_t) : List Nat → Int × Int → Int × Int
  | [], acc => acc
  | v :: vs, acc => find_root adj vs (find_root_entries v (adj v) acc)

/-- The extraction loop (lines 243-249) over the members: the index held in
`max_score`, starting from -1. -/
def extract_max (st : prim_state) : List Nat → Int → Int
  | [], m => m
  | v :: vs, m =>
    extract_max st vs
      (if st.used v then m
       else if m = -1 ∨ st.key v > st.key m.toNat then (v : Int) else m)

/-- The update loop (lines 254-263) over the adjacency entries of the node just
extracted. -/
def relax (allowed : Nat → Bool) (node : Nat) : List fasta_t → prim_state → prim_state
  | [], st => st
  | e :: es, st =>
    relax allowed node es
      (if allowed e.s2 = false then st
       else if st.used e.s2 then st
       else if e.score > st.key e.s2 then
         { st with p := store st.p e.s2 (node : Int), key := store st.key e.s2 e.score }
       else st)

/-- The loop `while(n_used > 0)` (lines 237-264); the first argument is `n_used`.
`none` stands for the write to `used[-1]` when no unused member is left. -/
def prim_loop (adj : Nat → List fasta_t) (comp : List Nat) (allowed : Nat → Bool) :
    Nat → prim_state → Option prim_state
  | 0, st => some st
  | k + 1, st =>
    if extract_max st comp (-1) < 0 then none
    else
      prim_loop adj comp allowed k
        (relax allowed (extract_max st comp (-1)).toNat
          (adj (extract_max st comp (-1)).toNat)
          { st with used := store st.used (extract_max st comp (-1)).toNat true })

/-- The state after the initialisation of lines 214-220. -/
def prim_init : prim_state :=
  { used := fun _ => false, key := fun _ => INT_MIN, p := fun _ => -1 }

/-- The body of the component loop of `spanning_tree` (lines 211-274) for one
component of size other than 1: the records of `assembly_order[i]` in component
order, as they are before the `qsort` of line 275.  `none` stands for the failed
`assert(root >= 0)` (or for `prim_loop` running out of members). -/
def spanning_tree_component (adj : Nat → List fasta_t) (comp : List Nat) :
    Option (List asm_order_t) :=
  if (find_root adj comp (-1, -1)).1 < 0 then none
  else
    match prim_loop adj comp (fun v => decide (v ∈ comp)) comp.length
        { prim_init with
          key := store prim_init.key (find_root adj comp (-1, -1)).1.toNat 0 } with
    | none => none
    | some st => some (comp.map (fun v => { s1 := st.p v, s2 := v, score := st.key v }))

/-- Adjacency input given as a list of per-node lists of `(s2, score)`. -/
def adj_of (l : List (List (Nat × Int))) : Nat → List fasta_t :=
  fun i => (l.getD i []).map (fun p => { s2 := p.1, score := p.2 })

/-! ### Specification-level notions for the spanning tree -/

/-- An adjacency entry from the member `a` to the member `b` with score at least
`w`. -/
def EdgeGe (adj : Nat → List fasta_t) (comp : List Nat) (w : Int) (a b : Nat) : Prop :=
  a ∈ comp ∧ b ∈ comp ∧ ∃ e ∈ adj a, e.s2 = b ∧ w ≤ e.score

/-- Joined by a path of entries between members, all of score at least `w`. -/
def JoinedGe (adj : Nat → List fasta_t) (comp : List Nat) (w : Int) : Nat → Nat → Prop :=
  Relation.ReflTransGen (EdgeGe adj comp w)

/-- The members are connected through adjacency entries between members. -/
def Connected (adj : Nat → List fasta_t) (comp : List Nat) : Prop :=
  ∀ u ∈ comp, ∀ v ∈ comp,
    Relation.ReflTransGen (fun a b => a ∈ comp ∧ b ∈ comp ∧ ∃ e ∈ adj a, e.s2 = b) u v

/-- Every entry between members is there in both directions with the same score. -/
def SymmetricScores (adj : Nat → List fasta_t) (comp : List Nat) : Prop :=
  ∀ u ∈ comp, ∀ e ∈ adj u, e.s2 ∈ comp → { s2 := u, score := e.score } ∈ adj e.s2

/-- A spanning tree of the subgraph induced on the component, given the way the
code gives it: a root, and for every other member `v` a parent `par v` and the
score `sc v` of an adjacency entry from the parent to `v`, such that following
the parents from any member leads to the root. -/
def IsSpanningTree (adj : Nat → List fasta_t) (comp : List Nat) (root : Nat)
    (par : Nat → Nat) (sc : Nat → Int) : Prop :=
  root ∈ comp ∧
  (∀ v ∈ comp, v ≠ root → par v ∈ comp ∧ { s2 := v, score := sc v } ∈ adj (par v)) ∧
  (∀ v ∈ comp, ∃ k, par^[k] v = root)

/-- The total score of a spanning tree: the sum of the scores of the entries of
the members other than the root. -/
def tree_score (comp : List Nat) (root : Nat) (sc : Nat → Int) : Int :=
  ((comp.filter (fun v => decide (v ≠ root))).map sc).sum

/-- `a` was extracted before `z`. -/
def Before (ord : List Nat) (a z : Nat) : Prop :=
  ∃ pre post, ord = pre ++ z :: post ∧ a ∈ pre

/-- The invariant of the loop of `spanning_tree` after the members `ord` have been
extracted, in that order. -/
structure PrimInv (adj : Nat → List fasta_t) (comp : List Nat) (root : Nat)
    (ord : List Nat) (st : prim_state) : Prop where
  o_nodup : ord.Nodup
  o_sub : ∀ v ∈ ord, v ∈ comp
  o_used : ∀ v, st.used v = true ↔ v ∈ ord
  o_root : ∀ v ∈ ord, v = root ∨ Before ord root v
  k_root : st.key root = 0
  p_root : st.p root = -1
  unused_le : ∀ b ∈ comp, b ∉ ord → b ≠ root →
    ∀ a ∈ ord, ∀ e ∈ adj a, e.s2 = b → e.score ≤ st.key b
  unused_par : ∀ b ∈ comp, b ∉ ord → b ≠ root →
    st.key b = INT_MIN ∨ ∃ a ∈ ord, st.p b = (a : Int) ∧ { s2 := b, score := st.key b } ∈ adj a
  used_par : ∀ z ∈ ord, z ≠ root →
    ∃ a, Before ord a z ∧ st.p z = (a : Int) ∧ { s2 := z, score := st.key z } ∈ adj a
  thresh : ∀ (w : Int) (z y : Nat), Before ord y z → JoinedGe adj comp w y z → w ≤ st.key z

/-- Two's-complement wrap of an `int` result. -/
def wrap_int (x : Int) : Int := (x + 2147483648) % 4294967296 - 2147483648

/-- `asm_order_compare` (lines 195-198): `b->score - a->score` in `int` arithmetic
(an overflow, undefined in C, wraps). -/
def asm_order_compare (a b : asm_order_t) : Int := wrap_int (b.score - a.score)

/-- The C library's `qsort` (not part of the sources): an insertion sort that puts
`a` before `b` when `cmp a b ≤ 0`. -/
def qsort (cmp : asm_order_t → asm_order_t → Int) (recs : List asm_order_t) :
    List asm_order_t :=
  recs.insertionSort (fun a b => cmp a b ≤ 0)

/-- `assembly_order[i]` as `spanning_tree` leaves it (lines 267-276): the records of
the component, sorted by `qsort` with `asm_order_compare`. -/
def assembly_order (adj : Nat → List fasta_t) (comp : List Nat) :
    Option (List asm_order_t) :=
  (spanning_tree_component adj comp).map (qsort asm_order_compare)

/-- The members in the order in which the loop `while(n_used > 0)` (lines 237-264)
extracts them: the values `max_score` takes at line 250, round by round. -/
def prim_order (adj : Nat → List fasta_t) (comp : List Nat) (allowed : Nat → Bool) :
    Nat → prim_state → List Nat
  | 0, _ => []
  | k + 1, st =>
    if extract_max st comp (-1) < 0 then []
    else
      (extract_max st comp (-1)).toNat ::
        prim_order adj comp allowed k
          (relax allowed (extract_max st comp (-1)).toNat
            (adj (extract_max st comp (-1)).toNat)
            { st with used := store st.used (extract_max st comp (-1)).toNat true })

/-- The state of the search of `spanning_tree.c`: the `color` array, the global
`tree_edges` / `back_edges` arrays and the component under construction. -/
structure cc_state where
  color : Nat → Bool
  tree_edges : Nat → List Nat
  back_edges : Nat → List Nat
  component : List Nat

/-- The index `cc_dfs_visit` colours along with `n` (lines 53-57): `n - n_seq/2` if
`n > n_seq/2`, else `n + n_seq/2`. -/
def mate (n_seq n : Nat) : Nat :=
  if n > n_seq / 2 then n - n_seq / 2 else n + n_seq / 2

/-- The `for(i=0;i<n_fasta[n];i++)` loop of `cc_dfs_visit` (lines 60-69) over the
remaining adjacency entries of node `n`; `visit` is the recursive call.  `none`
stands for an access outside `color[0 .. n_seq)` (or for a `none` of the call). -/
def cc_dfs_edges (n_seq : Nat) (visit : cc_state → Nat → Option cc_state) (n : Nat) :
    List fasta_t → cc_state → Option cc_state
  | [], st => some st
  | e :: es, st =>
    if n_seq ≤ e.s2 then none
    else if st.color e.s2 = false then
      match visit st e.s2 with
      | none => none
      | some st1 =>
        cc_dfs_edges n_seq visit n es
          { st1 with tree_edges := store st1.tree_edges n (st1.tree_edges n ++ [e.s2]) }
    else
      cc_dfs_edges n_seq visit n es
        { st with back_edges := store st.back_edges n (st.back_edges n ++ [e.s2]) }

/-- `cc_dfs_visit` of `spanning_tree.c` (lines 48-70).  The first argument is the
recursion fuel; `none` stands for a write outside `color[0 .. n_seq)`, or for
the fuel running out. -/
def cc_dfs_visit (n_seq : Nat) (adj : Nat → List fasta_t) :
    Nat → cc_state → Nat → Option cc_state
  | 0, _, _ => none
  | fuel + 1, st, n =>
    if n_seq ≤ n ∨ n_seq ≤ mate n_seq n then none
    else
      cc_dfs_edges n_seq (cc_dfs_visit n_seq adj fuel) n (adj n)
        { st with color := store (store st.color n true) (mate n_seq n) true,
                  component := st.component ++ [n] }

/-- The component-discovery loop of `connected_components` of `spanning_tree.c`
(lines 130-142) over the ids still to be scanned. -/
def cc_loop (n_seq : Nat) (adj : Nat → List fasta_t) (fuel : Nat) :
    List Nat → cc_state → List (List Nat) → Option (cc_state × List (List Nat))
  | [], st, comps => some (st, comps)
  | i :: is, st, comps =>
    if st.color i then cc_loop n_seq adj fuel is st comps
    else
      match cc_dfs_visit n_seq adj fuel { st with component := [] } i with
      | none => none
      | some st1 => cc_loop n_seq adj fuel is st1 (comps ++ [st1.component])

/-- The state after the `CA(...)` allocations of `connected_components`. -/
def cc_init : cc_state :=
  { color := fun _ => false, tree_edges := fun _ => [], back_edges := fun _ => [],
    component := [] }

/-- Number of ids below `n_seq` that are still uncoloured. -/
def unc (n_seq : Nat) (color : Nat → Bool) : Nat :=
  ((Finset.range n_seq).filter (fun v => color v = false)).card

/-- What holds of a node on which `cc_dfs_visit` is invoked: it and its mate are
indices of `color`, and it is not `n_seq/2` unless `n_seq < 2`. -/
def Visitable (n_seq x : Nat) : Prop :=
  x < n_seq ∧ mate n_seq x < n_seq ∧ (2 ≤ n_seq → x ≠ n_seq / 2)

/-- What a call of `cc_dfs_visit` on an uncoloured node does, given that `n_seq/2`
is coloured already or the node is 0: it returns, colours only grow, `n_seq/2`
is coloured afterwards, and every node appended to the component is
`Visitable`. -/
def VisitOk (n_seq : Nat) (adj : Nat → List fasta_t) (fuel : Nat) : Prop :=
  ∀ (st : cc_state) (n : Nat), n < n_seq → st.color n = false →
    (st.color (n_seq / 2) = true ∨ n = 0) → unc n_seq st.color ≤ fuel →
    ∃ st' new, cc_dfs_visit n_seq adj fuel st n = some st' ∧
      (∀ v, st.color v = true → st'.color v = true) ∧ st'.color n = true ∧
      st'.color (n_seq / 2) = true ∧ st'.component = st.component ++ new ∧
      ∀ x ∈ new, Visitable n_seq x

end SpanningTree

/-! # Theorems -/

/-! ## dfs_cluster.c: big-step view of the depth-first search -/

namespace DfsCluster

theorem run_of_edges (adj : Nat → List fasta_t) (chimeric : Nat → Bool)
    (visit : dfs_state → Nat → Option dfs_state)
    (hv : ∀ st n st', visit st n = some st' → Run adj chimeric st n none st')
    (n : Nat) (es : List fasta_t) :
    ∀ st st', cc_dfs_edges chimeric visit n es st = some st' →
      Run adj chimeric st n (some es) st' := by
  induction es with
  | nil =>
    intro st st' h
    simp only [cc_dfs_edges, Option.some.injEq] at h
    subst h
    exact Run.done st n
  | cons e es ih =>
    intro st st' h
    rw [cc_dfs_edges] at h
    by_cases hc : chimeric e.s2 = true
    · rw [if_pos hc] at h
      exact Run.skip st n e es st' hc (ih st st' h)
    · rw [if_neg hc] at h
      have hc' : chimeric e.s2 = false := by simpa using hc
      by_cases hcol : st.color e.s2 = false
      · rw [if_pos hcol] at h
        cases hvis : visit st e.s2 with
        | none => rw [hvis] at h; exact absurd h (by simp)
        | some st1 =>
          rw [hvis] at h
          exact Run.tree st n e es st1 st' hc' hcol (hv st e.s2 st1 hvis) (ih _ st' h)
      · rw [if_neg hcol] at h
        have hcol' : st.color e.s2 = true := by simpa using hcol
        exact Run.back st n e es st' hc' hcol' (ih _ st' h)

theorem run_of_visit (adj : Nat → List fasta_t) (chimeric : Nat → Bool) :
    ∀ (fuel : Nat) (st : dfs_state) (n : Nat) (st' : dfs_state),
      cc_dfs_visit adj chimeric fuel st n = some st' → Run adj chimeric st n none st' := by
  intro fuel
  induction fuel with
  | zero => intro st n st' h; simp [cc_dfs_visit] at h
  | succ fuel ih =>
    intro st n st' h
    rw [cc_dfs_visit] at h
    exact Run.visit st n st' (run_of_edges adj chimeric _ ih n (adj n) _ st' h)


theorem store_same {α : Type} (a : Nat → α) (i : Nat) (v : α) : store a i v i = v := by
  simp [store]

theorem store_other {α : Type} (a : Nat → α) (i j : Nat) (v : α) (h : j ≠ i) :
    store a i v j = a j := by
  simp [store, h]

/-- Colours are never reset by the search. -/
theorem run_mono {adj : Nat → List fasta_t} {chimeric : Nat → Bool}
    {st : dfs_state} {n : Nat} {m : Option (List fasta_t)} {st' : dfs_state}
    (h : Run adj chimeric st n m st') :
    ∀ v, st.color v = true → st'.color v = true := by
  induction h with
  | visit st n st' _ ih =>
    intro v hv
    apply ih
    by_cases hvn : v = n
    · subst hvn; exact store_same _ _ _
    · simpa [store_other _ _ _ _ hvn] using hv
  | done st n => intro v hv; exact hv
  | skip st n e es st' _ _ ih => exact ih
  | tree st n e es st1 st' _ _ _ _ ih1 ih2 =>
    intro v hv
    exact ih2 v (ih1 v hv)
  | back st n e es st' _ _ _ ih => exact ih

/-- A call of `cc_dfs_visit` colours its own node. -/
theorem run_color_self {adj : Nat → List fasta_t} {chimeric : Nat → Bool}
    {st : dfs_state} {n : Nat} {st' : dfs_state}
    (h : Run adj chimeric st n none st') : st'.color n = true := by
  cases h with
  | visit _ _ _ h1 => exact run_mono h1 n (store_same _ _ _)

/-- The nodes appended to the component are exactly the newly coloured ones, each
appended once. -/
theorem run_component {adj : Nat → List fasta_t} {chimeric : Nat → Bool}
    {st : dfs_state} {n : Nat} {m : Option (List fasta_t)} {st' : dfs_state}
    (h : Run adj chimeric st n m st') :
    (m = none → st.color n = false) →
    ∃ new, st'.component = st.component ++ new ∧ new.Nodup ∧
      ∀ v, v ∈ new ↔ (st.color v = false ∧ st'.color v = true) := by
  induction h with
  | visit st n st' h1 ih =>
    intro hn
    obtain ⟨new, hc, hnd, hmem⟩ := ih (by intro h; cases h)
    refine ⟨n :: new, ?_, ?_, ?_⟩
    · simpa using hc
    · refine List.nodup_cons.mpr ⟨?_, hnd⟩
      intro hin
      have := ((hmem n).mp hin).1
      simp [store_same] at this
    · intro v
      by_cases hvn : v = n
      · subst hvn
        simp [hn rfl, run_mono h1 v (store_same _ _ _)]
      · rw [List.mem_cons, hmem v]
        simp [hvn, store_other _ _ _ _ hvn]
  | done st n =>
    intro _
    refine ⟨[], by simp, List.nodup_nil, ?_⟩
    intro v
    constructor
    · intro h; cases h
    · rintro ⟨h1, h2⟩; rw [h1] at h2; cases h2
  | skip st n e es st' _ _ ih => intro _; exact ih (by intro h; cases h)
  | tree st n e es st1 st' _ hcol h1 h2 ih1 ih2 =>
    intro _
    obtain ⟨new1, hc1, hnd1, hmem1⟩ := ih1 (fun _ => hcol)
    obtain ⟨new2, hc2, hnd2, hmem2⟩ := ih2 (by intro h; cases h)
    refine ⟨new1 ++ new2, ?_, ?_, ?_⟩
    · rw [hc2]; simp only []; rw [hc1, List.append_assoc]
    · refine List.nodup_append.mpr ⟨hnd1, hnd2, ?_⟩
      intro v hv1 hv2
      have a := ((hmem1 v).mp hv1).2
      have b := ((hmem2 v).mp hv2).1
      simp only [] at b
      rw [a] at b; cases b
    · intro v
      rw [List.mem_append, hmem1 v, hmem2 v]
      simp only []
      constructor
      · rintro (⟨a, b⟩ | ⟨a, b⟩)
        · exact ⟨a, run_mono h2 v b⟩
        · refine ⟨?_, b⟩
          cases hv : st.color v with
          | false => rfl
          | true => rw [run_mono h1 v hv] at a; cases a
      · rintro ⟨a, b⟩
        cases hv : st1.color v with
        | false => exact Or.inr ⟨rfl, b⟩
        | true => exact Or.inl ⟨a, rfl⟩
  | back st n e es st' _ _ _ ih => intro _; exact ih (by intro h; cases h)

/-- Only non-chimeric nodes are ever coloured. -/
theorem run_nonchimeric {adj : Nat → List fasta_t} {chimeric : Nat → Bool}
    {st : dfs_state} {n : Nat} {m : Option (List fasta_t)} {st' : dfs_state}
    (h : Run adj chimeric st n m st') :
    (m = none → chimeric n = false) →
    ∀ v, st.color v = false → st'.color v = true → chimeric v = false := by
  induction h with
  | visit st n st' _ ih =>
    intro hn v hv hv'
    by_cases hvn : v = n
    · subst hvn; exact hn rfl
    · exact ih (by intro h; cases h) v (by simpa [store_other _ _ _ _ hvn] using hv) hv'
  | done st n => intro _ v hv hv'; rw [hv] at hv'; cases hv'
  | skip st n e es st' _ _ ih => intro _; exact ih (by intro h; cases h)
  | tree st n e es st1 st' hch _ _ _ ih1 ih2 =>
    intro _ v hv hv'
    cases hv1 : st1.color v with
    | false => exact ih2 (by intro h; cases h) v hv1 hv'
    | true => exact ih1 (fun _ => hch) v hv hv1
  | back st n e es st' _ _ _ ih => intro _; exact ih (by intro h; cases h)

/-- With adjacency targets inside `[0, n_seq)`, only ids below `n_seq` are coloured. -/
theorem run_range {adj : Nat → List fasta_t} {chimeric : Nat → Bool} {n_seq : Nat}
    (hr : ∀ u, u < n_seq → ∀ e ∈ adj u, e.s2 < n_seq)
    {st : dfs_state} {n : Nat} {m : Option (List fasta_t)} {st' : dfs_state}
    (h : Run adj chimeric st n m st') :
    n < n_seq → (∀ es, m = some es → ∀ e ∈ es, e.s2 < n_seq) →
    ∀ v, st.color v = false → st'.color v = true → v < n_seq := by
  induction h with
  | visit st n st' _ ih =>
    intro hn _ v hv hv'
    by_cases hvn : v = n
    · subst hvn; exact hn
    · exact ih hn (by intro es h; cases h; exact hr n hn) v
        (by simpa [store_other _ _ _ _ hvn] using hv) hv'
  | done st n => intro _ _ v hv hv'; rw [hv] at hv'; cases hv'
  | skip st n e es st' _ _ ih =>
    intro hn hes
    exact ih hn (by intro es' h; cases h; intro e' he'; exact hes _ rfl e' (List.mem_cons_of_mem _ he'))
  | tree st n e es st1 st' _ _ _ _ ih1 ih2 =>
    intro hn hes v hv hv'
    cases hv1 : st1.color v with
    | false =>
      exact ih2 hn (by intro es' h; cases h; intro e' he'; exact hes _ rfl e' (List.mem_cons_of_mem _ he')) v hv1 hv'
    | true =>
      exact ih1 (hes _ rfl e (List.mem_cons_self _ _)) (by intro es' h; cases h) v hv hv1
  | back st n e es st' _ _ _ ih =>
    intro hn hes
    exact ih hn (by intro es' h; cases h; intro e' he'; exact hes _ rfl e' (List.mem_cons_of_mem _ he'))


/-- Frame property: apart from the active node, the edge lists of a node that was
already coloured, or that stays uncoloured, are not touched. -/
theorem run_frame {adj : Nat → List fasta_t} {chimeric : Nat → Bool}
    {st : dfs_state} {n : Nat} {m : Option (List fasta_t)} {st' : dfs_state}
    (h : Run adj chimeric st n m st') :
    ∀ x, x ≠ n → (st.color x = true ∨ st'.color x = false) →
      st'.tree_edges x = st.tree_edges x ∧ st'.back_edges x = st.back_edges x := by
  induction h with
  | visit st n st' h1 ih =>
    intro x hxn hx
    have := ih x hxn (by
      rcases hx with hx | hx
      · left; simpa [store_other _ _ _ _ hxn] using hx
      · right; exact hx)
    simpa using this
  | done st n => intro x _ _; exact ⟨rfl, rfl⟩
  | skip st n e es st' _ _ ih => exact ih
  | tree st n e es st1 st' _ hcol h1 h2 ih1 ih2 =>
    intro x hxn hx
    have hxe : x ≠ e.s2 := by
      intro hxe
      rcases hx with hx | hx
      · rw [hxe, hcol] at hx; cases hx
      · have hc1 : st1.color e.s2 = true := run_color_self h1
        rw [hxe, run_mono h2 _ hc1] at hx; cases hx
    have hx1 : st.color x = true ∨ st1.color x = false := by
      rcases hx with hx | hx
      · exact Or.inl hx
      · right
        cases hv : st1.color x with
        | false => rfl
        | true => rw [run_mono h2 x hv] at hx; cases hx
    have hx2 : st1.color x = true ∨ st'.color x = false := by
      rcases hx with hx | hx
      · exact Or.inl (run_mono h1 x hx)
      · exact Or.inr hx
    have a := ih1 x hxe hx1
    have b := ih2 x hxn hx2
    simp only [store_other _ _ _ _ hxn] at b
    exact ⟨b.1.trans a.1, b.2.trans a.2⟩
  | back st n e es st' _ _ _ ih =>
    intro x hxn hx
    have b := ih x hxn hx
    simp only [store_other _ _ _ _ hxn] at b
    exact b

theorem treeHeight_mono {te : Nat → List Nat} :
    ∀ {k k' : Nat} {n : Nat}, TreeHeight te n k → k ≤ k' → TreeHeight te n k' := by
  intro k
  induction k with
  | zero => intro k' n h; exact absurd h (by simp [TreeHeight])
  | succ k ih =>
    intro k' n h hk
    obtain ⟨j, rfl⟩ : ∃ j, k' = j + 1 := ⟨k' - 1, by omega⟩
    intro c hc
    exact ih (h c hc) (by omega)

theorem uncolored_le (n_seq : Nat) (st : dfs_state) : uncolored n_seq st ≤ n_seq := by
  unfold uncolored
  calc _ ≤ (Finset.range n_seq).card := Finset.card_filter_le _ _
    _ = n_seq := Finset.card_range _

theorem uncolored_mono {n_seq : Nat} {st st' : dfs_state}
    (h : ∀ v, st.color v = true → st'.color v = true) :
    uncolored n_seq st' ≤ uncolored n_seq st := by
  unfold uncolored
  apply Finset.card_le_card
  intro v
  simp only [Finset.mem_filter, Finset.mem_range]
  rintro ⟨hv, hc⟩
  refine ⟨hv, ?_⟩
  cases hv' : st.color v with
  | false => rfl
  | true => rw [h v hv'] at hc; cases hc

theorem uncolored_store {n_seq : Nat} (st : dfs_state) (n : Nat) (hn : n < n_seq)
    (hc : st.color n = false) (te be : Nat → List Nat) (comp : List Nat) :
    uncolored n_seq { color := store st.color n true, tree_edges := te,
                      back_edges := be, component := comp } + 1 ≤ uncolored n_seq st := by
  unfold uncolored
  have hss : ((Finset.range n_seq).filter (fun v => store st.color n true v = false)) ⊂
      ((Finset.range n_seq).filter (fun v => st.color v = false)) := by
    rw [Finset.ssubset_iff_of_subset]
    · refine ⟨n, ?_, ?_⟩
      · simp [hn, hc]
      · simp [store_same]
    · intro v
      simp only [Finset.mem_filter, Finset.mem_range]
      rintro ⟨hv, hcv⟩
      refine ⟨hv, ?_⟩
      by_cases hvn : v = n
      · subst hvn; exact hc
      · simpa [store_other _ _ _ _ hvn] using hcv
  exact Finset.card_lt_card hss

theorem uncolored_pos {n_seq : Nat} (st : dfs_state) (n : Nat) (hn : n < n_seq)
    (hc : st.color n = false) : 0 < uncolored n_seq st := by
  unfold uncolored
  apply Finset.card_pos.mpr
  exact ⟨n, by simp [hn, hc]⟩


/-- Height bound for the tree below a visited node: the recursion depth of any
walk along tree edges from a node is bounded by the number of ids that were
uncoloured when the node was entered. -/
theorem run_height {adj : Nat → List fasta_t} {chimeric : Nat → Bool} {n_seq : Nat}
    (hr : ∀ u, u < n_seq → ∀ e ∈ adj u, e.s2 < n_seq)
    {st : dfs_state} {n : Nat} {m : Option (List fasta_t)} {st' : dfs_state}
    (h : Run adj chimeric st n m st') :
    n < n_seq → (∀ es, m = some es → ∀ e ∈ es, e.s2 < n_seq) →
    (∀ x, st.color x = false → st.tree_edges x = []) →
    (m = none → st.color n = false) → (∀ es, m = some es → st.color n = true) →
    (∀ x, st'.color x = false → st'.tree_edges x = []) ∧
    ∀ te : Nat → List Nat,
      (∀ x, st.color x = false → st'.color x = true → te x = st'.tree_edges x) →
      (m = none → TreeHeight te n (uncolored n_seq st)) ∧
      (∀ es, m = some es → ∃ cs, st'.tree_edges n = st.tree_edges n ++ cs ∧
        ∀ c ∈ cs, st.color c = false ∧ st'.color c = true ∧
          TreeHeight te c (uncolored n_seq st)) := by
  induction h with
  | visit st n st' h1 ih =>
    intro hn _ hemp hcol _
    have hcn := hcol rfl
    obtain ⟨a, b⟩ := ih hn (by intro es h; cases h; exact hr n hn)
      (by
        intro x hx
        have hxn : x ≠ n := by
          intro hxn; subst hxn; simp [store_same] at hx
        exact hemp x (by simpa [store_other _ _ _ _ hxn] using hx))
      (by intro h; cases h) (by intro es _; exact store_same _ _ _)
    refine ⟨a, ?_⟩
    intro te hte
    refine ⟨?_, by intro es h; cases h⟩
    intro _
    obtain ⟨_, b2⟩ := b te (by
      intro x hx hx'
      have hxn : x ≠ n := by
        intro hxn; subst hxn; simp [store_same] at hx
      exact hte x (by simpa [store_other _ _ _ _ hxn] using hx) hx')
    obtain ⟨cs, hcs, hall⟩ := b2 _ rfl
    have hten : te n = cs := by
      rw [hte n hcn (run_mono h1 n (store_same _ _ _)), hcs]
      simp [hemp n hcn]
    have hU := @uncolored_store n_seq st n hn hcn st.tree_edges st.back_edges
      (st.component ++ [n])
    have : TreeHeight te n (uncolored n_seq
        { color := store st.color n true, tree_edges := st.tree_edges,
          back_edges := st.back_edges, component := st.component ++ [n] } + 1) := by
      intro c hc
      rw [hten] at hc
      exact (hall c hc).2.2
    exact treeHeight_mono this hU
  | done st n =>
    intro _ _ hemp _ _
    refine ⟨hemp, ?_⟩
    intro te _
    refine ⟨(by intro h; cases h), ?_⟩
    intro es _
    exact ⟨[], by simp, by intro c hc; cases hc⟩
  | skip st n e es st' _ _ ih =>
    intro hn hes hemp _ hcol
    obtain ⟨a, b⟩ := ih hn
      (by intro es' h; cases h; intro e' he'; exact hes _ rfl e' (List.mem_cons_of_mem _ he'))
      hemp (by intro h; cases h) (by intro es' _; exact hcol _ rfl)
    refine ⟨a, ?_⟩
    intro te hte
    refine ⟨(by intro h; cases h), ?_⟩
    intro es' _
    exact (b te hte).2 _ rfl
  | tree st n e es st1 st' _ hce h1 h2 ih1 ih2 =>
    intro hn hes hemp _ hcol
    have hcn : st.color n = true := hcol _ rfl
    have hne : n ≠ e.s2 := by
      intro hne; rw [hne, hce] at hcn; cases hcn
    have hc1 : st1.color e.s2 = true := run_color_self h1
    obtain ⟨a1, b1⟩ := ih1 (hes _ rfl e (List.mem_cons_self _ _)) (by intro es' h; cases h)
      hemp (fun _ => hce) (by intro es' h; cases h)
    have hcn1 : st1.color n = true := run_mono h1 n hcn
    obtain ⟨a2, b2⟩ := ih2 hn
      (by intro es' h; cases h; intro e' he'; exact hes _ rfl e' (List.mem_cons_of_mem _ he'))
      (by
        intro x hx
        have hxn : x ≠ n := by
          intro hxn; subst hxn; simp only [] at hx; rw [hcn1] at hx; cases hx
        simp only [store_other _ _ _ _ hxn]
        exact a1 x hx)
      (by intro h; cases h) (by intro es' _; exact hcn1)
    refine ⟨a2, ?_⟩
    intro te hte
    refine ⟨(by intro h; cases h), ?_⟩
    intro es' _
    obtain ⟨_, b22⟩ := b2 te (by
      intro x hx hx'
      simp only [] at hx
      refine hte x ?_ hx'
      cases hv : st.color x with
      | false => rfl
      | true => rw [run_mono h1 x hv] at hx; cases hx)
    obtain ⟨cs2, hcs2, hall2⟩ := b22 _ rfl
    have hfr := (run_frame h1 n hne (Or.inl hcn)).1
    refine ⟨e.s2 :: cs2, ?_, ?_⟩
    · rw [hcs2]; simp only [store_same]; rw [hfr]; simp
    · intro c hc
      rcases List.mem_cons.mp hc with hc | hc
      · subst hc
        refine ⟨hce, run_mono h2 _ hc1, ?_⟩
        obtain ⟨b11, _⟩ := b1 te (by
          intro x hx hx'
          have hxn : x ≠ n := by
            intro hxn; subst hxn; rw [hcn] at hx; cases hx
          rw [hte x hx (run_mono h2 x hx')]
          have := (run_frame h2 x hxn (Or.inl hx')).1
          rw [this]
          simp only [store_other _ _ _ _ hxn])
        exact b11 rfl
      · obtain ⟨p, q, r⟩ := hall2 c hc
        simp only [] at p
        refine ⟨?_, q, treeHeight_mono r (uncolored_mono (fun v hv => run_mono h1 v hv))⟩
        cases hv : st.color c with
        | false => rfl
        | true => rw [run_mono h1 c hv] at p; cases p
  | back st n e es st' _ _ _ ih =>
    intro hn hes hemp _ hcol
    obtain ⟨a, b⟩ := ih hn
      (by intro es' h; cases h; intro e' he'; exact hes _ rfl e' (List.mem_cons_of_mem _ he'))
      hemp (by intro h; cases h) (by intro es' _; exact hcol _ rfl)
    refine ⟨a, ?_⟩
    intro te hte
    refine ⟨(by intro h; cases h), ?_⟩
    intro es' _
    exact (b te hte).2 _ rfl

/-- With targets in range, `cc_dfs_visit` returns whenever its fuel is at least the
number of uncoloured ids. -/
theorem cc_dfs_visit_returns {adj : Nat → List fasta_t} {chimeric : Nat → Bool}
    {n_seq : Nat} (hr : ∀ u, u < n_seq → ∀ e ∈ adj u, e.s2 < n_seq) :
    ∀ (fuel : Nat) (st : dfs_state) (n : Nat), n < n_seq → st.color n = false →
      uncolored n_seq st ≤ fuel →
      ∃ st', cc_dfs_visit adj chimeric fuel st n = some st' := by
  intro fuel
  induction fuel with
  | zero =>
    intro st n hn hc hU
    have := @uncolored_pos n_seq st n hn hc
    omega
  | succ fuel ih =>
    intro st n hn hc hU
    rw [cc_dfs_visit]
    have hU1 := @uncolored_store n_seq st n hn hc st.tree_edges st.back_edges
      (st.component ++ [n])
    have key : ∀ (es : List fasta_t), (∀ e ∈ es, e.s2 < n_seq) → ∀ s : dfs_state,
        uncolored n_seq s ≤ fuel →
        ∃ s', cc_dfs_edges chimeric (cc_dfs_visit adj chimeric fuel) n es s = some s' := by
      intro es
      induction es with
      | nil => intro _ s _; exact ⟨s, rfl⟩
      | cons e es ihes =>
        intro hes s hs
        have hes' : ∀ e' ∈ es, e'.s2 < n_seq :=
          fun e' he' => hes e' (List.mem_cons_of_mem _ he')
        rw [cc_dfs_edges]
        by_cases hch : chimeric e.s2 = true
        · rw [if_pos hch]; exact ihes hes' s hs
        · rw [if_neg hch]
          by_cases hcol : s.color e.s2 = false
          · rw [if_pos hcol]
            obtain ⟨s1, hs1⟩ := ih s e.s2 (hes e (List.mem_cons_self _ _)) hcol hs
            rw [hs1]
            have hm := run_mono (run_of_visit adj chimeric fuel s e.s2 s1 hs1)
            have : uncolored n_seq s1 ≤ fuel := le_trans (uncolored_mono hm) hs
            exact ihes hes' _ this
          · rw [if_neg hcol]
            exact ihes hes' _ hs
    exact key (adj n) (hr n hn) _ (by omega)


/-- A call of `cc_dfs_visit(n)` appends `n` first. -/
theorem run_component_head {adj : Nat → List fasta_t} {chimeric : Nat → Bool}
    {st : dfs_state} {n : Nat} {st' : dfs_state}
    (h : Run adj chimeric st n none st') :
    ∃ rest, st'.component = st.component ++ n :: rest := by
  cases h with
  | visit _ _ _ h1 =>
    obtain ⟨new, hc, _, _⟩ := run_component h1 (by intro h; cases h)
    exact ⟨new, by simpa using hc⟩

theorem scan_artipoint_children_returns
    (scan : arti_state → Nat → Nat → Option (Nat × arti_state)) (l : Nat) :
    ∀ (cs : List Nat), (∀ c ∈ cs, ∀ st l', ∃ r, scan st c l' = some r) →
      ∀ (st : arti_state) (a : Bool) (m : Nat),
        ∃ r, scan_artipoint_children scan l cs st a m = some r := by
  intro cs
  induction cs with
  | nil => intro _ st a m; exact ⟨_, rfl⟩
  | cons c cs ih =>
    intro hcs st a m
    obtain ⟨⟨cl, st1⟩, hr⟩ := hcs c (List.mem_cons_self _ _) st (l + 1)
    have ih' := ih (fun c' hc' => hcs c' (List.mem_cons_of_mem _ hc'))
    rw [scan_artipoint_children, hr]
    simp only []
    split
    · exact ih' _ _ _
    · exact ih' _ _ _

/-- `scan_artipoint` returns when its fuel bounds the height of the tree below
the node. -/
theorem scan_artipoint_returns (te be : Nat → List Nat) :
    ∀ (fuel node : Nat), TreeHeight te node fuel →
      ∀ (st : arti_state) (l : Nat), ∃ r, scan_artipoint te be fuel st node l = some r := by
  intro fuel
  induction fuel with
  | zero => intro node h; exact absurd h (by simp [TreeHeight])
  | succ fuel ih =>
    intro node h st l
    rw [scan_artipoint]
    obtain ⟨⟨a, m, st1⟩, hr⟩ := scan_artipoint_children_returns
      (scan_artipoint te be fuel) l (te node)
      (fun c hc s l' => ih c (h c hc) s l') { st with level := store st.level node l }
      false INT_MAX
    rw [hr]
    simp only []
    split
    · exact ⟨_, rfl⟩
    · exact ⟨_, rfl⟩

/-- Induction principle for the component-discovery loop: a property of
`(state, components)` preserved by every top-level visit holds at the end, the loop
returns, and every scanned id ends up coloured or is chimeric. -/
theorem cc_loop_induct {adj : Nat → List fasta_t} {chimeric : Nat → Bool} {n_seq : Nat}
    (hr : ∀ u, u < n_seq → ∀ e ∈ adj u, e.s2 < n_seq)
    (P : dfs_state → List (List Nat) → Prop)
    (hstep : ∀ st comps i st1, P st comps → i < n_seq → st.color i = false →
      chimeric i = false →
      Run adj chimeric { st with component := [] } i none st1 →
      P st1 (comps ++ [st1.component])) :
    ∀ (is : List Nat) (st : dfs_state) (comps : List (List Nat)),
      (∀ i ∈ is, i < n_seq) → P st comps →
      ∃ st' comps', cc_loop adj chimeric n_seq is st comps = some (st', comps') ∧
        P st' comps' ∧ (∀ v, st.color v = true → st'.color v = true) ∧
        (∀ i ∈ is, st'.color i = true ∨ chimeric i = true) := by
  intro is
  induction is with
  | nil =>
    intro st comps _ hP
    exact ⟨st, comps, rfl, hP, fun _ h => h, by intro i hi; cases hi⟩
  | cons i is ih =>
    intro st comps his hP
    have his' : ∀ j ∈ is, j < n_seq := fun j hj => his j (List.mem_cons_of_mem _ hj)
    rw [cc_loop]
    by_cases hc : st.color i = true
    · rw [if_pos hc]
      obtain ⟨st', comps', h1, h2, h3, h4⟩ := ih st comps his' hP
      refine ⟨st', comps', h1, h2, h3, ?_⟩
      intro j hj
      rcases List.mem_cons.mp hj with hj | hj
      · subst hj; exact Or.inl (h3 _ hc)
      · exact h4 j hj
    · rw [if_neg hc]
      have hc' : st.color i = false := by simpa using hc
      by_cases hch : chimeric i = true
      · rw [if_pos hch]
        obtain ⟨st', comps', h1, h2, h3, h4⟩ := ih st comps his' hP
        refine ⟨st', comps', h1, h2, h3, ?_⟩
        intro j hj
        rcases List.mem_cons.mp hj with hj | hj
        · subst hj; exact Or.inr hch
        · exact h4 j hj
      · rw [if_neg hch]
        have hch' : chimeric i = false := by simpa using hch
        have hi : i < n_seq := his i (List.mem_cons_self _ _)
        obtain ⟨st1, hv⟩ := @cc_dfs_visit_returns adj chimeric n_seq hr n_seq
          { st with component := [] } i hi hc' (uncolored_le _ _)
        rw [hv]
        have hrun := run_of_visit adj chimeric _ _ _ _ hv
        simp only []
        obtain ⟨st', comps', h1, h2, h3, h4⟩ := ih st1 (comps ++ [st1.component]) his'
          (hstep st comps i st1 hP hi hc' hch' hrun)
        refine ⟨st', comps', h1, h2, ?_, ?_⟩
        · intro v hv'
          exact h3 v (run_mono hrun v hv')
        · intro j hj
          rcases List.mem_cons.mp hj with hj | hj
          · subst hj; exact Or.inl (h3 _ (run_color_self hrun))
          · exact h4 j hj

theorem partInv_step {adj : Nat → List fasta_t} {chimeric : Nat → Bool}
    (st : dfs_state) (comps : List (List Nat)) (i : Nat) (st1 : dfs_state)
    (hP : PartInv chimeric st comps) (hc : st.color i = false) (hch : chimeric i = false)
    (hrun : Run adj chimeric { st with component := [] } i none st1) :
    PartInv chimeric st1 (comps ++ [st1.component]) := by
  obtain ⟨p1, p2, p3⟩ := hP
  obtain ⟨new, hnew, hnd, hmem⟩ := run_component hrun (fun _ => hc)
  simp only [List.nil_append] at hnew
  have hfl : (comps ++ [st1.component]).flatten = comps.flatten ++ new := by
    rw [List.flatten_append, hnew]; simp
  refine ⟨?_, ?_, ?_⟩
  · intro v
    rw [hfl, List.mem_append, hmem v, ← p1 v]
    constructor
    · intro hv
      cases hv0 : st.color v with
      | false => exact Or.inr ⟨rfl, hv⟩
      | true => exact Or.inl rfl
    · rintro (hv | ⟨_, hv⟩)
      · exact run_mono hrun v hv
      · exact hv
  · rw [hfl]
    refine List.nodup_append.mpr ⟨p2, hnd, ?_⟩
    intro v hv1 hv2
    have a := (p1 v).mpr hv1
    have b := ((hmem v).mp hv2).1
    simp only [] at b
    rw [a] at b; cases b
  · intro v hv
    cases hv0 : st.color v with
    | false => exact run_nonchimeric hrun (fun _ => hch) v hv0 hv
    | true => exact p3 v hv0

theorem heightInv_step {adj : Nat → List fasta_t} {chimeric : Nat → Bool} {n_seq : Nat}
    (hr : ∀ u, u < n_seq → ∀ e ∈ adj u, e.s2 < n_seq)
    (st : dfs_state) (comps : List (List Nat)) (i : Nat) (st1 : dfs_state)
    (hP : HeightInv n_seq st comps) (hi : i < n_seq) (hc : st.color i = false)
    (hrun : Run adj chimeric { st with component := [] } i none st1) :
    HeightInv n_seq st1 (comps ++ [st1.component]) := by
  obtain ⟨p1, p2⟩ := hP
  obtain ⟨a, b⟩ := run_height hr hrun hi (by intro es h; cases h) p1 (fun _ => hc)
    (by intro es h; cases h)
  refine ⟨a, ?_⟩
  intro c hcm r hhead te hte
  rcases List.mem_append.mp hcm with hcm | hcm
  · apply p2 c hcm r hhead te
    intro x hx
    have hxi : x ≠ i := by intro hxi; subst hxi; rw [hc] at hx; cases hx
    rw [hte x (run_mono hrun x hx)]
    exact (run_frame hrun x hxi (Or.inl hx)).1
  · have hceq : c = st1.component := by simpa using hcm
    obtain ⟨rest, hrest⟩ := run_component_head hrun
    simp only [List.nil_append] at hrest
    rw [hceq, hrest] at hhead
    simp only [List.head?_cons, Option.some.injEq] at hhead
    subst hhead
    have := (b te (fun x _ hx' => hte x hx')).1 rfl
    exact treeHeight_mono this (uncolored_le _ _)

theorem arti_loop_returns (te be : Nat → List Nat) (n_seq : Nat) :
    ∀ (comps : List (List Nat)),
      (∀ c ∈ comps, ∀ r, c.head? = some r → TreeHeight te r n_seq) →
      ∀ (ap : Nat → Bool) (na : Nat), ∃ r, arti_loop te be n_seq comps ap na = some r := by
  intro comps
  induction comps with
  | nil => intro _ ap na; exact ⟨_, rfl⟩
  | cons c cs ih =>
    intro hh ap na
    have ih' := ih (fun c' hc' => hh c' (List.mem_cons_of_mem _ hc'))
    rw [arti_loop]
    by_cases hl : c.length > 1
    · rw [if_pos hl]
      have : ∃ r, scan_arti_points te be n_seq c ap na = some r := by
        match c, hl, hh c (List.mem_cons_self _ _) with
        | [], hl, _ => simp at hl
        | [_], hl, _ => simp at hl
        | root :: x :: rest, _, hroot =>
          rw [scan_arti_points]
          obtain ⟨⟨mn, s⟩, hs⟩ := scan_artipoint_returns te be n_seq root
            (hroot root rfl)
            { level := fun _ => 0,
              arti_points := if (te root).length > 1 then store ap root true else ap,
              n_arti := na } 0
          rw [hs]
          exact ⟨_, rfl⟩
      obtain ⟨⟨ap1, na1⟩, hr1⟩ := this
      rw [hr1]
      exact ih' ap1 na1
    · rw [if_neg hl]
      exact ih' ap na


/-- `connected_components` returns; its components and edge lists are those left
by the discovery loop, for which every invariant `P` preserved by the top-level
visits holds, and every id below `n_seq` is coloured or chimeric. -/
theorem connected_components_spec {adj : Nat → List fasta_t} {chimeric : Nat → Bool}
    {n_seq : Nat} (hr : ∀ u, u < n_seq → ∀ e ∈ adj u, e.s2 < n_seq)
    (P : dfs_state → List (List Nat) → Prop) (hinit : P dfs_init [])
    (hstep : ∀ st comps i st1, P st comps → i < n_seq → st.color i = false →
      chimeric i = false →
      Run adj chimeric { st with component := [] } i none st1 →
      P st1 (comps ++ [st1.component])) :
    ∃ (st : dfs_state) (comps : List (List Nat)) (ap : Nat → Bool) (na : Nat),
      cc_loop adj chimeric n_seq (List.range n_seq) dfs_init [] = some (st, comps) ∧
      arti_loop st.tree_edges st.back_edges n_seq comps (fun _ => false) 0 = some (ap, na) ∧
      connected_components n_seq adj chimeric =
        some { components := comps, tree_edges := st.tree_edges,
               back_edges := st.back_edges, arti_points := ap, n_arti := na } ∧
      P st comps ∧ (∀ i, i < n_seq → st.color i = true ∨ chimeric i = true) := by
  obtain ⟨st, comps, h1, ⟨hP, hH⟩, _, h4⟩ :=
    @cc_loop_induct adj chimeric n_seq hr (fun s c => P s c ∧ HeightInv n_seq s c)
      (fun s c i s1 hp hi hc hch hrun =>
        ⟨hstep s c i s1 hp.1 hi hc hch hrun, heightInv_step hr s c i s1 hp.2 hi hc hrun⟩)
      (List.range n_seq) dfs_init []
      (fun i hi => List.mem_range.mp hi)
      ⟨hinit, by
        refine ⟨fun _ _ => rfl, ?_⟩
        intro c hc; cases hc⟩
  obtain ⟨⟨ap, na⟩, h5⟩ := arti_loop_returns st.tree_edges st.back_edges n_seq comps
    (fun c hc r hhead => hH.2 c hc r hhead st.tree_edges (fun _ _ => rfl)) (fun _ => false) 0
  refine ⟨st, comps, ap, na, h1, h5, ?_, hP, fun i hi => h4 i (List.mem_range.mpr hi)⟩
  rw [connected_components, h1]
  simp only []
  rw [h5]

theorem count_components (v : Nat) :
    ∀ (comps : List (List Nat)), (∀ c ∈ comps, c.Nodup) →
      (comps.filter (fun c => decide (v ∈ c))).length = comps.flatten.count v := by
  intro comps
  induction comps with
  | nil => intro _; rfl
  | cons c cs ih =>
    intro hnd
    have ih' := ih (fun c' hc' => hnd c' (List.mem_cons_of_mem _ hc'))
    have hc := hnd c (List.mem_cons_self _ _)
    rw [List.flatten_cons, List.count_append, ← ih']
    by_cases hv : v ∈ c
    · rw [List.filter_cons_of_pos (by simpa using hv), List.length_cons,
        List.count_eq_one_of_mem hc hv]
      omega
    · rw [List.filter_cons_of_neg (by simpa using hv), List.count_eq_zero_of_not_mem hv]
      omega

end DfsCluster

/-- C1. For every adjacency input whose targets are ids below `n_seq` and every
chimera marking, `connected_components` returns, and in the components it leaves
every non-chimeric id below `n_seq` lies in exactly one component (the number of
components containing it is 1) and occurs exactly once in that component, while a
chimeric id lies in no component. -/
theorem DfsCluster.connected_components_partition (n_seq : Nat)
    (adj : Nat → List DfsCluster.fasta_t) (chimeric : Nat → Bool)
    (hr : ∀ u, u < n_seq → ∀ e ∈ adj u, e.s2 < n_seq) :
    ∃ r, DfsCluster.connected_components n_seq adj chimeric = some r ∧
      (∀ v, v < n_seq → chimeric v = false →
        (r.components.filter (fun c => decide (v ∈ c))).length = 1 ∧
        ∀ c ∈ r.components, v ∈ c → c.count v = 1) ∧
      (∀ v, chimeric v = true → ∀ c ∈ r.components, v ∉ c) := by
  obtain ⟨st, comps, ap, na, _, _, h3, ⟨p1, p2, p3⟩, h5⟩ :=
    @DfsCluster.connected_components_spec adj chimeric n_seq hr
      (DfsCluster.PartInv chimeric)
      ⟨(by intro v; simp [DfsCluster.dfs_init]), (by simp),
        (by intro v h; simp [DfsCluster.dfs_init] at h)⟩
      (fun s c i s1 hp _ hc hch hrun => DfsCluster.partInv_step s c i s1 hp hc hch hrun)
  refine ⟨_, h3, ?_, ?_⟩
  · intro v hv hch
    have hnd := (List.nodup_flatten.mp p2).1
    have hcol : st.color v = true := by
      rcases h5 v hv with h | h
      · exact h
      · rw [hch] at h; cases h
    refine ⟨?_, ?_⟩
    · rw [DfsCluster.count_components v comps hnd]
      exact List.count_eq_one_of_mem p2 ((p1 v).mp hcol)
    · intro c hc hvc
      exact List.count_eq_one_of_mem (hnd c hc) hvc
  · intro v hch c hc hvc
    have : st.color v = true := (p1 v).mpr (List.mem_flatten.mpr ⟨c, hc, hvc⟩)
    have := p3 v this
    rw [hch] at this; cases this

/-- Witness for C1: the path 0 - 1 - 2 with node 3 marked chimeric. -/
theorem DfsCluster.connected_components_partition_witness :
    (∀ u, u < 4 → ∀ e ∈ DfsCluster.adj_of [[(1, 80)], [(0, 80), (2, 90)], [(1, 90), (3, 75)], [(2, 75)]] u,
        e.s2 < 4) ∧
    ∃ r, DfsCluster.connected_components 4
        (DfsCluster.adj_of [[(1, 80)], [(0, 80), (2, 90)], [(1, 90), (3, 75)], [(2, 75)]])
        (DfsCluster.chimeric_of [3]) = some r ∧
      (∀ v, v < 4 → DfsCluster.chimeric_of [3] v = false →
        (r.components.filter (fun c => decide (v ∈ c))).length = 1 ∧
        ∀ c ∈ r.components, v ∈ c → c.count v = 1) ∧
      (∀ v, DfsCluster.chimeric_of [3] v = true → ∀ c ∈ r.components, v ∉ c) :=
  have hr : ∀ u, u < 4 → ∀ e ∈ DfsCluster.adj_of
      [[(1, 80)], [(0, 80), (2, 90)], [(1, 90), (3, 75)], [(2, 75)]] u, e.s2 < 4 := by
    intro u hu
    interval_cases u <;> simp [DfsCluster.adj_of]
  ⟨hr, DfsCluster.connected_components_partition 4 _ _ hr⟩

namespace DfsCluster

/-- Every node coloured by a visit has all its non-chimeric neighbours coloured
when the visit returns; so have the adjacency entries the loop went through. -/
theorem run_closed {adj : Nat → List fasta_t} {chimeric : Nat → Bool}
    {st : dfs_state} {n : Nat} {m : Option (List fasta_t)} {st' : dfs_state}
    (h : Run adj chimeric st n m st') :
    (∀ v, st.color v = false → st'.color v = true →
      ∀ e ∈ adj v, chimeric e.s2 = false → st'.color e.s2 = true) ∧
    (∀ es, m = some es → ∀ e ∈ es, chimeric e.s2 = false → st'.color e.s2 = true) := by
  induction h with
  | visit st n st' h1 ih =>
    refine ⟨?_, by intro es h; cases h⟩
    intro v hv hv' e he hch
    by_cases hvn : v = n
    · subst hvn; exact ih.2 _ rfl e he hch
    · exact ih.1 v (by simpa [store_other _ _ _ _ hvn] using hv) hv' e he hch
  | done st n =>
    refine ⟨?_, ?_⟩
    · intro v hv hv'; rw [hv] at hv'; cases hv'
    · intro es h e he; cases h; cases he
  | skip st n e es st' hc _ ih =>
    refine ⟨ih.1, ?_⟩
    intro es' h e' he' hch
    cases h
    rcases List.mem_cons.mp he' with he' | he'
    · subst he'; rw [hc] at hch; cases hch
    · exact ih.2 _ rfl e' he' hch
  | tree st n e es st1 st' _ _ h1 h2 ih1 ih2 =>
    refine ⟨?_, ?_⟩
    · intro v hv hv' e' he' hch
      cases hv1 : st1.color v with
      | false => exact ih2.1 v hv1 hv' e' he' hch
      | true => exact run_mono h2 _ (ih1.1 v hv hv1 e' he' hch)
    · intro es' h e' he' hch
      cases h
      rcases List.mem_cons.mp he' with he' | he'
      · subst he'
        have hc1 : st1.color e'.s2 = true := run_color_self h1
        exact run_mono h2 _ hc1
      · exact ih2.2 _ rfl e' he' hch
  | back st n e es st' _ hcol h1 ih =>
    refine ⟨ih.1, ?_⟩
    intro es' h e' he' hch
    cases h
    rcases List.mem_cons.mp he' with he' | he'
    · subst he'; exact run_mono h1 _ hcol
    · exact ih.2 _ rfl e' he' hch

/-- Every node coloured by a visit of the non-chimeric node `n` is joined to `n`. -/
theorem run_reach {adj : Nat → List fasta_t} {chimeric : Nat → Bool}
    {st : dfs_state} {n : Nat} {m : Option (List fasta_t)} {st' : dfs_state}
    (h : Run adj chimeric st n m st') :
    chimeric n = false → (∀ es, m = some es → ∀ e ∈ es, e ∈ adj n) →
    ∀ v, st.color v = false → st'.color v = true → Joined adj chimeric n v := by
  induction h with
  | visit st n st' h1 ih =>
    intro hn _ v hv hv'
    by_cases hvn : v = n
    · subst hvn; exact Relation.ReflTransGen.refl
    · exact ih hn (by intro es h e he; cases h; exact he) v
        (by simpa [store_other _ _ _ _ hvn] using hv) hv'
  | done st n => intro _ _ v hv hv'; rw [hv] at hv'; cases hv'
  | skip st n e es st' _ _ ih =>
    intro hn hes
    exact ih hn (by intro es' h e' he'; cases h; exact hes _ rfl e' (List.mem_cons_of_mem _ he'))
  | tree st n e es st1 st' hch _ _ _ ih1 ih2 =>
    intro hn hes v hv hv'
    cases hv1 : st1.color v with
    | false =>
      exact ih2 hn (by intro es' h e' he'; cases h; exact hes _ rfl e' (List.mem_cons_of_mem _ he'))
        v hv1 hv'
    | true =>
      have hstep : Linked adj chimeric n e.s2 :=
        ⟨hn, hch, e, hes _ rfl e (List.mem_cons_self _ _), rfl⟩
      exact Relation.ReflTransGen.head hstep
        (ih1 hch (by intro es' h; cases h) v hv hv1)
  | back st n e es st' _ _ _ ih =>
    intro hn hes
    exact ih hn (by intro es' h e' he'; cases h; exact hes _ rfl e' (List.mem_cons_of_mem _ he'))

theorem linked_symm {adj : Nat → List fasta_t} {chimeric : Nat → Bool} {n_seq : Nat}
    (hr : ∀ u, u < n_seq → ∀ e ∈ adj u, e.s2 < n_seq) (hs : SymmetricAdj n_seq adj)
    {u w : Nat} (hu : u < n_seq) (h : Linked adj chimeric u w) :
    Linked adj chimeric w u := by
  obtain ⟨h1, h2, e, he, hew⟩ := h
  have hw : w < n_seq := hew ▸ hr u hu e he
  exact ⟨h2, h1, (hs u w hu hw).mp ⟨e, he, hew⟩⟩

theorem linked_range {adj : Nat → List fasta_t} {chimeric : Nat → Bool} {n_seq : Nat}
    (hr : ∀ u, u < n_seq → ∀ e ∈ adj u, e.s2 < n_seq)
    {u w : Nat} (hu : u < n_seq) (h : Linked adj chimeric u w) : w < n_seq := by
  obtain ⟨_, _, e, he, hew⟩ := h
  exact hew ▸ hr u hu e he

theorem joined_symm {adj : Nat → List fasta_t} {chimeric : Nat → Bool} {n_seq : Nat}
    (hr : ∀ u, u < n_seq → ∀ e ∈ adj u, e.s2 < n_seq) (hs : SymmetricAdj n_seq adj)
    {u w : Nat} (hu : u < n_seq) (h : Joined adj chimeric u w) :
    Joined adj chimeric w u := by
  induction h with
  | refl => exact Relation.ReflTransGen.refl
  | tail hab hbc ih =>
    rename_i b c
    have hb : b < n_seq := by
      clear ih hbc
      induction hab with
      | refl => exact hu
      | tail _ h2 ih2 => exact linked_range hr ih2 h2
    exact Relation.ReflTransGen.head (linked_symm hr hs hb hbc) ih

theorem connInv_step {adj : Nat → List fasta_t} {chimeric : Nat → Bool} {n_seq : Nat}
    (hr : ∀ u, u < n_seq → ∀ e ∈ adj u, e.s2 < n_seq) (hs : SymmetricAdj n_seq adj)
    (st : dfs_state) (comps : List (List Nat)) (i : Nat) (st1 : dfs_state)
    (hP : ConnInv n_seq adj chimeric st comps) (hi : i < n_seq)
    (hc : st.color i = false) (hch : chimeric i = false)
    (hrun : Run adj chimeric { st with component := [] } i none st1) :
    ConnInv n_seq adj chimeric st1 (comps ++ [st1.component]) := by
  obtain ⟨p1, p2, p3, p4⟩ := hP
  obtain ⟨new, hnew, _, hmem⟩ := run_component hrun (fun _ => hc)
  simp only [List.nil_append] at hnew
  have hrange : ∀ v, st1.color v = true → v < n_seq := by
    intro v hv
    cases hv0 : st.color v with
    | false => exact run_range hr hrun hi (by intro es h; cases h) v hv0 hv
    | true => exact p2 v hv0
  refine ⟨partInv_step st comps i st1 p1 hc hch hrun, hrange, ?_, ?_⟩
  · intro c hcm x hx y hxy
    rcases List.mem_append.mp hcm with hcm | hcm
    · exact p3 c hcm x hx y hxy
    · have hceq : c = new := by rw [← hnew]; simpa using hcm
      subst hceq
      obtain ⟨hx0, hx1⟩ := (hmem x).mp hx
      simp only [] at hx0
      obtain ⟨_, hy_ch, e, he, hey⟩ := hxy
      have hy1 : st1.color y = true := hey ▸ (run_closed hrun).1 x hx0 hx1 e he (hey ▸ hy_ch)
      apply (hmem y).mpr
      refine ⟨?_, hy1⟩
      simp only []
      cases hy0 : st.color y with
      | false => rfl
      | true =>
        exfalso
        obtain ⟨c', hc', hyc'⟩ := List.mem_flatten.mp ((p1.1 y).mp hy0)
        have hyx : Linked adj chimeric y x :=
          linked_symm hr hs (hrange x hx1) ⟨‹chimeric x = false›, hy_ch, e, he, hey⟩
        have hxc' : x ∈ c' := p3 c' hc' y hyc' x hyx
        have : st.color x = true := (p1.1 x).mpr (List.mem_flatten.mpr ⟨c', hc', hxc'⟩)
        rw [this] at hx0; cases hx0
  · intro c hcm x hx y hy
    rcases List.mem_append.mp hcm with hcm | hcm
    · exact p4 c hcm x hx y hy
    · have hceq : c = new := by rw [← hnew]; simpa using hcm
      subst hceq
      obtain ⟨hx0, hx1⟩ := (hmem x).mp hx
      obtain ⟨hy0, hy1⟩ := (hmem y).mp hy
      have jx := run_reach hrun hch (by intro es h; cases h) x hx0 hx1
      have jy := run_reach hrun hch (by intro es h; cases h) y hy0 hy1
      exact (joined_symm hr hs hi jx).trans jy

end DfsCluster

/-- C2. For every symmetric adjacency input with targets below `n_seq`,
`connected_components` returns, and two non-chimeric ids below `n_seq` lie in a
common component iff they are joined by a path of adjacency edges all of whose
nodes are non-chimeric. -/
theorem DfsCluster.connected_components_connectivity (n_seq : Nat)
    (adj : Nat → List DfsCluster.fasta_t) (chimeric : Nat → Bool)
    (hr : ∀ u, u < n_seq → ∀ e ∈ adj u, e.s2 < n_seq)
    (hs : DfsCluster.SymmetricAdj n_seq adj) :
    ∃ r, DfsCluster.connected_components n_seq adj chimeric = some r ∧
      ∀ u v, u < n_seq → v < n_seq → chimeric u = false → chimeric v = false →
        ((∃ c ∈ r.components, u ∈ c ∧ v ∈ c) ↔ DfsCluster.Joined adj chimeric u v) := by
  obtain ⟨st, comps, ap, na, _, _, h3, ⟨⟨p1, _, _⟩, _, p3, p4⟩, h5⟩ :=
    @DfsCluster.connected_components_spec adj chimeric n_seq hr
      (DfsCluster.ConnInv n_seq adj chimeric)
      ⟨⟨(by intro v; simp [DfsCluster.dfs_init]), (by simp),
          (by intro v h; simp [DfsCluster.dfs_init] at h)⟩,
        (by intro v h; simp [DfsCluster.dfs_init] at h),
        (by intro c hc; cases hc), (by intro c hc; cases hc)⟩
      (fun s c i s1 hp hi hc hch hrun =>
        DfsCluster.connInv_step hr hs s c i s1 hp hi hc hch hrun)
  refine ⟨_, h3, ?_⟩
  intro u v hu hv hcu hcv
  clear hv hcv
  constructor
  · rintro ⟨c, hc, huc, hvc⟩
    exact p4 c hc u huc v hvc
  · intro hj
    have hcol : st.color u = true := by
      rcases h5 u hu with h | h
      · exact h
      · rw [hcu] at h; cases h
    obtain ⟨c, hc, huc⟩ := List.mem_flatten.mp ((p1 u).mp hcol)
    refine ⟨c, hc, huc, ?_⟩
    induction hj with
    | refl => exact huc
    | tail _ hbc ih => exact p3 c hc _ ih _ hbc

/-- Witness for C2: the path 0 - 1 - 2 with an isolated node 3. -/
theorem DfsCluster.connected_components_connectivity_witness :
    ∃ r, DfsCluster.connected_components 4
        (DfsCluster.adj_of [[(1, 80)], [(0, 80), (2, 90)], [(1, 90)], []])
        (DfsCluster.chimeric_of []) = some r ∧
      ∀ u v, u < 4 → v < 4 → DfsCluster.chimeric_of [] u = false →
        DfsCluster.chimeric_of [] v = false →
        ((∃ c ∈ r.components, u ∈ c ∧ v ∈ c) ↔
          DfsCluster.Joined (DfsCluster.adj_of [[(1, 80)], [(0, 80), (2, 90)], [(1, 90)], []])
            (DfsCluster.chimeric_of []) u v) :=
  DfsCluster.connected_components_connectivity 4 _ _
    (by intro u hu; interval_cases u <;> simp [DfsCluster.adj_of])
    (by
      intro u v hu hv
      interval_cases u <;> interval_cases v <;> simp [DfsCluster.adj_of])

/-! ## format_lookup.c -/

namespace FormatLookup

theorem lk_store_same {α : Type} (a : Nat → α) (i : Nat) (v : α) : store a i v i = v := by
  simp [store]

theorem lk_store_other {α : Type} (a : Nat → α) (i j : Nat) (v : α) (h : j ≠ i) :
    store a i v j = a j := by
  simp [store, h]

theorem mask_of_eq (w : Nat) (hw : w ≤ 15) : mask_of w + 1 = 2 ^ (w * 2) := by
  have h1 : 2 ^ (w * 2) < 4294967296 := by
    calc 2 ^ (w * 2) ≤ 2 ^ 30 := Nat.pow_le_pow_right (by norm_num) (by omega)
      _ < 4294967296 := by norm_num
  have h0 : 0 < 2 ^ (w * 2) := Nat.pow_pos (by norm_num)
  unfold mask_of u32
  rw [Nat.one_shiftLeft, Nat.mod_eq_of_lt h1]
  omega

theorem next_word_le (w : Nat) (hw1 : 1 ≤ w) (hw : w ≤ 15) (seq : Nat → Nat)
    (hs : ∀ j, seq j < 4) (word j : Nat) : next_word (mask_of w) seq word j ≤ mask_of w := by
  have hm := mask_of_eq w hw
  have h4 : (4 : Nat) ≤ 2 ^ (w * 2) := by
    calc (4 : Nat) = 2 ^ 2 := by norm_num
      _ ≤ 2 ^ (w * 2) := Nat.pow_le_pow_right (by norm_num) (by omega)
  have h1 : u32 (word <<< 2) &&& mask_of w < 2 ^ (w * 2) :=
    Nat.and_lt_two_pow _ (by omega)
  have h2 : seq j < 2 ^ (w * 2) := lt_of_lt_of_le (hs j) h4
  have := Nat.or_lt_two_pow h1 h2
  unfold next_word
  omega

theorem first_word_lt (seq : Nat → Nat) (hs : ∀ j, seq j < 4) :
    ∀ (k j word a : Nat), a + k ≤ 15 → word < 2 ^ (a * 2) →
      first_word seq k j word < 2 ^ ((a + k) * 2) := by
  intro k
  induction k with
  | zero => intro j word a _ h; simpa [first_word] using h
  | succ k ih =>
    intro j word a hak h
    rw [first_word]
    have hb : 2 ^ (a * 2) * 4 = 2 ^ ((a + 1) * 2) := by
      rw [Nat.add_mul, Nat.pow_add]
    have hlt : word * 4 < 2 ^ ((a + 1) * 2) := by
      rw [← hb]; exact Nat.mul_lt_mul_of_pos_right h (by norm_num)
    have h32 : 2 ^ ((a + 1) * 2) ≤ 4294967296 := by
      calc 2 ^ ((a + 1) * 2) ≤ 2 ^ 32 := Nat.pow_le_pow_right (by norm_num) (by omega)
        _ = 4294967296 := by norm_num
    have hsh : u32 (word <<< 2) = word * 4 := by
      unfold u32
      rw [Nat.shiftLeft_eq]
      exact Nat.mod_eq_of_lt (by norm_num; omega)
    have h4 : (4 : Nat) ≤ 2 ^ ((a + 1) * 2) := by
      calc (4 : Nat) = 2 ^ 2 := by norm_num
        _ ≤ 2 ^ ((a + 1) * 2) := Nat.pow_le_pow_right (by norm_num) (by omega)
    have hor : u32 (word <<< 2) ||| seq j < 2 ^ ((a + 1) * 2) := by
      rw [hsh]
      exact Nat.or_lt_two_pow hlt (lt_of_lt_of_le (hs j) h4)
    have := ih (j + 1) _ (a + 1) (by omega) hor
    rw [show a + (k + 1) = a + 1 + k by omega]
    exact this

theorem first_word_le (w : Nat) (hw : w ≤ 15) (seq : Nat → Nat) (hs : ∀ j, seq j < 4) :
    first_word seq w 0 0 ≤ mask_of w := by
  have := first_word_lt seq hs w 0 0 0 (by omega) (by norm_num)
  have hm := mask_of_eq w hw
  simp only [Nat.zero_add] at this
  omega

theorem sum_n_words_store (mask : Nat) (f : Nat → Nat) (i : Nat) (hi : i ≤ mask) :
    sum_n_words mask (store f i (f i + 1)) = sum_n_words mask f + 1 := by
  unfold sum_n_words
  have key : ∀ n, ((List.range n).map (store f i (f i + 1))).sum =
      ((List.range n).map f).sum + (if i < n then 1 else 0) := by
    intro n
    induction n with
    | zero => simp
    | succ n ih =>
      rw [List.range_succ, List.map_append, List.map_append, List.sum_append,
        List.sum_append, ih]
      simp only [List.map_cons, List.map_nil, List.sum_cons, List.sum_nil, Nat.add_zero]
      by_cases h1 : i < n
      · have : n ≠ i := by omega
        rw [lk_store_other _ _ _ _ this, if_pos h1, if_pos (by omega)]
        omega
      · by_cases h2 : i = n
        · subst h2
          rw [lk_store_same, if_neg h1, if_pos (by omega)]
          omega
        · have : n ≠ i := fun h => h2 h.symm
          rw [lk_store_other _ _ _ _ this, if_neg h1, if_neg (by omega)]
          omega
  rw [key (mask + 1), if_pos (by omega)]

theorem count_words_sum (w : Nat) (hw1 : 1 ≤ w) (hw : w ≤ 15) (seq : Nat → Nat)
    (hs : ∀ j, seq j < 4) :
    ∀ (k j word : Nat) (n_words : Nat → Nat) (total : Nat),
      sum_n_words (mask_of w) n_words = total →
      sum_n_words (mask_of w) (count_words (mask_of w) seq k j word n_words total).1 =
        (count_words (mask_of w) seq k j word n_words total).2 := by
  intro k
  induction k with
  | zero => intro j word n_words total h; simpa [count_words] using h
  | succ k ih =>
    intro j word n_words total h
    rw [count_words]
    apply ih
    rw [sum_n_words_store _ _ _ (next_word_le w hw1 hw seq hs word j), h]

theorem fread_lt (seq : Nat → Nat) (hs : ∀ j, seq j < 4) (data : List Nat)
    (hd : ∀ b ∈ data, b < 4) : ∀ j, fread seq data j < 4 := by
  intro j
  unfold fread
  by_cases h : j < data.length
  · rw [if_pos h, List.getD_eq_getElem _ _ h]
    exact hd _ (List.getElem_mem h)
  · rw [if_neg h]; exact hs j


theorem count_seq_inv (w : Nat) (hw1 : 1 ≤ w) (hw : w ≤ 15) (fo : Bool) (seq_id : Nat)
    (data : List Nat) (hd : ∀ b ∈ data, b < 4) (st : count_state) (h : CountInv w st) :
    CountInv w (count_seq w (mask_of w) fo seq_id data st) := by
  obtain ⟨h1, h2⟩ := h
  have hf := fread_lt st.seq h2 data hd
  unfold count_seq
  simp only []
  split
  · exact ⟨h1, hf⟩
  · refine ⟨?_, hf⟩
    apply count_words_sum w hw1 hw _ hf
    rw [sum_n_words_store _ _ _ (first_word_le w hw _ hf), h1]

theorem count_loop_inv (w : Nat) (hw1 : 1 ≤ w) (hw : w ≤ 15) (limit : Nat) (fo : Bool) :
    ∀ (rest : List (List Nat)) (seq_id : Nat) (st : count_state),
      (∀ s ∈ rest, ∀ b ∈ s, b < 4) → CountInv w st →
      CountInv w (count_loop w (mask_of w) limit fo rest seq_id st).1 := by
  intro rest
  induction rest with
  | nil => intro seq_id st _ h; simpa [count_loop] using h
  | cons data rest ih =>
    intro seq_id st hd h
    rw [count_loop]
    split
    · exact ih _ _ (fun s hs => hd s (List.mem_cons_of_mem _ hs))
        (count_seq_inv w hw1 hw fo seq_id data (hd data (List.mem_cons_self _ _)) st h)
    · exact h

theorem count_pass_sum (seqs : List (List Nat)) (mem : Int) (w : Nat) (hw1 : 1 ≤ w)
    (hw : w ≤ 15) (fo : Bool) (start_seq : Nat) (hb : ∀ s ∈ seqs, ∀ b ∈ s, b < 4) :
    sum_n_words (mask_of w) (count_pass seqs mem w fo start_seq).1.n_words =
      (count_pass seqs mem w fo start_seq).1.total := by
  unfold count_pass
  refine (count_loop_inv w hw1 hw _ fo _ _ _ ?_ ?_).1
  · intro s hs
    exact hb s (List.mem_of_mem_drop hs)
  · refine ⟨?_, fun _ => by norm_num⟩
    unfold sum_n_words
    simp

theorem censor_sum (mask : Nat) (cens : Nat → Nat → Bool) (total : Nat) (f : Nat → Nat) :
    sum_n_words mask (censor mask cens total f) + censored_total mask cens total f =
      sum_n_words mask f := by
  unfold sum_n_words censored_total
  rw [← List.sum_map_add]
  congr 1
  apply List.map_congr_left
  intro word hword
  have hle : word ≤ mask := by
    have := List.mem_range.mp hword
    omega
  unfold censor
  by_cases hc : cens (f word) total = true
  · rw [if_pos ⟨hle, hc⟩, if_pos hc]; omega
  · rw [if_neg (fun h => hc h.2), if_neg hc]; omega

theorem create_loop_mem (seqs : List (List Nat)) (mem : Int) (w : Nat) (fo : Bool)
    (cens : Nat → Nat → Bool) :
    ∀ (fuel i tn : Nat) (shards : List shard),
      create_loop seqs mem w fo cens fuel i tn = some shards →
      ∀ sh ∈ shards,
        sh.n_words = (build_lookuptable seqs mem w fo cens sh.start).n_words ∧
        sh.table_size = (build_lookuptable seqs mem w fo cens sh.start).total ∧
        sh.lookup_data = (build_lookuptable seqs mem w fo cens sh.start).lookup_data := by
  intro fuel
  induction fuel with
  | zero =>
    intro i tn shards h sh hsh
    rw [create_loop] at h
    split at h
    · cases h
    · cases h; cases hsh
  | succ fuel ih =>
    intro i tn shards h sh hsh
    rw [create_loop] at h
    split at h
    · simp only [] at h
      split at h
      · cases h
      · rename_i rest hrest
        cases h
        rcases List.mem_cons.mp hsh with hsh | hsh
        · subst hsh; exact ⟨rfl, rfl, rfl⟩
        · exact ih _ _ rest hrest sh hsh
    · cases h; cases hsh

end FormatLookup

/-- C7 (as amended). For every shard written by `create_lookup_tables` (2-bit
codes, word size 1..15, any censoring test): the stored counts `n_words` over all
`4^w` word codes plus the occurrences of the censored words add up to the
total-postings value of the header; so the stored counts never exceed that value
and equal it when no word is censored. -/
theorem FormatLookup.shard_counts_total (seqs : List (List Nat)) (mem_coresize : Int)
    (wordsize : Nat) (forward_only : Bool) (cens : Nat → Nat → Bool)
    (hw1 : 1 ≤ wordsize) (hw : wordsize ≤ 15) (hb : ∀ s ∈ seqs, ∀ b ∈ s, b < 4)
    (shards : List FormatLookup.shard)
    (h : FormatLookup.create_lookup_tables seqs mem_coresize wordsize forward_only cens
      = some shards) :
    ∀ sh ∈ shards,
      FormatLookup.sum_n_words (FormatLookup.mask_of wordsize) sh.n_words +
        FormatLookup.censored_total (FormatLookup.mask_of wordsize) cens sh.table_size
          (FormatLookup.count_pass seqs mem_coresize wordsize forward_only sh.start).1.n_words
        = sh.table_size := by
  intro sh hsh
  obtain ⟨h1, h2, _⟩ := FormatLookup.create_loop_mem seqs mem_coresize wordsize forward_only
    cens _ _ _ shards h sh hsh
  have hs := FormatLookup.count_pass_sum seqs mem_coresize wordsize hw1 hw forward_only
    sh.start hb
  have hc := FormatLookup.censor_sum (FormatLookup.mask_of wordsize) cens
    (FormatLookup.count_pass seqs mem_coresize wordsize forward_only sh.start).1.total
    (FormatLookup.count_pass seqs mem_coresize wordsize forward_only sh.start).1.n_words
  rw [h1, h2]
  simp only [FormatLookup.build_lookuptable]
  rw [hc, hs]

/-- Witness for C7 (as amended): one sequence of ten A's, word size 3, the exact
censoring test; the word AAA is censored. -/
theorem FormatLookup.shard_counts_total_witness :
    ∃ shards, FormatLookup.create_lookup_tables [[0, 0, 0, 0, 0, 0, 0, 0, 0, 0]] 1 3 false
        (FormatLookup.censor_exact (FormatLookup.mask_of 3)) = some shards ∧
      ∀ sh ∈ shards,
        FormatLookup.sum_n_words (FormatLookup.mask_of 3) sh.n_words +
          FormatLookup.censored_total (FormatLookup.mask_of 3)
            (FormatLookup.censor_exact (FormatLookup.mask_of 3)) sh.table_size
            (FormatLookup.count_pass [[0, 0, 0, 0, 0, 0, 0, 0, 0, 0]] 1 3 false
              sh.start).1.n_words
          = sh.table_size := by
  have hs : (FormatLookup.create_lookup_tables [[0, 0, 0, 0, 0, 0, 0, 0, 0, 0]] 1 3 false
      (FormatLookup.censor_exact (FormatLookup.mask_of 3))).isSome = true := by decide
  obtain ⟨shards, h⟩ := Option.isSome_iff_exists.mp hs
  exact ⟨shards, h, FormatLookup.shard_counts_total _ _ _ _ _ (by decide) (by decide)
    (by decide) shards h⟩

/-- Counterexample to C7 as stated: one sequence of ten A's with word size 3.  The
eight occurrences of AAA are censored, so the single shard written stores counts
that add up to 0 while its header says 8 postings. -/
theorem FormatLookup.shard_counts_total_counterexample :
    (FormatLookup.create_lookup_tables [[0, 0, 0, 0, 0, 0, 0, 0, 0, 0]] 1 3 false
        (FormatLookup.censor_exact (FormatLookup.mask_of 3))).map
      (fun shards => shards.map (fun sh =>
        (FormatLookup.sum_n_words (FormatLookup.mask_of 3) sh.n_words, sh.table_size)))
    = some [(0, 8)] := by
  decide

/-- C6, the code at a failing input: the sequence ACGT (id 0) with word size 2, no
word censored.  The window at start 1 (CG, code 6) is stored with `seq_pos = 0` and
the window at start 2 (GT, code 11) with `seq_pos = 1`: the postings `(0, 1)` for CG
and `(0, 2)` for GT that the claim asks for are not in the table. -/
theorem FormatLookup.build_lookuptable_seq_pos_off_by_one :
    FormatLookup.postings
        (FormatLookup.build_lookuptable [[0, 1, 2, 3]] 1 2 false
          (FormatLookup.censor_exact (FormatLookup.mask_of 2)) 0).n_words
        (FormatLookup.build_lookuptable [[0, 1, 2, 3]] 1 2 false
          (FormatLookup.censor_exact (FormatLookup.mask_of 2)) 0).lookup_data 6
      = [some { seq_id := 0, seq_pos := 0 }] ∧
    FormatLookup.postings
        (FormatLookup.build_lookuptable [[0, 1, 2, 3]] 1 2 false
          (FormatLookup.censor_exact (FormatLookup.mask_of 2)) 0).n_words
        (FormatLookup.build_lookuptable [[0, 1, 2, 3]] 1 2 false
          (FormatLookup.censor_exact (FormatLookup.mask_of 2)) 0).lookup_data 11
      = [some { seq_id := 0, seq_pos := 1 }] ∧
    FormatLookup.postings
        (FormatLookup.build_lookuptable [[0, 0, 0]] 1 2 false
          (FormatLookup.censor_exact (FormatLookup.mask_of 2)) 0).n_words
        (FormatLookup.build_lookuptable [[0, 0, 0]] 1 2 false
          (FormatLookup.censor_exact (FormatLookup.mask_of 2)) 0).lookup_data 0
      = [some { seq_id := 0, seq_pos := 0 }, some { seq_id := 0, seq_pos := 0 }] := by
  decide

/-- C8, the code at a failing input: the sequence AAC followed by fourteen A's
(id 0) with word size 3.  AAA (code 0) occurs 12 times out of 15 and is censored,
its count becomes 0; but the filling pass still writes its occurrences, from the
cell where the postings of AAC (code 1) start.  The posting ranges of the three
uncensored words AAC, ACA (code 4), CAA (code 16) end up holding occurrences of
AAA (`seq_pos` 2, 3, 4) in place of their own (`seq_pos` 0, 0, 1). -/
theorem FormatLookup.build_lookuptable_censored_postings_written :
    (FormatLookup.build_lookuptable [[0, 0, 1, 0, 0, 0, 0, 0, 0, 0, 0, 0, 0, 0, 0, 0, 0]] 1 3
        false (FormatLookup.censor_exact (FormatLookup.mask_of 3)) 0).n_words 0 = 0 ∧
    (FormatLookup.count_pass [[0, 0, 1, 0, 0, 0, 0, 0, 0, 0, 0, 0, 0, 0, 0, 0, 0]] 1 3
        false 0).1.n_words 0 = 12 ∧
    [1, 4, 16].map (FormatLookup.postings
        (FormatLookup.build_lookuptable [[0, 0, 1, 0, 0, 0, 0, 0, 0, 0, 0, 0, 0, 0, 0, 0, 0]] 1 3
          false (FormatLookup.censor_exact (FormatLookup.mask_of 3)) 0).n_words
        (FormatLookup.build_lookuptable [[0, 0, 1, 0, 0, 0, 0, 0, 0, 0, 0, 0, 0, 0, 0, 0, 0]] 1 3
          false (FormatLookup.censor_exact (FormatLookup.mask_of 3)) 0).lookup_data)
      = [[some { seq_id := 0, seq_pos := 2 }], [some { seq_id := 0, seq_pos := 3 }],
         [some { seq_id := 0, seq_pos := 4 }]] := by
  decide

namespace FormatLookup

theorem limit_of_pos (mem : Int) (h1 : 1 ≤ mem) (h2 : mem < 4096) : 0 < limit_of mem := by
  unfold limit_of u32 sizeof_word_t
  simp only []
  omega

theorem count_loop_end (w mask limit : Nat) (fo : Bool) :
    ∀ (rest : List (List Nat)) (seq_id : Nat) (st : count_state),
      seq_id ≤ (count_loop w mask limit fo rest seq_id st).2 ∧
      (count_loop w mask limit fo rest seq_id st).2 ≤ seq_id + rest.length ∧
      (rest ≠ [] → u32 st.total < limit →
        seq_id + 1 ≤ (count_loop w mask limit fo rest seq_id st).2) := by
  intro rest
  induction rest with
  | nil => intro seq_id st; simp [count_loop]
  | cons data rest ih =>
    intro seq_id st
    rw [count_loop]
    by_cases h : u32 st.total < limit
    · rw [if_pos h]
      obtain ⟨a, b, _⟩ := ih (seq_id + 1) (count_seq w mask fo seq_id data st)
      refine ⟨by omega, by simp only [List.length_cons]; omega, fun _ _ => a⟩
    · rw [if_neg h]
      refine ⟨le_refl _, by simp, fun _ h' => absurd h' h⟩

theorem build_end (seqs : List (List Nat)) (mem : Int) (w : Nat) (fo : Bool)
    (cens : Nat → Nat → Bool) (i : Nat) (hi : i < seqs.length)
    (hn : seqs.length < 4294967296) (hl : 0 < limit_of mem) :
    i + 1 ≤ (build_lookuptable seqs mem w fo cens i).end_seq ∧
    (build_lookuptable seqs mem w fo cens i).end_seq ≤ seqs.length ∧
    u32 (i + (build_lookuptable seqs mem w fo cens i).ret) + 1 =
      (build_lookuptable seqs mem w fo cens i).end_seq ∧
    u32 (i + u32 ((build_lookuptable seqs mem w fo cens i).ret + 1)) =
      (build_lookuptable seqs mem w fo cens i).end_seq := by
  obtain ⟨_, b, c⟩ := count_loop_end w (mask_of w) (limit_of mem) fo (seqs.drop i) i
    { n_words := fun _ => 0, total := 0, seq := fun _ => 0 }
  have hne : seqs.drop i ≠ [] := by
    intro h
    have := congrArg List.length h
    simp only [List.length_drop, List.length_nil] at this
    omega
  have c' := c hne (by simpa [u32] using hl)
  rw [List.length_drop] at b
  simp only [build_lookuptable, count_pass]
  generalize (count_loop w (mask_of w) (limit_of mem) fo (seqs.drop i) i
    { n_words := fun _ => 0, total := 0, seq := fun _ => 0 }).2 = e at b c'
  unfold u32
  refine ⟨c', by omega, ?_, ?_⟩ <;> omega

theorem create_loop_covers (seqs : List (List Nat)) (mem : Int) (w : Nat) (fo : Bool)
    (cens : Nat → Nat → Bool) (hn : seqs.length < 4294967296) (hl : 0 < limit_of mem) :
    ∀ (fuel i tn : Nat), i ≤ seqs.length → seqs.length - i ≤ fuel →
      ∃ shards, create_loop seqs mem w fo cens fuel i tn = some shards ∧
        Covers seqs.length i shards ∧ (i < seqs.length → shards ≠ []) := by
  intro fuel
  induction fuel with
  | zero =>
    intro i tn hi hf
    have : i = seqs.length := by omega
    refine ⟨[], ?_, this, fun h => absurd h (by omega)⟩
    rw [create_loop, if_neg (by omega)]
  | succ fuel ih =>
    intro i tn hi hf
    rw [create_loop]
    by_cases hlt : i < seqs.length
    · rw [if_pos hlt]
      obtain ⟨e1, e2, e3, e4⟩ := build_end seqs mem w fo cens i hlt hn hl
      simp only []
      rw [e4]
      obtain ⟨rest, hr, hc, _⟩ := ih (build_lookuptable seqs mem w fo cens i).end_seq
        (tn + 1) e2 (by omega)
      rw [hr]
      refine ⟨_, rfl, ?_, fun _ => List.cons_ne_nil _ _⟩
      refine ⟨rfl, ?_, ?_⟩
      · simp only []; omega
      · simp only []; rw [e3]; exact hc
    · rw [if_neg hlt]
      exact ⟨[], rfl, by unfold Covers; omega, fun h => absurd h hlt⟩

end FormatLookup

/-- C9 (as amended). For every database with `1 ≤ n_seq < 2^32` and every memory
budget from 1 to 4095 MB, `create_lookup_tables` returns a non-empty list of shards
that tile the ids `0 .. n_seq-1`: the first shard starts at id 0, each later shard
starts at the previous shard's stored (inclusive) end + 1, every shard has
`start ≤ stop`, and the last shard's stored end + 1 is `n_seq`. -/
theorem FormatLookup.create_lookup_tables_covers (seqs : List (List Nat))
    (mem_coresize : Int) (wordsize : Nat) (forward_only : Bool) (cens : Nat → Nat → Bool)
    (hn1 : 1 ≤ seqs.length) (hn : seqs.length < 4294967296)
    (hm1 : 1 ≤ mem_coresize) (hm2 : mem_coresize < 4096) :
    ∃ shards, FormatLookup.create_lookup_tables seqs mem_coresize wordsize forward_only cens
        = some shards ∧
      shards ≠ [] ∧ FormatLookup.Covers seqs.length 0 shards := by
  obtain ⟨shards, h1, h2, h3⟩ := FormatLookup.create_loop_covers seqs mem_coresize wordsize
    forward_only cens hn (FormatLookup.limit_of_pos mem_coresize hm1 hm2) seqs.length 0 0
    (Nat.zero_le _) (by omega)
  exact ⟨shards, h1, h3 (by omega), h2⟩

/-- Witness for C9 (as amended): three sequences, budget 1 MB, word size 2. -/
theorem FormatLookup.create_lookup_tables_covers_witness :
    ∃ shards, FormatLookup.create_lookup_tables [[0, 1, 2, 3], [1, 1, 1, 1, 1], [2, 2, 2]] 1 2
        false (FormatLookup.censor_exact (FormatLookup.mask_of 2)) = some shards ∧
      shards ≠ [] ∧ FormatLookup.Covers 3 0 shards :=
  FormatLookup.create_lookup_tables_covers [[0, 1, 2, 3], [1, 1, 1, 1, 1], [2, 2, 2]] 1 2 false
    (FormatLookup.censor_exact (FormatLookup.mask_of 2)) (by decide) (by decide) (by decide)
    (by decide)

/-- Counterexample to C9 as stated: a budget of 4096 MB.  `4096*1024*1024` wraps to 0
in the 32-bit `int`, so `limit = 0`, the counting loop reads no sequence
(`end_seq = start_seq = 0`), `build_lookuptable` returns `0 - 0 - 1 = 4294967295`, the
shard is written with stored end `4294967295` and holds no id, and
`i += n + 1` leaves `i = 0`: the loop never ends. -/
theorem FormatLookup.create_lookup_tables_covers_counterexample :
    FormatLookup.limit_of 4096 = 0 ∧
    (FormatLookup.build_lookuptable [[0, 1, 2, 3]] 4096 2 false
      (FormatLookup.censor_exact (FormatLookup.mask_of 2)) 0).end_seq = 0 ∧
    (FormatLookup.build_lookuptable [[0, 1, 2, 3]] 4096 2 false
      (FormatLookup.censor_exact (FormatLookup.mask_of 2)) 0).ret = 4294967295 ∧
    FormatLookup.u32 (0 + FormatLookup.u32
      ((FormatLookup.build_lookuptable [[0, 1, 2, 3]] 4096 2 false
        (FormatLookup.censor_exact (FormatLookup.mask_of 2)) 0).ret + 1)) = 0 ∧
    (FormatLookup.create_lookup_tables [[0, 1, 2, 3]] 4096 2 false
      (FormatLookup.censor_exact (FormatLookup.mask_of 2))).isNone = true := by
  decide

/-! ## scan_sequences.c -/

namespace ScanSequences

theorem reverse_complement_eq (seq : List Nat) :
    reverse_complement seq = seq.reverse.map (fun c => c ^^^ 3) := by
  apply List.ext_getElem
  · simp [reverse_complement]
  · intro i hi1 hi2
    simp only [reverse_complement, List.length_map, List.length_range] at hi1
    simp only [reverse_complement, List.getElem_map, List.getElem_range,
      List.getElem_reverse]
    rw [List.getD_eq_getElem _ _ (by omega)]
    congr 2
    omega

end ScanSequences

/-- C15. `reverse_complement` yields the reversed array with every code XORed with
3, and applying it twice gives the original array back. -/
theorem ScanSequences.reverse_complement_involutive (seq : List Nat) :
    ScanSequences.reverse_complement seq = seq.reverse.map (fun c => c ^^^ 3) ∧
    ScanSequences.reverse_complement (ScanSequences.reverse_complement seq) = seq := by
  refine ⟨ScanSequences.reverse_complement_eq seq, ?_⟩
  rw [ScanSequences.reverse_complement_eq, ScanSequences.reverse_complement_eq,
    ← List.map_reverse, List.reverse_reverse, List.map_map]
  have : ((fun c : Nat => c ^^^ 3) ∘ fun c => c ^^^ 3) = id := by
    funext c
    simp [Nat.xor_assoc]
  rw [this, List.map_id]

/-- C18, the code at a failing input: the sequences ACGT (id 0) and G (id 1, length
1) with word size 2.  For the short sequence the builder still forms a word from
`seq[0..2)`, that is G followed by the stale C of the previous read, and stores
the posting `(1, 0)` under GC (code 9): `seq_pos + w = 2` exceeds the length 1. -/
theorem FormatLookup.build_lookuptable_short_sequence_posting :
    FormatLookup.postings
        (FormatLookup.build_lookuptable [[0, 1, 2, 3], [2]] 1 2 false
          (FormatLookup.censor_exact (FormatLookup.mask_of 2)) 0).n_words
        (FormatLookup.build_lookuptable [[0, 1, 2, 3], [2]] 1 2 false
          (FormatLookup.censor_exact (FormatLookup.mask_of 2)) 0).lookup_data 9
      = [some { seq_id := 1, seq_pos := 0 }] ∧
    ¬ (0 + 2 ≤ [2].length) := by
  decide

/-- C19, the code at a failing input (any shard; here ACGT with word size 2): the
header written has six 4-byte fields, so the postings of word 0 start at byte
`24 + 8 * 16 = 152` of the file, but `start_pos[0]` is computed with
`5*sizeof(uint)` and is 148; every `start_pos` is 4 bytes short. -/
theorem FormatLookup.start_pos_four_bytes_short :
    (FormatLookup.create_lookup_tables [[0, 1, 2, 3]] 1 2 false
        (FormatLookup.censor_exact (FormatLookup.mask_of 2))).map
      (fun shards => shards.map (fun sh =>
        ([0, 1, 6, 11].map sh.start_pos,
         [0, 1, 6, 11].map (FormatLookup.posting_offset 0 2 sh))))
    = some [([148, 148, 156, 164], [152, 152, 160, 168])] := by
  decide

set_option maxRecDepth 1000000 in
/-- C20, the code at a failing input: word size 2, a query of length 1 (the letter
A, the rest of the read buffer holding zeros) against a shard in which target 0
has 38 postings of the word AA.  The word AA is formed from `seq[0..2)` and looked
up, and 38 word hits are produced; no report comes out of them. -/
theorem ScanSequences.find_wordmatches_short_query_hits :
    (ScanSequences.find_wordmatches
        { wordsize := 2, mask := 15, ltable_start := 0, ltable_end := 1,
          lookup := fun word =>
            if word = 0 then (List.range 38).map (fun k => { seq_id := 0, seq_pos := k })
            else [] }
        (ScanSequences.buffer_of [0]) 0 1).map List.length = some 38 ∧
    ScanSequences.fasta_scan
        { wordsize := 2, mask := 15, ltable_start := 0, ltable_end := 1,
          lookup := fun word =>
            if word = 0 then (List.range 38).map (fun k => { seq_id := 0, seq_pos := k })
            else [] }
        (ScanSequences.buffer_of [0]) 0 1 = some [] := by
  decide

/-- C17, the code at a failing input: the lowercase word `acgtacgta` gets -1, its
uppercase spelling `ACGTACGTA` the key 27756. -/
theorem KaBackup.dna_to_int_lowercase_rejected :
    KaBackup.dna_to_int ([65, 67, 71, 84, 65, 67, 71, 84, 65].map KaBackup.lower) = -1 ∧
    KaBackup.dna_to_int [65, 67, 71, 84, 65, 67, 71, 84, 65] = 27756 := by
  decide

/-! ## ka-backup-before-lookup-table-mods.c -/

namespace KaBackup

theorem dna_loop_valid (l : List Nat) :
    ∀ (pre : List Nat) (key : Nat), (∀ c ∈ l, IsACGT c) →
      dna_to_int_loop (pre ++ l) l.length pre.length (key : Int) =
        ((l.foldl (fun acc c => acc * 4 + digit c) key : Nat) : Int) := by
  induction l with
  | nil => intro pre key _; simp [dna_to_int_loop]
  | cons c l ih =>
    intro pre key hv
    have hc : IsACGT c := hv c (List.mem_cons_self _ _)
    have hl : ∀ c' ∈ l, IsACGT c' := fun c' h => hv c' (List.mem_cons_of_mem _ h)
    have hget : (pre ++ c :: l).getD pre.length 0 = c := by
      rw [List.getD_eq_getElem _ _ (by simp)]
      simp [List.getElem_append_right]
    have hpre : pre ++ c :: l = (pre ++ [c]) ++ l := by simp
    have hlen : pre.length + 1 = (pre ++ [c]).length := by simp
    simp only [List.length_cons, dna_to_int_loop, hget, List.foldl_cons]
    rcases hc with h | h | h | h <;> subst h <;> simp only [digit] <;> norm_num <;>
      rw [hpre, hlen]
    · have := ih (pre ++ [65]) (key * 4) hl
      simpa using this
    · have := ih (pre ++ [67]) (key * 4 + 1) hl
      simpa using this
    · have := ih (pre ++ [71]) (key * 4 + 2) hl
      simpa using this
    · have := ih (pre ++ [84]) (key * 4 + 3) hl
      simpa using this

theorem dna_loop_invalid (w : List Nat) :
    ∀ (k i : Nat) (key : Int), (∃ j, j < k ∧ ¬ IsACGT (w.getD (i + j) 0)) →
      dna_to_int_loop w k i key = -1 := by
  intro k
  induction k with
  | zero => rintro i key ⟨j, hj, _⟩; omega
  | succ k ih =>
    rintro i key ⟨j, hj, hbad⟩
    rw [dna_to_int_loop]
    by_cases h0 : IsACGT (w.getD i 0)
    · have hj0 : j ≠ 0 := by
        intro h; subst h; exact hbad (by simpa using h0)
      have hnext : ∃ j', j' < k ∧ ¬ IsACGT (w.getD (i + 1 + j') 0) :=
        ⟨j - 1, by omega, by
          have : i + 1 + (j - 1) = i + j := by omega
          rw [this]; exact hbad⟩
      split
      · exact ih _ _ hnext
      · split
        · exact ih _ _ hnext
        · split
          · exact ih _ _ hnext
          · split
            · exact ih _ _ hnext
            · rfl
    · unfold IsACGT at h0
      push_neg at h0
      rw [if_neg h0.1, if_neg h0.2.1, if_neg h0.2.2.1, if_neg h0.2.2.2]

theorem base4_lt (l : List Nat) :
    ∀ (acc n : Nat), acc < 4 ^ n →
      l.foldl (fun acc c => acc * 4 + digit c) acc < 4 ^ (n + l.length) := by
  induction l with
  | nil => intro acc n h; simpa using h
  | cons c l ih =>
    intro acc n h
    have hd : digit c < 4 := by
      unfold digit; split <;> [norm_num; (split <;> [norm_num; (split <;> norm_num)])]
    have : acc * 4 + digit c < 4 ^ (n + 1) := by
      rw [pow_succ]; omega
    have := ih (acc * 4 + digit c) (n + 1) this
    simp only [List.foldl_cons, List.length_cons]
    rw [show n + (l.length + 1) = n + 1 + l.length by omega]
    exact this

theorem letter_digit (c : Nat) (h : IsACGT c) : letter (digit c) = c := by
  rcases h with h | h | h | h <;> subst h <;> decide

theorem digit_lt (c : Nat) : digit c < 4 := by
  unfold digit; split <;> [norm_num; (split <;> [norm_num; (split <;> norm_num)])]

theorem int_to_dna_base4 (l : List Nat) :
    (∀ c ∈ l, IsACGT c) → int_to_dna l.length (base4 l) = l := by
  induction l using List.reverseRecOn with
  | nil => intro _; rfl
  | append_singleton l c ih =>
    intro hv
    have hl : ∀ c' ∈ l, IsACGT c' := fun c' h => hv c' (List.mem_append_left _ h)
    have hc : IsACGT c := hv c (by simp)
    have hb : base4 (l ++ [c]) = base4 l * 4 + digit c := by
      simp [base4, List.foldl_append]
    have hd := digit_lt c
    rw [List.length_append, List.length_singleton, int_to_dna, hb]
    have h1 : (base4 l * 4 + digit c) / 4 = base4 l := by omega
    have h2 : (base4 l * 4 + digit c) % 4 = digit c := by omega
    rw [h1, h2, ih hl, letter_digit c hc]

theorem dna_to_int_valid (word : List Nat) (hlen : word.length = 9)
    (hv : ∀ c ∈ word, IsACGT c) : dna_to_int word = (base4 word : Int) := by
  have := dna_loop_valid word [] 0 hv
  simp only [List.nil_append, List.length_nil, hlen] at this
  unfold dna_to_int WORDSIZE base4
  simpa using this

end KaBackup

/-- C16. For every 9-letter word: if all letters are uppercase A/C/G/T, the key
`dna_to_int` returns is the base-4 number with digits A=0, C=1, G=2, T=3 (first
letter most significant), it lies in `[0, 4^9)`, the word is recovered from it,
and another such word with the same key is the same word; and the result is -1
exactly when one of the 9 letters is not A/C/G/T. -/
theorem KaBackup.dna_to_int_key (word : List Nat) (hlen : word.length = 9) :
    ((∀ c ∈ word, KaBackup.IsACGT c) →
      KaBackup.dna_to_int word = (KaBackup.base4 word : Int) ∧
      KaBackup.base4 word < 4 ^ 9 ∧
      KaBackup.int_to_dna 9 (KaBackup.base4 word) = word ∧
      ∀ word2 : List Nat, word2.length = 9 → (∀ c ∈ word2, KaBackup.IsACGT c) →
        KaBackup.dna_to_int word2 = KaBackup.dna_to_int word → word2 = word) ∧
    (KaBackup.dna_to_int word = -1 ↔ ∃ c ∈ word, ¬ KaBackup.IsACGT c) := by
  have hrec : ∀ w : List Nat, w.length = 9 → (∀ c ∈ w, KaBackup.IsACGT c) →
      KaBackup.int_to_dna 9 (KaBackup.base4 w) = w := by
    intro w hw hv
    have := KaBackup.int_to_dna_base4 w hv
    rwa [hw] at this
  refine ⟨?_, ?_⟩
  · intro hv
    refine ⟨KaBackup.dna_to_int_valid word hlen hv, ?_, hrec word hlen hv, ?_⟩
    · have := KaBackup.base4_lt word 0 0 (by norm_num)
      simpa [hlen, KaBackup.base4] using this
    · intro word2 hlen2 hv2 heq
      rw [KaBackup.dna_to_int_valid word hlen hv, KaBackup.dna_to_int_valid word2 hlen2 hv2]
        at heq
      have heq' : KaBackup.base4 word2 = KaBackup.base4 word := by exact_mod_cast heq
      rw [← hrec word2 hlen2 hv2, ← hrec word hlen hv, heq']
  · constructor
    · intro h
      by_contra hne
      push_neg at hne
      rw [KaBackup.dna_to_int_valid word hlen hne] at h
      omega
    · rintro ⟨c, hc, hbad⟩
      obtain ⟨j, hj, hjc⟩ := List.getElem_of_mem hc
      apply KaBackup.dna_loop_invalid
      refine ⟨j, by unfold KaBackup.WORDSIZE; omega, ?_⟩
      rw [Nat.zero_add, List.getD_eq_getElem _ _ hj, hjc]
      exact hbad

/-- Witness for C16: the word ACGTACGTA. -/
theorem KaBackup.dna_to_int_key_witness :
    ((∀ c ∈ [65, 67, 71, 84, 65, 67, 71, 84, 65], KaBackup.IsACGT c) →
      KaBackup.dna_to_int [65, 67, 71, 84, 65, 67, 71, 84, 65] =
        (KaBackup.base4 [65, 67, 71, 84, 65, 67, 71, 84, 65] : Int) ∧
      KaBackup.base4 [65, 67, 71, 84, 65, 67, 71, 84, 65] < 4 ^ 9 ∧
      KaBackup.int_to_dna 9 (KaBackup.base4 [65, 67, 71, 84, 65, 67, 71, 84, 65]) =
        [65, 67, 71, 84, 65, 67, 71, 84, 65] ∧
      ∀ word2 : List Nat, word2.length = 9 → (∀ c ∈ word2, KaBackup.IsACGT c) →
        KaBackup.dna_to_int word2 = KaBackup.dna_to_int [65, 67, 71, 84, 65, 67, 71, 84, 65] →
        word2 = [65, 67, 71, 84, 65, 67, 71, 84, 65]) ∧
    (KaBackup.dna_to_int [65, 67, 71, 84, 65, 67, 71, 84, 65] = -1 ↔
      ∃ c ∈ [65, 67, 71, 84, 65, 67, 71, 84, 65], ¬ KaBackup.IsACGT c) :=
  KaBackup.dna_to_int_key [65, 67, 71, 84, 65, 67, 71, 84, 65] (by decide)

namespace ScanSequences

/-- What the inner loop of `combine_hits` finds: the cells it accepts form a chain
after `prev`, the last accepted cell sits at `pos = h.pos + d - 1 + n` on the
target and diagonal of `h`, and the first cell not accepted does not continue
it. -/
theorem run_length_spec (h : wordhit_t) :
    ∀ (rest : List wordhit_t) (d : Int) (prev : wordhit_t),
      prev.db_seq = h.db_seq → prev.di = h.di → prev.pos = h.pos + d - 1 →
      run_length h d rest ≤ rest.length ∧
      List.Chain Continues prev (rest.take (run_length h d rest)) ∧
      ((rest.take (run_length h d rest)).getLastD prev).db_seq = h.db_seq ∧
      ((rest.take (run_length h d rest)).getLastD prev).di = h.di ∧
      ((rest.take (run_length h d rest)).getLastD prev).pos =
        h.pos + d - 1 + (run_length h d rest : Int) ∧
      ∀ x, (rest.drop (run_length h d rest)).head? = some x →
        ¬ Continues ((rest.take (run_length h d rest)).getLastD prev) x := by
  intro rest
  induction rest with
  | nil =>
    intro d prev h1 h2 h3
    simp [run_length, h1, h2, h3]
  | cons x rest ih =>
    intro d prev h1 h2 h3
    rw [run_length]
    by_cases hc : h.db_seq = x.db_seq ∧ h.di = x.di ∧ x.pos - h.pos = d
    · rw [if_pos hc]
      obtain ⟨c1, c2, c3⟩ := hc
      obtain ⟨a, b, c, e, f, g⟩ := ih (d + 1) x c1.symm c2.symm (by omega)
      refine ⟨by simp only [List.length_cons]; omega, ?_, ?_, ?_, ?_, ?_⟩
      · rw [List.take_succ_cons]
        refine List.Chain.cons ⟨by rw [h1, c1], by rw [h2, c2], by omega⟩ b
      · rw [List.take_succ_cons, List.getLastD_cons]; exact c
      · rw [List.take_succ_cons, List.getLastD_cons]; exact e
      · rw [List.take_succ_cons, List.getLastD_cons, f]; push_cast; omega
      · intro y hy
        rw [List.take_succ_cons, List.getLastD_cons]
        rw [List.drop_succ_cons] at hy
        exact g y hy
    · rw [if_neg hc]
      refine ⟨Nat.zero_le _, by simp, by simpa using h1, by simpa using h2,
        by simp [h3], ?_⟩
      intro y hy
      simp only [List.drop_zero, List.head?_cons, Option.some.injEq] at hy
      subst hy
      simp only [List.take_zero, List.getLastD_nil]
      rintro ⟨q1, q2, q3⟩
      apply hc
      exact ⟨by rw [← h1, q1], by rw [← h2, q2], by omega⟩

theorem combine_hits_runs (wordsize : Nat) :
    ∀ (fuel : Nat) (hits : List wordhit_t), hits.length ≤ fuel →
      ∃ runs : List (List wordhit_t),
        hits = runs.flatten ∧ (∀ r ∈ runs, IsRun r) ∧
        List.Chain' (fun r1 r2 => ¬ Continues (r1.getLastD hit0) (r2.headD hit0)) runs ∧
        combine_hits wordsize fuel hits = runs.map (run_hit wordsize) := by
  intro fuel
  induction fuel with
  | zero =>
    intro hits hl
    have : hits = [] := List.length_eq_zero.mp (by omega)
    subst this
    exact ⟨[], rfl, by simp, List.chain'_nil, rfl⟩
  | succ fuel ih =>
    intro hits hl
    match hits, hl with
    | [], _ => exact ⟨[], rfl, by simp, List.chain'_nil, by simp [combine_hits]⟩
    | h :: rest, hl =>
      obtain ⟨a, b, c, e, f, g⟩ := run_length_spec h rest 1 h rfl rfl (by omega)
      obtain ⟨runs, r1, r2, r3, r4⟩ := ih (rest.drop (run_length h 1 rest)) (by
        simp only [List.length_drop, List.length_cons] at hl ⊢; omega)
      refine ⟨(h :: rest.take (run_length h 1 rest)) :: runs, ?_, ?_, ?_, ?_⟩
      · rw [List.flatten_cons, ← r1, List.cons_append, List.take_append_drop]
      · intro r hr
        rcases List.mem_cons.mp hr with hr | hr
        · subst hr; exact ⟨List.cons_ne_nil _ _, b⟩
        · exact r2 r hr
      · cases runs with
        | nil => exact List.chain'_singleton _
        | cons r' runs' =>
          refine List.chain'_cons.mpr ⟨?_, r3⟩
          have hr' : IsRun r' := r2 r' (List.mem_cons_self _ _)
          cases r' with
          | nil => exact absurd rfl hr'.1
          | cons y ys =>
            rw [List.getLastD_cons]
            simp only [List.headD_cons]
            apply g y
            rw [r1]; simp
      · rw [combine_hits, List.map_cons, r4]
        congr 1
        simp only [run_hit, List.headD_cons, List.getLastD_cons, f]
        congr 1
        push_cast
        omega

end ScanSequences

/-- C11. For every array of word hits (sorted or not), `combine_hits` cuts the array
into consecutive runs, each a maximal stretch of cells that share target and
diagonal and whose `pos` goes up by exactly 1 per cell (the cell after a run does
not continue it), and writes one hit per run, in order: the run's target,
diagonal and first `pos`, with `length = (last_pos - first_pos) + w`. -/
theorem ScanSequences.combine_hits_maximal_runs (wordsize : Nat)
    (hits : List ScanSequences.wordhit_t) :
    ∃ runs : List (List ScanSequences.wordhit_t),
      hits = runs.flatten ∧ (∀ r ∈ runs, ScanSequences.IsRun r) ∧
      List.Chain' (fun r1 r2 => ¬ ScanSequences.Continues
        (r1.getLastD ScanSequences.hit0) (r2.headD ScanSequences.hit0)) runs ∧
      ScanSequences.combine_hits wordsize hits.length hits =
        runs.map (ScanSequences.run_hit wordsize) :=
  ScanSequences.combine_hits_runs wordsize hits.length hits (le_refl _)

namespace ScanSequences

theorem ss_store_same {α : Type} (a : Nat → α) (i : Nat) (v : α) : store a i v i = v := by
  simp [store]

theorem ss_store_other {α : Type} (a : Nat → α) (i j : Nat) (v : α) (h : j ≠ i) :
    store a i v j = a j := by
  simp [store, h]

/-- The edge weights of the matrix are positive on the entries the code sets and 0
elsewhere. -/
theorem adjmatrix_cases (g : List wordhit_t) (k l : Nat) :
    (adjmatrix g k l = 0) ∨
    (1 ≤ k ∧ k ≤ g.length ∧ l = g.length + 1 ∧ adjmatrix g k l = 1) ∨
    (k = 0 ∧ 1 ≤ l ∧ l ≤ g.length ∧ adjmatrix g k l = 1) ∨
    (1 ≤ k ∧ k ≤ g.length ∧ 1 ≤ l ∧ l ≤ g.length ∧
      (aget g (k - 1)).pos < (aget g (l - 1)).pos ∧
      adjmatrix g k l = |(aget g (k - 1)).di - (aget g (l - 1)).di| +
        |(aget g (k - 1)).pos + (aget g (k - 1)).length - (aget g (l - 1)).pos| + 1) := by
  unfold adjmatrix
  by_cases h1 : 1 ≤ k ∧ k ≤ g.length ∧ l = g.length + 1
  · rw [if_pos h1]; exact Or.inr (Or.inl ⟨h1.1, h1.2.1, h1.2.2, rfl⟩)
  · rw [if_neg h1]
    by_cases h2 : k = 0 ∧ 1 ≤ l ∧ l ≤ g.length
    · rw [if_pos h2]; exact Or.inr (Or.inr (Or.inl ⟨h2.1, h2.2.1, h2.2.2, rfl⟩))
    · rw [if_neg h2]
      by_cases h3 : 1 ≤ k ∧ k ≤ g.length ∧ 1 ≤ l ∧ l ≤ g.length ∧
          (aget g (k - 1)).pos < (aget g (l - 1)).pos
      · rw [if_pos h3]
        exact Or.inr (Or.inr (Or.inr ⟨h3.1, h3.2.1, h3.2.2.1, h3.2.2.2.1, h3.2.2.2.2, rfl⟩))
      · rw [if_neg h3]; exact Or.inl rfl

/-- One relaxation step either leaves the state alone or raises the score of its
target `l` and points `pred[l]` at `k`. -/
theorem relax_cases (g : List wordhit_t) (k : Nat) (st : sssp_state) (l : Nat) :
    relax g k st l = st ∨
    ∃ s, st.score l < s ∧ adjmatrix g k l ≠ 0 ∧
      (s = if 0 < l ∧ l < g.length + 1 then
          st.score k - adjmatrix g k l + (aget g (l - 1)).length else st.score k) ∧
      relax g k st l = { pred := store st.pred l (k : Int), score := store st.score l s } := by
  unfold relax
  by_cases h : adjmatrix g k l ≠ 0
  · rw [if_pos h]
    simp only []
    by_cases hs : st.score l < (if 0 < l ∧ l < g.length + 1 then
        st.score k - adjmatrix g k l + (aget g (l - 1)).length else st.score k)
    · rw [if_pos hs]; exact Or.inr ⟨_, hs, h, rfl, rfl⟩
    · rw [if_neg hs]; exact Or.inl rfl
  · rw [if_neg h]; exact Or.inl rfl

theorem dpinv_relax (g : List wordhit_t) (k l : Nat) (st : sssp_state)
    (h : DPInv g st) : DPInv g (relax g k st l) := by
  rcases relax_cases g k st l with he | ⟨s, hs, hadj, hsdef, he⟩
  · rw [he]; exact h
  rw [he]
  rcases adjmatrix_cases g k l with h0 | ⟨k1, k2, l1, _⟩ | ⟨k0, l1, l2, hv⟩ |
      ⟨k1, k2, l1, l2, hpos, hv⟩
  · exact absurd h0 hadj
  · -- hit node into the sink
    have hl : ¬ (0 < l ∧ l < g.length + 1) := by omega
    rw [if_neg hl] at hsdef
    subst l1
    refine ⟨?_, ?_, ?_, ?_⟩
    · simp only []; rw [ss_store_other _ _ _ _ (by omega)]; exact h.src
    · intro l' a b
      simp only []
      rw [ss_store_other _ _ _ _ (by omega), ss_store_other _ _ _ _ (by omega)]
      rcases h.hitn l' a b with c | ⟨k', c1, c2, c3, c4, c5⟩
      · exact Or.inl c
      · refine Or.inr ⟨k', c1, c2, c3, c4, ?_⟩
        rw [ss_store_other _ _ _ _ (by omega)]; exact c5
    · intro l' a b
      simp only []
      rw [ss_store_other _ _ _ _ (by omega)]; exact h.low l' a b
    · right
      refine ⟨k, k1, k2, ?_, ?_⟩
      · simp only []; rw [ss_store_same]
      · simp only []; rw [ss_store_same, ss_store_other _ _ _ _ (by omega), hsdef]
  · -- the source into a hit node never improves on the first pass
    have hl : 0 < l ∧ l < g.length + 1 := by omega
    rw [if_pos hl, hv] at hsdef
    subst k0
    have := h.low l l1 l2
    rw [h.src] at hsdef
    omega
  · -- hit node into hit node
    have hl : 0 < l ∧ l < g.length + 1 := by omega
    rw [if_pos hl] at hsdef
    have hkl : k ≠ l := by
      intro hkl; subst hkl; omega
    refine ⟨?_, ?_, ?_, ?_⟩
    · simp only []; rw [ss_store_other _ _ _ _ (by omega)]; exact h.src
    · intro l' a b
      simp only []
      by_cases hl' : l' = l
      · subst hl'
        rw [ss_store_same, ss_store_same]
        right
        refine ⟨k, k1, k2, rfl, hpos, ?_⟩
        rw [ss_store_other _ _ _ _ hkl, hsdef]
      · rw [ss_store_other _ _ _ _ hl', ss_store_other _ _ _ _ hl']
        rcases h.hitn l' a b with c | ⟨k', c1, c2, c3, c4, c5⟩
        · exact Or.inl c
        · refine Or.inr ⟨k', c1, c2, c3, c4, ?_⟩
          by_cases hk' : k' = l
          · subst hk'
            rw [ss_store_same]; omega
          · rw [ss_store_other _ _ _ _ hk']; exact c5
    · intro l' a b
      simp only []
      by_cases hl' : l' = l
      · subst hl'
        rw [ss_store_same]
        have := h.low l' a b
        omega
      · rw [ss_store_other _ _ _ _ hl']; exact h.low l' a b
    · simp only []
      rw [ss_store_other _ _ _ _ (by omega), ss_store_other _ _ _ _ (by omega)]
      rcases h.sink with c | ⟨k', c1, c2, c3, c4⟩
      · exact Or.inl c
      · refine Or.inr ⟨k', c1, c2, c3, ?_⟩
        by_cases hk' : k' = l
        · subst hk'
          rw [ss_store_same]; omega
        · rw [ss_store_other _ _ _ _ hk']; exact c4

theorem foldl_inv {α β : Type} (P : α → Prop) (f : α → β → α)
    (hf : ∀ a b, P a → P (f a b)) : ∀ (l : List β) (a : α), P a → P (l.foldl f a) := by
  intro l
  induction l with
  | nil => intro a h; exact h
  | cons b l ih => intro a h; exact ih _ (hf a b h)

theorem foldl_range_head {α : Type} (f : α → Nat → α) (a : α) (n : Nat) :
    (List.range (n + 2)).foldl f a = ((List.range (n + 1)).map Nat.succ).foldl f (f a 0) := by
  rw [show n + 2 = (n + 1) + 1 by omega, List.range_succ_eq_map, List.foldl_cons]

/-- The state after the source row: every hit node hangs off the source. -/
theorem source_row (g : List wordhit_t) (hlen : ∀ h ∈ g, 1 ≤ h.length) :
    ∀ j, j ≤ g.length + 2 →
      let st := (List.range j).foldl (relax g 0) sssp_init
      st.score 0 = 0 ∧
      (∀ l, 1 ≤ l → l ≤ g.length →
        (l < j → st.pred l = 0 ∧ st.score l = (aget g (l - 1)).length - 1) ∧
        (j ≤ l → st.score l = INT_MIN)) ∧
      st.score (g.length + 1) = INT_MIN := by
  intro j
  induction j with
  | zero =>
    intro _
    refine ⟨rfl, ?_, ?_⟩
    · intro l l1 _
      refine ⟨fun h => absurd h (by omega), fun _ => ?_⟩
      simp only [List.range_zero, List.foldl_nil, sssp_init]
      rw [if_neg (by omega)]
    · simp only [List.range_zero, List.foldl_nil, sssp_init]
      rw [if_neg (by omega)]
  | succ j ih =>
    intro hj
    obtain ⟨a, b, c⟩ := ih (by omega)
    simp only [List.range_succ, List.foldl_append, List.foldl_cons, List.foldl_nil]
    generalize (List.range j).foldl (relax g 0) sssp_init = st at a b c
    rcases relax_cases g 0 st j with he | ⟨s, hs, hadj, hsdef, he⟩
    · -- nothing happens: `j` is not a hit node
      rw [he]
      refine ⟨a, ?_, c⟩
      intro l l1 l2
      refine ⟨fun hlt => ?_, fun hle => (b l l1 l2).2 (by omega)⟩
      by_cases hlj : l = j
      · subst hlj
        exfalso
        have hadj1 : adjmatrix g 0 l = 1 := by
          unfold adjmatrix
          rw [if_neg (by omega), if_pos ⟨rfl, l1, l2⟩]
        have hsc := (b l l1 l2).2 (le_refl _)
        have hl1 : 1 ≤ (aget g (l - 1)).length := by
          apply hlen
          unfold aget
          rw [List.getD_eq_getElem _ _ (by omega)]
          exact List.getElem_mem _
        have : relax g 0 st l ≠ st := by
          unfold relax
          rw [if_pos (by rw [hadj1]; norm_num)]
          simp only []
          rw [if_pos (by omega : 0 < l ∧ l < g.length + 1), hadj1, a, hsc]
          rw [if_pos (by unfold INT_MIN; omega)]
          intro hcontra
          have := congrArg (fun s => s.score l) hcontra
          simp only [ss_store_same] at this
          rw [hsc] at this
          unfold INT_MIN at this
          omega
        exact this he
      · exact (b l l1 l2).1 (by omega)
    · rcases adjmatrix_cases g 0 j with h0 | ⟨k1, _⟩ | ⟨_, l1, l2, hv⟩ | ⟨k1, _⟩
      · exact absurd h0 hadj
      · omega
      · rw [he]
        rw [if_pos (by omega : 0 < j ∧ j < g.length + 1), hv, a] at hsdef
        refine ⟨?_, ?_, ?_⟩
        · simp only []; rw [ss_store_other _ _ _ _ (by omega)]; exact a
        · intro l l1' l2'
          simp only []
          by_cases hlj : l = j
          · subst hlj
            rw [ss_store_same, ss_store_same]
            refine ⟨fun _ => ⟨rfl, by omega⟩, fun h => absurd h (by omega)⟩
          · rw [ss_store_other _ _ _ _ hlj, ss_store_other _ _ _ _ hlj]
            exact ⟨fun h => (b l l1' l2').1 (by omega), fun h => (b l l1' l2').2 (by omega)⟩
        · simp only []; rw [ss_store_other _ _ _ _ (by omega)]; exact c
      · omega

/-- The invariant holds when `single_source_shortest_path` returns. -/
theorem dpinv_relax_all (g : List wordhit_t) (hlen : ∀ h ∈ g, 1 ≤ h.length) :
    DPInv g (relax_all g sssp_init) := by
  unfold relax_all
  rw [foldl_range_head]
  apply foldl_inv
  · intro st k hst
    exact foldl_inv _ _ (fun a b ha => dpinv_relax g k b a ha) _ _ hst
  · obtain ⟨a, b, c⟩ := source_row g hlen (g.length + 2) (le_refl _)
    refine ⟨a, ?_, ?_, Or.inl c⟩
    · intro l l1 l2
      exact Or.inl ((b l l1 l2).1 (by omega))
    · intro l l1 l2
      rw [((b l l1 l2).1 (by omega)).2]

end ScanSequences

namespace ScanSequences

theorem compare_gt_iff (a b : wordhit_t) : mergesort_compare a b = 1 ↔ key b < key a := by
  unfold mergesort_compare key
  rw [Prod.Lex.lt_iff]
  simp only []
  rw [Prod.Lex.lt_iff]
  simp only []
  split
  · constructor
    · intro h; omega
    · intro h; omega
  · split
    · constructor
      · intro _; left; omega
      · intro _; rfl
    · have hdb : a.db_seq = b.db_seq := by omega
      split
      · constructor
        · intro h; omega
        · intro h; omega
      · split
        · constructor
          · intro _; right; exact ⟨hdb.symm, Or.inl (by omega)⟩
          · intro _; rfl
        · have hdi : a.di = b.di := by omega
          split
          · constructor
            · intro h; omega
            · intro h; omega
          · split
            · constructor
              · intro _; right; exact ⟨hdb.symm, Or.inr ⟨hdi.symm, by omega⟩⟩
              · intro _; rfl
            · constructor
              · intro h; omega
              · intro h; omega

theorem compare_lt_iff (a b : wordhit_t) : mergesort_compare a b = -1 ↔ key a < key b := by
  unfold mergesort_compare key
  rw [Prod.Lex.lt_iff]
  simp only []
  rw [Prod.Lex.lt_iff]
  simp only []
  split
  · constructor
    · intro _; left; omega
    · intro _; rfl
  · split
    · constructor
      · intro h; omega
      · intro h; omega
    · have hdb : a.db_seq = b.db_seq := by omega
      split
      · constructor
        · intro _; right; exact ⟨hdb, Or.inl (by omega)⟩
        · intro _; rfl
      · split
        · constructor
          · intro h; omega
          · intro h; omega
        · have hdi : a.di = b.di := by omega
          split
          · constructor
            · intro _; right; exact ⟨hdb, Or.inr ⟨hdi, by omega⟩⟩
            · intro _; rfl
          · split
            · constructor
              · intro h; omega
              · intro h; omega
            · constructor
              · intro h; omega
              · intro h; omega

theorem length_swap (hits : List wordhit_t) (i j : Nat) :
    (swap hits i j).length = hits.length := by
  simp [swap]

theorem aget_swap (hits : List wordhit_t) (i j t : Nat) (hi : i < hits.length)
    (hj : j < hits.length) :
    aget (swap hits i j) t =
      if t = j then aget hits i else if t = i then aget hits j else aget hits t := by
  simp only [aget, swap, List.getD_eq_getElem?_getD, List.getElem?_set, List.length_set]
  by_cases h1 : t = j
  · subst h1; simp [hj]
  · by_cases h2 : t = i
    · subst h2
      have : ¬ j = t := fun h => h1 h.symm
      simp [this, hi, h1]
    · have a1 : ¬ j = t := fun h => h1 h.symm
      have a2 : ¬ i = t := fun h => h2 h.symm
      simp [a1, a2, h1, h2]

theorem swap_perm (hits : List wordhit_t) (i j : Nat) (hi : i < hits.length)
    (hj : j < hits.length) : (swap hits i j).Perm hits := by
  rw [List.perm_iff_count]
  intro b
  unfold swap
  rw [List.count_set _ _ _ _ (by simpa using hj), List.count_set _ _ _ _ hi]
  have e1 : ∀ (h : j < (hits.set i (aget hits j)).length),
      (hits.set i (aget hits j))[j] = hits[j] := by
    intro h
    rw [List.getElem_set]
    split
    · rename_i h; subst h
      unfold aget; rw [List.getD_eq_getElem _ _ hj]
    · rfl
  have e2 : aget hits j = hits[j] := by unfold aget; rw [List.getD_eq_getElem _ _ hj]
  have e3 : aget hits i = hits[i] := by unfold aget; rw [List.getD_eq_getElem _ _ hi]
  rw [e1, e2, e3]
  have b1 : (if (hits[i] == b) = true then 1 else 0) ≤ List.count b hits := by
    split
    · rename_i h
      have : hits[i] = b := by simpa using h
      rw [← this]
      exact List.count_pos_iff.mpr (List.getElem_mem _)
    · exact Nat.zero_le _
  omega

/-- The inner loop of the selection sort returns the index of a least cell of
`hits[i..n)`. -/
theorem sel_min_spec (gt : wordhit_t → wordhit_t → Bool) (le : wordhit_t → wordhit_t → Prop)
    (htot : ∀ a b, le a b ∨ le b a) (htrans : ∀ a b c, le a b → le b c → le a c)
    (hgt : ∀ a b, gt a b = true ↔ ¬ le a b) (hits : List wordhit_t) (i : Nat) :
    ∀ (k min j : Nat), i ≤ min → min < j → j + k = hits.length →
      (∀ b, i ≤ b → b < j → le (aget hits min) (aget hits b)) →
      i ≤ sel_min gt hits k min j ∧ sel_min gt hits k min j < hits.length ∧
      ∀ b, i ≤ b → b < hits.length →
        le (aget hits (sel_min gt hits k min j)) (aget hits b) := by
  intro k
  induction k with
  | zero =>
    intro min j h1 h2 h3 h4
    simp only [sel_min]
    exact ⟨h1, by omega, fun b hb1 hb2 => h4 b hb1 (by omega)⟩
  | succ k ih =>
    intro min j h1 h2 h3 h4
    rw [sel_min]
    by_cases hc : gt (aget hits min) (aget hits j) = true
    · rw [if_pos hc]
      have hnle := (hgt _ _).mp hc
      have hle : le (aget hits j) (aget hits min) := by
        rcases htot (aget hits j) (aget hits min) with h | h
        · exact h
        · exact absurd h hnle
      apply ih j (j + 1) (by omega) (by omega) (by omega)
      intro b hb1 hb2
      by_cases hbj : b = j
      · subst hbj
        rcases htot (aget hits b) (aget hits b) with h | h <;> exact h
      · exact htrans _ _ _ hle (h4 b hb1 (by omega))
    · rw [if_neg hc]
      have hle : le (aget hits min) (aget hits j) := by
        by_contra h
        exact hc ((hgt _ _).mpr h)
      apply ih min (j + 1) h1 (by omega) (by omega)
      intro b hb1 hb2
      by_cases hbj : b = j
      · subst hbj; exact hle
      · exact h4 b hb1 (by omega)

/-- The selection sort leaves a permutation in which every cell is `le` every later
cell. -/
theorem sel_sort_spec (gt : wordhit_t → wordhit_t → Bool) (le : wordhit_t → wordhit_t → Prop)
    (htot : ∀ a b, le a b ∨ le b a) (htrans : ∀ a b c, le a b → le b c → le a c)
    (hgt : ∀ a b, gt a b = true ↔ ¬ le a b) :
    ∀ (k i : Nat) (hits : List wordhit_t), i + k = hits.length →
      (∀ a b, a < i → a < b → b < hits.length → le (aget hits a) (aget hits b)) →
      (sel_sort gt k i hits).Perm hits ∧
      ∀ a b, a < b → b < hits.length →
        le (aget (sel_sort gt k i hits) a) (aget (sel_sort gt k i hits) b) := by
  intro k
  induction k with
  | zero =>
    intro i hits h1 h2
    simp only [sel_sort]
    exact ⟨List.Perm.refl _, fun a b hab hb => h2 a b (by omega) hab hb⟩
  | succ k ih =>
    intro i hits h1 h2
    rw [sel_sort]
    obtain ⟨m1, m2, m3⟩ := sel_min_spec gt le htot htrans hgt hits i k i (i + 1)
      (le_refl _) (by omega) (by omega) (by
        intro b hb1 hb2
        have : b = i := by omega
        subst this
        rcases htot (aget hits b) (aget hits b) with h | h <;> exact h)
    generalize sel_min gt hits k i (i + 1) = min at m1 m2 m3
    by_cases hmi : min = i
    · rw [if_neg (by simpa using hmi)]
      subst hmi
      apply ih (min + 1) hits (by omega)
      intro a b ha hab hb
      by_cases hai : a = min
      · subst hai; exact m3 b (by omega) hb
      · exact h2 a b (by omega) hab hb
    · rw [if_pos hmi]
      have hi : i < hits.length := by omega
      obtain ⟨p, q⟩ := ih (i + 1) (swap hits i min) (by rw [length_swap]; omega) (by
        intro a b ha hab hb
        rw [length_swap] at hb
        rw [aget_swap hits i min a hi m2, aget_swap hits i min b hi m2]
        by_cases hai : a = i
        · subst hai
          rw [if_neg (by omega), if_pos rfl]
          by_cases hbm : b = min
          · rw [if_pos hbm]; exact m3 a (le_refl _) hi
          · rw [if_neg hbm, if_neg (by omega)]; exact m3 b (by omega) hb
        · rw [if_neg (by omega), if_neg hai]
          by_cases hbm : b = min
          · rw [if_pos hbm]; exact h2 a i (by omega) (by omega) hi
          · rw [if_neg hbm]
            by_cases hbi : b = i
            · rw [if_pos hbi]; exact h2 a min (by omega) (by omega) m2
            · rw [if_neg hbi]; exact h2 a b (by omega) hab hb)
      refine ⟨p.trans (swap_perm hits i min hi m2), ?_⟩
      intro a b hab hb
      exact q a b hab (by rw [length_swap]; exact hb)

theorem pairwise_of_aget (le : wordhit_t → wordhit_t → Prop) (l : List wordhit_t)
    (h : ∀ a b, a < b → b < l.length → le (aget l a) (aget l b)) : l.Pairwise le := by
  rw [List.pairwise_iff_getElem]
  intro i j hi hj hij
  have := h i j hij hj
  unfold aget at this
  rwa [List.getD_eq_getElem _ _ hi, List.getD_eq_getElem _ _ hj] at this

/-- The selection sort on a whole sub-array: a sorted permutation. -/
theorem sel_sort_sorted (gt : wordhit_t → wordhit_t → Bool) (le : wordhit_t → wordhit_t → Prop)
    (htot : ∀ a b, le a b ∨ le b a) (htrans : ∀ a b c, le a b → le b c → le a c)
    (hgt : ∀ a b, gt a b = true ↔ ¬ le a b) (hits : List wordhit_t) :
    (sel_sort gt hits.length 0 hits).Perm hits ∧
    (sel_sort gt hits.length 0 hits).Pairwise le := by
  obtain ⟨p, q⟩ := sel_sort_spec gt le htot htrans hgt hits.length 0 hits (by omega)
    (by intro a b ha; omega)
  refine ⟨p, pairwise_of_aget le _ ?_⟩
  intro a b hab hb
  rw [p.length_eq] at hb
  exact q a b hab hb

end ScanSequences

namespace ScanSequences

theorem merge_halves_perm (tl : wordhit_t → wordhit_t → Bool) :
    ∀ (fuel : Nat) (l r : List wordhit_t), (merge_halves tl fuel l r).Perm (l ++ r) := by
  intro fuel
  induction fuel with
  | zero => intro l r; simp [merge_halves]
  | succ fuel ih =>
    intro l r
    match l, r with
    | [], r => simp [merge_halves]
    | a :: l, [] => simp [merge_halves]
    | a :: l, b :: r =>
      rw [merge_halves]
      split
      · exact List.Perm.cons a (ih l (b :: r))
      · refine (List.Perm.cons b (ih (a :: l) r)).trans ?_
        exact (@List.perm_middle _ b (a :: l) r).symm

theorem merge_halves_sorted (tl : wordhit_t → wordhit_t → Bool)
    (le : wordhit_t → wordhit_t → Prop) (htrans : ∀ a b c, le a b → le b c → le a c)
    (h1 : ∀ a b, tl a b = true → le a b) (h2 : ∀ a b, ¬ tl a b = true → le b a) :
    ∀ (fuel : Nat) (l r : List wordhit_t), l.length + r.length ≤ fuel →
      l.Pairwise le → r.Pairwise le → (merge_halves tl fuel l r).Pairwise le := by
  intro fuel
  induction fuel with
  | zero =>
    intro l r hlen hl hr
    have : l = [] := List.length_eq_zero.mp (by omega)
    subst this
    simpa [merge_halves] using hr
  | succ fuel ih =>
    intro l r hlen hl hr
    match l, r, hlen, hl, hr with
    | [], r, _, _, hr => simpa [merge_halves] using hr
    | a :: l, [], _, hl, _ => simpa [merge_halves] using hl
    | a :: l, b :: r, hlen, hl, hr =>
      rw [merge_halves]
      have hl' := List.pairwise_cons.mp hl
      have hr' := List.pairwise_cons.mp hr
      simp only [List.length_cons] at hlen
      by_cases hc : tl a b = true
      · rw [if_pos hc]
        refine List.pairwise_cons.mpr ⟨?_, ih l (b :: r) (by simp only [List.length_cons]; omega)
          hl'.2 hr⟩
        intro x hx
        rcases List.mem_append.mp ((merge_halves_perm tl fuel l (b :: r)).mem_iff.mp hx)
          with hx | hx
        · exact hl'.1 x hx
        · rcases List.mem_cons.mp hx with hx | hx
          · subst hx; exact h1 a x hc
          · exact htrans _ _ _ (h1 a b hc) (hr'.1 x hx)
      · rw [if_neg hc]
        refine List.pairwise_cons.mpr ⟨?_, ih (a :: l) r (by simp only [List.length_cons]; omega)
          hl hr'.2⟩
        intro x hx
        rcases List.mem_append.mp ((merge_halves_perm tl fuel (a :: l) r).mem_iff.mp hx)
          with hx | hx
        · rcases List.mem_cons.mp hx with hx | hx
          · subst hx; exact h2 x b hc
          · exact htrans _ _ _ (h2 a b hc) (hl'.1 x hx)
        · exact hr'.1 x hx

/-- `wordhit_mergesort_actual` returns a permutation of its input in
non-decreasing key order. -/
theorem wordhit_mergesort_actual_spec :
    ∀ (fuel : Nat) (hits : List wordhit_t), hits.length ≤ fuel →
      (wordhit_mergesort_actual fuel hits).Perm hits ∧
      (wordhit_mergesort_actual fuel hits).Pairwise (fun a b => key a ≤ key b) := by
  intro fuel
  induction fuel with
  | zero =>
    intro hits hlen
    have : hits = [] := List.length_eq_zero.mp (by omega)
    subst this
    simp [wordhit_mergesort_actual]
  | succ fuel ih =>
    intro hits hlen
    rw [wordhit_mergesort_actual]
    by_cases h7 : hits.length > 7
    · rw [if_pos h7]
      simp only []
      obtain ⟨p1, s1⟩ := ih (hits.take (hits.length / 2)) (by
        rw [List.length_take]; omega)
      obtain ⟨p2, s2⟩ := ih (hits.drop (hits.length / 2)) (by
        rw [List.length_drop]; omega)
      refine ⟨?_, ?_⟩
      · refine (merge_halves_perm _ _ _ _).trans ?_
        refine (List.Perm.append p1 p2).trans ?_
        rw [List.take_append_drop]
      · apply merge_halves_sorted _ (fun a b => key a ≤ key b)
          (fun a b c => le_trans)
        · intro a b h
          have := (compare_lt_iff a b).mp (by simpa using h)
          exact le_of_lt this
        · intro a b h
          have : ¬ key a < key b := fun hlt => h (by simpa using (compare_lt_iff a b).mpr hlt)
          exact not_lt.mp this
        · rw [p1.length_eq, p2.length_eq, List.length_take, List.length_drop]; omega
        · exact s1
        · exact s2
    · rw [if_neg h7]
      exact sel_sort_sorted _ (fun a b => key a ≤ key b) (fun a b => le_total _ _)
        (fun a b c => le_trans)
        (fun a b => by
          rw [decide_eq_true_iff, compare_gt_iff]
          exact not_le.symm) hits

theorem wordhit_mergesort_spec (hits : List wordhit_t) :
    (wordhit_mergesort hits).Perm hits ∧
    (wordhit_mergesort hits).Pairwise (fun a b => key a ≤ key b) :=
  wordhit_mergesort_actual_spec hits.length hits (le_refl _)

/-- The sorting step of `single_source_shortest_path` permutes the group. -/
theorem sort_bypos_perm (group : List wordhit_t) : (sort_bypos group).Perm group := by
  have hsel : (sel_sort (fun a b => decide (b.pos < a.pos)) group.length 0 group).Perm group :=
    (sel_sort_sorted _ (fun a b => a.pos ≤ b.pos) (fun a b => le_total _ _)
      (fun a b c => le_trans) (fun a b => by
        rw [decide_eq_true_iff]; exact not_le.symm) group).1
  unfold sort_bypos
  split
  · unfold mergesort_bypos_actual
    split
    · refine (merge_halves_perm _ _ _ _).trans ?_
      refine (List.Perm.append (wordhit_mergesort_actual_spec _ _ ?_).1
        (wordhit_mergesort_actual_spec _ _ ?_).1).trans ?_
      · rw [List.length_take]; omega
      · rw [List.length_drop]; omega
      · rw [List.take_append_drop]
    · exact hsel
  · exact hsel

/-- A group of at most ten hits leaves the sorting step in `pos` order. -/
theorem sort_bypos_sorted_small (group : List wordhit_t) (h : group.length ≤ 10) :
    (sort_bypos group).Pairwise (fun a b => a.pos ≤ b.pos) := by
  unfold sort_bypos
  rw [if_neg (by omega)]
  exact (sel_sort_sorted _ (fun a b => a.pos ≤ b.pos) (fun a b => le_total _ _)
    (fun a b c => le_trans) (fun a b => by
      rw [decide_eq_true_iff]; exact not_le.symm) group).2

end ScanSequences

namespace ScanSequences

/-- The arg-max loop returns the first index that holds the largest score. -/
theorem argmax_score_spec (score : Nat → Int) (n : Nat) (hn : 1 ≤ n) :
    argmax_score score n < n ∧ (∀ k, k < n → score k ≤ score (argmax_score score n)) ∧
    (∀ k, k < argmax_score score n → score k < score (argmax_score score n)) := by
  have key : ∀ j, (List.range j).foldl
        (fun max k => if score (k + 1) > score max then k + 1 else max) 0 ≤ j ∧
      (∀ k, k ≤ j → score k ≤ score ((List.range j).foldl
        (fun max k => if score (k + 1) > score max then k + 1 else max) 0)) ∧
      (∀ k, k < (List.range j).foldl
        (fun max k => if score (k + 1) > score max then k + 1 else max) 0 →
        score k < score ((List.range j).foldl
          (fun max k => if score (k + 1) > score max then k + 1 else max) 0)) := by
    intro j
    induction j with
    | zero =>
      simp only [List.range_zero, List.foldl_nil]
      refine ⟨le_refl _, ?_, ?_⟩
      · intro k hk
        have : k = 0 := by omega
        subst this; exact le_refl _
      · intro k hk; omega
    | succ j ih =>
      simp only [List.range_succ, List.foldl_append, List.foldl_cons, List.foldl_nil]
      generalize (List.range j).foldl
        (fun max k => if score (k + 1) > score max then k + 1 else max) 0 = r at ih
      obtain ⟨a, b, c⟩ := ih
      by_cases h : score (j + 1) > score r
      · rw [if_pos h]
        refine ⟨le_refl _, ?_, ?_⟩
        · intro k hk
          by_cases hkj : k = j + 1
          · subst hkj; exact le_refl _
          · have := b k (by omega)
            omega
        · intro k hk
          have := b k (by omega)
          omega
      · rw [if_neg h]
        refine ⟨by omega, ?_, c⟩
        intro k hk
        by_cases hkj : k = j + 1
        · subst hkj; omega
        · exact b k (by omega)
  obtain ⟨a, b, c⟩ := key (n - 1)
  unfold argmax_score
  exact ⟨by omega, fun k hk => b k (by omega), c⟩

theorem pos_rank_lt (g : List wordhit_t) (k l : Nat) (hk1 : 1 ≤ k) (hk2 : k ≤ g.length)
    (h : (aget g (k - 1)).pos < (aget g (l - 1)).pos) : pos_rank g k < pos_rank g l := by
  unfold pos_rank
  apply Finset.card_lt_card
  rw [Finset.ssubset_iff_of_subset]
  · refine ⟨k, ?_, ?_⟩
    · simp only [Finset.mem_filter, Finset.mem_range]
      exact ⟨by omega, hk1, h⟩
    · simp only [Finset.mem_filter, Finset.mem_range]
      intro hh
      omega
  · intro x
    simp only [Finset.mem_filter, Finset.mem_range]
    rintro ⟨x1, x2, x3⟩
    exact ⟨x1, x2, by omega⟩

theorem pos_rank_le (g : List wordhit_t) (l : Nat) : pos_rank g l ≤ g.length + 1 := by
  unfold pos_rank
  calc _ ≤ (Finset.range (g.length + 1)).card := Finset.card_filter_le _ _
    _ = g.length + 1 := Finset.card_range _

/-- The trace-back from a hit node ends; it ends at a hit node `f` of no higher
`pos`, whose `pos` and target position become `start` and `s_start`, and the
target span and the query span from there to the end of the hit it started from
exceed the score of that hit. -/
theorem trace_back_spec (g : List wordhit_t) (st : sssp_state) (hinv : DPInv g st)
    (hit : Int → wordhit_t)
    (hhit : ∀ k : Nat, 1 ≤ k → k ≤ g.length → hit (k : Int) = aget g (k - 1)) :
    ∀ (fuel l : Nat), 1 ≤ l → l ≤ g.length → pos_rank g l < fuel → ∀ t : trace_state,
      ∃ (t' : trace_state) (f : Nat),
        trace_back hit st.pred fuel (l : Int) t = some t' ∧ 1 ≤ f ∧ f ≤ g.length ∧
        t'.start = (aget g (f - 1)).pos ∧
        t'.s_start = (aget g (f - 1)).pos + (aget g (f - 1)).di ∧
        (aget g (f - 1)).pos ≤ (aget g (l - 1)).pos ∧
        st.score l + 1 ≤
          ((aget g (l - 1)).pos + (aget g (l - 1)).di + (aget g (l - 1)).length) -
            ((aget g (f - 1)).pos + (aget g (f - 1)).di) ∧
        st.score l + 1 ≤
          ((aget g (l - 1)).pos + (aget g (l - 1)).length) - (aget g (f - 1)).pos := by
  intro fuel
  induction fuel with
  | zero => intro l _ _ h; omega
  | succ fuel ih =>
    intro l l1 l2 hr t
    rw [trace_back]
    have hl0 : ¬ ((l : Int) = 0) := by omega
    rw [if_neg hl0]
    simp only [Int.toNat_ofNat, hhit l l1 l2]
    rcases hinv.hitn l l1 l2 with ⟨hp, hs⟩ | ⟨k, k1, k2, hp, hpos, hs⟩
    · rw [hp, if_pos rfl]
      refine ⟨{ (if (aget g (l - 1)).di < t.min_di then
            { t with min_di := (aget g (l - 1)).di }
          else if (aget g (l - 1)).di > t.max_di then { t with max_di := (aget g (l - 1)).di }
          else t) with
          start := (aget g (l - 1)).pos,
          s_start := (aget g (l - 1)).pos + (aget g (l - 1)).di },
        l, ?_, l1, l2, rfl, rfl, le_refl _, ?_, ?_⟩
      · cases fuel with
        | zero => simp [trace_back]
        | succ fuel => simp [trace_back]
      · rw [hs]; omega
      · rw [hs]; omega
    · rw [hp]
      have hk0 : ¬ ((k : Int) = 0) := by omega
      rw [if_neg hk0]
      have hrk := pos_rank_lt g k l k1 k2 hpos
      obtain ⟨t', f, e1, e2, e3, e4, e5, e6, e7, e8⟩ := ih k k1 k2 (by omega)
        (if (aget g (l - 1)).di < t.min_di then { t with min_di := (aget g (l - 1)).di }
          else if (aget g (l - 1)).di > t.max_di then { t with max_di := (aget g (l - 1)).di }
          else t)
      have hadj : adjmatrix g k l = |(aget g (k - 1)).di - (aget g (l - 1)).di| +
          |(aget g (k - 1)).pos + (aget g (k - 1)).length - (aget g (l - 1)).pos| + 1 := by
        unfold adjmatrix
        rw [if_neg (by omega), if_neg (by omega), if_pos ⟨k1, k2, l1, l2, hpos⟩]
      rw [hadj] at hs
      have a1 := le_abs_self ((aget g (k - 1)).di - (aget g (l - 1)).di)
      have a2 := le_abs_self
        ((aget g (k - 1)).pos + (aget g (k - 1)).length - (aget g (l - 1)).pos)
      have a3 := abs_nonneg ((aget g (k - 1)).di - (aget g (l - 1)).di)
      exact ⟨t', f, e1, e2, e3, e4, e5, by omega, by omega, by omega⟩

end ScanSequences

namespace ScanSequences

theorem aget_mem (g : List wordhit_t) (k : Nat) (hk : k < g.length) : aget g k ∈ g := by
  unfold aget
  rw [List.getD_eq_getElem _ _ hk]
  exact List.getElem_mem _

/-- What the body of the group loop does for a group of hits of length at least 1:
the arg-max holds the largest score; below the threshold nothing is reported;
from the threshold on the arg-max is a hit node `l`, the trace-back ends at a hit
node `f`, and the report carries the score and the spans from `f` to `l`. -/
theorem scan_group_spec (before after : wordhit_t) (group : List wordhit_t)
    (hlen : ∀ h ∈ group, 1 ≤ h.length) :
    (∀ k, k < (sort_bypos group).length + 2 →
      (relax_all (sort_bypos group) sssp_init).score k ≤
        (relax_all (sort_bypos group) sssp_init).score
          (argmax_score (relax_all (sort_bypos group) sssp_init).score
            ((sort_bypos group).length + 2))) ∧
    argmax_score (relax_all (sort_bypos group) sssp_init).score
      ((sort_bypos group).length + 2) < (sort_bypos group).length + 2 ∧
    (((relax_all (sort_bypos group) sssp_init).score
          (argmax_score (relax_all (sort_bypos group) sssp_init).score
            ((sort_bypos group).length + 2)) < SCORE_THRESHOLD ∧
        scan_group before after group = some none) ∨
     (SCORE_THRESHOLD ≤ (relax_all (sort_bypos group) sssp_init).score
          (argmax_score (relax_all (sort_bypos group) sssp_init).score
            ((sort_bypos group).length + 2)) ∧
      ∃ (l f : Nat) (mindi maxdi : Int),
        l = argmax_score (relax_all (sort_bypos group) sssp_init).score
          ((sort_bypos group).length + 2) ∧
        1 ≤ l ∧ l ≤ (sort_bypos group).length ∧ 1 ≤ f ∧ f ≤ (sort_bypos group).length ∧
        (aget (sort_bypos group) (f - 1)).pos ≤ (aget (sort_bypos group) (l - 1)).pos ∧
        (relax_all (sort_bypos group) sssp_init).score l + 1 ≤
          ((aget (sort_bypos group) (l - 1)).pos + (aget (sort_bypos group) (l - 1)).di +
              (aget (sort_bypos group) (l - 1)).length) -
            ((aget (sort_bypos group) (f - 1)).pos + (aget (sort_bypos group) (f - 1)).di) ∧
        (relax_all (sort_bypos group) sssp_init).score l + 1 ≤
          ((aget (sort_bypos group) (l - 1)).pos + (aget (sort_bypos group) (l - 1)).length) -
            (aget (sort_bypos group) (f - 1)).pos ∧
        scan_group before after group = some (some
          { db_seq := (aget (sort_bypos group) 0).db_seq, min_di := mindi, max_di := maxdi,
            score := (relax_all (sort_bypos group) sssp_init).score l,
            start := (aget (sort_bypos group) (f - 1)).pos,
            «end» := (aget (sort_bypos group) (l - 1)).pos +
              (aget (sort_bypos group) (l - 1)).length,
            s_start := (aget (sort_bypos group) (f - 1)).pos +
              (aget (sort_bypos group) (f - 1)).di,
            s_end := (aget (sort_bypos group) (l - 1)).pos +
              (aget (sort_bypos group) (l - 1)).di +
              (aget (sort_bypos group) (l - 1)).length }))) := by
  have hperm := sort_bypos_perm group
  generalize hg : sort_bypos group = g at hperm ⊢
  have hleng : ∀ h ∈ g, 1 ≤ h.length := fun h hh => hlen h (hperm.mem_iff.mp hh)
  have hinv := dpinv_relax_all g hleng
  obtain ⟨m1, m2, m3⟩ := argmax_score_spec (relax_all g sssp_init).score (g.length + 2)
    (by omega)
  refine ⟨m2, m1, ?_⟩
  unfold scan_group single_source_shortest_path
  simp only [hg]
  generalize hst : relax_all g sssp_init = st at hinv m1 m2 m3 ⊢
  generalize hmax : argmax_score st.score (g.length + 2) = max at m1 m2 m3 ⊢
  -- the arg-max is never the sink
  have hsink : max ≠ g.length + 1 := by
    intro hm
    rcases hinv.sink with hs | ⟨k, k1, k2, _, hs⟩
    · have := m2 0 (by omega)
      rw [hinv.src, hm, hs] at this
      unfold INT_MIN at this
      omega
    · have := m3 k (by omega)
      rw [hm] at this
      omega
  by_cases h0 : max = 0
  · left
    subst h0
    refine ⟨by rw [hinv.src]; unfold SCORE_THRESHOLD; norm_num, ?_⟩
    have htr : ∀ (hit : Int → wordhit_t) (t : trace_state),
        trace_back hit st.pred (g.length + 2) ((0 : Nat) : Int) t = some t := by
      intro hit t
      simp [trace_back]
    rw [htr]
    simp only []
    rw [if_neg (by rw [hinv.src]; unfold SCORE_THRESHOLD; norm_num)]
  · have l1 : 1 ≤ max := by omega
    have l2 : max ≤ g.length := by omega
    have hhit : ∀ k : Nat, 1 ≤ k → k ≤ g.length →
        (fun k : Int => if k ≤ 0 then before
          else if k.toNat ≤ g.length then aget g (k.toNat - 1) else after) (k : Int)
          = aget g (k - 1) := by
      intro k k1 k2
      simp only []
      rw [if_neg (by omega), Int.toNat_ofNat, if_pos k2]
    have hh := hhit max l1 l2
    simp only [] at hh
    obtain ⟨t', f, e1, e2, e3, e4, e5, e6, e7, e8⟩ := trace_back_spec g st hinv
      (fun k : Int => if k ≤ 0 then before
          else if k.toNat ≤ g.length then aget g (k.toNat - 1) else after) hhit
      (g.length + 2) max l1 l2 (by have := pos_rank_le g max; omega)
      { min_di := (aget g (max - 1)).di, max_di := (aget g (max - 1)).di,
        start := (aget g (max - 1)).pos + (aget g (max - 1)).length,
        s_start := (aget g (max - 1)).pos + (aget g (max - 1)).di +
          (aget g (max - 1)).length }
    rw [hh, e1]
    simp only []
    by_cases hthr : SCORE_THRESHOLD ≤ st.score max
    · right
      refine ⟨hthr, max, f, t'.min_di - 5, t'.max_di + 5, rfl, l1, l2, e2, e3, e6, e7, e8, ?_⟩
      rw [if_pos hthr, e4, e5]
    · left
      refine ⟨by omega, ?_⟩
      rw [if_neg hthr]

end ScanSequences

namespace ScanSequences

/-- The values recorded as `pos` by the rolling part of the word walk. -/
theorem rolling_words_pos (mask wordsize : Nat) (seq : Nat → Nat) :
    ∀ (k i word : Nat), ∀ wp ∈ rolling_words mask wordsize seq k i word,
      ∃ i', i ≤ i' ∧ i' < i + k ∧ wp.2 = i' - wordsize := by
  intro k
  induction k with
  | zero => intro i word wp h; simp [rolling_words] at h
  | succ k ih =>
    intro i word wp h
    rw [rolling_words] at h
    rcases List.mem_cons.mp h with h | h
    · exact ⟨i, le_refl _, by omega, by rw [h]⟩
    · obtain ⟨i', a, b, c⟩ := ih _ _ wp h
      exact ⟨i', by omega, by omega, c⟩

theorem query_words_pos (t : ltable) (seq : Nat → Nat) (length : Nat) :
    ∀ wp ∈ query_words t seq length, wp.2 ≤ length - t.wordsize - 1 := by
  intro wp h
  unfold query_words at h
  rcases List.mem_cons.mp h with h | h
  · rw [h]; exact Nat.zero_le _
  · obtain ⟨i', a, b, c⟩ := rolling_words_pos _ _ _ _ _ _ wp h
    omega


/-- Every word hit `find_wordmatches` returns has a target id at or above the
query id and a `pos` in `[0, length - wordsize - 1]`. -/
theorem find_wordmatches_spec (t : ltable) (hwf : WellFormed t) (seq : Nat → Nat)
    (seq_id length : Nat) (hits : List wordhit_t)
    (h : find_wordmatches t seq seq_id length = some hits) :
    ∀ x ∈ hits, seq_id ≤ x.db_seq ∧
      ∃ p : Nat, x.pos = (p : Int) ∧ p ≤ length - t.wordsize - 1 := by
  unfold find_wordmatches at h
  simp only [] at h
  split at h
  · cases h
  · simp only [Option.some.injEq] at h
    subst h
    intro x hx
    unfold emit_hits at hx
    rw [List.mem_flatMap] at hx
    obtain ⟨wp, hwp, hx⟩ := hx
    rw [List.mem_filterMap] at hx
    obtain ⟨p, hp, hx⟩ := hx
    split at hx
    · rename_i hpos
      simp only [Option.some.injEq] at hx
      subst hx
      obtain ⟨w1, w2⟩ := hwf wp.1 p hp
      refine ⟨?_, wp.2, rfl, query_words_pos t seq length wp hwp⟩
      simp only []
      unfold censor_hits at hpos
      rw [if_pos (by omega)] at hpos
      split at hpos
      · rename_i hc
        omega
      · omega
    · cases hx

end ScanSequences

namespace ScanSequences

theorem getLastD_mem (l : List wordhit_t) (a : wordhit_t) :
    l.getLastD a = a ∨ l.getLastD a ∈ l := by
  induction l generalizing a with
  | nil => left; rfl
  | cons x l ih =>
    rw [List.getLastD_cons]
    rcases ih x with h | h
    · right; rw [h]; exact List.mem_cons_self _ _
    · right; exact List.mem_cons_of_mem _ h

/-- Every hit `combine_hits` writes takes target and `pos` from a cell `h` of the
array, has `length = n + w` for the number `n + 1` of cells of its run, and the
last cell of the run, at `pos + n`, is a cell of the array too. -/
theorem combine_hits_facts (wordsize : Nat) :
    ∀ (fuel : Nat) (hits : List wordhit_t), hits.length ≤ fuel →
      ∀ c ∈ combine_hits wordsize fuel hits,
        ∃ h ∈ hits, ∃ n : Nat, c.db_seq = h.db_seq ∧ c.pos = h.pos ∧
          c.length = (n : Int) + (wordsize : Int) ∧
          ∃ last ∈ hits, last.pos = h.pos + (n : Int) := by
  intro fuel
  induction fuel with
  | zero => intro hits _ c hc; simp [combine_hits] at hc
  | succ fuel ih =>
    intro hits hl c hc
    match hits, hl, hc with
    | [], _, hc => simp [combine_hits] at hc
    | h :: rest, hl, hc =>
      rw [combine_hits] at hc
      rcases List.mem_cons.mp hc with hc | hc
      · obtain ⟨_, _, _, _, f, _⟩ := run_length_spec h rest 1 h rfl rfl (by omega)
        refine ⟨h, List.mem_cons_self _ _, run_length h 1 rest, by rw [hc], by rw [hc], ?_, ?_⟩
        · rw [hc]; simp only []; push_cast; omega
        · refine ⟨(rest.take (run_length h 1 rest)).getLastD h, ?_, by rw [f]; omega⟩
          rcases getLastD_mem (rest.take (run_length h 1 rest)) h with e | e
          · rw [e]; exact List.mem_cons_self _ _
          · exact List.mem_cons_of_mem _ (List.mem_of_mem_take e)
      · simp only [List.length_cons] at hl
        obtain ⟨h', hh', n, a, b, c', last, hlast, d⟩ := ih (rest.drop (run_length h 1 rest))
          (by rw [List.length_drop]; omega) c hc
        exact ⟨h', List.mem_cons_of_mem _ (List.mem_of_mem_drop hh'), n, a, b, c', last,
          List.mem_cons_of_mem _ (List.mem_of_mem_drop hlast), d⟩

/-- `combine_hits` keeps the array in non-decreasing target order. -/
theorem combine_hits_sorted (wordsize : Nat) :
    ∀ (fuel : Nat) (hits : List wordhit_t), hits.length ≤ fuel →
      hits.Pairwise (fun a b => a.db_seq ≤ b.db_seq) →
      (combine_hits wordsize fuel hits).Pairwise (fun a b => a.db_seq ≤ b.db_seq) := by
  intro fuel
  induction fuel with
  | zero => intro hits _ _; simp [combine_hits]
  | succ fuel ih =>
    intro hits hl hp
    match hits, hl, hp with
    | [], _, _ => simp [combine_hits]
    | h :: rest, hl, hp =>
      rw [combine_hits]
      simp only [List.length_cons] at hl
      have hp' := List.pairwise_cons.mp hp
      have hlen : (rest.drop (run_length h 1 rest)).length ≤ fuel := by
        rw [List.length_drop]; omega
      refine List.pairwise_cons.mpr ⟨?_, ih _ hlen
        (List.Pairwise.sublist (List.drop_sublist _ _) hp'.2)⟩
      intro c hc
      obtain ⟨h', hh', _, a, _⟩ := combine_hits_facts wordsize fuel _ hlen c hc
      simp only []
      rw [a]
      exact hp'.1 h' (List.mem_of_mem_drop hh')

/-- The group loop returns; every report comes out of the body of the loop run on a
non-empty group of cells of the array that share the report's target; and on an
array in non-decreasing target order the reports are in strictly increasing
target order. -/
theorem scan_groups_spec :
    ∀ (fuel : Nat) (before : wordhit_t) (hits : List wordhit_t), hits.length ≤ fuel →
      (∀ h ∈ hits, 1 ≤ h.length) →
      ∃ reps, scan_groups fuel before hits = some reps ∧
        (∀ rep ∈ reps, ∃ (group : List wordhit_t) (b a : wordhit_t),
          (∀ h ∈ group, h ∈ hits ∧ h.db_seq = rep.db_seq) ∧
          scan_group b a group = some (some rep)) ∧
        (hits.Pairwise (fun a b => a.db_seq ≤ b.db_seq) →
          reps.Pairwise (fun a b => a.db_seq < b.db_seq)) := by
  intro fuel
  induction fuel with
  | zero =>
    intro before hits hl _
    have : hits = [] := List.length_eq_zero.mp (by omega)
    subst this
    exact ⟨[], by simp [scan_groups], by simp, by simp⟩
  | succ fuel ih =>
    intro before hits hl hlen
    match hits, hl, hlen with
    | [], _, _ => exact ⟨[], by simp [scan_groups], by simp, by simp⟩
    | h :: rest, hl, hlen =>
      rw [scan_groups]
      simp only [List.length_cons] at hl
      have hgmem : ∀ x ∈ group_of h rest, x ∈ h :: rest ∧ x.db_seq = h.db_seq := by
        intro x hx
        unfold group_of at hx
        rcases List.mem_cons.mp hx with hx | hx
        · subst hx; exact ⟨List.mem_cons_self _ _, rfl⟩
        · refine ⟨List.mem_cons_of_mem _ (List.takeWhile_subset _ hx), ?_⟩
          have := List.mem_takeWhile_imp hx
          simpa using this
      have hglen : ∀ x ∈ group_of h rest, 1 ≤ x.length :=
        fun x hx => hlen x (hgmem x hx).1
      have htail_sub : ∀ x ∈ rest.dropWhile (fun x => decide (x.db_seq = h.db_seq)),
          x ∈ h :: rest :=
        fun x hx => List.mem_cons_of_mem _ ((List.dropWhile_sublist _).subset hx)
      obtain ⟨reps, r1, r2, r3⟩ := ih ((sort_bypos (group_of h rest)).getLastD hit0)
        (rest.dropWhile (fun x => decide (x.db_seq = h.db_seq)))
        (by
          have := (@List.dropWhile_sublist _ rest
            (fun x => decide (x.db_seq = h.db_seq))).length_le
          omega)
        (fun x hx => hlen x (htail_sub x hx))
      have r2' : ∀ rep ∈ reps, ∃ (group : List wordhit_t) (b a : wordhit_t),
          (∀ x ∈ group, x ∈ h :: rest ∧ x.db_seq = rep.db_seq) ∧
          scan_group b a group = some (some rep) := by
        intro rep hrep
        obtain ⟨group, b, a, g1, g2⟩ := r2 rep hrep
        exact ⟨group, b, a, fun x hx => ⟨htail_sub x (g1 x hx).1, (g1 x hx).2⟩, g2⟩
      -- later reports come from cells behind the group, of a higher target
      have hlater : (h :: rest).Pairwise (fun a b => a.db_seq ≤ b.db_seq) →
          ∀ rep ∈ reps, h.db_seq < rep.db_seq := by
        intro hp rep hrep
        obtain ⟨group, b, a, g1, g2⟩ := r2 rep hrep
        have hne : group ≠ [] := by
          intro hg
          subst hg
          have hs := scan_group_spec b a [] (by intro x hx; cases hx)
          rcases hs.2.2 with ⟨_, e⟩ | ⟨_, l, f, _, _, _, l1, l2, _⟩
          · rw [e] at g2; cases g2
          · have := (sort_bypos_perm []).length_eq
            simp only [List.length_nil] at this
            omega
        obtain ⟨x, hx⟩ := List.exists_mem_of_ne_nil group hne
        obtain ⟨hxt, hxd⟩ := g1 x hx
        rw [← hxd]
        have hp' := List.pairwise_cons.mp hp
        -- x lies in the dropWhile part: its head differs from h.db_seq
        cases htl : rest.dropWhile (fun x => decide (x.db_seq = h.db_seq)) with
        | nil => rw [htl] at hxt; cases hxt
        | cons y ys =>
          have hy : ¬ (y.db_seq = h.db_seq) := by
            have := List.head_dropWhile_not (fun x => decide (x.db_seq = h.db_seq)) rest
              (by rw [htl]; exact List.cons_ne_nil _ _)
            simp only [htl, List.head_cons] at this
            simpa using this
          have hysub : y ∈ rest := (List.dropWhile_sublist _).subset (by rw [htl]; simp)
          have hy1 : h.db_seq ≤ y.db_seq := hp'.1 y hysub
          have hpt : (y :: ys).Pairwise (fun a b => a.db_seq ≤ b.db_seq) := by
            rw [← htl]
            exact List.Pairwise.sublist (List.dropWhile_sublist _) hp'.2
          rw [htl] at hxt
          rcases List.mem_cons.mp hxt with hxy | hxy
          · rw [hxy]; omega
          · have := (List.pairwise_cons.mp hpt).1 x hxy
            omega
      have hs := scan_group_spec before
        ((rest.dropWhile (fun x => decide (x.db_seq = h.db_seq))).headD hit0)
        (group_of h rest) hglen
      rcases hs.2.2 with ⟨_, e⟩ | ⟨_, l, f, mindi, maxdi, _, l1, l2, f1, f2, q1, q2, _, e⟩
      · rw [e]
        simp only []
        rw [r1]
        refine ⟨reps, rfl, r2', ?_⟩
        intro hp
        exact r3 (List.Pairwise.sublist (List.dropWhile_sublist _)
          (List.pairwise_cons.mp hp).2)
      · rw [e]
        simp only []
        rw [r1]
        have hdb : (aget (sort_bypos (group_of h rest)) 0).db_seq = h.db_seq := by
          have hmem := aget_mem (sort_bypos (group_of h rest)) 0 (by omega)
          exact (hgmem _ ((sort_bypos_perm _).mem_iff.mp hmem)).2
        refine ⟨_, rfl, ?_, ?_⟩
        · intro rep hrep
          rcases List.mem_cons.mp hrep with hrep | hrep
          · refine ⟨group_of h rest, before, _, ?_, by rw [e, hrep]⟩
            intro x hx
            refine ⟨(hgmem x hx).1, ?_⟩
            rw [hrep]; simp only []
            rw [hdb]; exact (hgmem x hx).2
          · exact r2' rep hrep
        · intro hp
          refine List.pairwise_cons.mpr ⟨?_, r3 (List.Pairwise.sublist
            (List.dropWhile_sublist _) (List.pairwise_cons.mp hp).2)⟩
          intro rep hrep
          simp only []
          rw [hdb]
          exact hlater hp rep hrep

end ScanSequences

namespace ScanSequences

theorem best_score_eq (group : List wordhit_t) :
    best_score group = (relax_all (sort_bypos group) sssp_init).score
      (argmax_score (relax_all (sort_bypos group) sssp_init).score
        ((sort_bypos group).length + 2)) := by
  unfold best_score single_source_shortest_path
  simp only []
  rw [(sort_bypos_perm group).length_eq]

/-- What a report of the group loop's body holds, in terms of the cells of the
group: the spans run from a cell `hf` to a cell `hl` of no lower `pos`, the score
is the best score, it is at least the threshold and below the target span, and
it is `hl.length - 1` unless the group has a cell of lower `pos` than `hl`. -/
theorem scan_group_report (before after : wordhit_t) (group : List wordhit_t)
    (hlen : ∀ h ∈ group, 1 ≤ h.length) (rep : hit_report_t)
    (h : scan_group before after group = some (some rep)) :
    ∃ hl ∈ group, ∃ hf ∈ group,
      rep.start = hf.pos ∧ rep.«end» = hl.pos + hl.length ∧
      rep.s_start = hf.pos + hf.di ∧ rep.s_end = hl.pos + hl.di + hl.length ∧
      hf.pos ≤ hl.pos ∧ rep.score + 1 ≤ rep.s_end - rep.s_start ∧
      SCORE_THRESHOLD ≤ rep.score ∧ rep.score = best_score group ∧
      (rep.score = hl.length - 1 ∨ ∃ x ∈ group, x.pos < hl.pos) ∧
      ∃ x ∈ group, rep.db_seq = x.db_seq := by
  have hs := scan_group_spec before after group hlen
  have hperm := sort_bypos_perm group
  have hinv := dpinv_relax_all (sort_bypos group)
    (fun x hx => hlen x (hperm.mem_iff.mp hx))
  rw [best_score_eq]
  rcases hs.2.2 with ⟨_, e⟩ | ⟨hthr, l, f, mindi, maxdi, hl, l1, l2, f1, f2, q1, q2, _, e⟩
  · rw [e] at h; cases h
  · rw [e] at h
    simp only [Option.some.injEq] at h
    subst h
    have ml := hperm.mem_iff.mp (aget_mem (sort_bypos group) (l - 1) (by omega))
    have mf := hperm.mem_iff.mp (aget_mem (sort_bypos group) (f - 1) (by omega))
    have m0 := hperm.mem_iff.mp (aget_mem (sort_bypos group) 0 (by omega))
    refine ⟨_, ml, _, mf, rfl, rfl, rfl, rfl, q1, ?_, ?_, ?_, ?_, _, m0, rfl⟩
    · simp only []; omega
    · simp only []; rw [hl]; exact hthr
    · simp only []; rw [← hl]
    · simp only []
      rcases hinv.hitn l l1 l2 with ⟨_, b⟩ | ⟨k, k1, k2, _, b, _⟩
      · left; exact b
      · right
        exact ⟨_, hperm.mem_iff.mp (aget_mem (sort_bypos group) (k - 1) (by omega)), b⟩

/-- Every word hit `find_wordmatches` returns has a `pos` in
`[0, length - wordsize - 1]`. -/
theorem find_wordmatches_pos (t : ltable) (seq : Nat → Nat)
    (seq_id length : Nat) (hits : List wordhit_t)
    (h : find_wordmatches t seq seq_id length = some hits) :
    ∀ x ∈ hits, ∃ p : Nat, x.pos = (p : Int) ∧ p ≤ length - t.wordsize - 1 := by
  unfold find_wordmatches at h
  simp only [] at h
  split at h
  · cases h
  · simp only [Option.some.injEq] at h
    subst h
    intro x hx
    unfold emit_hits at hx
    rw [List.mem_flatMap] at hx
    obtain ⟨wp, hwp, hx⟩ := hx
    rw [List.mem_filterMap] at hx
    obtain ⟨p, hp, hx⟩ := hx
    split at hx
    · simp only [Option.some.injEq] at hx
      subst hx
      exact ⟨wp.2, rfl, query_words_pos t seq length wp hwp⟩
    · cases hx

theorem key_le_db_seq (a b : wordhit_t) (h : key a ≤ key b) : a.db_seq ≤ b.db_seq := by
  unfold key at h
  rw [Prod.Lex.le_iff] at h
  rcases h with h | ⟨h, _⟩
  · exact le_of_lt h
  · exact le_of_eq h

/-- `fasta_scan` returns; its reports are in strictly increasing target order; and
each report comes out of the body of the group loop run on a group of combined
hits of the report's target, each of which spans `n + 1` word hits of
`find_wordmatches` from a first one, `h`, to a last one at `pos + n`, with length
`n + wordsize`. -/
theorem fasta_scan_spec (t : ltable) (hw1 : 1 ≤ t.wordsize) (seq : Nat → Nat)
    (seq_id length : Nat) :
    ∃ reps, fasta_scan t seq seq_id length = some reps ∧
      reps.Pairwise (fun a b => a.db_seq < b.db_seq) ∧
      ∀ rep ∈ reps, ∃ (hits group : List wordhit_t) (b a : wordhit_t),
        find_wordmatches t seq seq_id length = some hits ∧
        scan_group b a group = some (some rep) ∧
        ∀ c ∈ group, c.db_seq = rep.db_seq ∧
          ∃ h ∈ hits, ∃ n : Nat, c.db_seq = h.db_seq ∧ c.pos = h.pos ∧
            c.length = (n : Int) + (t.wordsize : Int) ∧
            ∃ last ∈ hits, last.pos = h.pos + (n : Int) := by
  unfold fasta_scan
  cases hf : find_wordmatches t seq seq_id length with
  | none => exact ⟨[], rfl, List.Pairwise.nil, by intro rep hrep; cases hrep⟩
  | some hits =>
    simp only []
    obtain ⟨sp, ss⟩ := wordhit_mergesort_spec hits
    have hfacts := combine_hits_facts t.wordsize (wordhit_mergesort hits).length
      (wordhit_mergesort hits) (le_refl _)
    have hsorted := combine_hits_sorted t.wordsize (wordhit_mergesort hits).length
      (wordhit_mergesort hits) (le_refl _)
      (ss.imp (fun {a b} hab => key_le_db_seq a b hab))
    obtain ⟨reps, r1, r2, r3⟩ := scan_groups_spec
      (combine_hits t.wordsize (wordhit_mergesort hits).length (wordhit_mergesort hits)).length
      hit0
      (combine_hits t.wordsize (wordhit_mergesort hits).length (wordhit_mergesort hits))
      (le_refl _)
      (by
        intro c hc
        obtain ⟨_, _, n, _, _, e, _⟩ := hfacts c hc
        rw [e]; omega)
    refine ⟨reps, r1, r3 hsorted, ?_⟩
    intro rep hrep
    obtain ⟨group, b, a, g1, g2⟩ := r2 rep hrep
    refine ⟨hits, group, b, a, rfl, g2, ?_⟩
    intro c hc
    obtain ⟨c1, c2⟩ := g1 c hc
    obtain ⟨h, hh, n, e1, e2, e3, last, hlast, e4⟩ := hfacts c c1
    exact ⟨c2, h, sp.mem_iff.mp hh, n, e1, e2, e3, last, sp.mem_iff.mp hlast, e4⟩

end ScanSequences

theorem ScanSequences.example_table_wf : ScanSequences.WellFormed ScanSequences.example_table := by
  intro word p hp
  simp only [ScanSequences.example_table, List.mem_map] at hp
  obtain ⟨wp, _, rfl⟩ := hp
  exact ⟨Nat.zero_le _, by show 5 < 8; decide⟩

set_option maxRecDepth 1000000 in
/-- The scan of `example_query` (as sequence 3) against `example_table` reports
sequence 5 with score 75 over query and target span `[0, 76)`. -/
theorem ScanSequences.fasta_scan_example :
    ScanSequences.fasta_scan ScanSequences.example_table
      (ScanSequences.buffer_of ScanSequences.example_query) 3 77 =
    some [{ db_seq := 5, min_di := -5, max_di := 5, score := 75, start := 0, «end» := 76,
            s_start := 0, s_end := 76 }] := by
  decide

/-- C10: for a shard whose postings name sequences of its range, `fasta_scan`
returns, every report for query id `seq_id` has a target id at or above `seq_id`,
and the reports are in strictly increasing target-id order (so no target is
reported twice). -/
theorem ScanSequences.fasta_scan_targets_increasing (t : ScanSequences.ltable)
    (hwf : ScanSequences.WellFormed t) (hw1 : 1 ≤ t.wordsize) (seq : Nat → Nat)
    (seq_id length : Nat) :
    ∃ reps, ScanSequences.fasta_scan t seq seq_id length = some reps ∧
      (∀ rep ∈ reps, seq_id ≤ rep.db_seq) ∧
      reps.Pairwise (fun a b => a.db_seq < b.db_seq) := by
  obtain ⟨reps, r1, r2, r3⟩ := ScanSequences.fasta_scan_spec t hw1 seq seq_id length
  refine ⟨reps, r1, ?_, r2⟩
  intro rep hrep
  obtain ⟨hits, group, b, a, hf, hg, hc⟩ := r3 rep hrep
  have hlen : ∀ c ∈ group, 1 ≤ c.length := by
    intro c hc'
    obtain ⟨_, _, _, n, _, _, e, _⟩ := hc c hc'
    rw [e]; omega
  obtain ⟨_, _, _, _, _, _, _, _, _, _, _, _, _, x, hx, e⟩ :=
    ScanSequences.scan_group_report b a group hlen rep hg
  obtain ⟨_, h, hh, _, e1, _⟩ := hc x hx
  rw [e, e1]
  exact (ScanSequences.find_wordmatches_spec t hwf seq seq_id length hits hf h hh).1

/-- Witness for C10: the scan of `example_query` as sequence 3 against
`example_table`. -/
theorem ScanSequences.fasta_scan_targets_increasing_witness :
    ScanSequences.WellFormed ScanSequences.example_table ∧
    1 ≤ ScanSequences.example_table.wordsize ∧
    ∃ reps, ScanSequences.fasta_scan ScanSequences.example_table
        (ScanSequences.buffer_of ScanSequences.example_query) 3 77 = some reps ∧
      (∀ rep ∈ reps, 3 ≤ rep.db_seq) ∧
      reps.Pairwise (fun a b => a.db_seq < b.db_seq) :=
  ⟨ScanSequences.example_table_wf, by decide,
    ScanSequences.fasta_scan_targets_increasing ScanSequences.example_table
      ScanSequences.example_table_wf (by decide) _ 3 77⟩

/-- C12: for a group of hits of length at least 1 (what `combine_hits` writes), the
body of the group loop of `fasta_scan` returns; `best_score`, the entry at the
arg-max, is the maximum entry of the score vector of
`single_source_shortest_path`; a report is emitted iff it is at least
`SCORE_THRESHOLD`; and the reported score is that maximum. -/
theorem ScanSequences.scan_group_reports_iff_threshold
    (before after : ScanSequences.wordhit_t) (group : List ScanSequences.wordhit_t)
    (hlen : ∀ h ∈ group, 1 ≤ h.length) :
    (∀ k, k < group.length + 2 →
      (ScanSequences.single_source_shortest_path group).2.score k ≤
        ScanSequences.best_score group) ∧
    (∃ m, m < group.length + 2 ∧
      (ScanSequences.single_source_shortest_path group).2.score m =
        ScanSequences.best_score group) ∧
    ((∃ rep, ScanSequences.scan_group before after group = some (some rep)) ↔
      ScanSequences.SCORE_THRESHOLD ≤ ScanSequences.best_score group) ∧
    (ScanSequences.scan_group before after group = some none ↔
      ScanSequences.best_score group < ScanSequences.SCORE_THRESHOLD) ∧
    (∀ rep, ScanSequences.scan_group before after group = some (some rep) →
      rep.score = ScanSequences.best_score group) := by
  have hs := ScanSequences.scan_group_spec before after group hlen
  have hl := (ScanSequences.sort_bypos_perm group).length_eq
  have hb := ScanSequences.best_score_eq group
  have hsc : (ScanSequences.single_source_shortest_path group).2.score =
      (ScanSequences.relax_all (ScanSequences.sort_bypos group)
        ScanSequences.sssp_init).score := rfl
  rw [hsc, hb]
  rw [hl] at hs ⊢
  obtain ⟨h1, h2, h3⟩ := hs
  refine ⟨h1, ⟨_, h2, rfl⟩, ?_, ?_, ?_⟩
  · constructor
    · rintro ⟨rep, hrep⟩
      rcases h3 with ⟨_, e⟩ | ⟨hthr, _⟩
      · rw [e] at hrep; cases hrep
      · exact hthr
    · intro hthr
      rcases h3 with ⟨hlt, _⟩ | ⟨_, l, f, mindi, maxdi, _, _, _, _, _, _, _, _, e⟩
      · omega
      · exact ⟨_, e⟩
  · constructor
    · intro hnone
      rcases h3 with ⟨hlt, _⟩ | ⟨_, l, f, mindi, maxdi, _, _, _, _, _, _, _, _, e⟩
      · exact hlt
      · rw [e] at hnone; cases hnone
    · intro hlt
      rcases h3 with ⟨_, e⟩ | ⟨hthr, _⟩
      · exact e
      · omega
  · intro rep hrep
    rcases h3 with ⟨_, e⟩ | ⟨_, l, f, mindi, maxdi, hm, _, _, _, _, _, _, _, e⟩
    · rw [e] at hrep; cases hrep
    · rw [e] at hrep
      simp only [Option.some.injEq] at hrep
      subst hrep
      simp only []
      rw [hm]

/-- Witness for C12: a group of one hit of length 80, of best score 79. -/
theorem ScanSequences.scan_group_reports_iff_threshold_witness :
    (∀ h ∈ [({ db_seq := 7, di := 2, pos := 3, length := 80 } : ScanSequences.wordhit_t)],
      1 ≤ h.length) ∧
    ScanSequences.best_score [{ db_seq := 7, di := 2, pos := 3, length := 80 }] = 79 ∧
    ((∃ rep, ScanSequences.scan_group ScanSequences.hit0 ScanSequences.hit0
        [{ db_seq := 7, di := 2, pos := 3, length := 80 }] = some (some rep)) ↔
      ScanSequences.SCORE_THRESHOLD ≤
        ScanSequences.best_score [{ db_seq := 7, di := 2, pos := 3, length := 80 }]) :=
  ⟨by decide, by decide,
    (ScanSequences.scan_group_reports_iff_threshold ScanSequences.hit0 ScanSequences.hit0
      [{ db_seq := 7, di := 2, pos := 3, length := 80 }] (by decide)).2.2.1⟩

/-- C13: for a word size from 1 to 75 (the loader admits 2 to 24), `fasta_scan` on
a query of `length` letters returns, and every report has
`start < end ≤ length`. -/
theorem ScanSequences.fasta_scan_query_span (t : ScanSequences.ltable)
    (hw1 : 1 ≤ t.wordsize) (hw2 : t.wordsize ≤ 75) (seq : Nat → Nat)
    (seq_id length : Nat) :
    ∃ reps, ScanSequences.fasta_scan t seq seq_id length = some reps ∧
      ∀ rep ∈ reps, rep.start < rep.«end» ∧ rep.«end» ≤ (length : Int) := by
  obtain ⟨reps, r1, _, r3⟩ := ScanSequences.fasta_scan_spec t hw1 seq seq_id length
  refine ⟨reps, r1, ?_⟩
  intro rep hrep
  obtain ⟨hits, group, b, a, hf, hg, hc⟩ := r3 rep hrep
  have hpos := ScanSequences.find_wordmatches_pos t seq seq_id length hits hf
  have hlen : ∀ c ∈ group, 1 ≤ c.length := by
    intro c hc'
    obtain ⟨_, _, _, n, _, _, e, _⟩ := hc c hc'
    rw [e]; omega
  obtain ⟨hl, mhl, hfi, mhf, e1, e2, _, _, q1, _, thr, _, alt, _⟩ :=
    ScanSequences.scan_group_report b a group hlen rep hg
  have hl1 := hlen hl mhl
  obtain ⟨_, h, hh, n, _, p1, p2, last, hlast, p3⟩ := hc hl mhl
  obtain ⟨pl, pl1, pl2⟩ := hpos last hlast
  obtain ⟨ph, ph1, _⟩ := hpos h hh
  refine ⟨by rw [e1, e2]; omega, ?_⟩
  rw [e2]
  by_cases hL : t.wordsize ≤ length
  · omega
  · exfalso
    unfold ScanSequences.SCORE_THRESHOLD at thr
    rcases alt with hs | ⟨x, hx, hlt⟩
    · omega
    · obtain ⟨_, h', hh', _, _, x1, _⟩ := hc x hx
      obtain ⟨px, px1, _⟩ := hpos h' hh'
      omega

/-- Witness for C13: the scan of `example_query` against `example_table`. -/
theorem ScanSequences.fasta_scan_query_span_witness :
    1 ≤ ScanSequences.example_table.wordsize ∧
    ScanSequences.example_table.wordsize ≤ 75 ∧
    ∃ reps, ScanSequences.fasta_scan ScanSequences.example_table
        (ScanSequences.buffer_of ScanSequences.example_query) 3 77 = some reps ∧
      ∀ rep ∈ reps, rep.start < rep.«end» ∧ rep.«end» ≤ ((77 : Nat) : Int) :=
  ⟨by decide, by decide,
    ScanSequences.fasta_scan_query_span ScanSequences.example_table
      (by decide) (by decide) _ 3 77⟩

/-- C14: every report of the body of the group loop of `fasta_scan`, for any group
of hits of length at least 1 and whichever diagonals the chosen path runs
through, has `s_start < s_end`; the target span is longer than the score. -/
theorem ScanSequences.scan_group_target_span
    (before after : ScanSequences.wordhit_t) (group : List ScanSequences.wordhit_t)
    (hlen : ∀ h ∈ group, 1 ≤ h.length) (rep : ScanSequences.hit_report_t)
    (h : ScanSequences.scan_group before after group = some (some rep)) :
    rep.s_start < rep.s_end ∧ rep.score + 1 ≤ rep.s_end - rep.s_start := by
  obtain ⟨_, _, _, _, _, _, _, _, _, q, thr, _⟩ :=
    ScanSequences.scan_group_report before after group hlen rep h
  unfold ScanSequences.SCORE_THRESHOLD at thr
  exact ⟨by omega, q⟩

/-- Witness for C14: two hits on different diagonals chained into one report. -/
theorem ScanSequences.scan_group_target_span_witness :
    (∀ h ∈ [({ db_seq := 7, di := 0, pos := 0, length := 40 } : ScanSequences.wordhit_t),
        { db_seq := 7, di := 3, pos := 40, length := 50 }], 1 ≤ h.length) ∧
    ScanSequences.scan_group ScanSequences.hit0 ScanSequences.hit0
      [{ db_seq := 7, di := 0, pos := 0, length := 40 },
       { db_seq := 7, di := 3, pos := 40, length := 50 }] =
      some (some { db_seq := 7, min_di := -5, max_di := 8, score := 85, start := 0,
                   «end» := 90, s_start := 0, s_end := 93 }) ∧
    ((0 : Int) < 93 ∧ (85 : Int) + 1 ≤ 93 - 0) :=
  ⟨by decide, by decide,
    ScanSequences.scan_group_target_span ScanSequences.hit0 ScanSequences.hit0
      [{ db_seq := 7, di := 0, pos := 0, length := 40 },
       { db_seq := 7, di := 3, pos := 40, length := 50 }] (by decide)
      { db_seq := 7, min_di := -5, max_di := 8, score := 85, start := 0,
        «end» := 90, s_start := 0, s_end := 93 } (by decide)⟩

namespace DfsCluster

theorem joinedIn_mono {adj : Nat → List fasta_t} {chimeric : Nat → Bool}
    {P Q : Nat → Prop} (hPQ : ∀ z, P z → Q z) {a b : Nat}
    (h : JoinedIn adj chimeric P a b) : JoinedIn adj chimeric Q a b :=
  Relation.ReflTransGen.mono (fun _ _ hab => ⟨hab.1, hPQ _ hab.2.1, hPQ _ hab.2.2⟩) h

theorem joinedIn_avoid {adj : Nat → List fasta_t} {chimeric : Nat → Bool}
    {P : Nat → Prop} {v : Nat} (hv : ¬ P v) {a b : Nat}
    (h : JoinedIn adj chimeric P a b) : JoinedAvoid adj chimeric v a b :=
  Relation.ReflTransGen.mono (fun _ _ hab =>
    ⟨hab.1, fun e => hv (e ▸ hab.2.1), fun e => hv (e ▸ hab.2.2)⟩) h

theorem joinedIn_joined {adj : Nat → List fasta_t} {chimeric : Nat → Bool}
    {P : Nat → Prop} {a b : Nat}
    (h : JoinedIn adj chimeric P a b) : Joined adj chimeric a b :=
  Relation.ReflTransGen.mono (fun _ _ hab => hab.1) h

theorem joinedAvoid_joined {adj : Nat → List fasta_t} {chimeric : Nat → Bool}
    {v a b : Nat} (h : JoinedAvoid adj chimeric v a b) : Joined adj chimeric a b :=
  Relation.ReflTransGen.mono (fun _ _ hab => hab.1) h

theorem joined_range {adj : Nat → List fasta_t} {chimeric : Nat → Bool} {n_seq : Nat}
    (hr : ∀ u, u < n_seq → ∀ e ∈ adj u, e.s2 < n_seq)
    {a b : Nat} (ha : a < n_seq) (h : Joined adj chimeric a b) : b < n_seq := by
  induction h with
  | refl => exact ha
  | tail _ h2 ih => exact linked_range hr ih h2

theorem joinedAvoid_symm {adj : Nat → List fasta_t} {chimeric : Nat → Bool} {n_seq : Nat}
    (hr : ∀ u, u < n_seq → ∀ e ∈ adj u, e.s2 < n_seq) (hs : SymmetricAdj n_seq adj)
    {v a b : Nat} (ha : a < n_seq) (h : JoinedAvoid adj chimeric v a b) :
    JoinedAvoid adj chimeric v b a := by
  induction h with
  | refl => exact Relation.ReflTransGen.refl
  | tail hab hbc ih =>
    rename_i x y
    have hx : x < n_seq := joined_range hr ha (joinedAvoid_joined hab)
    exact Relation.ReflTransGen.head ⟨linked_symm hr hs hx hbc.1, hbc.2.2, hbc.2.1⟩ ih

theorem joinedIn_symm {adj : Nat → List fasta_t} {chimeric : Nat → Bool} {n_seq : Nat}
    (hr : ∀ u, u < n_seq → ∀ e ∈ adj u, e.s2 < n_seq) (hs : SymmetricAdj n_seq adj)
    {P : Nat → Prop} {a b : Nat} (ha : a < n_seq) (h : JoinedIn adj chimeric P a b) :
    JoinedIn adj chimeric P b a := by
  induction h with
  | refl => exact Relation.ReflTransGen.refl
  | tail hab hbc ih =>
    rename_i x y
    have hx : x < n_seq := joined_range hr ha (joinedIn_joined hab)
    exact Relation.ReflTransGen.head ⟨linked_symm hr hs hx hbc.1, hbc.2.2, hbc.2.1⟩ ih

/-- A set closed under the edges that avoid `v` holds every node joined to one of
its members by a path avoiding `v`. -/
theorem joinedAvoid_closure {adj : Nat → List fasta_t} {chimeric : Nat → Bool}
    {v : Nat} (S : Nat → Prop)
    (hS : ∀ z, S z → ∀ y, Linked adj chimeric z y → y ≠ v → S y)
    {a b : Nat} (ha : S a) (h : JoinedAvoid adj chimeric v a b) : S b := by
  induction h with
  | refl => exact ha
  | tail _ hbc ih => exact hS _ ih _ hbc.1 hbc.2.2

theorem closed_mono {adj : Nat → List fasta_t} {chimeric : Nat → Bool}
    {col col' : Nat → Bool} (hm : ∀ v, col v = true → col' v = true) {x : Nat}
    (h : Closed adj chimeric col x) : Closed adj chimeric col' x :=
  fun y hy => hm y (h y hy)

/-- One round of the tree-edge loop of `scan_artipoint` with the two tests on
`child_level` folded into one: the flag is raised when `child_level >= l`, and
`min` becomes the smaller of `min` and `child_level`. -/
theorem scan_children_step (scan : arti_state → Nat → Nat → Option (Nat × arti_state))
    (l c : Nat) (cs : List Nat) (st st1 : arti_state) (atri : Bool) (mn0 mnc : Nat)
    (hl : l ≤ INT_MAX) (h0 : mn0 ≤ INT_MAX)
    (hscan : scan st c (l + 1) = some (mnc, st1)) :
    scan_artipoint_children scan l (c :: cs) st atri mn0 =
      scan_artipoint_children scan l cs st1 (decide (l ≤ mnc) || atri) (min mn0 mnc) := by
  rw [scan_artipoint_children, hscan]
  simp only []
  by_cases hmax : mnc = INT_MAX
  · rw [if_pos hmax]
    have h1 : decide (l ≤ mnc) = true := by rw [hmax]; exact decide_eq_true hl
    have h2 : min mn0 mnc = mn0 := by rw [hmax]; exact Nat.min_eq_left h0
    rw [h1, h2, Bool.true_or]
  · rw [if_neg hmax]
    have h1 : (if mnc ≥ l then true else atri) = (decide (l ≤ mnc) || atri) := by
      by_cases hge : l ≤ mnc
      · rw [if_pos hge, decide_eq_true hge, Bool.true_or]
      · rw [if_neg hge, decide_eq_false hge, Bool.false_or]
    have h2 : (if mnc < mn0 then mnc else mn0) = min mn0 mnc := by
      by_cases hlt : mnc < mn0
      · rw [if_pos hlt, Nat.min_eq_right (le_of_lt hlt)]
      · rw [if_neg hlt, Nat.min_eq_left (not_lt.mp hlt)]
    rw [h1, h2]

/-- The back-edge loop of `scan_artipoint` takes the minimum of `min` and the levels
of the targets. -/
theorem scan_back_spec (level : Nat → Nat) :
    ∀ (bs : List Nat) (mn : Nat),
      scan_artipoint_back level bs mn ≤ mn ∧
      ∀ t, (scan_artipoint_back level bs mn < t ↔ mn < t ∨ ∃ b ∈ bs, level b < t) := by
  intro bs
  induction bs with
  | nil =>
    intro mn
    refine ⟨le_refl _, ?_⟩
    intro t
    simp [scan_artipoint_back]
  | cons b bs ih =>
    intro mn
    rw [scan_artipoint_back]
    obtain ⟨i1, i2⟩ := ih (if level b < mn then level b else mn)
    refine ⟨?_, ?_⟩
    · refine le_trans i1 ?_
      split <;> omega
    · intro t
      rw [i2 t]
      constructor
      · rintro (h | ⟨b', hb', h⟩)
        · by_cases hlt : level b < mn
          · rw [if_pos hlt] at h
            exact Or.inr ⟨b, List.mem_cons_self _ _, h⟩
          · rw [if_neg hlt] at h
            exact Or.inl h
        · exact Or.inr ⟨b', List.mem_cons_of_mem _ hb', h⟩
      · rintro (h | ⟨b', hb', h⟩)
        · left
          split <;> omega
        · rcases List.mem_cons.mp hb' with e | e
          · subst e
            left
            split <;> omega
          · exact Or.inr ⟨b', e, h⟩

theorem newIn_split {col col1 col' : Nat → Bool}
    (h1 : ∀ v, col v = true → col1 v = true) (h2 : ∀ v, col1 v = true → col' v = true)
    (v : Nat) : NewIn col col' v ↔ NewIn col col1 v ∨ NewIn col1 col' v := by
  unfold NewIn
  constructor
  · rintro ⟨a, b⟩
    cases hc : col1 v with
    | true => exact Or.inl ⟨a, rfl⟩
    | false => exact Or.inr ⟨rfl, b⟩
  · rintro (⟨a, b⟩ | ⟨a, b⟩)
    · exact ⟨a, h2 v b⟩
    · refine ⟨?_, b⟩
      cases hc : col v with
      | true => rw [h1 v hc] at a; cases a
      | false => rfl

/-- A subtree none of whose nodes has a neighbour at a level below `l` has all
its neighbours, apart from `n`, inside itself. -/
theorem nbr_closed {adj : Nat → List fasta_t} {chimeric : Nat → Bool} {n_seq : Nat}
    (hr : ∀ u, u < n_seq → ∀ e ∈ adj u, e.s2 < n_seq) (hs : SymmetricAdj n_seq adj)
    {col col1 : Nat → Bool} {level : Nat → Nat} {l n r : Nat}
    (hinv : LoopInv adj chimeric r n col level l)
    (hrange : ∀ v, NewIn col col1 v → v < n_seq)
    (hclosed : ∀ v, NewIn col col1 v → Closed adj chimeric col1 v)
    (hesc : ¬ Esc adj chimeric col level (NewIn col col1) l) :
    ∀ v, NewIn col col1 v → ∀ y, Linked adj chimeric v y → y ≠ n → NewIn col col1 y := by
  intro v hv y hvy hyn
  have hy1 : col1 y = true := hclosed v hv y hvy
  cases hy0 : col y with
  | false => exact ⟨hy0, hy1⟩
  | true =>
    exfalso
    rcases hinv y hy0 hyn with hc | ⟨_, hlt, _⟩
    · have := hc v (linked_symm hr hs (hrange v hv) hvy)
      rw [hv.1] at this; cases this
    · exact hesc ⟨v, y, hv, hvy, hy0, hlt⟩

/-- A subtree with a neighbour at a level below `l` is joined to the root by paths
that avoid `n`. -/
theorem esc_conn {adj : Nat → List fasta_t} {chimeric : Nat → Bool} {n_seq : Nat}
    (hr : ∀ u, u < n_seq → ∀ e ∈ adj u, e.s2 < n_seq) (hs : SymmetricAdj n_seq adj)
    {col col1 : Nat → Bool} {level : Nat → Nat} {l n r c : Nat}
    (hinv : LoopInv adj chimeric r n col level l) (hlevn : level n = l)
    (hcoln : col n = true) (hc : c < n_seq)
    (hrange : ∀ v, NewIn col col1 v → v < n_seq)
    (htree : ∀ x, NewIn col col1 x → JoinedIn adj chimeric (NewIn col col1) c x)
    (hesc : Esc adj chimeric col level (NewIn col col1) l) :
    ∀ x, NewIn col col1 x → JoinedAvoid adj chimeric n r x := by
  obtain ⟨v, y, hv, hvy, hy0, hlt⟩ := hesc
  have hyn : y ≠ n := by intro e; rw [e, hlevn] at hlt; omega
  have hnn : ¬ NewIn col col1 n := by intro hn; rw [hn.1] at hcoln; cases hcoln
  have hyv : Linked adj chimeric y v := linked_symm hr hs (hrange v hv) hvy
  have hvn : v ≠ n := by intro e; rw [e] at hv; exact hnn hv
  have hry : JoinedAvoid adj chimeric n r y := by
    rcases hinv y hy0 hyn with hc | ⟨_, _, h⟩
    · have := hc v hyv
      rw [hv.1] at this; cases this
    · exact h
  have hrv : JoinedAvoid adj chimeric n r v :=
    Relation.ReflTransGen.tail hry ⟨hyv, hyn, hvn⟩
  have hvc : JoinedAvoid adj chimeric n v c :=
    joinedIn_avoid hnn (joinedIn_symm hr hs hc (htree v hv))
  intro x hx
  exact (hrv.trans hvc).trans (joinedIn_avoid hnn (htree x hx))

/-- A child whose subtree has all its neighbours, apart from `n`, inside itself
makes the non-root node `n` a cut vertex. -/
theorem cut_of_closed {adj : Nat → List fasta_t} {chimeric : Nat → Bool} {n_seq : Nat}
    (hr : ∀ u, u < n_seq → ∀ e ∈ adj u, e.s2 < n_seq) (hs : SymmetricAdj n_seq adj)
    {col col1 : Nat → Bool} {n r c : Nat} (hrr : r < n_seq)
    (hcl : ∀ v, NewIn col col1 v → ∀ y, Linked adj chimeric v y → y ≠ n → NewIn col col1 y)
    (hc : NewIn col col1 c) (hnc : Linked adj chimeric n c) (hcoln : col n = true)
    (hcolr : col r = true) (hrn : r ≠ n)
    (hjoin : JoinedIn adj chimeric (fun z => col z = true) r n) :
    Cut adj chimeric n := by
  refine ⟨c, r, ?_, hrn, Relation.ReflTransGen.single hnc,
    joined_symm hr hs hrr (joinedIn_joined hjoin), ?_⟩
  · intro e; rw [e] at hc; rw [hc.1] at hcoln; cases hcoln
  · intro hj
    have := joinedAvoid_closure (NewIn col col1) hcl hc hj
    rw [this.1] at hcolr; cases hcolr

end DfsCluster

namespace DfsCluster

/-- The tree-edge step of the loop: the scan of the child `c` followed by the scan
of the later children. -/
theorem loopRes_tree {adj : Nat → List fasta_t} {chimeric : Nat → Bool} {n_seq : Nat}
    (hr : ∀ u, u < n_seq → ∀ e ∈ adj u, e.s2 < n_seq) (hs : SymmetricAdj n_seq adj)
    {r : Nat} (hrr : r < n_seq) {te : Nat → List Nat}
    {col col1 col' : Nat → Bool} {n c l : Nat} {ast ast1 ast' : arti_state}
    {atri atri' : Bool} {mn0 mnc mn' : Nat} {cs bs : List Nat}
    (hm1 : ∀ v, col v = true → col1 v = true) (hm2 : ∀ v, col1 v = true → col' v = true)
    (hcol : col n = true) (hcol0 : col c = false) (hc1 : col1 c = true)
    (hlink : Linked adj chimeric n c) (hcn : c < n_seq)
    (hrange : ∀ v, NewIn col col1 v → v < n_seq)
    (hinv : LoopInv adj chimeric r n col ast.level l) (hlevn : ast.level n = l)
    (hroot1 : l ≠ 0 → col r = true ∧ r ≠ n)
    (hjoin : JoinedIn adj chimeric (fun z => col z = true) r n)
    (V : VisitRes adj chimeric te r c (l + 1) col col1 ast ast1 mnc)
    (L : LoopRes adj chimeric r n l col1 col' ast1 ast' (decide (l ≤ mnc) || atri) atri'
      (min mn0 mnc) mn' cs bs) :
    LoopRes adj chimeric r n l col col' ast ast' atri atri' mn0 mn' (c :: cs) bs := by
  have hsplit := @newIn_split col col1 col' hm1 hm2
  have hdisj : ∀ v, NewIn col col1 v → ¬ NewIn col1 col' v := by
    intro v hv hv'
    have := hv.2
    rw [hv'.1] at this; cases this
  have hNc : NewIn col col' c := ⟨hcol0, hm2 _ hc1⟩
  have hnNc : ¬ NewIn col col1 n := by
    intro hv; rw [hv.1] at hcol; cases hcol
  have hnNr : ¬ NewIn col1 col' n := by
    intro hv
    have := hv.1
    rw [hm1 n hcol] at this; cases this
  have hold : ∀ v, col1 v = false → col v = false := by
    intro v hv
    cases hv0 : col v with
    | false => rfl
    | true => rw [hm1 v hv0] at hv; cases hv
  have hesc_iff : ∀ t, t ≤ l →
      (Esc adj chimeric col ast.level (NewIn col col') t ↔
        Esc adj chimeric col ast.level (NewIn col col1) t ∨
        Esc adj chimeric col1 ast1.level (NewIn col1 col') t) := by
    intro t ht
    constructor
    · rintro ⟨v, y, hv, hvy, hy0, hlt⟩
      have hny : ¬ NewIn col col1 y := by
        intro h; rw [h.1] at hy0; cases hy0
      rcases (hsplit v).mp hv with hv | hv
      · exact Or.inl ⟨v, y, hv, hvy, hy0, hlt⟩
      · exact Or.inr ⟨v, y, hv, hvy, hm1 y hy0, by rw [(V.frame y hny).1]; exact hlt⟩
    · rintro (⟨v, y, hv, hvy, hy0, hlt⟩ | ⟨v, y, hv, hvy, hy1, hlt⟩)
      · exact ⟨v, y, (hsplit v).mpr (Or.inl hv), hvy, hy0, hlt⟩
      · cases hy0 : col y with
        | false =>
          have := V.lev y ⟨hy0, hy1⟩
          omega
        | true =>
          have hny : ¬ NewIn col col1 y := by
            intro h; rw [h.1] at hy0; cases hy0
          exact ⟨v, y, (hsplit v).mpr (Or.inr hv), hvy, hy0,
            by rw [← (V.frame y hny).1]; exact hlt⟩
  have hclosedc : ¬ Esc adj chimeric col ast.level (NewIn col col1) l →
      ∀ v, NewIn col col1 v → ∀ y, Linked adj chimeric v y → y ≠ n →
        NewIn col col1 y :=
    fun hesc => nbr_closed hr hs hinv hrange V.closed hesc
  have hrn_avoid : ∀ v, col v = false → JoinedAvoid adj chimeric v r n :=
    fun v hv => joinedIn_avoid (P := fun z => col z = true)
      (by intro h; rw [hv] at h; cases h) hjoin
  exact
    { frame := by
        intro v hv
        have hc' : ¬ NewIn col col1 v := fun h => hv ((hsplit v).mpr (Or.inl h))
        have hr' : ¬ NewIn col1 col' v := fun h => hv ((hsplit v).mpr (Or.inr h))
        exact ⟨(L.frame v hr').1.trans (V.frame v hc').1,
          (L.frame v hr').2.trans (V.frame v hc').2⟩
      lev := by
        intro v hv
        rcases (hsplit v).mp hv with hv | hv
        · rw [(L.frame v (hdisj v hv)).1]; exact V.lev v hv
        · exact L.lev v hv
      mn_le := L.mn_le
      mn_iff := by
        intro t ht
        rw [L.mn_iff t ht, hesc_iff t ht, min_lt_iff, V.mn_iff t (by omega)]
        exact or_assoc
      atri_mono := by
        intro h
        apply L.atri_mono
        rw [h, Bool.or_true]
      atri_cut := by
        intro hl0 ha ha'
        by_cases hflag : l ≤ mnc
        · have hesc : ¬ Esc adj chimeric col ast.level (NewIn col col1) l := by
            rw [← V.mn_iff l (by omega)]; omega
          exact cut_of_closed hr hs hrr (hclosedc hesc) ⟨hcol0, hc1⟩ hlink hcol
            (hroot1 hl0).1 (hroot1 hl0).2 hjoin
        · exact L.atri_cut hl0 (by rw [ha, decide_eq_false hflag]; rfl) ha'
      unatri_conn := by
        intro hl0 ha' x hx
        rcases (hsplit x).mp hx with hx | hx
        · have hflag : ¬ l ≤ mnc := by
            intro hflag
            have := L.atri_mono (by rw [decide_eq_true hflag, Bool.true_or])
            rw [ha'] at this; cases this
          have hesc : Esc adj chimeric col ast.level (NewIn col col1) l := by
            rw [← V.mn_iff l (by omega)]; omega
          exact esc_conn hr hs hinv hlevn hcol hcn hrange V.tree_conn hesc x hx
        · exact L.unatri_conn hl0 ha' x hx
      flag_cut := by
        intro v hv h0 h1'
        rcases (hsplit v).mp hv with hv | hv
        · rw [(L.frame v (hdisj v hv)).2] at h1'
          exact V.flag_cut v hv (by intro h; omega) h0 h1'
        · have hc' : ¬ NewIn col col1 v := fun h => hdisj v h hv
          rw [← (V.frame v hc').2] at h0
          exact L.flag_cut v hv h0 h1'
      unflag_conn := by
        intro v hv h0 x hx hxv
        rcases (hsplit v).mp hv with hv | hv
        · rw [(L.frame v (hdisj v hv)).2] at h0
          rcases (hsplit x).mp hx with hx | hx
          · exact V.unflag_conn v hv (by intro h; omega) h0 x hx hxv
          · have hvn : v ≠ n := by intro e'; rw [e'] at hv; exact hnNc hv
            refine (hrn_avoid v hv.1).trans (joinedIn_avoid ?_ (L.tree_conn x hx))
            rintro (h | h)
            · exact hdisj v hv h
            · exact hvn h
        · rcases (hsplit x).mp hx with hx | hx
          · have hvn : v ≠ n := by intro e'; rw [e'] at hv; exact hnNr hv
            have hvc : c ≠ v := by
              intro e'
              have := hv.1
              rw [← e', hc1] at this; cases this
            have hnvc : ¬ NewIn col col1 v := fun h => hdisj v h hv
            exact ((hrn_avoid v (hold v hv.1)).tail ⟨hlink, Ne.symm hvn, hvc⟩).trans
              (joinedIn_avoid hnvc (V.tree_conn x hx))
          · exact L.unflag_conn v hv h0 x hx hxv
      tree_conn := by
        intro x hx
        rcases (hsplit x).mp hx with hx | hx
        · refine Relation.ReflTransGen.head ⟨hlink, Or.inr rfl, Or.inl hNc⟩
            (joinedIn_mono ?_ (V.tree_conn x hx))
          intro z hz
          exact Or.inl ((hsplit z).mpr (Or.inl hz))
        · refine joinedIn_mono ?_ (L.tree_conn x hx)
          rintro z (hz | hz)
          · exact Or.inl ((hsplit z).mpr (Or.inr hz))
          · exact Or.inr hz
      closed := by
        intro v hv
        rcases (hsplit v).mp hv with hv | hv
        · exact closed_mono hm2 (V.closed v hv)
        · exact L.closed v hv
      kids_sep := by
        intro hl0
        refine List.pairwise_cons.mpr ⟨?_, L.kids_sep hl0⟩
        intro c' hc' hj
        have hesc : ¬ Esc adj chimeric col ast.level (NewIn col col1) l := by
          rintro ⟨_, _, _, _, _, hlt⟩
          omega
        have := joinedAvoid_closure (NewIn col col1) (hclosedc hesc)
          ⟨hcol0, hc1⟩ hj
        exact hdisj c' this (L.kids_linked c' hc').1
      kids_cover := by
        intro x hx
        rcases (hsplit x).mp hx with hx | hx
        · exact ⟨c, List.mem_cons_self _ _, joinedIn_avoid hnNc (V.tree_conn x hx)⟩
        · obtain ⟨c', hc', hj⟩ := L.kids_cover x hx
          exact ⟨c', List.mem_cons_of_mem _ hc', hj⟩
      kids_linked := by
        intro c' hc'
        rcases List.mem_cons.mp hc' with hc' | hc'
        · subst hc'; exact ⟨hNc, hlink⟩
        · exact ⟨(hsplit c').mpr (Or.inr (L.kids_linked c' hc').1), (L.kids_linked c' hc').2⟩
      backs := L.backs }

/-- The visit of `n`: the tree-edge loop over all children, the back-edge loop, and
the flag of `n` itself. -/
theorem visitRes_of_loop {adj : Nat → List fasta_t} {chimeric : Nat → Bool}
    {r : Nat} {te : Nat → List Nat}
    {col col' : Nat → Bool} {n l : Nat} {ast ast1 ast' : arti_state}
    {atri' : Bool} {mn' : Nat} {cs bs : List Nat}
    (hl : l ≤ INT_MAX) (hcol : col n = false)
    (hm : ∀ v, store col n true v = true → col' v = true)
    (hte : te n = cs)
    (hcover : ∀ y, Linked adj chimeric n y → y ∈ cs ∨ y ∈ bs)
    (hjoin : JoinedIn adj chimeric (fun z => store col n true z = true) r n)
    (L : LoopRes adj chimeric r n l (store col n true) col'
      { ast with level := store ast.level n l } ast1 false atri' INT_MAX mn' cs bs)
    (hlev' : ast'.level = ast1.level)
    (hap' : ast'.arti_points =
      if (atri' && l != 0) = true then store ast1.arti_points n true else ast1.arti_points) :
    VisitRes adj chimeric te r n l col col' ast ast'
      (scan_artipoint_back ast1.level bs mn') := by
  have hn' : col' n = true := hm n (store_same _ _ _)
  have hNn : NewIn col col' n := ⟨hcol, hn'⟩
  have hnN0 : ¬ NewIn (store col n true) col' n := by
    intro h
    have := h.1
    rw [store_same] at this; cases this
  have hN0 : ∀ v, NewIn (store col n true) col' v → v ≠ n ∧ NewIn col col' v := by
    intro v hv
    have hvn : v ≠ n := by intro e; rw [e] at hv; exact hnN0 hv
    have := hv.1
    rw [store_other _ _ _ _ hvn] at this
    exact ⟨hvn, this, hv.2⟩
  have hN : ∀ v, NewIn col col' v → v ≠ n → NewIn (store col n true) col' v := by
    intro v hv hvn
    exact ⟨by rw [store_other _ _ _ _ hvn]; exact hv.1, hv.2⟩
  have hm0 : ∀ v, col v = true → store col n true v = true := by
    intro v hv
    unfold store; split
    · rfl
    · exact hv
  have hlevn1 : ast1.level n = l := by
    rw [(L.frame n hnN0).1]; exact store_same _ _ _
  have hap_other : ∀ v, v ≠ n → ast'.arti_points v = ast1.arti_points v := by
    intro v hvn
    rw [hap']
    split
    · exact store_other _ _ _ _ hvn
    · rfl
  have hframe0 : ∀ v, v ≠ n → ¬ NewIn (store col n true) col' v →
      ast1.level v = ast.level v ∧ ast1.arti_points v = ast.arti_points v := by
    intro v hvn hv
    have := L.frame v hv
    simp only [store_other _ _ _ _ hvn] at this
    exact this
  have hapn1 : ast1.arti_points n = ast.arti_points n := (L.frame n hnN0).2
  have hback := scan_back_spec ast1.level bs mn'
  exact
    { frame := by
        intro v hv
        have hvn : v ≠ n := by intro e; rw [e] at hv; exact hv hNn
        have hv0 : ¬ NewIn (store col n true) col' v := fun h => hv (hN0 v h).2
        rw [hlev', hap_other v hvn]
        exact hframe0 v hvn hv0
      lev := by
        intro v hv
        rw [hlev']
        by_cases hvn : v = n
        · rw [hvn, hlevn1]
        · have := L.lev v (hN v hv hvn)
          omega
      mn_le := le_trans hback.1 L.mn_le
      mn_iff := by
        intro t ht
        rw [hback.2 t, L.mn_iff t ht]
        constructor
        · rintro ((h | ⟨v, y, hv, hvy, hy, hlt⟩) | ⟨b, hb, hlt⟩)
          · omega
          · have hyn : y ≠ n := by
              intro e
              rw [e] at hlt
              simp only [store_same] at hlt
              omega
            simp only [store_other _ _ _ _ hyn] at hy hlt
            exact ⟨v, y, (hN0 v hv).2, hvy, hy, hlt⟩
          · obtain ⟨hb1, hnb⟩ := L.backs b hb
            have hbn : b ≠ n := by intro e; rw [e, hlevn1] at hlt; omega
            have hb0 : ¬ NewIn (store col n true) col' b := by
              intro h
              have := L.lev b h
              omega
            have hcb : col b = true := by
              cases hc : col b with
              | true => rfl
              | false => exact absurd ⟨by rw [store_other _ _ _ _ hbn]; exact hc, hb1⟩ hb0
            rw [(hframe0 b hbn hb0).1] at hlt
            exact ⟨n, b, hNn, hnb, hcb, hlt⟩
        · rintro ⟨v, y, hv, hvy, hy, hlt⟩
          have hyn : y ≠ n := by intro e; rw [e, hcol] at hy; cases hy
          have hy0 : ¬ NewIn (store col n true) col' y := by
            intro h
            have := h.1
            rw [hm0 y hy] at this; cases this
          by_cases hvn : v = n
          · subst hvn
            rcases hcover y hvy with hc | hb
            · exact absurd (L.kids_linked y hc).1 hy0
            · exact Or.inr ⟨y, hb, by rw [(hframe0 y hyn hy0).1]; exact hlt⟩
          · refine Or.inl (Or.inr ⟨v, y, hN v hv hvn, hvy, hm0 y hy, ?_⟩)
            simp only [store_other _ _ _ _ hyn]
            exact hlt
      root_flag := by
        intro hl0
        rw [hap', hl0]
        simp only [bne_self_eq_false, Bool.and_false]
        exact hapn1
      flag_cut := by
        intro v hv hnr h0 h1
        by_cases hvn : v = n
        · subst hvn
          have hl0 : l ≠ 0 := fun e => hnr ⟨rfl, e⟩
          cases ha : atri' with
          | true => exact L.atri_cut hl0 rfl ha
          | false =>
            rw [hap', ha] at h1
            simp only [Bool.false_and, Bool.false_eq_true, if_false] at h1
            rw [hapn1, h0] at h1
            cases h1
        · rw [hap_other v hvn] at h1
          exact L.flag_cut v (hN v hv hvn) h0 h1
      unflag_conn := by
        intro v hv hnr h0 x hx hxv
        by_cases hvn : v = n
        · subst hvn
          have hl0 : l ≠ 0 := fun e => hnr ⟨rfl, e⟩
          have ha : atri' = false := by
            cases ha : atri' with
            | false => rfl
            | true =>
              rw [hap', ha] at h0
              have hb : (l != 0) = true := by simpa using hl0
              simp only [Bool.true_and, hb, if_true, store_same] at h0
              cases h0
          exact L.unatri_conn hl0 ha x (hN x hx hxv)
        · rw [hap_other v hvn] at h0
          by_cases hxn : x = n
          · subst hxn
            refine joinedIn_avoid (P := fun z => store col x true z = true) ?_ hjoin
            intro h
            rw [store_other _ _ _ _ hvn, hv.1] at h
            cases h
          · exact L.unflag_conn v (hN v hv hvn) h0 x (hN x hx hxn) hxv
      tree_conn := by
        intro x hx
        by_cases hxn : x = n
        · subst hxn; exact Relation.ReflTransGen.refl
        · refine joinedIn_mono ?_ (L.tree_conn x (hN x hx hxn))
          rintro z (hz | hz)
          · exact (hN0 z hz).2
          · rw [hz]; exact hNn
      closed := by
        intro v hv
        by_cases hvn : v = n
        · subst hvn
          intro y hy
          rcases hcover y hy with hc | hb
          · exact (L.kids_linked y hc).1.2
          · exact (L.backs y hb).1
        · exact L.closed v (hN v hv hvn)
      kids_sep := by
        intro hl0
        rw [hte]
        exact L.kids_sep hl0
      kids_cover := by
        intro x hx hxn
        rw [hte]
        exact L.kids_cover x (hN x hx hxn)
      kids_linked := by
        intro c hc
        rw [hte] at hc
        exact ⟨(L.kids_linked c hc).2, (hN0 c (L.kids_linked c hc).1).1⟩ }

/-- The articulation scan follows the search: for a visit of `n` (first part) and
for the rest of the adjacency loop of `n` (second part), run on the final edge
arrays `te`, `be`, it returns and has done what `VisitRes` / `LoopRes` say. -/
theorem scan_run {adj : Nat → List fasta_t} {chimeric : Nat → Bool} {n_seq : Nat}
    (hr : ∀ u, u < n_seq → ∀ e ∈ adj u, e.s2 < n_seq) (hs : SymmetricAdj n_seq adj)
    (hmax : n_seq ≤ INT_MAX) (r : Nat) (hrr : r < n_seq) (te be : Nat → List Nat)
    {st : dfs_state} {n : Nat} {m : Option (List fasta_t)} {st' : dfs_state}
    (h : Run adj chimeric st n m st') :
    n < n_seq → chimeric n = false →
    (∀ x, NewIn st.color st'.color x →
      te x = st'.tree_edges x ∧ be x = st'.back_edges x) →
    (∀ x, st.color x = false → st.tree_edges x = [] ∧ st.back_edges x = []) →
    ∀ (fuel : Nat), uncolored n_seq st ≤ fuel → ∀ (ast : arti_state) (l : Nat),
    (m = none → st.color n = false → l + uncolored n_seq st ≤ n_seq →
      VisitInv adj chimeric r st.color ast.level l →
      (l = 0 → n = r) → (l ≠ 0 → st.color r = true) →
      JoinedIn adj chimeric (fun z => store st.color n true z = true) r n →
      ∃ mn ast', scan_artipoint te be fuel ast n l = some (mn, ast') ∧
        VisitRes adj chimeric te r n l st.color st'.color ast ast' mn) ∧
    (∀ es, m = some es → st.color n = true → (∀ e ∈ es, e ∈ adj n) →
      l + 1 + uncolored n_seq st ≤ n_seq →
      LoopInv adj chimeric r n st.color ast.level l → ast.level n = l →
      (l = 0 → n = r) → (l ≠ 0 → st.color r = true ∧ r ≠ n) →
      JoinedIn adj chimeric (fun z => st.color z = true) r n →
      ∀ (atri : Bool) (mn0 : Nat), mn0 ≤ INT_MAX →
      ∃ cs bs atri' mn' ast',
        st'.tree_edges n = st.tree_edges n ++ cs ∧
        st'.back_edges n = st.back_edges n ++ bs ∧
        (∀ e ∈ es, chimeric e.s2 = false → e.s2 ∈ cs ∨ e.s2 ∈ bs) ∧
        scan_artipoint_children (scan_artipoint te be fuel) l cs ast atri mn0 =
          some (atri', mn', ast') ∧
        LoopRes adj chimeric r n l st.color st'.color ast ast' atri atri' mn0 mn' cs bs) := by
  induction h with
  | visit st n st' h1 ih =>
    intro hn hch hfin hempty fuel hfuel ast l
    refine ⟨?_, by intro es h; cases h⟩
    intro _ hcol hlev hinv hroot0 hroot1 hjoin
    have hpos : 0 < uncolored n_seq st := uncolored_pos st n hn hcol
    obtain ⟨f, rfl⟩ : ∃ f, fuel = f + 1 := ⟨fuel - 1, by omega⟩
    have hst := uncolored_store st n hn hcol st.tree_edges st.back_edges (st.component ++ [n])
    have hm0 : ∀ v, st.color v = true → store st.color n true v = true := by
      intro v hv
      unfold store; split
      · rfl
      · exact hv
    have hm : ∀ v, store st.color n true v = true → st'.color v = true :=
      fun v hv => run_mono h1 v hv
    have hnn : ¬ st.color n = true := by rw [hcol]; exact Bool.false_ne_true
    have hfin0 : ∀ x, NewIn (store st.color n true) st'.color x →
        te x = st'.tree_edges x ∧ be x = st'.back_edges x := by
      intro x hx
      have hxn : x ≠ n := by
        intro e
        have := hx.1
        rw [e, store_same] at this; cases this
      have := hx.1
      rw [store_other _ _ _ _ hxn] at this
      exact hfin x ⟨this, hx.2⟩
    have hempty0 : ∀ x, store st.color n true x = false →
        st.tree_edges x = [] ∧ st.back_edges x = [] := by
      intro x hx
      have hxn : x ≠ n := by intro e; rw [e, store_same] at hx; cases hx
      rw [store_other _ _ _ _ hxn] at hx
      exact hempty x hx
    have hinv0 : LoopInv adj chimeric r n (store st.color n true) (store ast.level n l) l := by
      intro y hy hyn
      rw [store_other _ _ _ _ hyn] at hy
      rcases hinv y hy with h | ⟨a, b⟩
      · exact Or.inl (closed_mono hm0 h)
      · exact Or.inr ⟨joinedIn_mono (fun z hz => hm0 z hz) a,
          by rw [store_other _ _ _ _ hyn]; exact b,
          joinedIn_avoid (P := fun z => st.color z = true) hnn a⟩
    have hroot1' : l ≠ 0 → store st.color n true r = true ∧ r ≠ n := by
      intro hl0
      refine ⟨hm0 r (hroot1 hl0), ?_⟩
      intro e
      rw [← e] at hcol
      rw [hroot1 hl0] at hcol; cases hcol
    obtain ⟨cs, bs, atri', mn', ast1, b1, b2, b3, b4, L⟩ :=
      (ih hn hch hfin0 hempty0 f (by omega) { ast with level := store ast.level n l } l).2
        (adj n) rfl (store_same _ _ _) (fun e he => he) (by omega) hinv0 (store_same _ _ _)
        hroot0 hroot1' hjoin false INT_MAX (le_refl _)
    simp only [] at b1 b2
    have hn' : st'.color n = true := hm n (store_same _ _ _)
    have hte : te n = cs := by
      rw [(hfin n ⟨hcol, hn'⟩).1, b1, (hempty n hcol).1, List.nil_append]
    have hbe : be n = bs := by
      rw [(hfin n ⟨hcol, hn'⟩).2, b2, (hempty n hcol).2, List.nil_append]
    have hcover : ∀ y, Linked adj chimeric n y → y ∈ cs ∨ y ∈ bs := by
      rintro y ⟨_, hy, e, he, rfl⟩
      exact b3 e he hy
    refine ⟨scan_artipoint_back ast1.level bs mn',
      if (atri' && l != 0) = true then
        { ast1 with arti_points := store ast1.arti_points n true, n_arti := ast1.n_arti + 1 }
      else ast1, ?_, ?_⟩
    · rw [scan_artipoint, hte, b4]
      simp only [hbe]
      split <;> rfl
    · refine visitRes_of_loop (by omega) hcol hm hte hcover hjoin L ?_ ?_
      · split <;> rfl
      · split <;> rfl
  | done st n =>
    intro hn hch hfin hempty fuel hfuel ast l
    refine ⟨(by intro h; cases h), ?_⟩
    intro es hm hcol hes hlev hinv hlevn hroot0 hroot1 hjoin atri mn0 hmn0
    have hnone : ∀ v, ¬ NewIn st.color st.color v := by
      intro v hv
      have h1 := hv.1
      rw [hv.2] at h1; cases h1
    refine ⟨[], [], atri, mn0, ast, by simp, by simp, ?_, rfl, ?_⟩
    · intro e he; cases hm; cases he
    · exact
        { frame := fun v _ => ⟨rfl, rfl⟩
          lev := fun v hv => absurd hv (hnone v)
          mn_le := hmn0
          mn_iff := by
            intro t _
            constructor
            · intro h; exact Or.inl h
            · rintro (h | ⟨v, _, hv, _⟩)
              · exact h
              · exact absurd hv (hnone v)
          atri_mono := fun h => h
          atri_cut := by intro _ h1 h2; rw [h1] at h2; cases h2
          unatri_conn := fun _ _ x hx => absurd hx (hnone x)
          flag_cut := fun v hv => absurd hv (hnone v)
          unflag_conn := fun v hv => absurd hv (hnone v)
          tree_conn := fun x hx => absurd hx (hnone x)
          closed := fun v hv => absurd hv (hnone v)
          kids_sep := fun _ => List.Pairwise.nil
          kids_cover := fun x hx => absurd hx (hnone x)
          kids_linked := by intro c hc; cases hc
          backs := by intro b hb; cases hb }
  | skip st n e es st' hc h1 ih =>
    intro hn hch hfin hempty fuel hfuel ast l
    refine ⟨(by intro h; cases h), ?_⟩
    intro es' hm hcol hes hlev hinv hlevn hroot0 hroot1 hjoin atri mn0 hmn0
    cases hm
    obtain ⟨cs, bs, atri', mn', ast', a1, a2, a3, a4, a5⟩ :=
      (ih hn hch hfin hempty fuel hfuel ast l).2 es rfl hcol
        (fun e' he' => hes e' (List.mem_cons_of_mem _ he')) hlev hinv hlevn hroot0 hroot1
        hjoin atri mn0 hmn0
    refine ⟨cs, bs, atri', mn', ast', a1, a2, ?_, a4, a5⟩
    intro e' he' hch'
    rcases List.mem_cons.mp he' with he' | he'
    · subst he'; rw [hc] at hch'; cases hch'
    · exact a3 e' he' hch'
  | tree st n e es st1 st' hc hcol0 h1 h2 ih1 ih2 =>
    intro hn hch hfin hempty fuel hfuel ast l
    refine ⟨(by intro h; cases h), ?_⟩
    intro es' hm hcol hes hlev hinv hlevn hroot0 hroot1 hjoin atri mn0 hmn0
    cases hm
    -- the child and the colour sets
    have hcn : e.s2 < n_seq := hr n hn e (hes e (List.mem_cons_self _ _))
    have hlink : Linked adj chimeric n e.s2 :=
      ⟨hch, hc, e, hes e (List.mem_cons_self _ _), rfl⟩
    have hm1 : ∀ v, st.color v = true → st1.color v = true := run_mono h1
    have hm2 : ∀ v, st1.color v = true → st'.color v = true := fun v hv => run_mono h2 v hv
    have hc1 : st1.color e.s2 = true := run_color_self h1
    have hcne : e.s2 ≠ n := by intro e'; rw [e', hcol] at hcol0; cases hcol0
    have hfr1 := run_frame h1 n (Ne.symm hcne) (Or.inl hcol)
    have hl : l ≤ INT_MAX := by omega
    have hnNc : ¬ NewIn st.color st1.color n := by
      intro hv; rw [hv.1] at hcol; cases hcol
    have hrange : ∀ v, NewIn st.color st1.color v → v < n_seq :=
      fun v hv => run_range hr h1 hcn (by intro es h; cases h) v hv.1 hv.2
    have hold : ∀ v, st1.color v = false → st.color v = false := by
      intro v hv
      cases hv0 : st.color v with
      | false => rfl
      | true => rw [hm1 v hv0] at hv; cases hv
    -- the scan of the child
    have hfin1 : ∀ x, NewIn st.color st1.color x →
        te x = st1.tree_edges x ∧ be x = st1.back_edges x := by
      intro x hx
      have hxn : x ≠ n := by intro e'; rw [e'] at hx; exact hnNc hx
      have a := hfin x ⟨hx.1, hm2 x hx.2⟩
      have b := run_frame h2 x hxn (Or.inl hx.2)
      simp only [store_other _ _ _ _ hxn] at b
      exact ⟨a.1.trans b.1, a.2.trans b.2⟩
    have hinv1 : VisitInv adj chimeric r st.color ast.level (l + 1) := by
      intro y hy
      by_cases hyn : y = n
      · subst hyn; exact Or.inr ⟨hjoin, by omega⟩
      · rcases hinv y hy hyn with h | ⟨a, b, _⟩
        · exact Or.inl h
        · exact Or.inr ⟨a, by omega⟩
    have hrootc : l + 1 ≠ 0 → st.color r = true := by
      intro _
      by_cases hl0 : l = 0
      · rw [← hroot0 hl0]; exact hcol
      · exact (hroot1 hl0).1
    have hjoin1 : JoinedIn adj chimeric (fun z => store st.color e.s2 true z = true) r e.s2 := by
      refine Relation.ReflTransGen.tail (joinedIn_mono ?_ hjoin) ⟨hlink, ?_, store_same _ _ _⟩
      · intro z hz
        unfold store; split
        · rfl
        · exact hz
      · show store st.color e.s2 true n = true
        rw [store_other _ _ _ _ (Ne.symm hcne)]; exact hcol
    obtain ⟨mnc, ast1, hscan, V⟩ := (ih1 hcn hc hfin1 hempty fuel hfuel ast (l + 1)).1 rfl hcol0
      (by omega) hinv1 (by intro h; omega) hrootc hjoin1
    -- the rest of the loop
    have hfin2 : ∀ x, NewIn st1.color st'.color x →
        te x = st'.tree_edges x ∧ be x = st'.back_edges x :=
      fun x hx => hfin x ⟨hold x hx.1, hx.2⟩
    have hempty2 : ∀ x, st1.color x = false →
        store st1.tree_edges n (st1.tree_edges n ++ [e.s2]) x = [] ∧ st1.back_edges x = [] := by
      intro x hx
      have hxn : x ≠ n := by intro e'; rw [e', hm1 n hcol] at hx; cases hx
      have hxc : x ≠ e.s2 := by intro e'; rw [e', hc1] at hx; cases hx
      rw [store_other _ _ _ _ hxn]
      have a := run_frame h1 x hxc (Or.inr hx)
      rw [a.1, a.2]
      exact hempty x (hold x hx)
    have hunc : uncolored n_seq
        { st1 with tree_edges := store st1.tree_edges n (st1.tree_edges n ++ [e.s2]) } ≤
        uncolored n_seq st := uncolored_mono hm1
    have hinv2 : LoopInv adj chimeric r n st1.color ast1.level l := by
      intro y hy hyn
      cases hy0 : st.color y with
      | false => exact Or.inl (V.closed y ⟨hy0, hy⟩)
      | true =>
        have hny : ¬ NewIn st.color st1.color y := by
          intro h; rw [h.1] at hy0; cases hy0
        rcases hinv y hy0 hyn with h | ⟨a, b, c⟩
        · exact Or.inl (closed_mono hm1 h)
        · exact Or.inr ⟨joinedIn_mono (fun z hz => hm1 z hz) a,
            by rw [(V.frame y hny).1]; exact b, c⟩
    have hlevn2 : ast1.level n = l := by rw [(V.frame n hnNc).1]; exact hlevn
    have hroot1' : l ≠ 0 → st1.color r = true ∧ r ≠ n :=
      fun hl0 => ⟨hm1 r (hroot1 hl0).1, (hroot1 hl0).2⟩
    have hjoin2 : JoinedIn adj chimeric (fun z => st1.color z = true) r n :=
      joinedIn_mono (fun z hz => hm1 z hz) hjoin
    obtain ⟨cs, bs, atri', mn', ast', b1, b2, b3, b4, L⟩ :=
      (ih2 hn hch hfin2 hempty2 fuel (le_trans hunc hfuel) ast1 l).2 es rfl (hm1 n hcol)
        (fun e' he' => hes e' (List.mem_cons_of_mem _ he')) (by omega) hinv2 hlevn2 hroot0
        hroot1' hjoin2 (decide (l ≤ mnc) || atri) (min mn0 mnc)
        (le_trans (Nat.min_le_left _ _) hmn0)
    simp only [store_same] at b1
    simp only [] at b2
    refine ⟨e.s2 :: cs, bs, atri', mn', ast', ?_, ?_, ?_, ?_, ?_⟩
    · rw [b1, hfr1.1, List.append_assoc, List.singleton_append]
    · rw [b2, hfr1.2]
    · intro e' he' hch'
      rcases List.mem_cons.mp he' with he' | he'
      · subst he'; exact Or.inl (List.mem_cons_self _ _)
      · rcases b3 e' he' hch' with h | h
        · exact Or.inl (List.mem_cons_of_mem _ h)
        · exact Or.inr h
    · rw [scan_children_step _ l e.s2 cs ast ast1 atri mn0 mnc hl hmn0 hscan]
      exact b4
    · exact loopRes_tree hr hs hrr hm1 hm2 hcol hcol0 hc1 hlink hcn hrange hinv hlevn hroot1
        hjoin V L
  | back st n e es st' hc hcol1 h1 ih =>
    intro hn hch hfin hempty fuel hfuel ast l
    refine ⟨(by intro h; cases h), ?_⟩
    intro es' hm hcol hes hlev hinv hlevn hroot0 hroot1 hjoin atri mn0 hmn0
    cases hm
    have hempty' : ∀ x, st.color x = false →
        st.tree_edges x = [] ∧ store st.back_edges n (st.back_edges n ++ [e.s2]) x = [] := by
      intro x hx
      have hxn : x ≠ n := by intro e; rw [e, hcol] at hx; cases hx
      rw [store_other _ _ _ _ hxn]
      exact hempty x hx
    obtain ⟨cs, bs, atri', mn', ast', a1, a2, a3, a4, a5⟩ :=
      (ih hn hch hfin hempty' fuel hfuel ast l).2 es rfl hcol
        (fun e' he' => hes e' (List.mem_cons_of_mem _ he')) hlev hinv hlevn hroot0 hroot1
        hjoin atri mn0 hmn0
    have hlink : Linked adj chimeric n e.s2 :=
      ⟨hch, hc, e, hes e (List.mem_cons_self _ _), rfl⟩
    refine ⟨cs, e.s2 :: bs, atri', mn', ast', a1, ?_, ?_, a4, ?_⟩
    · rw [a2]
      simp only [store_same, List.append_assoc, List.singleton_append]
    · intro e' he' hch'
      rcases List.mem_cons.mp he' with he' | he'
      · subst he'; exact Or.inr (List.mem_cons_self _ _)
      · rcases a3 e' he' hch' with h | h
        · exact Or.inl h
        · exact Or.inr (List.mem_cons_of_mem _ h)
    · exact
        { frame := a5.frame
          lev := a5.lev
          mn_le := a5.mn_le
          mn_iff := a5.mn_iff
          atri_mono := a5.atri_mono
          atri_cut := a5.atri_cut
          unatri_conn := a5.unatri_conn
          flag_cut := a5.flag_cut
          unflag_conn := a5.unflag_conn
          tree_conn := a5.tree_conn
          closed := a5.closed
          kids_sep := a5.kids_sep
          kids_cover := a5.kids_cover
          kids_linked := a5.kids_linked
          backs := by
            intro b hb
            rcases List.mem_cons.mp hb with hb | hb
            · subst hb; exact ⟨run_mono h1 _ hcol1, hlink⟩
            · exact a5.backs b hb }

end DfsCluster

namespace DfsCluster

/-- The articulation scan of a component just discovered by a top-level visit. -/
theorem compSpec_of_run {adj : Nat → List fasta_t} {chimeric : Nat → Bool} {n_seq : Nat}
    (hr : ∀ u, u < n_seq → ∀ e ∈ adj u, e.s2 < n_seq) (hs : SymmetricAdj n_seq adj)
    (hmax : n_seq ≤ INT_MAX)
    (st : dfs_state) (comps : List (List Nat)) (i : Nat) (st1 : dfs_state)
    (hP : ConnInv n_seq adj chimeric st comps)
    (hempty : ∀ x, st.color x = false → st.tree_edges x = [] ∧ st.back_edges x = [])
    (hi : i < n_seq) (hc : st.color i = false) (hch : chimeric i = false)
    (hrun : Run adj chimeric { st with component := [] } i none st1)
    (te be : Nat → List Nat)
    (hfin : ∀ x, st1.color x = true → te x = st1.tree_edges x ∧ be x = st1.back_edges x) :
    CompSpec adj chimeric n_seq te be st1.component := by
  obtain ⟨⟨q1, _, _⟩, _, q3, _⟩ := connInv_step hr hs st comps i st1 hP hi hc hch hrun
  obtain ⟨⟨p1, _, _⟩, _, p3, _⟩ := hP
  obtain ⟨new, hnew, _, hmem⟩ := run_component hrun (fun _ => hc)
  obtain ⟨rest, hrest⟩ := run_component_head hrun
  simp only [List.nil_append] at hnew hrest
  have hcomp : st1.component ∈ comps ++ [st1.component] :=
    List.mem_append_right _ (List.mem_singleton_self _)
  have hmem' : ∀ v, v ∈ st1.component ↔ NewIn st.color st1.color v := by
    intro v; rw [hnew]; exact hmem v
  -- membership in the component is closed under the edges
  have hclos : ∀ v, v ∈ st1.component → ∀ x, Joined adj chimeric v x → x ∈ st1.component := by
    intro v hv x hj
    induction hj with
    | refl => exact hv
    | tail _ hbc ih => exact q3 _ hcomp _ ih _ hbc
  have hinv : ∀ (level : Nat → Nat), VisitInv adj chimeric i st.color level 0 := by
    intro level y hy
    left
    obtain ⟨c, hc', hyc⟩ := List.mem_flatten.mp ((p1 y).mp hy)
    intro z hz
    exact (p1 z).mpr (List.mem_flatten.mpr ⟨c, hc', p3 c hc' y hyc z hz⟩)
  have hscan : ∀ (ast : arti_state), ∃ mn ast',
      scan_artipoint te be n_seq ast i 0 = some (mn, ast') ∧
      VisitRes adj chimeric te i i 0 st.color st1.color ast ast' mn := by
    intro ast
    exact (scan_run hr hs hmax i hi te be hrun hi hch (fun x hx => hfin x hx.2) hempty n_seq
      (uncolored_le _ _) ast 0).1 rfl hc (by rw [Nat.zero_add]; exact uncolored_le _ _) (hinv _)
      (fun _ => rfl) (fun h => absurd rfl h) Relation.ReflTransGen.refl
  intro ap na
  rw [hrest]
  cases rest with
  | nil =>
    refine ⟨ap, na, by simp, fun _ _ => rfl, ?_⟩
    intro v hv h0
    rw [h0]
    constructor
    · intro h; cases h
    · rintro ⟨x, _, hx, _, jx, _, _⟩
      exfalso
      have hvc : v ∈ st1.component := by rw [hrest]; exact hv
      have := hclos v hvc x jx
      rw [hrest] at this
      simp only [List.mem_singleton] at this hv
      exact hx (this.trans hv.symm)
  | cons b rest =>
    obtain ⟨mn, ast', e1, V⟩ := hscan
      { level := fun _ => 0,
        arti_points := if (te i).length > 1 then store ap i true else ap, n_arti := na }
    have hin : ∀ v, v ∈ i :: b :: rest ↔ NewIn st.color st1.color v := by
      intro v; rw [← hrest]; exact hmem' v
    have hiN : NewIn st.color st1.color i := (hin i).mp (List.mem_cons_self _ _)
    refine ⟨ast'.arti_points, ast'.n_arti, ?_, ?_, ?_⟩
    · rw [if_pos (by simp)]
      rw [scan_arti_points]
      rw [e1]
    · intro v hv
      have hvi : v ≠ i := by intro e; rw [e] at hv; exact hv (List.mem_cons_self _ _)
      rw [(V.frame v (fun h => hv ((hin v).mpr h))).2]
      simp only []
      split
      · exact store_other _ _ _ _ hvi
      · rfl
    · intro v hv h0
      have hvN := (hin v).mp hv
      have hvc : v ∈ st1.component := by rw [hrest]; exact hv
      by_cases hvi : v = i
      · subst hvi
        rw [V.root_flag rfl]
        simp only []
        constructor
        · intro h
          have hlen : (te v).length > 1 := by
            by_contra hlen
            rw [if_neg hlen, h0] at h
            cases h
          cases hte : te v with
          | nil => rw [hte] at hlen; simp at hlen
          | cons c1 t1 =>
            cases t1 with
            | nil => rw [hte] at hlen; simp at hlen
            | cons c2 t2 =>
              have hsep := V.kids_sep rfl
              rw [hte] at hsep
              have h12 := (List.pairwise_cons.mp hsep).1 c2 (List.mem_cons_self _ _)
              have k1 := V.kids_linked c1 (by rw [hte]; exact List.mem_cons_self _ _)
              have k2 := V.kids_linked c2
                (by rw [hte]; exact List.mem_cons_of_mem _ (List.mem_cons_self _ _))
              exact ⟨c1, c2, k1.2, k2.2, Relation.ReflTransGen.single k1.1,
                Relation.ReflTransGen.single k2.1, h12⟩
        · rintro ⟨x, y, hx, hy, jx, jy, hnj⟩
          by_contra hflag
          have hlen : ¬ (te v).length > 1 := by
            intro hlen
            rw [if_pos hlen, store_same] at hflag
            exact hflag rfl
          obtain ⟨c1, hc1, j1⟩ := V.kids_cover x ((hmem' x).mp (hclos v hvc x jx)) hx
          obtain ⟨c2, hc2, j2⟩ := V.kids_cover y ((hmem' y).mp (hclos v hvc y jy)) hy
          have h12 : c1 = c2 := by
            cases hte : te v with
            | nil => rw [hte] at hc1; cases hc1
            | cons a t =>
              cases t with
              | nil =>
                rw [hte] at hc1 hc2
                simp only [List.mem_singleton] at hc1 hc2
                rw [hc1, hc2]
              | cons a' t' => rw [hte] at hlen; simp at hlen
          subst h12
          have hc1r : c1 < n_seq := linked_range hr hi (V.kids_linked c1 hc1).1
          exact hnj ((joinedAvoid_symm hr hs hc1r j1).trans j2)
      · have hap0 : (if (te i).length > 1 then store ap i true else ap) v = false := by
          split
          · rw [store_other _ _ _ _ hvi]; exact h0
          · exact h0
        constructor
        · intro h
          exact V.flag_cut v hvN (fun h' => hvi h'.1) hap0 h
        · rintro ⟨x, y, hx, hy, jx, jy, hnj⟩
          by_contra hflag
          have hf : ast'.arti_points v = false := by
            cases hh : ast'.arti_points v with
            | false => rfl
            | true => exact absurd hh hflag
          have cx := V.unflag_conn v hvN (fun h' => hvi h'.1) hf x
            ((hmem' x).mp (hclos v hvc x jx)) hx
          have cy := V.unflag_conn v hvN (fun h' => hvi h'.1) hf y
            ((hmem' y).mp (hclos v hvc y jy)) hy
          exact hnj ((joinedAvoid_symm hr hs hi cx).trans cy)

theorem artiInv_step {adj : Nat → List fasta_t} {chimeric : Nat → Bool} {n_seq : Nat}
    (hr : ∀ u, u < n_seq → ∀ e ∈ adj u, e.s2 < n_seq) (hs : SymmetricAdj n_seq adj)
    (hmax : n_seq ≤ INT_MAX)
    (st : dfs_state) (comps : List (List Nat)) (i : Nat) (st1 : dfs_state)
    (hP : ArtiInv n_seq adj chimeric st comps) (hi : i < n_seq)
    (hc : st.color i = false) (hch : chimeric i = false)
    (hrun : Run adj chimeric { st with component := [] } i none st1) :
    ArtiInv n_seq adj chimeric st1 (comps ++ [st1.component]) := by
  obtain ⟨p1, p2, p3⟩ := hP
  have hm : ∀ v, st.color v = true → st1.color v = true := fun v hv => run_mono hrun v hv
  refine ⟨connInv_step hr hs st comps i st1 p1 hi hc hch hrun, ?_, ?_⟩
  · intro x hx
    have hxi : x ≠ i := by
      intro e; rw [e, run_color_self hrun] at hx; cases hx
    have a := run_frame hrun x hxi (Or.inr hx)
    simp only [] at a
    rw [a.1, a.2]
    apply p2
    cases h0 : st.color x with
    | false => rfl
    | true => rw [hm x h0] at hx; cases hx
  · intro c hcm te be hfin
    rcases List.mem_append.mp hcm with hcm | hcm
    · apply p3 c hcm te be
      intro x hx
      have hxi : x ≠ i := by intro e; rw [e, hc] at hx; cases hx
      have a := run_frame hrun x hxi (Or.inl hx)
      simp only [] at a
      rw [← a.1, ← a.2]
      exact hfin x (hm x hx)
    · have hceq : c = st1.component := by simpa using hcm
      rw [hceq]
      exact compSpec_of_run hr hs hmax st comps i st1 p1 p2 hi hc hch hrun te be hfin

/-- The reporting loop flags, in every component, exactly the unflagged members
whose deletion disconnects it. -/
theorem arti_loop_spec {adj : Nat → List fasta_t} {chimeric : Nat → Bool} {n_seq : Nat}
    (te be : Nat → List Nat) :
    ∀ (comps : List (List Nat)), comps.flatten.Nodup →
      (∀ c ∈ comps, CompSpec adj chimeric n_seq te be c) →
      ∀ (ap : Nat → Bool) (na : Nat), ∃ ap' na',
        arti_loop te be n_seq comps ap na = some (ap', na') ∧
        (∀ v, v ∉ comps.flatten → ap' v = ap v) ∧
        (∀ v ∈ comps.flatten, ap v = false → (ap' v = true ↔ Cut adj chimeric v)) := by
  intro comps
  induction comps with
  | nil =>
    intro _ _ ap na
    exact ⟨ap, na, rfl, fun _ _ => rfl, by intro v hv; simp at hv⟩
  | cons c cs ih =>
    intro hnd hspec ap na
    rw [List.flatten_cons, List.nodup_append] at hnd
    obtain ⟨_, hnd2, hdisj⟩ := hnd
    obtain ⟨ap1, na1, e1, f1, g1⟩ := hspec c (List.mem_cons_self _ _) ap na
    obtain ⟨ap', na', e2, f2, g2⟩ := ih hnd2
      (fun c' hc' => hspec c' (List.mem_cons_of_mem _ hc')) ap1 na1
    have hstep : arti_loop te be n_seq (c :: cs) ap na = arti_loop te be n_seq cs ap1 na1 := by
      rw [arti_loop]
      by_cases hlen : c.length > 1
      · rw [if_pos hlen] at e1 ⊢
        rw [e1]
      · rw [if_neg hlen] at e1 ⊢
        simp only [Option.some.injEq, Prod.mk.injEq] at e1
        rw [e1.1, e1.2]
    refine ⟨ap', na', by rw [hstep, e2], ?_, ?_⟩
    · intro v hv
      rw [List.flatten_cons, List.mem_append, not_or] at hv
      rw [f2 v hv.2, f1 v hv.1]
    · intro v hv h0
      rw [List.flatten_cons, List.mem_append] at hv
      rcases hv with hv | hv
      · rw [f2 v (fun h => hdisj hv h)]
        exact g1 v hv h0
      · have hvc : v ∉ c := fun h => hdisj h hv
        exact g2 v hv (by rw [f1 v hvc]; exact h0)

end DfsCluster

/-- C3. For every symmetric adjacency input with targets below `n_seq` (an `int`,
so at most `INT_MAX`), `connected_components` returns, and a non-chimeric id `v`
has `arti_points[v] = 1` iff deleting `v` and its edges leaves two of the
remaining members of the component of `v` not joined by any path. -/
theorem DfsCluster.connected_components_articulation (n_seq : Nat)
    (adj : Nat → List DfsCluster.fasta_t) (chimeric : Nat → Bool)
    (hr : ∀ u, u < n_seq → ∀ e ∈ adj u, e.s2 < n_seq)
    (hs : DfsCluster.SymmetricAdj n_seq adj) (hmax : n_seq ≤ DfsCluster.INT_MAX) :
    ∃ r, DfsCluster.connected_components n_seq adj chimeric = some r ∧
      ∀ v, v < n_seq → chimeric v = false →
        (r.arti_points v = true ↔ DfsCluster.Cut adj chimeric v) := by
  obtain ⟨st, comps, ap, na, _, h2, h3, ⟨⟨⟨p1, p2, _⟩, _, _, _⟩, _, q3⟩, h5⟩ :=
    @DfsCluster.connected_components_spec adj chimeric n_seq hr
      (DfsCluster.ArtiInv n_seq adj chimeric)
      ⟨⟨⟨(by intro v; simp [DfsCluster.dfs_init]), (by simp),
          (by intro v h; simp [DfsCluster.dfs_init] at h)⟩,
        (by intro v h; simp [DfsCluster.dfs_init] at h),
        (by intro c hc; cases hc), (by intro c hc; cases hc)⟩,
        (by intro x _; exact ⟨rfl, rfl⟩), (by intro c hc; cases hc)⟩
      (fun s c i s1 hp hi hc hch hrun =>
        DfsCluster.artiInv_step hr hs hmax s c i s1 hp hi hc hch hrun)
  obtain ⟨ap', na', e, _, g⟩ := @DfsCluster.arti_loop_spec adj chimeric n_seq
    st.tree_edges st.back_edges comps p2
    (fun c hc => q3 c hc st.tree_edges st.back_edges (fun _ _ => ⟨rfl, rfl⟩)) (fun _ => false) 0
  rw [h2] at e
  simp only [Option.some.injEq, Prod.mk.injEq] at e
  refine ⟨_, h3, ?_⟩
  intro v hv hch
  simp only []
  rw [e.1]
  have hcol : st.color v = true := by
    rcases h5 v hv with h | h
    · exact h
    · rw [hch] at h; cases h
  exact g v ((p1 v).mp hcol) rfl

/-- The scenarios of the path 0 - 1 - 2, where exactly the middle node is flagged,
and of the 4-cycle, where no node is. -/
theorem DfsCluster.connected_components_arti_examples :
    (DfsCluster.connected_components 3
        (DfsCluster.adj_of [[(1, 80)], [(0, 80), (2, 90)], [(1, 90)]])
        (DfsCluster.chimeric_of [])).map (fun r => [0, 1, 2].map r.arti_points) =
      some [false, true, false] ∧
    (DfsCluster.connected_components 4
        (DfsCluster.adj_of [[(1, 80), (3, 80)], [(0, 80), (2, 80)], [(1, 80), (3, 80)],
          [(2, 80), (0, 80)]])
        (DfsCluster.chimeric_of [])).map (fun r => [0, 1, 2, 3].map r.arti_points) =
      some [false, false, false, false] := by
  decide

/-- Witness for C3: the path 0 - 1 - 2. -/
theorem DfsCluster.connected_components_articulation_witness :
    (∀ u, u < 3 → ∀ e ∈ DfsCluster.adj_of [[(1, 80)], [(0, 80), (2, 90)], [(1, 90)]] u,
        e.s2 < 3) ∧
    DfsCluster.SymmetricAdj 3 (DfsCluster.adj_of [[(1, 80)], [(0, 80), (2, 90)], [(1, 90)]]) ∧
    3 ≤ DfsCluster.INT_MAX ∧
    ∃ r, DfsCluster.connected_components 3
        (DfsCluster.adj_of [[(1, 80)], [(0, 80), (2, 90)], [(1, 90)]])
        (DfsCluster.chimeric_of []) = some r ∧
      ∀ v, v < 3 → DfsCluster.chimeric_of [] v = false →
        (r.arti_points v = true ↔
          DfsCluster.Cut (DfsCluster.adj_of [[(1, 80)], [(0, 80), (2, 90)], [(1, 90)]])
            (DfsCluster.chimeric_of []) v) :=
  have hr : ∀ u, u < 3 → ∀ e ∈ DfsCluster.adj_of
      [[(1, 80)], [(0, 80), (2, 90)], [(1, 90)]] u, e.s2 < 3 := by
    intro u hu
    interval_cases u <;> simp [DfsCluster.adj_of]
  have hs : DfsCluster.SymmetricAdj 3
      (DfsCluster.adj_of [[(1, 80)], [(0, 80), (2, 90)], [(1, 90)]]) := by
    intro u v hu hv
    interval_cases u <;> interval_cases v <;> simp [DfsCluster.adj_of]
  ⟨hr, hs, by decide,
    DfsCluster.connected_components_articulation 3 _ _ hr hs (by decide)⟩

namespace SpanningTree

theorem st_store_same {α : Type} (a : Nat → α) (i : Nat) (v : α) : store a i v i = v := by
  unfold store; simp

theorem st_store_other {α : Type} (a : Nat → α) (i j : Nat) (v : α) (h : j ≠ i) :
    store a i v j = a j := by
  unfold store; simp [h]

/-- The inner loop of the root search leaves the pair as it was when no score
exceeds `max_score`, and otherwise names `v` and a larger score. -/
theorem find_root_entries_spec (v : Nat) :
    ∀ (es : List fasta_t) (acc : Int × Int),
      (find_root_entries v es acc = acc ∧ ∀ e ∈ es, e.score ≤ acc.2) ∨
      ((find_root_entries v es acc).1 = (v : Int) ∧ acc.2 < (find_root_entries v es acc).2) := by
  intro es
  induction es with
  | nil => intro acc; left; exact ⟨rfl, by intro e he; cases he⟩
  | cons e es ih =>
    intro acc
    rw [find_root_entries]
    by_cases h : e.score > acc.2
    · rw [if_pos h]
      right
      rcases ih ((v : Int), e.score) with ⟨a, _⟩ | ⟨a, b⟩
      · rw [a]; exact ⟨rfl, h⟩
      · exact ⟨a, lt_trans h b⟩
    · rw [if_neg h]
      rcases ih acc with ⟨a, b⟩ | ⟨a, b⟩
      · left
        refine ⟨a, ?_⟩
        intro e' he'
        rcases List.mem_cons.mp he' with he' | he'
        · rw [he']; exact not_lt.mp h
        · exact b e' he'
      · right; exact ⟨a, b⟩

/-- The root search names a member as soon as some entry of a member has a score
above the initial `max_score`. -/
theorem find_root_spec (adj : Nat → List fasta_t) :
    ∀ (comp : List Nat) (acc : Int × Int),
      (find_root adj comp acc = acc ∧ ∀ v ∈ comp, ∀ e ∈ adj v, e.score ≤ acc.2) ∨
      ((∃ v ∈ comp, (find_root adj comp acc).1 = (v : Int)) ∧
        acc.2 < (find_root adj comp acc).2) := by
  intro comp
  induction comp with
  | nil => intro acc; left; exact ⟨rfl, by intro v hv; cases hv⟩
  | cons v vs ih =>
    intro acc
    rw [find_root]
    rcases find_root_entries_spec v (adj v) acc with ⟨a, b⟩ | ⟨a, b⟩
    · rw [a]
      rcases ih acc with ⟨c, d⟩ | ⟨⟨u, hu, c⟩, d⟩
      · left
        refine ⟨c, ?_⟩
        intro v' hv'
        rcases List.mem_cons.mp hv' with hv' | hv'
        · rw [hv']; exact b
        · exact d v' hv'
      · right; exact ⟨⟨u, List.mem_cons_of_mem _ hu, c⟩, d⟩
    · right
      rcases ih (find_root_entries v (adj v) acc) with ⟨c, _⟩ | ⟨⟨u, hu, c⟩, d⟩
      · rw [c]; exact ⟨⟨v, List.mem_cons_self _ _, a⟩, b⟩
      · exact ⟨⟨u, List.mem_cons_of_mem _ hu, c⟩, lt_trans b d⟩

/-- The extraction loop returns an unused member of largest key, or -1 when every
member is used. -/
theorem extract_max_spec (st : prim_state) :
    ∀ (vs : List Nat) (m : Int) (S : Nat → Prop),
      ((m = -1 ∧ ∀ b, S b → st.used b = true) ∨
        (∃ z : Nat, m = (z : Int) ∧ st.used z = false ∧ S z ∧
          ∀ b, S b → st.used b = false → st.key b ≤ st.key z)) →
      ((extract_max st vs m = -1 ∧ ∀ b, (S b ∨ b ∈ vs) → st.used b = true) ∨
        (∃ z : Nat, extract_max st vs m = (z : Int) ∧ st.used z = false ∧ (S z ∨ z ∈ vs) ∧
          ∀ b, (S b ∨ b ∈ vs) → st.used b = false → st.key b ≤ st.key z)) := by
  intro vs
  induction vs with
  | nil =>
    intro m S h
    rw [extract_max]
    rcases h with ⟨a, b⟩ | ⟨z, a, b, c, d⟩
    · left
      refine ⟨a, ?_⟩
      rintro b' (h | h)
      · exact b b' h
      · cases h
    · right
      refine ⟨z, a, b, Or.inl c, ?_⟩
      rintro b' (h | h)
      · exact d b' h
      · cases h
  | cons v vs ih =>
    intro m S h
    rw [extract_max]
    have key : ∀ (m' : Int),
        ((m' = -1 ∧ ∀ b, (S b ∨ b = v) → st.used b = true) ∨
          (∃ z : Nat, m' = (z : Int) ∧ st.used z = false ∧ (S z ∨ z = v) ∧
            ∀ b, (S b ∨ b = v) → st.used b = false → st.key b ≤ st.key z)) →
        ((extract_max st vs m' = -1 ∧ ∀ b, (S b ∨ b ∈ v :: vs) → st.used b = true) ∨
          (∃ z : Nat, extract_max st vs m' = (z : Int) ∧ st.used z = false ∧
            (S z ∨ z ∈ v :: vs) ∧
            ∀ b, (S b ∨ b ∈ v :: vs) → st.used b = false → st.key b ≤ st.key z)) := by
      intro m' hm'
      have hiff : ∀ b, (S b ∨ b ∈ v :: vs) ↔ ((S b ∨ b = v) ∨ b ∈ vs) := by
        intro b
        rw [List.mem_cons]
        tauto
      rcases ih m' (fun b => S b ∨ b = v) hm' with ⟨a, b⟩ | ⟨z, a, b, c, d⟩
      · exact Or.inl ⟨a, fun b' hb' => b b' ((hiff b').mp hb')⟩
      · exact Or.inr ⟨z, a, b, (hiff z).mpr c, fun b' hb' => d b' ((hiff b').mp hb')⟩
    apply key
    cases hu : st.used v with
    | true =>
      simp only [if_true]
      rcases h with ⟨a, b⟩ | ⟨z, a, b, c, d⟩
      · left
        refine ⟨a, ?_⟩
        rintro b' (h | h)
        · exact b b' h
        · rw [h]; exact hu
      · right
        refine ⟨z, a, b, Or.inl c, ?_⟩
        rintro b' (h | h) hb'
        · exact d b' h hb'
        · rw [h, hu] at hb'; cases hb'
    | false =>
      simp only [Bool.false_eq_true, if_false]
      right
      rcases h with ⟨a, b⟩ | ⟨z, a, b, c, d⟩
      · rw [if_pos (Or.inl a)]
        refine ⟨v, rfl, hu, Or.inr rfl, ?_⟩
        rintro b' (h | h) hb'
        · rw [b b' h] at hb'; cases hb'
        · rw [h]
      · have hz : m.toNat = z := by rw [a]; exact Int.toNat_ofNat z
        have hm1 : ¬ m = -1 := by rw [a]; omega
        by_cases hgt : st.key v > st.key m.toNat
        · rw [if_pos (Or.inr hgt)]
          rw [hz] at hgt
          refine ⟨v, rfl, hu, Or.inr rfl, ?_⟩
          rintro b' (h | h) hb'
          · exact le_trans (d b' h hb') (le_of_lt hgt)
          · rw [h]
        · rw [if_neg (by rintro (h | h); exact hm1 h; exact hgt h)]
          rw [hz] at hgt
          refine ⟨z, a, b, Or.inl c, ?_⟩
          rintro b' (h | h) hb'
          · exact d b' h hb'
          · rw [h]; exact not_lt.mp hgt

/-- The update loop leaves `used` alone, changes key and predecessor only of
unused allowed targets, to a larger score of one of the entries, and ends with
every such target's key at or above the scores of the entries that lead to it. -/
theorem relax_spec (allowed : Nat → Bool) (node : Nat) :
    ∀ (es : List fasta_t) (st : prim_state),
      (relax allowed node es st).used = st.used ∧
      (∀ b, st.key b ≤ (relax allowed node es st).key b) ∧
      (∀ b, ((relax allowed node es st).key b = st.key b ∧
            (relax allowed node es st).p b = st.p b) ∨
          (allowed b = true ∧ st.used b = false ∧
            (relax allowed node es st).p b = (node : Int) ∧
            { s2 := b, score := (relax allowed node es st).key b } ∈ es)) ∧
      (∀ e ∈ es, allowed e.s2 = true → st.used e.s2 = false →
        e.score ≤ (relax allowed node es st).key e.s2) := by
  intro es
  induction es with
  | nil =>
    intro st
    exact ⟨rfl, fun _ => le_refl _, fun _ => Or.inl ⟨rfl, rfl⟩, by intro e he; cases he⟩
  | cons e es ih =>
    intro st
    rw [relax]
    by_cases hchg : allowed e.s2 = true ∧ st.used e.s2 = false ∧ e.score > st.key e.s2
    · obtain ⟨h1, h2, h3⟩ := hchg
      rw [if_neg (by rw [h1]; decide), if_neg (by rw [h2]; decide), if_pos h3]
      obtain ⟨i1, i2, i3, i4⟩ := ih
        { st with p := store st.p e.s2 (node : Int), key := store st.key e.s2 e.score }
      simp only [] at i1 i2 i3 i4
      have hk : ∀ b, st.key b ≤ store st.key e.s2 e.score b := by
        intro b
        by_cases hb : b = e.s2
        · rw [hb, st_store_same]; exact le_of_lt h3
        · rw [st_store_other _ _ _ _ hb]
      refine ⟨i1, fun b => le_trans (hk b) (i2 b), ?_, ?_⟩
      · intro b
        rcases i3 b with ⟨a, c⟩ | ⟨a, c, d, f⟩
        · by_cases hb : b = e.s2
          · right
            rw [hb] at a c ⊢
            rw [st_store_same] at a c
            refine ⟨h1, h2, c, ?_⟩
            rw [a]
            exact List.mem_cons_self _ _
          · left
            rw [st_store_other _ _ _ _ hb] at a c
            exact ⟨a, c⟩
        · right
          exact ⟨a, c, d, List.mem_cons_of_mem _ f⟩
      · intro e' he' ha hu
        rcases List.mem_cons.mp he' with he' | he'
        · rw [he']
          have := i2 e.s2
          rw [st_store_same] at this
          exact this
        · exact i4 e' he' ha hu
    · have hst : (if allowed e.s2 = false then st
          else if st.used e.s2 = true then st
          else if e.score > st.key e.s2 then
            { st with p := store st.p e.s2 (node : Int), key := store st.key e.s2 e.score }
          else st) = st := by
        split
        · rfl
        · split
          · rfl
          · split
            · rename_i a b c
              exfalso
              apply hchg
              refine ⟨?_, ?_, c⟩
              · cases h : allowed e.s2 with
                | true => rfl
                | false => exact absurd h a
              · cases h : st.used e.s2 with
                | false => rfl
                | true => exact absurd h b
            · rfl
      rw [hst]
      obtain ⟨i1, i2, i3, i4⟩ := ih st
      refine ⟨i1, i2, ?_, ?_⟩
      · intro b
        rcases i3 b with h | ⟨a, c, d, f⟩
        · exact Or.inl h
        · exact Or.inr ⟨a, c, d, List.mem_cons_of_mem _ f⟩
      · intro e' he' ha hu
        rcases List.mem_cons.mp he' with he' | he'
        · rw [he']
          have hle : e.score ≤ st.key e.s2 := by
            by_contra hlt
            exact hchg ⟨he' ▸ ha, he' ▸ hu, not_le.mp hlt⟩
          exact le_trans hle (i2 e.s2)
        · exact i4 e' he' ha hu

/-- A path from a node with `P` to a node without has a step that leaves `P`. -/
theorem crossing_step {R : Nat → Nat → Prop} {P : Nat → Prop} {y z : Nat}
    (h : Relation.ReflTransGen R y z) (hy : P y) (hz : ¬ P z) :
    ∃ a b, P a ∧ ¬ P b ∧ R a b := by
  induction h with
  | refl => exact absurd hy hz
  | tail hab hbc ih =>
    rename_i b c
    by_cases hb : P b
    · exact ⟨b, c, hb, hz, hbc⟩
    · exact ih hb

theorem before_append (ord : List Nat) (z y v : Nat) :
    Before (ord ++ [z]) y v ↔ Before ord y v ∨ (v = z ∧ y ∈ ord) := by
  constructor
  · rintro ⟨pre, post, h, hy⟩
    rcases List.eq_nil_or_concat post with hp | ⟨post', x, hp⟩
    · subst hp
      have := List.append_inj_right' h rfl
      simp only [List.cons.injEq, and_true] at this
      have h2 := List.append_inj_left' h rfl
      right
      exact ⟨this.symm, h2 ▸ hy⟩
    · subst hp
      rw [List.concat_eq_append, ← List.cons_append, ← List.append_assoc] at h
      have h1 := List.append_inj_left' h rfl
      left
      exact ⟨pre, post', h1, hy⟩
  · rintro (⟨pre, post, h, hy⟩ | ⟨h1, h2⟩)
    · exact ⟨pre, post ++ [z], by rw [h]; simp, hy⟩
    · exact ⟨ord, [], by rw [h1], h2⟩

theorem before_mem {ord : List Nat} {a z : Nat} (h : Before ord a z) : a ∈ ord ∧ z ∈ ord := by
  obtain ⟨pre, post, h, ha⟩ := h
  rw [h]
  exact ⟨List.mem_append_left _ ha, List.mem_append_right _ (List.mem_cons_self _ _)⟩

end SpanningTree

namespace SpanningTree

theorem primInv_init (adj : Nat → List fasta_t) (comp : List Nat) (root : Nat) :
    PrimInv adj comp root []
      { prim_init with key := store prim_init.key root 0 } :=
  { o_nodup := List.nodup_nil
    o_sub := by intro v hv; cases hv
    o_used := by
      intro v
      constructor
      · intro h; simp [prim_init] at h
      · intro h; cases h
    o_root := by intro v hv; cases hv
    k_root := st_store_same _ _ _
    p_root := rfl
    unused_le := by intro b _ _ _ a ha; cases ha
    unused_par := by
      intro b _ _ hb
      left
      show store prim_init.key root 0 b = INT_MIN
      rw [st_store_other _ _ _ _ hb]
      rfl
    used_par := by intro z hz; cases hz
    thresh := by
      intro w z y h
      have := (before_mem h).1
      cases this }

/-- With fewer members extracted than the component has, an unused member is left. -/
theorem exists_unused {comp ord : List Nat} (hnd : comp.Nodup)
    (hlen : ord.length < comp.length) : ∃ v ∈ comp, v ∉ ord := by
  by_contra h
  push_neg at h
  have := (List.subperm_of_subset hnd h).length_le
  omega

/-- One round of the loop of `spanning_tree`: an unused member `z` of largest key is
extracted, and the invariant holds again after the update loop over its entries. -/
theorem primInv_step {adj : Nat → List fasta_t} {comp : List Nat} {root : Nat}
    (hnd : comp.Nodup) (hroot : root ∈ comp) (hconn : Connected adj comp)
    (hmin : ∀ u ∈ comp, ∀ e ∈ adj u, e.s2 ∈ comp → INT_MIN < e.score)
    {ord : List Nat} {st : prim_state} (hinv : PrimInv adj comp root ord st)
    (hlen : ord.length < comp.length) :
    ∃ z : Nat, extract_max st comp (-1) = (z : Int) ∧ z ∈ comp ∧ z ∉ ord ∧
      PrimInv adj comp root (ord ++ [z])
        (relax (fun v => decide (v ∈ comp)) z (adj z)
          { st with used := store st.used z true }) := by
  obtain ⟨u, hu, huo⟩ := exists_unused hnd hlen
  have hunused : ∀ v, v ∉ ord → st.used v = false := by
    intro v hv
    cases h : st.used v with
    | false => rfl
    | true => exact absurd ((hinv.o_used v).mp h) hv
  rcases extract_max_spec st comp (-1) (fun _ => False)
      (Or.inl ⟨rfl, fun _ h => h.elim⟩) with ⟨_, a⟩ | ⟨z, a, b, c, d⟩
  · have := a u (Or.inr hu)
    rw [hunused u huo] at this; cases this
  have hzc : z ∈ comp := by
    rcases c with c | c
    · exact c.elim
    · exact c
  have hzo : z ∉ ord := by
    intro h
    rw [(hinv.o_used z).mpr h] at b; cases b
  have hmax : ∀ b', b' ∈ comp → b' ∉ ord → st.key b' ≤ st.key z :=
    fun b' h1 h2 => d b' (Or.inr h1) (hunused b' h2)
  refine ⟨z, a, hzc, hzo, ?_⟩
  -- the root comes first
  have hfirst : ord = [] → z = root := by
    intro he
    by_contra hne
    have h1 : st.key z = INT_MIN := by
      rcases hinv.unused_par z hzc hzo hne with h | ⟨a', ha', _⟩
      · exact h
      · rw [he] at ha'; cases ha'
    have h2 := hmax root hroot (by rw [he]; exact List.not_mem_nil _)
    rw [hinv.k_root, h1] at h2
    unfold INT_MIN at h2
    omega
  have hrootin : ord ≠ [] → root ∈ ord := by
    intro hne
    obtain ⟨v, hv⟩ := List.exists_mem_of_ne_nil ord hne
    rcases hinv.o_root v hv with h | h
    · rw [← h]; exact hv
    · exact (before_mem h).1
  -- the key of `z` bounds every threshold reached from the extracted members
  have hstar : ∀ (w : Int) (y : Nat), y ∈ ord → JoinedGe adj comp w y z → w ≤ st.key z := by
    intro w y hy hj
    obtain ⟨a', b', ha', hb', hab⟩ := crossing_step (P := fun v => v ∈ ord) hj hy hzo
    obtain ⟨_, hbc, e, he, heb, hw⟩ := hab
    have hroot' : root ∈ ord := hrootin (List.ne_nil_of_mem hy)
    have hbr : b' ≠ root := by intro h; rw [h] at hb'; exact hb' hroot'
    exact le_trans (le_trans hw (hinv.unused_le b' hbc hb' hbr a' ha' e he heb))
      (hmax b' hbc hb')
  obtain ⟨r1, r2, r3, r4⟩ := relax_spec (fun v => decide (v ∈ comp)) z (adj z)
    { st with used := store st.used z true }
  simp only [] at r1 r2 r3 r4
  have hkeep : ∀ v, v ∈ ord ∨ v = z →
      (relax (fun v => decide (v ∈ comp)) z (adj z)
        { st with used := store st.used z true }).key v = st.key v ∧
      (relax (fun v => decide (v ∈ comp)) z (adj z)
        { st with used := store st.used z true }).p v = st.p v := by
    intro v hv
    rcases r3 v with h | ⟨_, h, _⟩
    · exact h
    · exfalso
      rcases hv with hv | hv
      · have hvz : v ≠ z := by intro e; rw [e] at hv; exact hzo hv
        rw [st_store_other _ _ _ _ hvz, (hinv.o_used v).mpr hv] at h
        cases h
      · rw [hv, st_store_same] at h; cases h
  exact
    { o_nodup := by
        rw [List.nodup_append]
        refine ⟨hinv.o_nodup, List.nodup_singleton _, ?_⟩
        intro x hx hx'
        rw [List.mem_singleton] at hx'
        rw [hx'] at hx
        exact hzo hx
      o_sub := by
        intro v hv
        rcases List.mem_append.mp hv with hv | hv
        · exact hinv.o_sub v hv
        · rw [List.mem_singleton] at hv; rw [hv]; exact hzc
      o_used := by
        intro v
        rw [r1, List.mem_append, List.mem_singleton]
        by_cases hvz : v = z
        · rw [hvz, st_store_same]
          exact ⟨fun _ => Or.inr rfl, fun _ => rfl⟩
        · rw [st_store_other _ _ _ _ hvz, hinv.o_used v]
          exact ⟨fun h => Or.inl h, fun h => h.resolve_right hvz⟩
      o_root := by
        intro v hv
        rcases List.mem_append.mp hv with hv | hv
        · rcases hinv.o_root v hv with h | h
          · exact Or.inl h
          · exact Or.inr ((before_append ord z root v).mpr (Or.inl h))
        · rw [List.mem_singleton] at hv
          by_cases he : ord = []
          · left; rw [hv]; exact hfirst he
          · right
            exact (before_append ord z root v).mpr (Or.inr ⟨hv, hrootin he⟩)
      k_root := by
        have : root ∈ ord ∨ root = z := by
          by_cases he : ord = []
          · exact Or.inr (hfirst he).symm
          · exact Or.inl (hrootin he)
        rw [(hkeep root this).1]
        exact hinv.k_root
      p_root := by
        have : root ∈ ord ∨ root = z := by
          by_cases he : ord = []
          · exact Or.inr (hfirst he).symm
          · exact Or.inl (hrootin he)
        rw [(hkeep root this).2]
        exact hinv.p_root
      unused_le := by
        intro b' hb hbo hbr a' ha' e he heb
        rw [List.mem_append, List.mem_singleton, not_or] at hbo
        rcases List.mem_append.mp ha' with ha' | ha'
        · exact le_trans (hinv.unused_le b' hb hbo.1 hbr a' ha' e he heb) (r2 b')
        · rw [List.mem_singleton] at ha'
          rw [ha'] at he
          have := r4 e he (by rw [heb]; exact decide_eq_true hb)
            (by rw [heb, st_store_other _ _ _ _ hbo.2]; exact hunused b' hbo.1)
          rw [heb] at this
          exact this
      unused_par := by
        intro b' hb hbo hbr
        rw [List.mem_append, List.mem_singleton, not_or] at hbo
        rcases r3 b' with ⟨h1, h2⟩ | ⟨_, _, h3, h4⟩
        · rcases hinv.unused_par b' hb hbo.1 hbr with h | ⟨a', ha', h5, h6⟩
          · left; rw [h1]; exact h
          · right
            exact ⟨a', List.mem_append_left _ ha', by rw [h2]; exact h5, by rw [h1]; exact h6⟩
        · right
          exact ⟨z, List.mem_append_right _ (List.mem_singleton_self _), h3, h4⟩
      used_par := by
        intro v hv hvr
        rcases List.mem_append.mp hv with hv | hv
        · obtain ⟨a', h1, h2, h3⟩ := hinv.used_par v hv hvr
          refine ⟨a', (before_append ord z a' v).mpr (Or.inl h1), ?_, ?_⟩
          · rw [(hkeep v (Or.inl hv)).2]; exact h2
          · rw [(hkeep v (Or.inl hv)).1]; exact h3
        · rw [List.mem_singleton] at hv
          subst hv
          have hne : ord ≠ [] := fun he => hvr (hfirst he)
          have hjoin : JoinedGe adj comp (INT_MIN + 1) root v := by
            refine Relation.ReflTransGen.mono ?_ (hconn root hroot v hzc)
            rintro a' b' ⟨ha', hb', e, he, heb⟩
            exact ⟨ha', hb', e, he, heb, by
              have := hmin a' ha' e he (by rw [heb]; exact hb')
              omega⟩
          have hk := hstar (INT_MIN + 1) root (hrootin hne) hjoin
          rcases hinv.unused_par v hzc hzo hvr with h | ⟨a', ha', h5, h6⟩
          · rw [h] at hk; omega
          · refine ⟨a', (before_append ord v a' v).mpr (Or.inr ⟨rfl, ha'⟩), ?_, ?_⟩
            · rw [(hkeep v (Or.inr rfl)).2]; exact h5
            · rw [(hkeep v (Or.inr rfl)).1]; exact h6
      thresh := by
        intro w v y hb hj
        rcases (before_append ord z y v).mp hb with h | ⟨h1, h2⟩
        · rw [(hkeep v (Or.inl (before_mem h).2)).1]
          exact hinv.thresh w v y h hj
        · rw [(hkeep v (Or.inr h1)).1, h1]
          rw [h1] at hj
          exact hstar w y h2 hj }

/-- The loop of `spanning_tree` returns after extracting every member. -/
theorem prim_loop_spec {adj : Nat → List fasta_t} {comp : List Nat} {root : Nat}
    (hnd : comp.Nodup) (hroot : root ∈ comp) (hconn : Connected adj comp)
    (hmin : ∀ u ∈ comp, ∀ e ∈ adj u, e.s2 ∈ comp → INT_MIN < e.score) :
    ∀ (k : Nat) (ord : List Nat) (st : prim_state), PrimInv adj comp root ord st →
      ord.length + k = comp.length →
      ∃ st' ord', prim_loop adj comp (fun v => decide (v ∈ comp)) k st = some st' ∧
        PrimInv adj comp root ord' st' ∧ ord'.length = comp.length := by
  intro k
  induction k with
  | zero =>
    intro ord st hinv hlen
    exact ⟨st, ord, rfl, hinv, by omega⟩
  | succ k ih =>
    intro ord st hinv hlen
    obtain ⟨z, hz, _, _, hinv'⟩ := primInv_step hnd hroot hconn hmin hinv (by omega)
    rw [prim_loop, hz, if_neg (by omega), Int.toNat_ofNat]
    exact ih (ord ++ [z]) _ hinv' (by rw [List.length_append, List.length_singleton]; omega)

end SpanningTree

namespace SpanningTree

/-- A value between `L` and `U` exceeds `L` by the number of thresholds in
`(L, U]` that it reaches. -/
theorem count_thresholds (L U x : Int) (h1 : L ≤ x) (h2 : x ≤ U) :
    (((Finset.Ioc L U).filter (fun w => w ≤ x)).card : Int) = x - L := by
  have : (Finset.Ioc L U).filter (fun w => w ≤ x) = Finset.Ioc L x := by
    ext w
    simp only [Finset.mem_filter, Finset.mem_Ioc]
    constructor
    · rintro ⟨⟨a, _⟩, c⟩; exact ⟨a, c⟩
    · rintro ⟨a, c⟩; exact ⟨⟨a, le_trans c h2⟩, c⟩
  rw [this, Int.card_Ioc, Int.toNat_of_nonneg (by omega)]

/-- The sum of values between `L` and `U` is `L` times their number plus, over the
thresholds in `(L, U]`, the number of values that reach the threshold. -/
theorem sum_by_thresholds (S : Finset Nat) (f : Nat → Int) (L U : Int)
    (h : ∀ v ∈ S, L ≤ f v ∧ f v ≤ U) :
    S.sum f = L * (S.card : Int) +
      (Finset.Ioc L U).sum (fun w => ((S.filter (fun v => w ≤ f v)).card : Int)) := by
  have h1 : ∀ v ∈ S, f v = L + ((Finset.Ioc L U).filter (fun w => w ≤ f v)).card := by
    intro v hv
    rw [count_thresholds L U (f v) (h v hv).1 (h v hv).2]
    ring
  rw [Finset.sum_congr rfl h1, Finset.sum_add_distrib, Finset.sum_const, nsmul_eq_mul,
    mul_comm]
  congr 1
  have h2 : ∀ v, (((Finset.Ioc L U).filter (fun w => w ≤ f v)).card : Int) =
      (Finset.Ioc L U).sum (fun w => if w ≤ f v then (1 : Int) else 0) := by
    intro v
    rw [Finset.card_filter]
    push_cast
    rfl
  have h3 : ∀ w, (((S.filter (fun v => w ≤ f v)).card : Int)) =
      S.sum (fun v => if w ≤ f v then (1 : Int) else 0) := by
    intro w
    rw [Finset.card_filter]
    push_cast
    rfl
  simp only [h2, h3]
  exact Finset.sum_comm

/-- Two families of values of the same size compare in sum when they compare in the
number of values reaching each threshold. -/
theorem sum_le_of_threshold_counts (S T : Finset Nat) (f g : Nat → Int)
    (hcard : S.card = T.card)
    (h : ∀ w : Int, (S.filter (fun v => w ≤ f v)).card ≤ (T.filter (fun v => w ≤ g v)).card) :
    S.sum f ≤ T.sum g := by
  -- bounds for all the values
  obtain ⟨L, hL⟩ : ∃ L : Int, (∀ v ∈ S, L ≤ f v) ∧ (∀ v ∈ T, L ≤ g v) := by
    refine ⟨- (S.sum (fun v => |f v|) + T.sum (fun v => |g v|)), ?_, ?_⟩
    · intro v hv
      have h1 := Finset.single_le_sum (f := fun v => |f v|) (fun i _ => abs_nonneg (f i)) hv
      have h2 := Finset.sum_nonneg (s := T) (f := fun v => |g v|) (fun i _ => abs_nonneg (g i))
      have h3 := neg_abs_le (f v)
      beta_reduce at h1 h2
      omega
    · intro v hv
      have h1 := Finset.single_le_sum (f := fun v => |g v|) (fun i _ => abs_nonneg (g i)) hv
      have h2 := Finset.sum_nonneg (s := S) (f := fun v => |f v|) (fun i _ => abs_nonneg (f i))
      have h3 := neg_abs_le (g v)
      beta_reduce at h1 h2
      omega
  obtain ⟨U, hU⟩ : ∃ U : Int, (∀ v ∈ S, f v ≤ U) ∧ (∀ v ∈ T, g v ≤ U) := by
    refine ⟨S.sum (fun v => |f v|) + T.sum (fun v => |g v|), ?_, ?_⟩
    · intro v hv
      have h1 := Finset.single_le_sum (f := fun v => |f v|) (fun i _ => abs_nonneg (f i)) hv
      have h2 := Finset.sum_nonneg (s := T) (f := fun v => |g v|) (fun i _ => abs_nonneg (g i))
      have h3 := le_abs_self (f v)
      beta_reduce at h1 h2
      omega
    · intro v hv
      have h1 := Finset.single_le_sum (f := fun v => |g v|) (fun i _ => abs_nonneg (g i)) hv
      have h2 := Finset.sum_nonneg (s := S) (f := fun v => |f v|) (fun i _ => abs_nonneg (f i))
      have h3 := le_abs_self (g v)
      beta_reduce at h1 h2
      omega
  rw [sum_by_thresholds S f L U (fun v hv => ⟨hL.1 v hv, hU.1 v hv⟩),
    sum_by_thresholds T g L U (fun v hv => ⟨hL.2 v hv, hU.2 v hv⟩), hcard]
  apply add_le_add_left
  apply Finset.sum_le_sum
  intro w _
  exact_mod_cast h w

end SpanningTree

namespace SpanningTree

theorem before_indexOf {ord : List Nat} (hnd : ord.Nodup) {a v : Nat}
    (h : Before ord a v) : ord.indexOf a < ord.indexOf v := by
  obtain ⟨pre, post, rfl, ha⟩ := h
  have hv : v ∉ pre := by
    intro hv
    exact (List.nodup_append.mp hnd).2.2 hv (List.mem_cons_self _ _)
  rw [List.indexOf_append_of_mem ha, List.indexOf_append_of_not_mem hv,
    List.indexOf_cons_self]
  exact Nat.lt_add_right 0 (List.indexOf_lt_length.mpr ha)

theorem before_total {ord : List Nat} {v1 v2 : Nat} (h1 : v1 ∈ ord) (h2 : v2 ∈ ord)
    (hne : v1 ≠ v2) : Before ord v1 v2 ∨ Before ord v2 v1 := by
  obtain ⟨pre, post, rfl⟩ := List.append_of_mem h2
  rcases List.mem_append.mp h1 with h | h
  · exact Or.inl ⟨pre, post, rfl, h⟩
  · rcases List.mem_cons.mp h with h | h
    · exact absurd h hne
    · obtain ⟨q1, q2, rfl⟩ := List.append_of_mem h
      right
      refine ⟨pre ++ v2 :: q1, q2, by simp, ?_⟩
      exact List.mem_append_right _ (List.mem_cons_self _ _)

theorem before_irrefl_root {adj : Nat → List fasta_t} {comp : List Nat} {root : Nat}
    {ord : List Nat} {st : prim_state} (hinv : PrimInv adj comp root ord st) (y : Nat) :
    ¬ Before ord y root := by
  intro h
  have h1 := before_indexOf hinv.o_nodup h
  rcases hinv.o_root y (before_mem h).1 with e | e
  · rw [e] at h1; exact lt_irrefl _ h1
  · have h2 := before_indexOf hinv.o_nodup e
    omega

/-- Following the predecessors from any extracted member leads to the root. -/
theorem prim_reach {adj : Nat → List fasta_t} {comp : List Nat} {root : Nat}
    {ord : List Nat} {st : prim_state} (hinv : PrimInv adj comp root ord st) :
    ∀ (n : Nat) (v : Nat), v ∈ ord → ord.indexOf v = n →
      ∃ k, (fun x => (st.p x).toNat)^[k] v = root := by
  intro n
  induction n using Nat.strong_induction_on with
  | _ n ih =>
    intro v hv hn
    by_cases hvr : v = root
    · exact ⟨0, hvr⟩
    · obtain ⟨a, h1, h2, _⟩ := hinv.used_par v hv hvr
      have hlt := before_indexOf hinv.o_nodup h1
      obtain ⟨k, hk⟩ := ih (ord.indexOf a) (by omega) a (before_mem h1).1 rfl
      refine ⟨k + 1, ?_⟩
      rw [Function.iterate_succ_apply]
      have : (st.p v).toNat = a := by rw [h2]; exact Int.toNat_ofNat a
      simp only [this]
      exact hk

/-- The predecessors and keys left by the loop form a spanning tree. -/
theorem prim_tree {adj : Nat → List fasta_t} {comp : List Nat} {root : Nat}
    {ord : List Nat} {st : prim_state} (hinv : PrimInv adj comp root ord st)
    (hroot : root ∈ comp) (hall : ∀ v ∈ comp, v ∈ ord) :
    IsSpanningTree adj comp root (fun x => (st.p x).toNat) st.key := by
  refine ⟨hroot, ?_, ?_⟩
  · intro v hv hvr
    obtain ⟨a, h1, h2, h3⟩ := hinv.used_par v (hall v hv) hvr
    have : (st.p v).toNat = a := by rw [h2]; exact Int.toNat_ofNat a
    simp only [this]
    exact ⟨hinv.o_sub a (before_mem h1).1, h3⟩
  · intro v hv
    exact prim_reach hinv _ v (hall v hv) rfl

theorem edgeGe_symm {adj : Nat → List fasta_t} {comp : List Nat}
    (hsym : SymmetricScores adj comp) {w : Int} {a b : Nat}
    (h : EdgeGe adj comp w a b) : EdgeGe adj comp w b a := by
  obtain ⟨ha, hb, e, he, heb, hw⟩ := h
  have := hsym a ha e he (by rw [heb]; exact hb)
  rw [heb] at this
  exact ⟨hb, ha, _, this, rfl, hw⟩

theorem joinedGe_symm {adj : Nat → List fasta_t} {comp : List Nat}
    (hsym : SymmetricScores adj comp) {w : Int} {a b : Nat}
    (h : JoinedGe adj comp w a b) : JoinedGe adj comp w b a := by
  induction h with
  | refl => exact Relation.ReflTransGen.refl
  | tail _ hbc ih => exact Relation.ReflTransGen.head (edgeGe_symm hsym hbc) ih

/-- In any spanning tree, from a member whose entry reaches the threshold `w` the
parents lead to a member joined to it at level `w` whose entry does not reach
`w` (or which is the root of the tree). -/
theorem exists_miss {adj : Nat → List fasta_t} {comp : List Nat} {rho : Nat}
    {par : Nat → Nat} {sc : Nat → Int} (ht : IsSpanningTree adj comp rho par sc)
    (w : Int) (v : Nat) (hv : v ∈ comp) :
    ∃ m, m ∈ comp ∧ JoinedGe adj comp w m v ∧ ¬ (m ≠ rho ∧ w ≤ sc m) := by
  obtain ⟨k0, hk0⟩ := ht.2.2 v hv
  have hex : ∃ k, ¬ (par^[k] v ≠ rho ∧ w ≤ sc (par^[k] v)) :=
    ⟨k0, by rw [hk0]; intro h; exact h.1 rfl⟩
  classical
  have hchain : ∀ k, k ≤ Nat.find hex → par^[k] v ∈ comp ∧ JoinedGe adj comp w (par^[k] v) v := by
    intro k
    induction k with
    | zero => intro _; exact ⟨hv, Relation.ReflTransGen.refl⟩
    | succ k ih =>
      intro hk
      obtain ⟨h1, h2⟩ := ih (by omega)
      have hin : par^[k] v ≠ rho ∧ w ≤ sc (par^[k] v) := by
        have := Nat.find_min hex (show k < Nat.find hex by omega)
        exact not_not.mp this
      obtain ⟨h3, h4⟩ := ht.2.1 _ h1 hin.1
      rw [Function.iterate_succ_apply']
      exact ⟨h3, Relation.ReflTransGen.head ⟨h3, h1, _, h4, rfl, hin.2⟩ h2⟩
  exact ⟨par^[Nat.find hex] v, (hchain _ (le_refl _)).1, (hchain _ (le_refl _)).2,
    Nat.find_spec hex⟩

/-- For every threshold, a spanning tree has at most as many entries reaching it as
the tree left by the loop. -/
theorem threshold_count {adj : Nat → List fasta_t} {comp : List Nat} {root : Nat}
    {ord : List Nat} {st : prim_state} (hinv : PrimInv adj comp root ord st)
    (hall : ∀ v ∈ comp, v ∈ ord) (hsym : SymmetricScores adj comp)
    {rho : Nat} {par : Nat → Nat} {sc : Nat → Int}
    (ht : IsSpanningTree adj comp rho par sc) (w : Int) :
    ((comp.toFinset.erase rho).filter (fun v => w ≤ sc v)).card ≤
      ((comp.toFinset.erase root).filter (fun v => w ≤ st.key v)).card := by
  classical
  have hA : ∀ v, v ∈ (comp.toFinset.erase rho).filter (fun v => w ≤ sc v) ↔
      v ∈ comp ∧ (v ≠ rho ∧ w ≤ sc v) := by
    intro v
    simp only [Finset.mem_filter, Finset.mem_erase, List.mem_toFinset]
    tauto
  have hB : ∀ z, z ∈ comp → (∃ y, Before ord y z ∧ JoinedGe adj comp w y z) →
      z ∈ (comp.toFinset.erase root).filter (fun v => w ≤ st.key v) := by
    rintro z hz ⟨y, hy1, hy2⟩
    simp only [Finset.mem_filter, Finset.mem_erase, List.mem_toFinset]
    refine ⟨⟨?_, hz⟩, hinv.thresh w z y hy1 hy2⟩
    intro e
    rw [e] at hy1
    exact before_irrefl_root hinv y hy1
  have hmiss : ∀ v, v ∈ comp → ∃ m, m ∈ comp ∧ JoinedGe adj comp w m v ∧
      ¬ (m ≠ rho ∧ w ≤ sc m) := fun v hv => exists_miss ht w v hv
  apply Finset.card_le_card_of_injOn
    (fun v => if (∃ y, Before ord y v ∧ JoinedGe adj comp w y v) then v
      else if h : v ∈ comp then Classical.choose (hmiss v h) else v)
  · intro v hv
    obtain ⟨hvc, hvA⟩ := (hA v).mp hv
    by_cases hf : ∃ y, Before ord y v ∧ JoinedGe adj comp w y v
    · simp only [if_pos hf]
      exact hB v hvc hf
    · simp only [if_neg hf, dif_pos hvc]
      obtain ⟨m1, m2, m3⟩ := Classical.choose_spec (hmiss v hvc)
      have hne : Classical.choose (hmiss v hvc) ≠ v := by
        intro e; rw [e] at m3; exact m3 hvA
      apply hB _ m1
      rcases before_total (hall _ m1) (hall v hvc) hne with hb | hb
      · exact absurd ⟨_, hb, m2⟩ hf
      · exact ⟨v, hb, joinedGe_symm hsym m2⟩
  · intro v1 hv1 v2 hv2 heq
    obtain ⟨hc1, hA1⟩ := (hA v1).mp hv1
    obtain ⟨hc2, hA2⟩ := (hA v2).mp hv2
    by_cases hf1 : ∃ y, Before ord y v1 ∧ JoinedGe adj comp w y v1
    · by_cases hf2 : ∃ y, Before ord y v2 ∧ JoinedGe adj comp w y v2
      · simp only [if_pos hf1, if_pos hf2] at heq
        exact heq
      · simp only [if_pos hf1, if_neg hf2, dif_pos hc2] at heq
        obtain ⟨_, _, m3⟩ := Classical.choose_spec (hmiss v2 hc2)
        rw [← heq] at m3
        exact absurd hA1 m3
    · by_cases hf2 : ∃ y, Before ord y v2 ∧ JoinedGe adj comp w y v2
      · simp only [if_neg hf1, if_pos hf2, dif_pos hc1] at heq
        obtain ⟨_, _, m3⟩ := Classical.choose_spec (hmiss v1 hc1)
        rw [heq] at m3
        exact absurd hA2 m3
      · simp only [if_neg hf1, if_neg hf2, dif_pos hc1, dif_pos hc2] at heq
        obtain ⟨_, a2, _⟩ := Classical.choose_spec (hmiss v1 hc1)
        obtain ⟨_, b2, _⟩ := Classical.choose_spec (hmiss v2 hc2)
        rw [heq] at a2
        have h12 : JoinedGe adj comp w v1 v2 := (joinedGe_symm hsym a2).trans b2
        by_contra hne
        rcases before_total (hall v1 hc1) (hall v2 hc2) hne with hb | hb
        · exact hf2 ⟨v1, hb, h12⟩
        · exact hf1 ⟨v2, hb, joinedGe_symm hsym h12⟩

end SpanningTree

namespace SpanningTree

theorem tree_score_eq_sum (comp : List Nat) (hnd : comp.Nodup) (rho : Nat) (sc : Nat → Int) :
    tree_score comp rho sc = (comp.toFinset.erase rho).sum sc := by
  unfold tree_score
  rw [← List.sum_toFinset sc (hnd.filter _), List.toFinset_filter]
  congr 1
  ext v
  simp only [Finset.mem_filter, List.mem_toFinset, Finset.mem_erase, decide_eq_true_eq]
  tauto

theorem card_erase_member (comp : List Nat) (hnd : comp.Nodup) (rho : Nat) (h : rho ∈ comp) :
    (comp.toFinset.erase rho).card = comp.length - 1 := by
  rw [Finset.card_erase_of_mem (List.mem_toFinset.mpr h), List.toFinset_card_of_nodup hnd]

/-- The loop of `spanning_tree`, started from a root that is a member, returns with
every member extracted. -/
theorem prim_loop_all {adj : Nat → List fasta_t} {comp : List Nat} {root : Nat}
    (hnd : comp.Nodup) (hroot : root ∈ comp) (hconn : Connected adj comp)
    (hmin : ∀ u ∈ comp, ∀ e ∈ adj u, e.s2 ∈ comp → INT_MIN < e.score) :
    ∃ st ord, prim_loop adj comp (fun v => decide (v ∈ comp)) comp.length
        { prim_init with key := store prim_init.key root 0 } = some st ∧
      PrimInv adj comp root ord st ∧ ∀ v ∈ comp, v ∈ ord := by
  obtain ⟨st, ord, h1, h2, h3⟩ := prim_loop_spec hnd hroot hconn hmin comp.length []
    _ (primInv_init adj comp root) (by simp)
  refine ⟨st, ord, h1, h2, ?_⟩
  have hp := (List.subperm_of_subset h2.o_nodup h2.o_sub).perm_of_length_le (by omega)
  intro v hv
  exact hp.mem_iff.mpr hv

/-- A connected component of at least two members has an entry between members. -/
theorem connected_entry {adj : Nat → List fasta_t} {comp : List Nat}
    (hconn : Connected adj comp) (hsize : 2 ≤ comp.length) (hnd : comp.Nodup) :
    ∃ u ∈ comp, ∃ e ∈ adj u, e.s2 ∈ comp := by
  match comp, hsize, hnd, hconn with
  | a :: b :: rest, _, hnd, hconn =>
    have hab : a ≠ b := by
      intro h
      rw [h] at hnd
      exact (List.nodup_cons.mp hnd).1 (List.mem_cons_self _ _)
    have hj := hconn a (List.mem_cons_self _ _) b
      (List.mem_cons_of_mem _ (List.mem_cons_self _ _))
    rcases Relation.ReflTransGen.cases_head hj with h | ⟨c, ⟨h1, h2, e, he, hs⟩, _⟩
    · exact absurd h hab
    · exact ⟨a, h1, e, he, by rw [hs]; exact h2⟩

end SpanningTree

/-- The body of `spanning_tree` on a component for which a root is found.  For a
component without repeated members, connected through adjacency entries between
members that are there in both directions with the same score, all above
`INT_MIN`, in which some member has an entry of score at least 0: the body
returns one record `(p[v], v, key[v])` per member; the root has `p = -1` and key
0, every other member a predecessor; the records form a spanning tree; and its
total score is at least the total score of every spanning tree of the subgraph
induced on the component. -/
theorem SpanningTree.spanning_tree_component_of_root
    (adj : Nat → List SpanningTree.fasta_t) (comp : List Nat) (hnd : comp.Nodup)
    (hsym : SpanningTree.SymmetricScores adj comp) (hconn : SpanningTree.Connected adj comp)
    (hmin : ∀ u ∈ comp, ∀ e ∈ adj u, e.s2 ∈ comp → SpanningTree.INT_MIN < e.score)
    (hpos : ∃ u ∈ comp, ∃ e ∈ adj u, 0 ≤ e.score) :
    ∃ (root : Nat) (p : Nat → Int) (key : Nat → Int),
      SpanningTree.spanning_tree_component adj comp =
        some (comp.map (fun v => { s1 := p v, s2 := v, score := key v })) ∧
      p root = -1 ∧ key root = 0 ∧ (∀ v ∈ comp, v ≠ root → 0 ≤ p v) ∧
      SpanningTree.IsSpanningTree adj comp root (fun v => (p v).toNat) key ∧
      ∀ (rho : Nat) (par : Nat → Nat) (sc : Nat → Int),
        SpanningTree.IsSpanningTree adj comp rho par sc →
        SpanningTree.tree_score comp rho sc ≤ SpanningTree.tree_score comp root key := by
  rcases SpanningTree.find_root_spec adj comp (-1, -1) with ⟨_, h⟩ | ⟨⟨root, hroot, hr⟩, _⟩
  · obtain ⟨u, hu, e, he, hs⟩ := hpos
    have := h u hu e he
    simp only [] at this
    omega
  obtain ⟨st, ord, h1, hinv, hall⟩ := SpanningTree.prim_loop_all hnd hroot hconn hmin
  refine ⟨root, st.p, st.key, ?_, hinv.p_root, hinv.k_root, ?_,
    SpanningTree.prim_tree hinv hroot hall, ?_⟩
  · unfold SpanningTree.spanning_tree_component
    rw [hr, if_neg (by omega), Int.toNat_ofNat, h1]
  · intro v hv hvr
    obtain ⟨a, _, h2, _⟩ := hinv.used_par v (hall v hv) hvr
    rw [h2]; omega
  · intro rho par sc ht
    rw [SpanningTree.tree_score_eq_sum comp hnd, SpanningTree.tree_score_eq_sum comp hnd]
    apply SpanningTree.sum_le_of_threshold_counts
    · rw [SpanningTree.card_erase_member comp hnd rho ht.1,
        SpanningTree.card_erase_member comp hnd root hroot]
    · intro w
      exact SpanningTree.threshold_count hinv hall hsym ht w

theorem SpanningTree.triangle_symmetric :
    SpanningTree.SymmetricScores
      (SpanningTree.adj_of [[(1, 5), (2, 3)], [(0, 5), (2, 9)], [(0, 3), (1, 9)]]) [0, 1, 2] := by
  intro u hu e he _
  simp only [List.mem_cons, List.mem_singleton, List.not_mem_nil, or_false] at hu
  rcases hu with rfl | rfl | rfl <;>
    · simp only [SpanningTree.adj_of, List.getD_cons_zero, List.getD_cons_succ, List.map_cons,
        List.map_nil, List.mem_cons, List.mem_singleton, List.not_mem_nil, or_false] at he
      rcases he with rfl | rfl <;> decide

theorem SpanningTree.triangle_connected :
    SpanningTree.Connected
      (SpanningTree.adj_of [[(1, 5), (2, 3)], [(0, 5), (2, 9)], [(0, 3), (1, 9)]]) [0, 1, 2] := by
  have h01 : (fun a b => a ∈ [0, 1, 2] ∧ b ∈ [0, 1, 2] ∧ ∃ e ∈ SpanningTree.adj_of
      [[(1, 5), (2, 3)], [(0, 5), (2, 9)], [(0, 3), (1, 9)]] a, e.s2 = b) 0 1 :=
    ⟨by decide, by decide, ⟨1, 5⟩, by decide, rfl⟩
  have h10 : (fun a b => a ∈ [0, 1, 2] ∧ b ∈ [0, 1, 2] ∧ ∃ e ∈ SpanningTree.adj_of
      [[(1, 5), (2, 3)], [(0, 5), (2, 9)], [(0, 3), (1, 9)]] a, e.s2 = b) 1 0 :=
    ⟨by decide, by decide, ⟨0, 5⟩, by decide, rfl⟩
  have h12 : (fun a b => a ∈ [0, 1, 2] ∧ b ∈ [0, 1, 2] ∧ ∃ e ∈ SpanningTree.adj_of
      [[(1, 5), (2, 3)], [(0, 5), (2, 9)], [(0, 3), (1, 9)]] a, e.s2 = b) 1 2 :=
    ⟨by decide, by decide, ⟨2, 9⟩, by decide, rfl⟩
  have h21 : (fun a b => a ∈ [0, 1, 2] ∧ b ∈ [0, 1, 2] ∧ ∃ e ∈ SpanningTree.adj_of
      [[(1, 5), (2, 3)], [(0, 5), (2, 9)], [(0, 3), (1, 9)]] a, e.s2 = b) 2 1 :=
    ⟨by decide, by decide, ⟨1, 9⟩, by decide, rfl⟩
  have h02 : (fun a b => a ∈ [0, 1, 2] ∧ b ∈ [0, 1, 2] ∧ ∃ e ∈ SpanningTree.adj_of
      [[(1, 5), (2, 3)], [(0, 5), (2, 9)], [(0, 3), (1, 9)]] a, e.s2 = b) 0 2 :=
    ⟨by decide, by decide, ⟨2, 3⟩, by decide, rfl⟩
  have h20 : (fun a b => a ∈ [0, 1, 2] ∧ b ∈ [0, 1, 2] ∧ ∃ e ∈ SpanningTree.adj_of
      [[(1, 5), (2, 3)], [(0, 5), (2, 9)], [(0, 3), (1, 9)]] a, e.s2 = b) 2 0 :=
    ⟨by decide, by decide, ⟨0, 3⟩, by decide, rfl⟩
  intro u hu v hv
  simp only [List.mem_cons, List.mem_singleton, List.not_mem_nil, or_false] at hu hv
  rcases hu with rfl | rfl | rfl <;> rcases hv with rfl | rfl | rfl
  · exact Relation.ReflTransGen.refl
  · exact Relation.ReflTransGen.single h01
  · exact Relation.ReflTransGen.single h02
  · exact Relation.ReflTransGen.single h10
  · exact Relation.ReflTransGen.refl
  · exact Relation.ReflTransGen.single h12
  · exact Relation.ReflTransGen.single h20
  · exact Relation.ReflTransGen.single h21
  · exact Relation.ReflTransGen.refl

theorem SpanningTree.triangle_scores :
    ∀ u ∈ [0, 1, 2], ∀ e ∈ SpanningTree.adj_of
      [[(1, 5), (2, 3)], [(0, 5), (2, 9)], [(0, 3), (1, 9)]] u,
      e.s2 ∈ [0, 1, 2] → SpanningTree.INT_MIN < e.score := by
  intro u hu e he _
  simp only [List.mem_cons, List.mem_singleton, List.not_mem_nil, or_false] at hu
  rcases hu with rfl | rfl | rfl <;>
    · simp only [SpanningTree.adj_of, List.getD_cons_zero, List.getD_cons_succ, List.map_cons,
        List.map_nil, List.mem_cons, List.mem_singleton, List.not_mem_nil, or_false] at he
      rcases he with rfl | rfl <;> decide

/-- The triangle with scores 5, 3, 9: the records written, of total score 14. -/
theorem SpanningTree.spanning_tree_component_triangle :
    SpanningTree.spanning_tree_component
      (SpanningTree.adj_of [[(1, 5), (2, 3)], [(0, 5), (2, 9)], [(0, 3), (1, 9)]]) [0, 1, 2] =
    some [{ s1 := 1, s2 := 0, score := 5 }, { s1 := -1, s2 := 1, score := 0 },
          { s1 := 1, s2 := 2, score := 9 }] := by
  decide

/-- C4. For a component of at least two members, none repeated, whose members are
connected through adjacency entries between members that are there in both
directions with the same score, the scores being alignment scores, which are not
negative (an entry is only recorded for a score of at least 75,
`scan_sequences.c` line 430): the body of `spanning_tree` returns one record
`(p[v], v, key[v])` per member; the root has `p = -1` and key 0, every other
member a predecessor; the records form a spanning tree; and its total score (the
sum of the scores of the records of the members other than the root, which are
the chosen (parent, child) edges) is at least the total score of every spanning
tree of the subgraph induced on the component, so it is the maximum. -/
theorem SpanningTree.spanning_tree_component_maximum
    (adj : Nat → List SpanningTree.fasta_t) (comp : List Nat) (hsize : 2 ≤ comp.length)
    (hnd : comp.Nodup)
    (hsym : SpanningTree.SymmetricScores adj comp) (hconn : SpanningTree.Connected adj comp)
    (hsc : ∀ u ∈ comp, ∀ e ∈ adj u, e.s2 ∈ comp → 0 ≤ e.score) :
    ∃ (root : Nat) (p : Nat → Int) (key : Nat → Int),
      SpanningTree.spanning_tree_component adj comp =
        some (comp.map (fun v => { s1 := p v, s2 := v, score := key v })) ∧
      p root = -1 ∧ key root = 0 ∧ (∀ v ∈ comp, v ≠ root → 0 ≤ p v) ∧
      SpanningTree.IsSpanningTree adj comp root (fun v => (p v).toNat) key ∧
      ∀ (rho : Nat) (par : Nat → Nat) (sc : Nat → Int),
        SpanningTree.IsSpanningTree adj comp rho par sc →
        SpanningTree.tree_score comp rho sc ≤ SpanningTree.tree_score comp root key := by
  have hmin : ∀ u ∈ comp, ∀ e ∈ adj u, e.s2 ∈ comp → SpanningTree.INT_MIN < e.score := by
    intro u hu e he hs
    have := hsc u hu e he hs
    unfold SpanningTree.INT_MIN
    omega
  have hpos : ∃ u ∈ comp, ∃ e ∈ adj u, 0 ≤ e.score := by
    obtain ⟨u, hu, e, he, hs⟩ := SpanningTree.connected_entry hconn hsize hnd
    exact ⟨u, hu, e, he, hsc u hu e he hs⟩
  exact SpanningTree.spanning_tree_component_of_root adj comp hnd hsym hconn hmin hpos

/-- Witness for C4: the triangle with scores 5, 3, 9. -/
theorem SpanningTree.spanning_tree_component_maximum_witness :
    ∃ (root : Nat) (p : Nat → Int) (key : Nat → Int),
      SpanningTree.spanning_tree_component
        (SpanningTree.adj_of [[(1, 5), (2, 3)], [(0, 5), (2, 9)], [(0, 3), (1, 9)]]) [0, 1, 2] =
        some ([0, 1, 2].map (fun v => { s1 := p v, s2 := v, score := key v })) ∧
      p root = -1 ∧ key root = 0 ∧ (∀ v ∈ [0, 1, 2], v ≠ root → 0 ≤ p v) ∧
      SpanningTree.IsSpanningTree
        (SpanningTree.adj_of [[(1, 5), (2, 3)], [(0, 5), (2, 9)], [(0, 3), (1, 9)]]) [0, 1, 2]
        root (fun v => (p v).toNat) key ∧
      ∀ (rho : Nat) (par : Nat → Nat) (sc : Nat → Int),
        SpanningTree.IsSpanningTree
          (SpanningTree.adj_of [[(1, 5), (2, 3)], [(0, 5), (2, 9)], [(0, 3), (1, 9)]]) [0, 1, 2]
          rho par sc →
        SpanningTree.tree_score [0, 1, 2] rho sc ≤ SpanningTree.tree_score [0, 1, 2] root key :=
  SpanningTree.spanning_tree_component_maximum _ [0, 1, 2] (by decide) (by decide)
    SpanningTree.triangle_symmetric SpanningTree.triangle_connected
    (by
      intro u hu e he _
      simp only [List.mem_cons, List.mem_singleton, List.not_mem_nil, or_false] at hu
      rcases hu with rfl | rfl | rfl <;>
        · simp only [SpanningTree.adj_of, List.getD_cons_zero, List.getD_cons_succ,
            List.map_cons, List.map_nil, List.mem_cons, List.mem_singleton,
            List.not_mem_nil, or_false] at he
          rcases he with rfl | rfl <;> decide)

namespace ScanSequences

theorem compare_le_iff (a b : wordhit_t) : mergesort_compare a b ≤ 0 ↔ key a ≤ key b := by
  have h1 := compare_gt_iff a b
  have h3 : mergesort_compare a b = -1 ∨ mergesort_compare a b = 0 ∨
      mergesort_compare a b = 1 := by
    unfold mergesort_compare
    split
    · exact Or.inl rfl
    · split
      · exact Or.inr (Or.inr rfl)
      · split
        · exact Or.inl rfl
        · split
          · exact Or.inr (Or.inr rfl)
          · split
            · exact Or.inl rfl
            · split
              · exact Or.inr (Or.inr rfl)
              · exact Or.inr (Or.inl rfl)
  constructor
  · intro h
    rw [← not_lt]
    intro hlt
    have := h1.mpr hlt
    omega
  · intro h
    rcases h3 with h3 | h3 | h3
    · omega
    · omega
    · exact absurd (h1.mp h3) (not_lt.mpr h)

theorem stable_sort_keys (hits : List wordhit_t) :
    (stable_sort hits).map key = (hits.map key).insertionSort (fun a b => a ≤ b) := by
  unfold stable_sort
  have hins : ∀ (a : wordhit_t) (l : List wordhit_t),
      (l.orderedInsert (fun a b => mergesort_compare a b ≤ 0) a).map key =
        (l.map key).orderedInsert (fun a b => a ≤ b) (key a) := by
    intro a l
    induction l with
    | nil => rfl
    | cons b l ih =>
      simp only [List.orderedInsert, List.map_cons]
      by_cases h : mergesort_compare a b ≤ 0
      · rw [if_pos h, if_pos ((compare_le_iff a b).mp h)]
        rfl
      · rw [if_neg h, if_neg (fun h' => h ((compare_le_iff a b).mpr h'))]
        simp only [List.map_cons, ih]
  induction hits with
  | nil => rfl
  | cons a l ih =>
    simp only [List.insertionSort, List.map_cons]
    rw [hins, ih]

end ScanSequences

/-- C27: for every array of word hits, `wordhit_mergesort(hits, 0, n)` leaves a
permutation of the input in which no record is followed, anywhere later, by one
that `mergesort_compare` ranks before it: the array is in non-decreasing order of
(target, diagonal, query-pos). -/
theorem ScanSequences.wordhit_mergesort_sorted_permutation
    (hits : List ScanSequences.wordhit_t) :
    (ScanSequences.wordhit_mergesort hits).Perm hits ∧
    (ScanSequences.wordhit_mergesort hits).Pairwise
      (fun a b => ScanSequences.mergesort_compare a b ≤ 0) := by
  obtain ⟨hp, hs⟩ := ScanSequences.wordhit_mergesort_spec hits
  exact ⟨hp, hs.imp (fun {a b} h => (ScanSequences.compare_le_iff a b).mpr h)⟩

/-- C28, as amended: `wordhit_mergesort` puts the (target, diagonal, query-pos) keys
in the order a stable sort puts them in; the records of equal key, which differ
in `length` only, are not kept in input order. -/
theorem ScanSequences.wordhit_mergesort_keys_as_stable (hits : List ScanSequences.wordhit_t) :
    (ScanSequences.wordhit_mergesort hits).map ScanSequences.key =
      (ScanSequences.stable_sort hits).map ScanSequences.key := by
  obtain ⟨hp, hs⟩ := ScanSequences.wordhit_mergesort_spec hits
  rw [ScanSequences.stable_sort_keys]
  refine @List.eq_of_perm_of_sorted _ (fun a b => a ≤ b) _ _ _ ?_ ?_ (List.sorted_insertionSort _ _)
  · exact (hp.map _).trans (List.perm_insertionSort _ _).symm
  · exact List.pairwise_map.mpr hs

/-- C28, the claim at a failing input: two records of equal key with `length` 1 and
2, followed by a record of lower key.  The selection sort exchanges the first
cell with the third, and the two equal records come out in the order 2, 1; a
stable sort gives 1, 2. -/
theorem ScanSequences.wordhit_mergesort_not_stable :
    ScanSequences.wordhit_mergesort [⟨1, 0, 5, 1⟩, ⟨1, 0, 5, 2⟩, ⟨0, 0, 0, 0⟩] =
      [⟨0, 0, 0, 0⟩, ⟨1, 0, 5, 2⟩, ⟨1, 0, 5, 1⟩] ∧
    ScanSequences.stable_sort [⟨1, 0, 5, 1⟩, ⟨1, 0, 5, 2⟩, ⟨0, 0, 0, 0⟩] =
      [⟨0, 0, 0, 0⟩, ⟨1, 0, 5, 1⟩, ⟨1, 0, 5, 2⟩] ∧
    (ScanSequences.wordhit_mergesort
        [⟨1, 0, 5, 1⟩, ⟨1, 0, 5, 2⟩, ⟨1, 0, 5, 3⟩, ⟨1, 0, 5, 4⟩, ⟨1, 0, 5, 5⟩, ⟨1, 0, 5, 6⟩,
         ⟨1, 0, 5, 7⟩, ⟨1, 0, 5, 8⟩]).map (fun h => h.length) = [5, 6, 7, 8, 1, 2, 3, 4] := by
  decide

set_option maxRecDepth 1000000 in
/-- C29, the code at a failing input: a group of eleven chained hits of one target
in (diagonal, pos) order.  With more than ten hits the sorting step goes through
`mergesort_bypos`, whose two halves are sorted by `wordhit_mergesort_actual`, that
is by (diagonal, pos), and then merged by `pos`: the group comes out with `pos`
50 and 60 before `pos` 0, 10 and 20.  The same group without its last hit takes
the selection sort and comes out in `pos` order. -/
theorem ScanSequences.sort_bypos_eleven_hits_unsorted :
    (ScanSequences.sort_bypos
      [⟨7, 0, 50, 4⟩, ⟨7, 0, 60, 4⟩, ⟨7, 1, 0, 4⟩, ⟨7, 1, 10, 4⟩, ⟨7, 1, 20, 4⟩, ⟨7, 2, 5, 4⟩,
       ⟨7, 2, 15, 4⟩, ⟨7, 3, 25, 4⟩, ⟨7, 3, 30, 4⟩, ⟨7, 4, 35, 4⟩, ⟨7, 5, 40, 4⟩]).map
      (fun h => h.pos) = [5, 15, 25, 30, 35, 40, 50, 60, 0, 10, 20] ∧
    (ScanSequences.sort_bypos
      [⟨7, 0, 50, 4⟩, ⟨7, 0, 60, 4⟩, ⟨7, 1, 0, 4⟩, ⟨7, 1, 10, 4⟩, ⟨7, 1, 20, 4⟩, ⟨7, 2, 5, 4⟩,
       ⟨7, 2, 15, 4⟩, ⟨7, 3, 25, 4⟩, ⟨7, 3, 30, 4⟩, ⟨7, 4, 35, 4⟩]).map
      (fun h => h.pos) = [0, 5, 10, 15, 20, 25, 30, 35, 50, 60] := by
  decide

/-- C25, the code at the failing inputs: the mask computed for the word sizes 2 to
15 is `4^w - 1`.  For the word sizes 16 to 24, which `open_lookupfile` accepts as
well, the shift count `2w` is 32 or more and the mask comes out as 0, 3, 15, ...,
65535, never `4^w - 1`; for 17 to 24 no 32-bit value is `4^w - 1`, whatever the
shift gives.  With word size 17 the first word of a query of 18 letters T wraps to
`2^32 - 1` and the rolling word behind it is 3, the code of the last letter alone,
not the code `4^17 - 1` of the last 17. -/
theorem ScanSequences.open_lookupfile_mask_wide_words :
    (List.range' 2 14).map ScanSequences.open_lookupfile_mask =
      (List.range' 2 14).map (fun w => 4 ^ w - 1) ∧
    (List.range' 16 9).map ScanSequences.open_lookupfile_mask =
      [0, 3, 15, 63, 255, 1023, 4095, 16383, 65535] ∧
    (List.range' 16 9).all
      (fun w => decide (ScanSequences.open_lookupfile_mask w ≠ 4 ^ w - 1)) = true ∧
    (List.range' 17 8).all
      (fun w => decide (ScanSequences.u32 (4 ^ w - 1) ≠ 4 ^ w - 1)) = true ∧
    ScanSequences.first_word (fun _ => 3) 17 0 0 = 4294967295 ∧
    (ScanSequences.rolling_words (ScanSequences.open_lookupfile_mask 17) 17 (fun _ => 3) 1 17
      (ScanSequences.first_word (fun _ => 3) 17 0 0)).map Prod.fst = [3] ∧
    FormatLookup.window_code (fun _ => 3) 1 17 = 17179869183 ∧
    4 ^ 17 - 1 = 17179869183 := by
  decide

namespace DfsCluster

theorem live_targets_skip (chimeric : Nat → Bool) (e : fasta_t) (es : List fasta_t)
    (h : chimeric e.s2 = true) : live_targets chimeric (e :: es) = live_targets chimeric es := by
  unfold live_targets
  rw [List.filter_cons_of_neg (by simp [h])]

theorem live_targets_keep (chimeric : Nat → Bool) (e : fasta_t) (es : List fasta_t)
    (h : chimeric e.s2 = false) :
    live_targets chimeric (e :: es) = e.s2 :: live_targets chimeric es := by
  unfold live_targets
  rw [List.filter_cons_of_pos (by simp [h])]
  rfl

/-- What a run of the search does to the edge lists: nodes left uncoloured have
none; every node coloured by the run holds the non-chimeric targets of its
adjacency entries; and the rest `es` of the loop of the active node adds the
non-chimeric targets of `es` to the two lists of that node. -/
theorem run_lists {adj : Nat → List fasta_t} {chimeric : Nat → Bool}
    {st : dfs_state} {n : Nat} {m : Option (List fasta_t)} {st' : dfs_state}
    (h : Run adj chimeric st n m st') :
    (∀ es, m = some es → st.color n = true) → EdgeFree st →
    EdgeFree st' ∧
    (∀ x, st.color x = false → st'.color x = true →
      (st'.tree_edges x ++ st'.back_edges x).Perm (live_targets chimeric (adj x))) ∧
    (∀ es, m = some es →
      (st'.tree_edges n ++ st'.back_edges n).Perm
        (st.tree_edges n ++ st.back_edges n ++ live_targets chimeric es)) := by
  induction h with
  | visit st n st' h1 ih =>
    intro _ hE
    have hE0 : EdgeFree
        { st with color := store st.color n true, component := st.component ++ [n] } := by
      intro x hx
      by_cases hxn : x = n
      · rw [hxn] at hx
        simp only [store_same] at hx
        cases hx
      · simp only [store_other _ _ _ _ hxn] at hx
        exact hE x hx
    obtain ⟨E, A, B⟩ := ih (fun _ _ => store_same _ _ _) hE0
    refine ⟨E, ?_, by intro es h; cases h⟩
    intro x hx hx'
    by_cases hxn : x = n
    · have := B (adj n) rfl
      rw [hxn] at hx ⊢
      obtain ⟨e1, e2⟩ := hE n hx
      simp only [e1, e2, List.append_nil, List.nil_append] at this
      exact this
    · exact A x (by simp only [store_other _ _ _ _ hxn]; exact hx) hx'
  | done st n =>
    intro _ hE
    refine ⟨hE, ?_, ?_⟩
    · intro x hx hx'
      rw [hx] at hx'; cases hx'
    · intro es h
      cases h
      simp [live_targets]
  | skip st n e es st' hch _ ih =>
    intro hm hE
    obtain ⟨E, A, B⟩ := ih (fun _ _ => hm _ rfl) hE
    refine ⟨E, A, ?_⟩
    intro es' h
    cases h
    rw [live_targets_skip chimeric e es hch]
    exact B es rfl
  | tree st n e es st1 st' hch hcol h1 h2 ih1 ih2 =>
    intro hm hE
    have hn : st.color n = true := hm _ rfl
    have hne : n ≠ e.s2 := by
      intro h
      rw [h, hcol] at hn; cases hn
    obtain ⟨E1, A1, _⟩ := ih1 (by intro es h; cases h) hE
    have hn1 : st1.color n = true := run_mono h1 n hn
    have hE1 : EdgeFree
        { st1 with tree_edges := store st1.tree_edges n (st1.tree_edges n ++ [e.s2]) } := by
      intro x hx
      have hxn : x ≠ n := by
        intro h
        rw [h] at hx
        simp only [] at hx
        rw [hn1] at hx; cases hx
      simp only [store_other _ _ _ _ hxn]
      exact E1 x hx
    obtain ⟨E, A2, B2⟩ := ih2 (fun _ _ => hn1) hE1
    refine ⟨E, ?_, ?_⟩
    · intro x hx hx'
      have hxn : x ≠ n := by
        intro h
        rw [h, hn] at hx; cases hx
      cases hc : st1.color x with
      | true =>
        have f := run_frame h2 x hxn (Or.inl hc)
        simp only [store_other _ _ _ _ hxn] at f
        rw [f.1, f.2]
        exact A1 x hx hc
      | false => exact A2 x hc hx'
    · intro es' h
      cases h
      have f := run_frame h1 n hne (Or.inl hn)
      have b := B2 es rfl
      simp only [store_same] at b
      rw [f.1, f.2] at b
      rw [live_targets_keep chimeric e es hch]
      refine b.trans ?_
      rw [List.perm_iff_count]
      intro a
      simp only [List.count_append, List.count_cons, List.count_nil]
      omega
  | back st n e es st' hch hcol h1 ih =>
    intro hm hE
    have hn : st.color n = true := hm _ rfl
    have hE1 : EdgeFree
        { st with back_edges := store st.back_edges n (st.back_edges n ++ [e.s2]) } := by
      intro x hx
      have hxn : x ≠ n := by
        intro h
        rw [h] at hx
        simp only [] at hx
        rw [hn] at hx; cases hx
      simp only [store_other _ _ _ _ hxn]
      exact hE x hx
    obtain ⟨E, A, B⟩ := ih (fun _ _ => hn) hE1
    refine ⟨E, A, ?_⟩
    intro es' h
    cases h
    have b := B es rfl
    simp only [store_same] at b
    rw [live_targets_keep chimeric e es hch]
    refine b.trans ?_
    rw [List.perm_iff_count]
    intro a
    simp only [List.count_append, List.count_cons, List.count_nil]
    omega

theorem listsInv_step {adj : Nat → List fasta_t} {chimeric : Nat → Bool}
    (st : dfs_state) (comps : List (List Nat)) (i : Nat) (st1 : dfs_state)
    (hP : ListsInv adj chimeric st comps) (hc : st.color i = false)
    (hrun : Run adj chimeric { st with component := [] } i none st1) :
    ListsInv adj chimeric st1 (comps ++ [st1.component]) := by
  obtain ⟨E, A, _⟩ := run_lists hrun (by intro es h; cases h) hP.1
  refine ⟨E, ?_⟩
  intro x hx
  cases hcx : st.color x with
  | true =>
    have hxi : x ≠ i := by
      intro h
      rw [h, hc] at hcx; cases hcx
    have f := run_frame hrun x hxi (Or.inl hcx)
    simp only [] at f
    rw [f.1, f.2]
    exact hP.2 x hcx
  | false => exact A x hcx hx

end DfsCluster

/-- C24, as amended: `connected_components` returns, and for every non-chimeric id
`n` below `n_seq` (the visited nodes) `tree_edges[n]` followed by `back_edges[n]` is
a rearrangement of the non-chimeric targets of the adjacency entries of `n`: each
entry is recorded in exactly one of the two lists.  So a neighbour that a single
entry of `n` names is in exactly one list; a neighbour named by several entries
is recorded once per entry. -/
theorem DfsCluster.connected_components_edge_lists (n_seq : Nat)
    (adj : Nat → List DfsCluster.fasta_t) (chimeric : Nat → Bool)
    (hr : ∀ u, u < n_seq → ∀ e ∈ adj u, e.s2 < n_seq) :
    ∃ r, DfsCluster.connected_components n_seq adj chimeric = some r ∧
      ∀ n, n < n_seq → chimeric n = false →
        (r.tree_edges n ++ r.back_edges n).Perm (DfsCluster.live_targets chimeric (adj n)) ∧
        ∀ v, (DfsCluster.live_targets chimeric (adj n)).count v = 1 →
          (v ∈ r.tree_edges n ∧ v ∉ r.back_edges n) ∨
          (v ∉ r.tree_edges n ∧ v ∈ r.back_edges n) := by
  obtain ⟨st, comps, ap, na, _, _, h3, hP, h5⟩ :=
    @DfsCluster.connected_components_spec adj chimeric n_seq hr
      (DfsCluster.ListsInv adj chimeric)
      ⟨(by intro x _; exact ⟨rfl, rfl⟩), (by intro x h; simp [DfsCluster.dfs_init] at h)⟩
      (fun s c i s1 hp _ hc _ hrun => DfsCluster.listsInv_step s c i s1 hp hc hrun)
  refine ⟨_, h3, ?_⟩
  intro n hn hch
  have hcol : st.color n = true := by
    rcases h5 n hn with h | h
    · exact h
    · rw [hch] at h; cases h
  have hperm := hP.2 n hcol
  refine ⟨hperm, ?_⟩
  intro v hv
  simp only []
  rw [← hperm.count_eq, List.count_append] at hv
  by_cases ht : v ∈ st.tree_edges n
  · left
    refine ⟨ht, ?_⟩
    intro hb
    have := List.count_pos_iff.mpr ht
    have := List.count_pos_iff.mpr hb
    omega
  · right
    refine ⟨ht, ?_⟩
    have := List.count_eq_zero_of_not_mem ht
    exact List.count_pos_iff.mp (by omega)

/-- Witness for C24: the path 0 - 1 - 2 with node 3 marked chimeric. -/
theorem DfsCluster.connected_components_edge_lists_witness :
    (∀ u, u < 4 → ∀ e ∈ DfsCluster.adj_of [[(1, 80)], [(0, 80), (2, 90)], [(1, 90), (3, 75)], [(2, 75)]] u,
        e.s2 < 4) ∧
    (DfsCluster.connected_components 4
        (DfsCluster.adj_of [[(1, 80)], [(0, 80), (2, 90)], [(1, 90), (3, 75)], [(2, 75)]])
        (DfsCluster.chimeric_of [3])).map
      (fun r => ([0, 1, 2].map r.tree_edges, [0, 1, 2].map r.back_edges)) =
      some ([[1], [2], []], [[], [0], [1]]) ∧
    ∃ r, DfsCluster.connected_components 4
        (DfsCluster.adj_of [[(1, 80)], [(0, 80), (2, 90)], [(1, 90), (3, 75)], [(2, 75)]])
        (DfsCluster.chimeric_of [3]) = some r ∧
      ∀ n, n < 4 → DfsCluster.chimeric_of [3] n = false →
        (r.tree_edges n ++ r.back_edges n).Perm
          (DfsCluster.live_targets (DfsCluster.chimeric_of [3])
            (DfsCluster.adj_of [[(1, 80)], [(0, 80), (2, 90)], [(1, 90), (3, 75)], [(2, 75)]]
              n)) ∧
        ∀ v, (DfsCluster.live_targets (DfsCluster.chimeric_of [3])
            (DfsCluster.adj_of [[(1, 80)], [(0, 80), (2, 90)], [(1, 90), (3, 75)], [(2, 75)]]
              n)).count v = 1 →
          (v ∈ r.tree_edges n ∧ v ∉ r.back_edges n) ∨
          (v ∉ r.tree_edges n ∧ v ∈ r.back_edges n) :=
  have hr : ∀ u, u < 4 → ∀ e ∈ DfsCluster.adj_of
      [[(1, 80)], [(0, 80), (2, 90)], [(1, 90), (3, 75)], [(2, 75)]] u, e.s2 < 4 := by
    intro u hu
    interval_cases u <;> simp [DfsCluster.adj_of]
  ⟨hr, by decide, DfsCluster.connected_components_edge_lists 4 _ _ hr⟩

/-- C24, the claim at a failing input: two nodes, each listing the other twice (the
adjacency input is read as it comes, a pair can be listed more than once).  The
first entry 0 -> 1 is taken as a tree edge, the second finds node 1 coloured and is
recorded as a back edge: neighbour 1 is in both lists of node 0. -/
theorem DfsCluster.connected_components_neighbour_in_both_lists :
    (DfsCluster.connected_components 2
        (DfsCluster.adj_of [[(1, 80), (1, 80)], [(0, 80), (0, 80)]])
        (DfsCluster.chimeric_of [])).map
      (fun r => ([0, 1].map r.tree_edges, [0, 1].map r.back_edges)) =
      some ([[1], []], [[1], [0, 0]]) := by
  decide

namespace ScanSequences

/-- What a report of the group loop's body holds on the query side: the span runs
from the `pos` of a cell `hf` to the end of a cell `hl`, it is longer than the
score, the score is at least the threshold, and it is `hl.length - 1` unless
the group has a cell of lower `pos` than `hl`. -/
theorem scan_group_query_span (before after : wordhit_t) (group : List wordhit_t)
    (hlen : ∀ h ∈ group, 1 ≤ h.length) (rep : hit_report_t)
    (h : scan_group before after group = some (some rep)) :
    ∃ hl ∈ group, ∃ hf ∈ group,
      rep.start = hf.pos ∧ rep.«end» = hl.pos + hl.length ∧
      rep.score + 1 ≤ rep.«end» - rep.start ∧ SCORE_THRESHOLD ≤ rep.score ∧
      (rep.score = hl.length - 1 ∨ ∃ x ∈ group, x.pos < hl.pos) := by
  have hs := scan_group_spec before after group hlen
  have hperm := sort_bypos_perm group
  have hinv := dpinv_relax_all (sort_bypos group)
    (fun x hx => hlen x (hperm.mem_iff.mp hx))
  rcases hs.2.2 with ⟨_, e⟩ | ⟨hthr, l, f, mindi, maxdi, hl, l1, l2, f1, f2, _, _, q3, e⟩
  · rw [e] at h; cases h
  · rw [e] at h
    simp only [Option.some.injEq] at h
    subst h
    have ml := hperm.mem_iff.mp (aget_mem (sort_bypos group) (l - 1) (by omega))
    have mf := hperm.mem_iff.mp (aget_mem (sort_bypos group) (f - 1) (by omega))
    refine ⟨_, ml, _, mf, rfl, rfl, ?_, ?_, ?_⟩
    · simp only []; omega
    · simp only []; rw [hl]; exact hthr
    · simp only []
      rcases hinv.hitn l l1 l2 with ⟨_, b⟩ | ⟨k, k1, k2, _, b, _⟩
      · left; exact b
      · right
        exact ⟨_, hperm.mem_iff.mp (aget_mem (sort_bypos group) (k - 1) (by omega)), b⟩

end ScanSequences

/-- C21, as amended: with `SCORE_THRESHOLD` 75 and a word size from 1 to 75,
`fasta_scan` reports nothing for a query of at most 75 letters, whatever the
shard holds: a report needs a query span longer than its score.  So the scan of
the 12-letter query of scenario S1 gives no hit record. -/
theorem ScanSequences.fasta_scan_short_query_no_report (t : ScanSequences.ltable)
    (hw1 : 1 ≤ t.wordsize) (hw2 : t.wordsize ≤ 75) (seq : Nat → Nat)
    (seq_id length : Nat) (hshort : length ≤ 75) :
    ScanSequences.fasta_scan t seq seq_id length = some [] := by
  obtain ⟨reps, r1, _, r3⟩ := ScanSequences.fasta_scan_spec t hw1 seq seq_id length
  rw [r1]
  congr 1
  rw [List.eq_nil_iff_forall_not_mem]
  intro rep hrep
  obtain ⟨hits, group, b, a, hf, hg, hc⟩ := r3 rep hrep
  have hpos := ScanSequences.find_wordmatches_pos t seq seq_id length hits hf
  have hlen : ∀ c ∈ group, 1 ≤ c.length := by
    intro c hc'
    obtain ⟨_, _, _, n, _, _, e, _⟩ := hc c hc'
    rw [e]; omega
  obtain ⟨hl, mhl, hfi, mhf, e1, e2, q, thr, alt⟩ :=
    ScanSequences.scan_group_query_span b a group hlen rep hg
  obtain ⟨_, h, hh, n, _, p1, p2, last, hlast, p3⟩ := hc hl mhl
  obtain ⟨_, h', hh', _, _, p1', _⟩ := hc hfi mhf
  obtain ⟨pl, pl1, pl2⟩ := hpos last hlast
  obtain ⟨ph, ph1, _⟩ := hpos h hh
  obtain ⟨pf, pf1, _⟩ := hpos h' hh'
  unfold ScanSequences.SCORE_THRESHOLD at thr
  rw [e1, e2] at q
  by_cases hL : t.wordsize ≤ length
  · omega
  · rcases alt with hs | ⟨x, hx, hlt⟩
    · omega
    · obtain ⟨_, h'', hh'', _, _, x1, _⟩ := hc x hx
      obtain ⟨px, px1, _⟩ := hpos h'' hh''
      omega

set_option maxRecDepth 1000000 in
/-- The shard of scenario S1 as the scanner loads it: word size 4, mask 255, ids 0
to 1, and for each of the 256 word codes the postings listed in `s1_lookup`. -/
theorem ScanSequences.s1_table_postings :
    ScanSequences.s1_table.map (fun t =>
      [t.wordsize, t.mask, t.ltable_start, t.ltable_end]) = some [4, 255, 0, 2] ∧
    ScanSequences.s1_table.map (fun t => (List.range 256).map t.lookup) =
      some ((List.range 256).map ScanSequences.s1_lookup) := by
  decide

/-- Witness for C21: the query AAAACCCCGGGG of scenario S1 against the shard of
scenario S1. -/
theorem ScanSequences.fasta_scan_short_query_no_report_witness :
    ScanSequences.fasta_scan
      { wordsize := 4, mask := 255, ltable_start := 0, ltable_end := 2,
        lookup := ScanSequences.s1_lookup }
      (ScanSequences.buffer_of [0, 0, 0, 0, 1, 1, 1, 1, 2, 2, 2, 2]) 0 12 = some [] :=
  ScanSequences.fasta_scan_short_query_no_report
    { wordsize := 4, mask := 255, ltable_start := 0, ltable_end := 2,
      lookup := ScanSequences.s1_lookup }
    (by decide) (by decide) _ 0 12 (by decide)

set_option maxRecDepth 1000000 in
/-- C21, the claim at its own input: the query AAAACCCCGGGG (id 0) against the shard
built from AAAACCCCGGGG and CCCCGGGGTTTT with word size 4.  Target 1 has 5 word
hits and target 0 has 9, both below the 38 the censor asks for, so
`find_wordmatches` returns `NULL` and `fasta_scan` reports nothing.  With the
censor left out there is still no report: the hits of target 1 combine into a
run of length 7 on diagonal -4 and a single word on diagonal -3, and the best
score of the group is 6. -/
theorem ScanSequences.fasta_scan_s1_no_report :
    ScanSequences.s1_table.map (fun t =>
      ScanSequences.fasta_scan t (ScanSequences.buffer_of [0, 0, 0, 0, 1, 1, 1, 1, 2, 2, 2, 2])
        0 12) = some (some []) ∧
    ScanSequences.s1_table.map (fun t =>
      (ScanSequences.find_wordmatches t
        (ScanSequences.buffer_of [0, 0, 0, 0, 1, 1, 1, 1, 2, 2, 2, 2]) 0 12).isSome) =
      some false ∧
    ScanSequences.s1_table.map (fun t =>
      ScanSequences.fasta_scan_uncensored t
        (ScanSequences.buffer_of [0, 0, 0, 0, 1, 1, 1, 1, 2, 2, 2, 2]) 0 12) = some (some []) ∧
    ScanSequences.s1_table.map (fun t =>
      (ScanSequences.find_wordmatches_uncensored t
        (ScanSequences.buffer_of [0, 0, 0, 0, 1, 1, 1, 1, 2, 2, 2, 2]) 0 12).map (fun hits =>
          (ScanSequences.combine_hits 4 hits.length
            (ScanSequences.wordhit_mergesort hits)).filter (fun h => decide (h.db_seq = 1)))) =
      some (some [⟨1, -4, 4, 7⟩, ⟨1, -3, 3, 4⟩]) ∧
    ScanSequences.best_score [⟨1, -4, 4, 7⟩, ⟨1, -3, 3, 4⟩] = 6 := by
  decide

set_option maxRecDepth 1000000 in
/-- C26, the code at a failing input: the query `censor_query` (103 letters, id 0)
against a shard of word size 12 holding `censor_target` as sequence 1, which
matches the query except at every 13th letter.  The two share eight words; with
8 x 2 < 75 the censor drops the target and `fasta_scan` reports nothing.  Without
the censor the eight hits chain into a path of score 82, which is at least
`SCORE_THRESHOLD`, and the target is reported. -/
theorem ScanSequences.fasta_scan_censor_drops_report :
    ScanSequences.count_hits ScanSequences.censor_table
      (ScanSequences.query_words ScanSequences.censor_table
        (ScanSequences.buffer_of ScanSequences.censor_query) 103) 0 = 8 ∧
    ScanSequences.fasta_scan ScanSequences.censor_table
      (ScanSequences.buffer_of ScanSequences.censor_query) 0 103 = some [] ∧
    ScanSequences.fasta_scan_uncensored ScanSequences.censor_table
      (ScanSequences.buffer_of ScanSequences.censor_query) 0 103 =
      some [{ db_seq := 1, min_di := -5, max_di := 5, score := 82, start := 0, «end» := 102,
              s_start := 0, s_end := 102 }] := by
  decide

namespace KaBackup

/-- The run loop: `j` only grows and stays within the read, `na` grows with it,
every letter passed is an A, and with enough rounds left the loop stops at the
end of the read or at a letter that is not an A. -/
theorem a_run_spec (s : sequence_t) :
    ∀ (k j na qual : Nat),
      j ≤ (a_run s k j na qual).1 ∧
      (a_run s k j na qual).2.1 = na + ((a_run s k j na qual).1 - j) ∧
      (j ≤ s.length → (a_run s k j na qual).1 ≤ s.length) ∧
      (∀ i, j ≤ i → i < (a_run s k j na qual).1 → s.sequence.getD i 0 = 65) ∧
      (j ≤ s.length → s.length ≤ j + k →
        (a_run s k j na qual).1 = s.length ∨
          s.sequence.getD (a_run s k j na qual).1 0 ≠ 65) := by
  intro k
  induction k with
  | zero =>
    intro j na qual
    simp only [a_run]
    refine ⟨le_refl _, by omega, fun h => h, ?_, ?_⟩
    · intro i h1 h2; omega
    · intro h1 h2; left; omega
  | succ k ih =>
    intro j na qual
    rw [a_run]
    by_cases h : j < s.length ∧ s.sequence.getD j 0 = 65
    · rw [if_pos h]
      obtain ⟨a, b, c, d, e⟩ := ih (j + 1) (na + 1) (qual + s.quality.getD j 0)
      refine ⟨by omega, by omega, fun _ => c (by omega), ?_, ?_⟩
      · intro i h1 h2
        by_cases hij : i = j
        · rw [hij]; exact h.2
        · exact d i (by omega) h2
      · intro h1 h2
        exact e (by omega) (by omega)
    · rw [if_neg h]
      refine ⟨le_refl _, by simp, fun h => h, ?_, ?_⟩
      · intro i h1 h2
        simp only [] at h2
        omega
      · intro h1 _
        simp only []
        by_cases hj : j < s.length
        · right
          intro h'
          exact h ⟨hj, h'⟩
        · left; omega

/-- One more round than the letters left changes nothing: `length` rounds are
enough for the scan from index 0. -/
theorem polya_scan_fuel (s : sequence_t) :
    ∀ (fuel j : Nat) (cands : List candidate_t), s.length ≤ j + fuel →
      polya_scan s (fuel + 1) j cands = polya_scan s fuel j cands := by
  intro fuel
  induction fuel with
  | zero =>
    intro j cands h
    simp only [polya_scan]
    rw [if_neg (by omega)]
  | succ fuel ih =>
    intro j cands h
    rw [polya_scan]
    conv_rhs => rw [polya_scan]
    by_cases hj : j < s.length
    · rw [if_pos hj, if_pos hj]
      have hr := (a_run_spec s (s.length - (j + 1)) (j + 1) 1 (s.quality.getD j 0)).1
      by_cases hA : s.sequence.getD j 0 = 65
      · rw [if_pos hA, if_pos hA]
        simp only []
        split
        · split
          · exact ih _ _ (by omega)
          · exact ih _ _ (by omega)
        · exact ih _ _ (by omega)
      · rw [if_neg hA, if_neg hA]
        exact ih _ _ (by omega)
    · rw [if_neg hj, if_neg hj]

/-- Every candidate the scan collects stands for a run of at least 12 letters A
that ends just before its `truncate_pos`. -/
theorem polya_scan_spec (s : sequence_t) :
    ∀ (fuel j : Nat) (cands : List candidate_t), j ≤ s.length →
      (j = 0 ∨ s.sequence.getD (j - 1) 0 ≠ 65 ∨ j = s.length ∨ s.sequence.getD j 0 ≠ 65) →
      (∀ c ∈ cands, ∃ start, ARun s c start) →
      ∀ c ∈ polya_scan s fuel j cands, ∃ start, ARun s c start := by
  intro fuel
  induction fuel with
  | zero => intro j cands _ _ h; exact h
  | succ fuel ih =>
    intro j cands hj hinv h
    rw [polya_scan]
    by_cases hjl : j < s.length
    · rw [if_pos hjl]
      by_cases hA : s.sequence.getD j 0 = 65
      · rw [if_pos hA]
        obtain ⟨a, b, c, d, e⟩ :=
          a_run_spec s (s.length - (j + 1)) (j + 1) 1 (s.quality.getD j 0)
        have c' := c (by omega)
        have e' := e (by omega) (by omega)
        have hinv' : (a_run s (s.length - (j + 1)) (j + 1) 1 (s.quality.getD j 0)).1 = 0 ∨
            s.sequence.getD
              ((a_run s (s.length - (j + 1)) (j + 1) 1 (s.quality.getD j 0)).1 - 1) 0 ≠ 65 ∨
            (a_run s (s.length - (j + 1)) (j + 1) 1 (s.quality.getD j 0)).1 = s.length ∨
            s.sequence.getD
              (a_run s (s.length - (j + 1)) (j + 1) 1 (s.quality.getD j 0)).1 0 ≠ 65 := by
          rcases e' with e' | e'
          · exact Or.inr (Or.inr (Or.inl e'))
          · exact Or.inr (Or.inr (Or.inr e'))
        simp only []
        split
        · rename_i hna
          split
          · rename_i hacc
            apply ih _ _ c' hinv'
            intro x hx
            rcases List.mem_append.mp hx with hx | hx
            · exact h x hx
            · rw [List.mem_singleton] at hx
              subst hx
              unfold accepts at hacc
              rw [decide_eq_true_eq] at hacc
              refine ⟨j, by simp only []; omega, by simp only []; omega, c', ?_, ?_, e',
                hacc.2.2⟩
              · intro i h1 h2
                by_cases hij : i = j
                · rw [hij]; exact hA
                · exact d i (by omega) h2
              · rcases hinv with h0 | h0 | h0 | h0
                · exact Or.inl h0
                · exact Or.inr h0
                · omega
                · exact absurd hA h0
          · exact ih _ _ c' hinv' h
        · exact ih _ _ c' hinv' h
      · rw [if_neg hA]
        apply ih (j + 1) cands (by omega) _ h
        right; left
        simpa using hA
    · rw [if_neg hjl]
      exact h

theorem select_candidate_lt (cands : List candidate_t) (h : 0 < cands.length) :
    select_candidate cands < cands.length := by
  unfold select_candidate
  have key : ∀ (l : List Nat) (sel : Nat), sel < cands.length → (∀ j ∈ l, j < cands.length) →
      l.foldl (fun select j =>
        if (cand_get cands j).a_length > (cand_get cands select).a_length then j
        else select) sel < cands.length := by
    intro l
    induction l with
    | nil => intro sel hs _; exact hs
    | cons j l ih =>
      intro sel hs hl
      rw [List.foldl_cons]
      apply ih
      · split
        · exact hl j (List.mem_cons_self _ _)
        · exact hs
      · intro x hx
        exact hl x (List.mem_cons_of_mem _ hx)
  exact key _ 0 h (fun j hj => List.mem_range.mp hj)

end KaBackup

/-- C22, as amended: the poly-A pass leaves a read as it is when it has no
candidate; otherwise the selected candidate stands for a run of at least 12
letters A, starting at some index `start`, that cannot be extended to either
side, and the read is cut just behind the run: the new length is `start` plus
the length of the run, the A's stay in the read and only what follows them
goes.  The quality block is cut to `length + 1` bytes, which hold the first
`(length + 1) / 4` quality values. -/
theorem KaBackup.polya_truncate_read_keeps_run (s : KaBackup.sequence_t) :
    (KaBackup.polya_candidates s = [] ∧ KaBackup.polya_truncate_read s = s) ∨
    ∃ c ∈ KaBackup.polya_candidates s, ∃ start, KaBackup.ARun s c start ∧
      (KaBackup.polya_truncate_read s).length = start + c.a_length ∧
      (KaBackup.polya_truncate_read s).sequence = s.sequence.take (start + c.a_length) ∧
      (KaBackup.polya_truncate_read s).quality =
        s.quality.take ((start + c.a_length + 1) / 4) := by
  by_cases h : 0 < (KaBackup.polya_candidates s).length
  · right
    have hsel := KaBackup.select_candidate_lt _ h
    have hmem : KaBackup.cand_get (KaBackup.polya_candidates s)
        (KaBackup.select_candidate (KaBackup.polya_candidates s)) ∈
        KaBackup.polya_candidates s := by
      unfold KaBackup.cand_get
      rw [List.getD_eq_getElem _ _ hsel]
      exact List.getElem_mem _
    obtain ⟨start, hrun⟩ := KaBackup.polya_scan_spec s s.length 0 [] (Nat.zero_le _)
      (Or.inl rfl) (by intro c hc; cases hc) _ hmem
    refine ⟨_, hmem, start, hrun, ?_, ?_, ?_⟩
    · rw [KaBackup.polya_truncate_read, if_pos h]
      exact hrun.2.1.symm
    · rw [KaBackup.polya_truncate_read, if_pos h, hrun.2.1]
    · rw [KaBackup.polya_truncate_read, if_pos h, hrun.2.1]
  · left
    refine ⟨List.length_eq_zero.mp (by omega), ?_⟩
    rw [KaBackup.polya_truncate_read, if_neg h]

/-- C22, the claim at a failing input: 30 letters C and 12 letters A of quality 30
followed by 5 letters C of quality 5.  The run of A's starts at index 30 and is
accepted with `truncate_pos` 42, the index behind its last A; the new length is
42, not 30, and the twelve A's are kept.  The quality block is cut to 43 bytes,
the first 10 values. -/
theorem KaBackup.polya_truncate_read_cuts_behind_run :
    KaBackup.polya_candidates KaBackup.polya_example =
      [{ truncate_pos := 42, a_length := 12, a_qual := 30, pasta_qual := 5 }] ∧
    KaBackup.polya_example.sequence.getD 29 0 = 67 ∧
    KaBackup.polya_example.sequence.getD 30 0 = 65 ∧
    (KaBackup.polya_truncate_read KaBackup.polya_example).length = 42 ∧
    (KaBackup.polya_truncate_read KaBackup.polya_example).sequence =
      List.replicate 30 67 ++ List.replicate 12 65 ∧
    (KaBackup.polya_truncate_read KaBackup.polya_example).quality =
      List.replicate 10 30 := by
  decide

namespace SpanningTree

/-- The inner loop of the root search: `max_score` ends as the largest of its
initial value and the scores seen, and `root` changes, to `v`, iff some score
exceeds the initial `max_score`. -/
theorem find_root_entries_max (v : Nat) :
    ∀ (es : List fasta_t) (acc : Int × Int),
      (∀ e ∈ es, e.score ≤ (find_root_entries v es acc).2) ∧
      acc.2 ≤ (find_root_entries v es acc).2 ∧
      (find_root_entries v es acc = acc ∨
        (acc.2 < (find_root_entries v es acc).2 ∧ (find_root_entries v es acc).1 = (v : Int) ∧
          ∃ e ∈ es, e.score = (find_root_entries v es acc).2)) := by
  intro es
  induction es with
  | nil =>
    intro acc
    exact ⟨(by intro e he; cases he), le_refl _, Or.inl rfl⟩
  | cons e es ih =>
    intro acc
    rw [find_root_entries]
    by_cases h : e.score > acc.2
    · rw [if_pos h]
      obtain ⟨a, b, c⟩ := ih ((v : Int), e.score)
      simp only [] at b
      refine ⟨?_, by omega, Or.inr ⟨by omega, ?_, ?_⟩⟩
      · intro e' he'
        rcases List.mem_cons.mp he' with he' | he'
        · rw [he']; exact b
        · exact a e' he'
      · rcases c with c | ⟨_, c, _⟩
        · rw [c]
        · exact c
      · rcases c with c | ⟨_, _, e', he', c⟩
        · exact ⟨e, List.mem_cons_self _ _, by rw [c]⟩
        · exact ⟨e', List.mem_cons_of_mem _ he', c⟩
    · rw [if_neg h]
      obtain ⟨a, b, c⟩ := ih acc
      refine ⟨?_, b, ?_⟩
      · intro e' he'
        rcases List.mem_cons.mp he' with he' | he'
        · rw [he']; omega
        · exact a e' he'
      · rcases c with c | ⟨c1, c2, e', he', c3⟩
        · exact Or.inl c
        · exact Or.inr ⟨c1, c2, e', List.mem_cons_of_mem _ he', c3⟩

/-- The root search: `max_score` ends as the largest of its initial value and the
scores of all entries of all members, and if some score exceeds the initial
value, `root` is the first member in component order that owns an entry of that
largest score. -/
theorem find_root_max (adj : Nat → List fasta_t) :
    ∀ (comp : List Nat) (acc : Int × Int),
      (∀ v ∈ comp, ∀ e ∈ adj v, e.score ≤ (find_root adj comp acc).2) ∧
      acc.2 ≤ (find_root adj comp acc).2 ∧
      (find_root adj comp acc = acc ∨
        (acc.2 < (find_root adj comp acc).2 ∧
          ∃ (pre : List Nat) (v : Nat) (post : List Nat), comp = pre ++ v :: post ∧
            (find_root adj comp acc).1 = (v : Int) ∧
            (∃ e ∈ adj v, e.score = (find_root adj comp acc).2) ∧
            ∀ u ∈ pre, ∀ e ∈ adj u, e.score < (find_root adj comp acc).2)) := by
  intro comp
  induction comp with
  | nil =>
    intro acc
    exact ⟨(by intro v hv; cases hv), le_refl _, Or.inl rfl⟩
  | cons v vs ih =>
    intro acc
    rw [find_root]
    obtain ⟨a1, b1, c1⟩ := find_root_entries_max v (adj v) acc
    obtain ⟨a2, b2, c2⟩ := ih (find_root_entries v (adj v) acc)
    refine ⟨?_, le_trans b1 b2, ?_⟩
    · intro u hu e he
      rcases List.mem_cons.mp hu with hu | hu
      · rw [hu] at he
        exact le_trans (a1 e he) b2
      · exact a2 u hu e he
    · rcases c2 with c2 | ⟨d1, pre, u, post, d2, d3, d4, d5⟩
      · rcases c1 with c1 | ⟨e1, e2, e3⟩
        · left; rw [c2, c1]
        · right
          rw [c2]
          exact ⟨e1, [], v, vs, rfl, e2, e3, by intro u hu; cases hu⟩
      · right
        refine ⟨lt_of_le_of_lt b1 d1, v :: pre, u, post, by rw [d2]; rfl, d3, d4, ?_⟩
        intro x hx e he
        rcases List.mem_cons.mp hx with hx | hx
        · rw [hx] at he
          exact lt_of_le_of_lt (a1 e he) d1
        · exact d5 x hx e he

theorem orderedInsert_congr {α : Type} (r s : α → α → Prop) [DecidableRel r] [DecidableRel s]
    (a : α) : ∀ (l : List α), (∀ b ∈ l, r a b ↔ s a b) →
      l.orderedInsert r a = l.orderedInsert s a := by
  intro l
  induction l with
  | nil => intro _; rfl
  | cons b l ih =>
    intro h
    simp only [List.orderedInsert]
    have hb := h b (List.mem_cons_self _ _)
    by_cases hr : r a b
    · rw [if_pos hr, if_pos (hb.mp hr)]
    · rw [if_neg hr, if_neg (fun hs => hr (hb.mpr hs)),
        ih (fun c hc => h c (List.mem_cons_of_mem _ hc))]

/-- An insertion sort only consults the order between elements of the list. -/
theorem insertionSort_congr {α : Type} (r s : α → α → Prop) [DecidableRel r] [DecidableRel s] :
    ∀ (l : List α), (∀ a ∈ l, ∀ b ∈ l, r a b ↔ s a b) →
      l.insertionSort r = l.insertionSort s := by
  intro l
  induction l with
  | nil => intro _; rfl
  | cons a l ih =>
    intro h
    simp only [List.insertionSort]
    rw [ih (fun x hx y hy => h x (List.mem_cons_of_mem _ hx) y (List.mem_cons_of_mem _ hy))]
    apply orderedInsert_congr
    intro b hb
    exact h a (List.mem_cons_self _ _) b
      (List.mem_cons_of_mem _ ((List.perm_insertionSort s l).mem_iff.mp hb))

/-- On records with scores from 0 to `INT_MAX` the comparator decides by score,
and `qsort` leaves them in non-increasing score order. -/
theorem qsort_sorted (recs : List asm_order_t)
    (h : ∀ r ∈ recs, 0 ≤ r.score ∧ r.score ≤ 2147483647) :
    (qsort asm_order_compare recs).Pairwise (fun a b => b.score ≤ a.score) := by
  unfold qsort
  rw [insertionSort_congr (fun a b => asm_order_compare a b ≤ 0)
    (fun a b : asm_order_t => b.score ≤ a.score) recs]
  · have ht : IsTotal asm_order_t (fun a b : asm_order_t => b.score ≤ a.score) :=
      ⟨fun a b => le_total _ _⟩
    have htr : IsTrans asm_order_t (fun a b : asm_order_t => b.score ≤ a.score) :=
      ⟨fun a b c hab hbc => le_trans hbc hab⟩
    exact List.sorted_insertionSort (fun a b : asm_order_t => b.score ≤ a.score) recs
  · intro a ha b hb
    have h1 := h a ha
    have h2 := h b hb
    unfold asm_order_compare wrap_int
    omega

end SpanningTree

/-- C30: for a component in which some member has an adjacency entry of score at
least 0, the root search ends with `max_score` the largest score over all
adjacency entries of all members and with `root` the first member in component
order that owns an entry of that score; so `root >= 0`, the assertion holds, and
the first extraction of the loop picks the root. -/
theorem SpanningTree.find_root_first_maximum (adj : Nat → List SpanningTree.fasta_t)
    (comp : List Nat) (hpos : ∃ u ∈ comp, ∃ e ∈ adj u, 0 ≤ e.score) :
    ∃ (root : Nat) (pre post : List Nat),
      (SpanningTree.find_root adj comp (-1, -1)).1 = (root : Int) ∧
      comp = pre ++ root :: post ∧
      (∃ e ∈ adj root, e.score = (SpanningTree.find_root adj comp (-1, -1)).2) ∧
      (∀ u ∈ comp, ∀ e ∈ adj u, e.score ≤ (SpanningTree.find_root adj comp (-1, -1)).2) ∧
      (∀ u ∈ pre, ∀ e ∈ adj u, e.score < (SpanningTree.find_root adj comp (-1, -1)).2) ∧
      ¬ (SpanningTree.find_root adj comp (-1, -1)).1 < 0 ∧
      SpanningTree.extract_max
        { SpanningTree.prim_init with
          key := SpanningTree.store SpanningTree.prim_init.key root 0 } comp (-1) =
        (root : Int) := by
  obtain ⟨a, _, c⟩ := SpanningTree.find_root_max adj comp (-1, -1)
  rcases c with c | ⟨_, pre, root, post, c1, c2, c3, c4⟩
  · exfalso
    obtain ⟨u, hu, e, he, hs⟩ := hpos
    have := a u hu e he
    rw [c] at this
    simp only [] at this
    omega
  refine ⟨root, pre, post, c2, c1, c3, a, c4, by rw [c2]; omega, ?_⟩
  have hroot : root ∈ comp := by
    rw [c1]; exact List.mem_append_right _ (List.mem_cons_self _ _)
  rcases SpanningTree.extract_max_spec
      { SpanningTree.prim_init with
        key := SpanningTree.store SpanningTree.prim_init.key root 0 }
      comp (-1) (fun _ => False) (Or.inl ⟨rfl, by intro b hb; cases hb⟩)
    with ⟨_, h⟩ | ⟨z, h1, _, h3, h4⟩
  · have := h root (Or.inr hroot)
    simp [SpanningTree.prim_init] at this
  · rw [h1]
    have hk := h4 root (Or.inr hroot) rfl
    simp only [SpanningTree.st_store_same] at hk
    by_cases hz : z = root
    · rw [hz]
    · exfalso
      rw [SpanningTree.st_store_other _ _ _ _ hz] at hk
      simp only [SpanningTree.prim_init, SpanningTree.INT_MIN] at hk
      omega

/-- Witness for C30: the triangle with scores 5, 3, 9, whose root is member 1. -/
theorem SpanningTree.find_root_first_maximum_witness :
    (SpanningTree.find_root
      (SpanningTree.adj_of [[(1, 5), (2, 3)], [(0, 5), (2, 9)], [(0, 3), (1, 9)]]) [0, 1, 2]
      (-1, -1) = (1, 9)) ∧
    ∃ (root : Nat) (pre post : List Nat),
      (SpanningTree.find_root
        (SpanningTree.adj_of [[(1, 5), (2, 3)], [(0, 5), (2, 9)], [(0, 3), (1, 9)]]) [0, 1, 2]
        (-1, -1)).1 = (root : Int) ∧
      [0, 1, 2] = pre ++ root :: post ∧
      (∃ e ∈ SpanningTree.adj_of [[(1, 5), (2, 3)], [(0, 5), (2, 9)], [(0, 3), (1, 9)]] root,
        e.score = (SpanningTree.find_root
          (SpanningTree.adj_of [[(1, 5), (2, 3)], [(0, 5), (2, 9)], [(0, 3), (1, 9)]]) [0, 1, 2]
          (-1, -1)).2) ∧
      (∀ u ∈ [0, 1, 2],
        ∀ e ∈ SpanningTree.adj_of [[(1, 5), (2, 3)], [(0, 5), (2, 9)], [(0, 3), (1, 9)]] u,
        e.score ≤ (SpanningTree.find_root
          (SpanningTree.adj_of [[(1, 5), (2, 3)], [(0, 5), (2, 9)], [(0, 3), (1, 9)]]) [0, 1, 2]
          (-1, -1)).2) ∧
      (∀ u ∈ pre,
        ∀ e ∈ SpanningTree.adj_of [[(1, 5), (2, 3)], [(0, 5), (2, 9)], [(0, 3), (1, 9)]] u,
        e.score < (SpanningTree.find_root
          (SpanningTree.adj_of [[(1, 5), (2, 3)], [(0, 5), (2, 9)], [(0, 3), (1, 9)]]) [0, 1, 2]
          (-1, -1)).2) ∧
      ¬ (SpanningTree.find_root
        (SpanningTree.adj_of [[(1, 5), (2, 3)], [(0, 5), (2, 9)], [(0, 3), (1, 9)]]) [0, 1, 2]
        (-1, -1)).1 < 0 ∧
      SpanningTree.extract_max
        { SpanningTree.prim_init with
          key := SpanningTree.store SpanningTree.prim_init.key root 0 } [0, 1, 2] (-1) =
        (root : Int) :=
  ⟨by decide,
    SpanningTree.find_root_first_maximum _ [0, 1, 2]
      ⟨0, by decide, ⟨1, 5⟩, by decide, by decide⟩⟩

/-- Where every member is reached from the root, so that no key keeps the initial
`INT_MIN`, the comparator does not overflow and the order is right: for a
component of at least two members, none repeated, connected through adjacency
entries between members whose scores are from 0 to `INT_MAX`, `assembly_order`
gets one record per member, the `s2` fields being a permutation of the members;
the record of the root has `s1 = -1` and score 0, every other record
`(s1, s2, score)` names a member `s1` with the adjacency entry `(s2, score)`; and
the records are in non-increasing score order. -/
theorem SpanningTree.assembly_order_sorted
    (adj : Nat → List SpanningTree.fasta_t) (comp : List Nat) (hsize : 2 ≤ comp.length)
    (hnd : comp.Nodup) (hconn : SpanningTree.Connected adj comp)
    (hsc : ∀ u ∈ comp, ∀ e ∈ adj u, e.s2 ∈ comp → 0 ≤ e.score ∧ e.score ≤ 2147483647) :
    ∃ recs, SpanningTree.assembly_order adj comp = some recs ∧
      (recs.map (fun r => r.s2)).Perm comp ∧
      (∀ r ∈ recs, (r.s1 = -1 ∧ r.score = 0) ∨
        ∃ a ∈ comp, r.s1 = (a : Int) ∧ { s2 := r.s2, score := r.score } ∈ adj a) ∧
      recs.Pairwise (fun a b => b.score ≤ a.score) := by
  have hpos : ∃ u ∈ comp, ∃ e ∈ adj u, 0 ≤ e.score := by
    obtain ⟨u, hu, e, he, hs⟩ := SpanningTree.connected_entry hconn hsize hnd
    exact ⟨u, hu, e, he, (hsc u hu e he hs).1⟩
  have hmin : ∀ u ∈ comp, ∀ e ∈ adj u, e.s2 ∈ comp → SpanningTree.INT_MIN < e.score := by
    intro u hu e he hs
    have := (hsc u hu e he hs).1
    unfold SpanningTree.INT_MIN
    omega
  rcases SpanningTree.find_root_spec adj comp (-1, -1) with ⟨_, h⟩ | ⟨⟨root, hroot, hr⟩, _⟩
  · obtain ⟨u, hu, e, he, hs⟩ := hpos
    have := h u hu e he
    simp only [] at this
    omega
  obtain ⟨st, ord, h1, hinv, hall⟩ := SpanningTree.prim_loop_all hnd hroot hconn hmin
  have hcomp : SpanningTree.spanning_tree_component adj comp =
      some (comp.map (fun v => { s1 := st.p v, s2 := v, score := st.key v })) := by
    unfold SpanningTree.spanning_tree_component
    rw [hr, if_neg (by omega), Int.toNat_ofNat, h1]
  have hrec : ∀ v ∈ comp, (st.p v = -1 ∧ st.key v = 0) ∨
      ∃ a ∈ comp, st.p v = (a : Int) ∧ { s2 := v, score := st.key v } ∈ adj a := by
    intro v hv
    by_cases hvr : v = root
    · rw [hvr]; exact Or.inl ⟨hinv.p_root, hinv.k_root⟩
    · obtain ⟨a, ha, h2, h3⟩ := hinv.used_par v (hall v hv) hvr
      exact Or.inr ⟨a, hinv.o_sub a (SpanningTree.before_mem ha).1, h2, h3⟩
  have hperm := List.perm_insertionSort
    (fun a b => SpanningTree.asm_order_compare a b ≤ 0)
    (comp.map (fun v => ({ s1 := st.p v, s2 := v, score := st.key v } :
      SpanningTree.asm_order_t)))
  refine ⟨_, by rw [SpanningTree.assembly_order, hcomp]; rfl, ?_, ?_, ?_⟩
  · refine (hperm.map _).trans ?_
    rw [List.map_map]
    exact List.Perm.of_eq (List.map_id _)
  · intro r hr'
    obtain ⟨v, hv, rfl⟩ := List.mem_map.mp (hperm.mem_iff.mp hr')
    exact hrec v hv
  · apply SpanningTree.qsort_sorted
    intro r hr'
    obtain ⟨v, hv, rfl⟩ := List.mem_map.mp hr'
    rcases hrec v hv with ⟨_, h0⟩ | ⟨a, ha, _, h3⟩
    · simp only [h0]; omega
    · exact hsc a ha _ h3 hv

/-- The triangle with scores 5, 3, 9: its records, in non-increasing score order. -/
theorem SpanningTree.assembly_order_sorted_witness :
    SpanningTree.assembly_order
      (SpanningTree.adj_of [[(1, 5), (2, 3)], [(0, 5), (2, 9)], [(0, 3), (1, 9)]]) [0, 1, 2] =
      some [{ s1 := 1, s2 := 2, score := 9 }, { s1 := 1, s2 := 0, score := 5 },
            { s1 := -1, s2 := 1, score := 0 }] ∧
    ∃ recs, SpanningTree.assembly_order
        (SpanningTree.adj_of [[(1, 5), (2, 3)], [(0, 5), (2, 9)], [(0, 3), (1, 9)]]) [0, 1, 2] =
        some recs ∧
      (recs.map (fun r => r.s2)).Perm [0, 1, 2] ∧
      (∀ r ∈ recs, (r.s1 = -1 ∧ r.score = 0) ∨
        ∃ a ∈ ([0, 1, 2] : List Nat), r.s1 = (a : Int) ∧
          { s2 := r.s2, score := r.score } ∈
            SpanningTree.adj_of [[(1, 5), (2, 3)], [(0, 5), (2, 9)], [(0, 3), (1, 9)]] a) ∧
      recs.Pairwise (fun a b => b.score ≤ a.score) :=
  ⟨by decide,
    SpanningTree.assembly_order_sorted _ [0, 1, 2] (by decide) (by decide)
      SpanningTree.triangle_connected
      (by
        intro u hu e he _
        simp only [List.mem_cons, List.mem_singleton, List.not_mem_nil, or_false] at hu
        rcases hu with rfl | rfl | rfl <;>
          · simp only [SpanningTree.adj_of, List.getD_cons_zero, List.getD_cons_succ,
              List.map_cons, List.map_nil, List.mem_cons, List.mem_singleton,
              List.not_mem_nil, or_false] at he
            rcases he with rfl | rfl <;> decide)⟩

/-- C23, the code at a failing input: the component `[0, 1, 2]` with the entries
0 -> 1 (80), 0 -> 2 (80), 2 -> 1 (90).  The root is 2 (it owns the largest score);
member 0 is not reached from it and keeps the initial key `INT_MIN`.  One record
per member is written, but `asm_order_compare` computes `b->score - a->score` as
an `int`: for the record of score `INT_MIN` against the record of score 90 the
difference `90 - INT_MIN = 2147483738` does not fit and wraps to `-2147483558`,
so the comparator ranks the `INT_MIN` record first, and the sorted array has the
scores `INT_MIN, 90, 0`: not in non-increasing order. -/
theorem SpanningTree.assembly_order_int_min_unsorted :
    SpanningTree.spanning_tree_component
      (SpanningTree.adj_of [[(1, 80), (2, 80)], [], [(1, 90)]]) [0, 1, 2] =
      some [{ s1 := -1, s2 := 0, score := -2147483648 }, { s1 := 2, s2 := 1, score := 90 },
            { s1 := -1, s2 := 2, score := 0 }] ∧
    SpanningTree.assembly_order
      (SpanningTree.adj_of [[(1, 80), (2, 80)], [], [(1, 90)]]) [0, 1, 2] =
      some [{ s1 := -1, s2 := 0, score := -2147483648 }, { s1 := 2, s2 := 1, score := 90 },
            { s1 := -1, s2 := 2, score := 0 }] ∧
    ¬ ([{ s1 := -1, s2 := 0, score := -2147483648 }, { s1 := 2, s2 := 1, score := 90 },
        { s1 := -1, s2 := 2, score := 0 }] : List SpanningTree.asm_order_t).Pairwise
        (fun a b => b.score ≤ a.score) ∧
    (90 : Int) - (-2147483648) = 2147483738 ∧
    SpanningTree.asm_order_compare { s1 := -1, s2 := 0, score := -2147483648 }
      { s1 := 2, s2 := 1, score := 90 } = -2147483558 := by
  decide

namespace ScanSequences

theorem run_length_le (h : wordhit_t) :
    ∀ (rest : List wordhit_t) (d : Int), run_length h d rest ≤ rest.length := by
  intro rest
  induction rest with
  | nil => intro d; simp [run_length]
  | cons x rest ih =>
    intro d
    rw [run_length]
    split
    · have := ih (d + 1)
      simp only [List.length_cons]
      omega
    · exact Nat.zero_le _

/-- The runs written by `combine_hits` account for every cell of the array: there
are at most as many as cells, and their word counts `length - w + 1` add up to the
number of cells. -/
theorem combine_hits_sum (wordsize : Nat) :
    ∀ (fuel : Nat) (hits : List wordhit_t), hits.length ≤ fuel →
      (combine_hits wordsize fuel hits).length ≤ hits.length ∧
      (hits ≠ [] → 1 ≤ (combine_hits wordsize fuel hits).length) ∧
      ((combine_hits wordsize fuel hits).map
        (fun c => c.length - (wordsize : Int) + 1)).sum = (hits.length : Int) := by
  intro fuel
  induction fuel with
  | zero =>
    intro hits hl
    have : hits = [] := List.length_eq_zero.mp (by omega)
    subst this
    exact ⟨by simp [combine_hits], fun h => absurd rfl h, by simp [combine_hits]⟩
  | succ fuel ih =>
    intro hits hl
    match hits, hl with
    | [], _ => exact ⟨by simp [combine_hits], fun h => absurd rfl h, by simp [combine_hits]⟩
    | h :: rest, hl =>
      rw [combine_hits]
      simp only [List.length_cons] at hl
      have hn := run_length_le h rest 1
      obtain ⟨a, _, c⟩ := ih (rest.drop (run_length h 1 rest))
        (by rw [List.length_drop]; omega)
      rw [List.length_drop] at a c
      refine ⟨?_, fun _ => ?_, ?_⟩
      · simp only [List.length_cons]; omega
      · simp only [List.length_cons]; omega
      · simp only [List.map_cons, List.sum_cons, List.length_cons]
        rw [c]
        push_cast
        omega

theorem pos_rank_lt_length (g : List wordhit_t) (l : Nat) (l1 : 1 ≤ l) (l2 : l ≤ g.length) :
    pos_rank g l < g.length := by
  unfold pos_rank
  have hsub : (Finset.range (g.length + 1)).filter
      (fun k => 1 ≤ k ∧ (aget g (k - 1)).pos < (aget g (l - 1)).pos) ⊆
      ((Finset.range (g.length + 1)).erase 0).erase l := by
    intro k hk
    simp only [Finset.mem_filter, Finset.mem_range] at hk
    simp only [Finset.mem_erase, Finset.mem_range]
    refine ⟨?_, by omega, hk.1⟩
    intro e
    rw [e] at hk
    omega
  have h1 := Finset.card_le_card hsub
  have h2 : (((Finset.range (g.length + 1)).erase 0).erase l).card = g.length - 1 := by
    rw [Finset.card_erase_of_mem, Finset.card_erase_of_mem, Finset.card_range]
    · omega
    · simp
    · simp only [Finset.mem_erase, Finset.mem_range]
      omega
  omega

end ScanSequences

/-- C32: for a non-empty group of chained hits of length at least 2 each, the
arg-max over the score vector of `single_source_shortest_path` (of `n_nodes` =
group size + 2 entries) is neither the source 0 nor the sink `n_nodes - 1`:
`max - 1` is an index into the group. -/
theorem ScanSequences.argmax_is_hit_node (group : List ScanSequences.wordhit_t)
    (hne : group ≠ []) (hlen : ∀ h ∈ group, 2 ≤ h.length) :
    1 ≤ ScanSequences.argmax_score (ScanSequences.single_source_shortest_path group).2.score
      (group.length + 2) ∧
    ScanSequences.argmax_score (ScanSequences.single_source_shortest_path group).2.score
      (group.length + 2) - 1 < group.length := by
  have hperm := ScanSequences.sort_bypos_perm group
  have hl := hperm.length_eq
  have hsc : (ScanSequences.single_source_shortest_path group).2.score =
      (ScanSequences.relax_all (ScanSequences.sort_bypos group)
        ScanSequences.sssp_init).score := rfl
  rw [hsc, ← hl]
  generalize hg : ScanSequences.sort_bypos group = g at hperm hl ⊢
  have hg0 : 0 < g.length := by
    rw [hl]
    exact List.length_pos.mpr hne
  have hleng : ∀ h ∈ g, 1 ≤ h.length := fun h hh => by
    have := hlen h (hperm.mem_iff.mp hh)
    omega
  have hinv := ScanSequences.dpinv_relax_all g hleng
  obtain ⟨m1, m2, m3⟩ := ScanSequences.argmax_score_spec
    (ScanSequences.relax_all g ScanSequences.sssp_init).score (g.length + 2) (by omega)
  generalize hst : ScanSequences.relax_all g ScanSequences.sssp_init = st at hinv m1 m2 m3 ⊢
  generalize hmax : ScanSequences.argmax_score st.score (g.length + 2) = max at m1 m2 m3 ⊢
  have h1 : 1 ≤ st.score 1 := by
    have := hinv.low 1 (le_refl _) (by omega)
    have h2 := hlen _ (hperm.mem_iff.mp (ScanSequences.aget_mem g 0 hg0))
    simp only [Nat.sub_self] at this
    omega
  have hmax0 : max ≠ 0 := by
    intro e
    have := m2 1 (by omega)
    rw [e, hinv.src] at this
    omega
  have hsink : max ≠ g.length + 1 := by
    intro hm
    rcases hinv.sink with hs | ⟨k, k1, k2, _, hs⟩
    · have := m2 0 (by omega)
      rw [hinv.src, hm, hs] at this
      unfold ScanSequences.INT_MIN at this
      omega
    · have := m3 k (by omega)
      rw [hm] at this
      omega
  omega

/-- Witness for C32: a group of two hits of length 12. -/
theorem ScanSequences.argmax_is_hit_node_witness :
    ([⟨7, 0, 0, 12⟩, ⟨7, 0, 13, 12⟩] : List ScanSequences.wordhit_t) ≠ [] ∧
    (∀ h ∈ ([⟨7, 0, 0, 12⟩, ⟨7, 0, 13, 12⟩] : List ScanSequences.wordhit_t), 2 ≤ h.length) ∧
    ScanSequences.argmax_score
      (ScanSequences.single_source_shortest_path [⟨7, 0, 0, 12⟩, ⟨7, 0, 13, 12⟩]).2.score 4 = 2 ∧
    1 ≤ ScanSequences.argmax_score
      (ScanSequences.single_source_shortest_path [⟨7, 0, 0, 12⟩, ⟨7, 0, 13, 12⟩]).2.score
      (([⟨7, 0, 0, 12⟩, ⟨7, 0, 13, 12⟩] : List ScanSequences.wordhit_t).length + 2) ∧
    ScanSequences.argmax_score
      (ScanSequences.single_source_shortest_path [⟨7, 0, 0, 12⟩, ⟨7, 0, 13, 12⟩]).2.score
      (([⟨7, 0, 0, 12⟩, ⟨7, 0, 13, 12⟩] : List ScanSequences.wordhit_t).length + 2) - 1 <
      ([⟨7, 0, 0, 12⟩, ⟨7, 0, 13, 12⟩] : List ScanSequences.wordhit_t).length :=
  ⟨by decide, by decide, by decide,
    ScanSequences.argmax_is_hit_node [⟨7, 0, 0, 12⟩, ⟨7, 0, 13, 12⟩] (by decide) (by decide)⟩

/-- C33: for every group of chained hits (of length at least 1 each, in whatever
order the sorting step leaves them), the predecessor of a hit node is the source
or a hit node of strictly lower `pos`, and the trace-back loop from the arg-max
ends within as many rounds as the group has hits. -/
theorem ScanSequences.trace_back_terminates (before after : ScanSequences.wordhit_t)
    (group : List ScanSequences.wordhit_t) (hlen : ∀ h ∈ group, 1 ≤ h.length) :
    (∀ l, 1 ≤ l → l ≤ group.length →
      (ScanSequences.single_source_shortest_path group).2.pred l = 0 ∨
      ∃ k, 1 ≤ k ∧ k ≤ group.length ∧
        (ScanSequences.single_source_shortest_path group).2.pred l = (k : Int) ∧
        (ScanSequences.aget (ScanSequences.single_source_shortest_path group).1 (k - 1)).pos <
          (ScanSequences.aget (ScanSequences.single_source_shortest_path group).1 (l - 1)).pos) ∧
    ∀ t : ScanSequences.trace_state, ∃ t',
      ScanSequences.trace_back
        (fun k : Int => if k ≤ 0 then before
          else if k.toNat ≤ group.length then
            ScanSequences.aget (ScanSequences.single_source_shortest_path group).1 (k.toNat - 1)
          else after)
        (ScanSequences.single_source_shortest_path group).2.pred group.length
        (ScanSequences.argmax_score (ScanSequences.single_source_shortest_path group).2.score
          (group.length + 2)) t = some t' := by
  have hperm := ScanSequences.sort_bypos_perm group
  have hl := hperm.length_eq
  have hsc : ScanSequences.single_source_shortest_path group =
      (ScanSequences.sort_bypos group,
        ScanSequences.relax_all (ScanSequences.sort_bypos group) ScanSequences.sssp_init) := rfl
  rw [hsc, ← hl]
  simp only []
  generalize hg : ScanSequences.sort_bypos group = g at hperm hl ⊢
  have hleng : ∀ h ∈ g, 1 ≤ h.length := fun h hh => hlen h (hperm.mem_iff.mp hh)
  have hinv := ScanSequences.dpinv_relax_all g hleng
  obtain ⟨m1, m2, m3⟩ := ScanSequences.argmax_score_spec
    (ScanSequences.relax_all g ScanSequences.sssp_init).score (g.length + 2) (by omega)
  generalize hst : ScanSequences.relax_all g ScanSequences.sssp_init = st at hinv m1 m2 m3 ⊢
  generalize hmax : ScanSequences.argmax_score st.score (g.length + 2) = max at m1 m2 m3 ⊢
  refine ⟨?_, ?_⟩
  · intro l l1 l2
    rcases hinv.hitn l l1 l2 with ⟨hp, _⟩ | ⟨k, k1, k2, hp, hpos, _⟩
    · exact Or.inl hp
    · exact Or.inr ⟨k, k1, k2, hp, hpos⟩
  · intro t
    have hsink : max ≠ g.length + 1 := by
      intro hm
      rcases hinv.sink with hs | ⟨k, k1, k2, _, hs⟩
      · have := m2 0 (by omega)
        rw [hinv.src, hm, hs] at this
        unfold ScanSequences.INT_MIN at this
        omega
      · have := m3 k (by omega)
        rw [hm] at this
        omega
    by_cases h0 : max = 0
    · subst h0
      refine ⟨t, ?_⟩
      cases g.length with
      | zero => simp [ScanSequences.trace_back]
      | succ f => simp [ScanSequences.trace_back]
    · have hhit : ∀ k : Nat, 1 ≤ k → k ≤ g.length →
          (fun k : Int => if k ≤ 0 then before
            else if k.toNat ≤ g.length then ScanSequences.aget g (k.toNat - 1) else after)
            (k : Int) = ScanSequences.aget g (k - 1) := by
        intro k k1 k2
        simp only []
        rw [if_neg (by omega), Int.toNat_ofNat, if_pos k2]
      obtain ⟨t', f, e1, _⟩ := ScanSequences.trace_back_spec g st hinv
        (fun k : Int => if k ≤ 0 then before
          else if k.toNat ≤ g.length then ScanSequences.aget g (k.toNat - 1) else after)
        hhit g.length max
        (by omega) (by omega)
        (ScanSequences.pos_rank_lt_length g max (by omega) (by omega)) t
      exact ⟨t', e1⟩

/-- Witness for C33: a group of two hits, the second chained behind the first. -/
theorem ScanSequences.trace_back_terminates_witness :
    (∀ h ∈ ([⟨7, 0, 0, 12⟩, ⟨7, 0, 13, 12⟩] : List ScanSequences.wordhit_t), 1 ≤ h.length) ∧
    ([1, 2].map (ScanSequences.single_source_shortest_path
      [⟨7, 0, 0, 12⟩, ⟨7, 0, 13, 12⟩]).2.pred = [0, 1]) ∧
    ∀ t : ScanSequences.trace_state, ∃ t',
      ScanSequences.trace_back
        (fun k : Int => if k ≤ 0 then ScanSequences.hit0
          else if k.toNat ≤ ([⟨7, 0, 0, 12⟩, ⟨7, 0, 13, 12⟩] : List ScanSequences.wordhit_t).length
          then
            ScanSequences.aget (ScanSequences.single_source_shortest_path
              [⟨7, 0, 0, 12⟩, ⟨7, 0, 13, 12⟩]).1 (k.toNat - 1)
          else ScanSequences.hit0)
        (ScanSequences.single_source_shortest_path [⟨7, 0, 0, 12⟩, ⟨7, 0, 13, 12⟩]).2.pred
        ([⟨7, 0, 0, 12⟩, ⟨7, 0, 13, 12⟩] : List ScanSequences.wordhit_t).length
        (ScanSequences.argmax_score
          (ScanSequences.single_source_shortest_path [⟨7, 0, 0, 12⟩, ⟨7, 0, 13, 12⟩]).2.score
          (([⟨7, 0, 0, 12⟩, ⟨7, 0, 13, 12⟩] : List ScanSequences.wordhit_t).length + 2)) t =
        some t' :=
  ⟨by decide, by decide,
    (ScanSequences.trace_back_terminates ScanSequences.hit0 ScanSequences.hit0
      [⟨7, 0, 0, 12⟩, ⟨7, 0, 13, 12⟩] (by decide)).2⟩

/-- C34: for every array of `n >= 1` word hits, sorted or not, `combine_hits` returns
`f` runs with `1 <= f <= n`, and the sum over the runs of `length - w + 1` is `n`. -/
theorem ScanSequences.combine_hits_conserves (wordsize : Nat)
    (hits : List ScanSequences.wordhit_t) (hne : hits ≠ []) :
    1 ≤ (ScanSequences.combine_hits wordsize hits.length hits).length ∧
    (ScanSequences.combine_hits wordsize hits.length hits).length ≤ hits.length ∧
    ((ScanSequences.combine_hits wordsize hits.length hits).map
      (fun c => c.length - (wordsize : Int) + 1)).sum = (hits.length : Int) := by
  obtain ⟨a, b, c⟩ := ScanSequences.combine_hits_sum wordsize hits.length hits (le_refl _)
  exact ⟨b hne, a, c⟩

/-- Witness for C34: five hits, not sorted, that fall into three runs. -/
theorem ScanSequences.combine_hits_conserves_witness :
    ([⟨1, 0, 5, 0⟩, ⟨1, 0, 6, 0⟩, ⟨1, 0, 7, 0⟩, ⟨0, 2, 3, 0⟩, ⟨1, 0, 8, 0⟩] :
      List ScanSequences.wordhit_t) ≠ [] ∧
    (ScanSequences.combine_hits 4 5
      [⟨1, 0, 5, 0⟩, ⟨1, 0, 6, 0⟩, ⟨1, 0, 7, 0⟩, ⟨0, 2, 3, 0⟩, ⟨1, 0, 8, 0⟩]).map
      (fun c => c.length) = [6, 4, 4] ∧
    (1 ≤ (ScanSequences.combine_hits 4
        ([⟨1, 0, 5, 0⟩, ⟨1, 0, 6, 0⟩, ⟨1, 0, 7, 0⟩, ⟨0, 2, 3, 0⟩, ⟨1, 0, 8, 0⟩] :
          List ScanSequences.wordhit_t).length
        [⟨1, 0, 5, 0⟩, ⟨1, 0, 6, 0⟩, ⟨1, 0, 7, 0⟩, ⟨0, 2, 3, 0⟩, ⟨1, 0, 8, 0⟩]).length ∧
    (ScanSequences.combine_hits 4
        ([⟨1, 0, 5, 0⟩, ⟨1, 0, 6, 0⟩, ⟨1, 0, 7, 0⟩, ⟨0, 2, 3, 0⟩, ⟨1, 0, 8, 0⟩] :
          List ScanSequences.wordhit_t).length
        [⟨1, 0, 5, 0⟩, ⟨1, 0, 6, 0⟩, ⟨1, 0, 7, 0⟩, ⟨0, 2, 3, 0⟩, ⟨1, 0, 8, 0⟩]).length ≤
      ([⟨1, 0, 5, 0⟩, ⟨1, 0, 6, 0⟩, ⟨1, 0, 7, 0⟩, ⟨0, 2, 3, 0⟩, ⟨1, 0, 8, 0⟩] :
          List ScanSequences.wordhit_t).length ∧
    ((ScanSequences.combine_hits 4
        ([⟨1, 0, 5, 0⟩, ⟨1, 0, 6, 0⟩, ⟨1, 0, 7, 0⟩, ⟨0, 2, 3, 0⟩, ⟨1, 0, 8, 0⟩] :
          List ScanSequences.wordhit_t).length
        [⟨1, 0, 5, 0⟩, ⟨1, 0, 6, 0⟩, ⟨1, 0, 7, 0⟩, ⟨0, 2, 3, 0⟩, ⟨1, 0, 8, 0⟩]).map
      (fun c => c.length - ((4 : Nat) : Int) + 1)).sum =
      ((([⟨1, 0, 5, 0⟩, ⟨1, 0, 6, 0⟩, ⟨1, 0, 7, 0⟩, ⟨0, 2, 3, 0⟩, ⟨1, 0, 8, 0⟩] :
          List ScanSequences.wordhit_t).length : Nat) : Int)) :=
  ⟨by decide, by decide,
    ScanSequences.combine_hits_conserves 4
      [⟨1, 0, 5, 0⟩, ⟨1, 0, 6, 0⟩, ⟨1, 0, 7, 0⟩, ⟨0, 2, 3, 0⟩, ⟨1, 0, 8, 0⟩] (by decide)⟩

namespace FormatLookup

theorem window_code_lt (seq : Nat → Nat) (hs : ∀ j, seq j < 4) (p : Nat) :
    ∀ w, window_code seq p w < 4 ^ w := by
  intro w
  induction w with
  | zero => simp [window_code]
  | succ w ih =>
    rw [window_code, pow_succ]
    have := hs (p + w)
    omega

theorem window_code_cons (seq : Nat → Nat) (p : Nat) :
    ∀ w, window_code seq p (w + 1) = seq p * 4 ^ w + window_code seq (p + 1) w := by
  intro w
  induction w with
  | zero => simp [window_code]
  | succ w ih =>
    rw [window_code, ih, window_code, pow_succ]
    have : p + 1 + w = p + (w + 1) := by omega
    rw [this]
    ring

theorem pow4_le (a : Nat) (h : a ≤ 16) : 4 ^ a ≤ 4294967296 := by
  calc 4 ^ a ≤ 4 ^ 16 := Nat.pow_le_pow_right (by norm_num) h
    _ = 4294967296 := by norm_num

theorem shift2 (word : Nat) (h : word * 4 < 4294967296) : u32 (word <<< 2) = word * 4 := by
  unfold u32
  rw [Nat.shiftLeft_eq]
  exact Nat.mod_eq_of_lt h

theorem or_low (a c : Nat) (hc : c < 4) : a * 4 ||| c = a * 4 + c := by
  have := @Nat.mul_add_lt_is_or 2 c (by simpa using hc) a
  rw [show (2 : Nat) ^ 2 = 4 from rfl, Nat.mul_comm 4 a] at this
  exact this.symm

/-- The first-word loop of the builder, started inside a window, builds the base-4
value of the window. -/
theorem first_word_code (seq : Nat → Nat) (hs : ∀ j, seq j < 4) (p : Nat) :
    ∀ (k a : Nat), a + k ≤ 16 →
      first_word seq k (p + a) (window_code seq p a) = window_code seq p (a + k) := by
  intro k
  induction k with
  | zero => intro a _; rfl
  | succ k ih =>
    intro a hak
    rw [first_word]
    have hlt := window_code_lt seq hs p a
    have h4 : 4 ^ (a + 1) ≤ 4294967296 := pow4_le (a + 1) (by omega)
    rw [pow_succ] at h4
    rw [shift2 _ (by omega), or_low _ _ (hs _)]
    have := ih (a + 1) (by omega)
    rw [window_code] at this
    rw [show p + a + 1 = p + (a + 1) by omega, this]
    congr 1
    omega

theorem mask_of_pow (w : Nat) (hw : w ≤ 15) : mask_of w = 2 ^ (2 * w) - 1 := by
  have := mask_of_eq w hw
  rw [Nat.mul_comm] at this
  omega

/-- One step of the rolling word of the builder takes the value of a window to the
value of the next window. -/
theorem next_word_code (w : Nat) (hw1 : 1 ≤ w) (hw : w ≤ 15) (seq : Nat → Nat)
    (hs : ∀ j, seq j < 4) (p : Nat) :
    next_word (mask_of w) seq (window_code seq p w) (p + w) = window_code seq (p + 1) w := by
  obtain ⟨v, rfl⟩ : ∃ v, w = v + 1 := ⟨w - 1, by omega⟩
  unfold next_word
  have hlt := window_code_lt seq hs p (v + 1)
  have h4 : 4 ^ (v + 1 + 1) ≤ 4294967296 := pow4_le _ (by omega)
  rw [pow_succ] at h4
  rw [shift2 _ (by omega), mask_of_pow _ hw, Nat.and_pow_two_sub_one_eq_mod]
  have hpow : 2 ^ (2 * (v + 1)) = 4 ^ v * 4 := by
    rw [pow_mul, pow_succ]
    norm_num
  have hrest := window_code_lt seq hs (p + 1) v
  have hmod : window_code seq p (v + 1) * 4 % 2 ^ (2 * (v + 1)) =
      window_code seq (p + 1) v * 4 := by
    rw [window_code_cons, hpow]
    have : (seq p * 4 ^ v + window_code seq (p + 1) v) * 4 =
        window_code seq (p + 1) v * 4 + 4 ^ v * 4 * seq p := by ring
    rw [this, Nat.add_mul_mod_self_left]
    exact Nat.mod_eq_of_lt (by omega)
  rw [hmod, or_low _ _ (hs _)]
  rw [window_code]
  congr 2
  omega

theorem seq_words_rolling_eq (w : Nat) (hw1 : 1 ≤ w) (hw : w ≤ 15) (seq : Nat → Nat)
    (hs : ∀ j, seq j < 4) :
    ∀ (k p : Nat), p + w + k < 4294967296 →
      seq_words_rolling w (mask_of w) seq k (p + w) (window_code seq p w) =
        (List.range' (p + 1) k).map (fun q => (window_code seq q w, q - 1)) := by
  intro k
  induction k with
  | zero => intro p _; rfl
  | succ k ih =>
    intro p hp
    rw [seq_words_rolling, next_word_code w hw1 hw seq hs p, List.range'_succ, List.map_cons]
    have hu : u32 (p + w + 4294967296 - w) = p := by
      unfold u32
      rw [show p + w + 4294967296 - w = p + 4294967296 by omega, Nat.add_mod_right]
      exact Nat.mod_eq_of_lt (by omega)
    rw [hu]
    have := ih (p + 1) (by omega)
    rw [show p + 1 + w = p + w + 1 by omega] at this
    rw [this]
    rfl

/-- The word walk of the builder over a sequence of 2-bit codes: the window that
starts at offset `p` gets the base-4 value of its codes and the position `p - 1`
(0 for the first window). -/
theorem seq_words_eq (w : Nat) (hw1 : 1 ≤ w) (hw : w ≤ 15) (seq : Nat → Nat)
    (hs : ∀ j, seq j < 4) (length : Nat) (hl : w ≤ length) (hlen : length < 4294967296) :
    seq_words w (mask_of w) seq length =
      (List.range (length - w + 1)).map (fun p => (window_code seq p w, p - 1)) := by
  unfold seq_words
  have h0 := first_word_code seq hs 0 w 0 (by omega)
  simp only [Nat.zero_add, window_code] at h0
  rw [h0]
  have := seq_words_rolling_eq w hw1 hw seq hs (length - w) 0 (by omega)
  rw [Nat.zero_add] at this
  rw [this, List.range_eq_range', List.range'_succ]
  rfl

end FormatLookup

namespace ScanSequences

theorem sc_shift2 (word : Nat) (h : word * 4 < 4294967296) : u32 (word <<< 2) = word * 4 := by
  unfold u32
  rw [Nat.shiftLeft_eq]
  exact Nat.mod_eq_of_lt h

/-- The first-word loop of the scanner, started inside a window, builds the base-4
value of the window. -/
theorem sc_first_word_code (seq : Nat → Nat) (hs : ∀ j, seq j < 4) (p : Nat) :
    ∀ (k a : Nat), a + k ≤ 16 →
      first_word seq k (p + a) (FormatLookup.window_code seq p a) =
        FormatLookup.window_code seq p (a + k) := by
  intro k
  induction k with
  | zero => intro a _; rfl
  | succ k ih =>
    intro a hak
    rw [first_word]
    have hlt := FormatLookup.window_code_lt seq hs p a
    have h4 : 4 ^ (a + 1) ≤ 4294967296 := FormatLookup.pow4_le (a + 1) (by omega)
    rw [pow_succ] at h4
    have h5 := hs (p + a)
    rw [sc_shift2 _ (by omega)]
    have hu : u32 (FormatLookup.window_code seq p a * 4 + seq (p + a)) =
        FormatLookup.window_code seq p a * 4 + seq (p + a) := by
      unfold u32
      exact Nat.mod_eq_of_lt (by omega)
    rw [hu]
    have := ih (a + 1) (by omega)
    rw [FormatLookup.window_code] at this
    rw [show p + a + 1 = p + (a + 1) by omega, this]
    congr 1
    omega

/-- One step of the rolling word of the scanner takes the value of a window to the
value of the next window. -/
theorem sc_next_word_code (w : Nat) (hw1 : 1 ≤ w) (hw : w ≤ 15) (seq : Nat → Nat)
    (hs : ∀ j, seq j < 4) (p : Nat) :
    u32 ((u32 (FormatLookup.window_code seq p w <<< 2) &&& (4 ^ w - 1)) + seq (p + w)) =
      FormatLookup.window_code seq (p + 1) w := by
  obtain ⟨v, rfl⟩ : ∃ v, w = v + 1 := ⟨w - 1, by omega⟩
  have hlt := FormatLookup.window_code_lt seq hs p (v + 1)
  have h4 : 4 ^ (v + 1 + 1) ≤ 4294967296 := FormatLookup.pow4_le _ (by omega)
  rw [pow_succ] at h4
  have hpow : (4 : Nat) ^ (v + 1) = 2 ^ (2 * (v + 1)) := by
    rw [pow_mul]
    norm_num
  rw [sc_shift2 _ (by omega), hpow, Nat.and_pow_two_sub_one_eq_mod, ← hpow]
  have hrest := FormatLookup.window_code_lt seq hs (p + 1) v
  have hmod : FormatLookup.window_code seq p (v + 1) * 4 % 4 ^ (v + 1) =
      FormatLookup.window_code seq (p + 1) v * 4 := by
    rw [FormatLookup.window_code_cons, pow_succ]
    have : (seq p * 4 ^ v + FormatLookup.window_code seq (p + 1) v) * 4 =
        FormatLookup.window_code seq (p + 1) v * 4 + 4 ^ v * 4 * seq p := by ring
    rw [this, Nat.add_mul_mod_self_left]
    exact Nat.mod_eq_of_lt (by omega)
  rw [hmod]
  have h5 := hs (p + (v + 1))
  have hv : 4 ^ v * 4 ≤ 4294967296 := by
    have := FormatLookup.pow4_le (v + 1) (by omega)
    rw [pow_succ] at this
    exact this
  have hu : u32 (FormatLookup.window_code seq (p + 1) v * 4 + seq (p + (v + 1))) =
      FormatLookup.window_code seq (p + 1) v * 4 + seq (p + (v + 1)) := by
    unfold u32
    exact Nat.mod_eq_of_lt (by omega)
  rw [hu, FormatLookup.window_code]
  congr 2
  omega

theorem rolling_words_eq (w : Nat) (hw1 : 1 ≤ w) (hw : w ≤ 15) (seq : Nat → Nat)
    (hs : ∀ j, seq j < 4) :
    ∀ (k p : Nat),
      rolling_words (4 ^ w - 1) w seq k (p + w) (FormatLookup.window_code seq p w) =
        (List.range' (p + 1) k).map (fun q => (FormatLookup.window_code seq q w, q - 1)) := by
  intro k
  induction k with
  | zero => intro p; rfl
  | succ k ih =>
    intro p
    rw [rolling_words]
    rw [sc_next_word_code w hw1 hw seq hs p, List.range'_succ, List.map_cons]
    have := ih (p + 1)
    rw [show p + 1 + w = p + w + 1 by omega] at this
    rw [this, show p + w - w = p by omega]
    rfl

/-- The word walk of the scanner over a query of 2-bit codes: the window that
starts at offset `p` gets the base-4 value of its codes and the position `p - 1`
(0 for the first window). -/
theorem query_words_eq (t : ltable) (hw1 : 1 ≤ t.wordsize) (hw : t.wordsize ≤ 15)
    (hm : t.mask = 4 ^ t.wordsize - 1) (seq : Nat → Nat) (hs : ∀ j, seq j < 4)
    (length : Nat) :
    query_words t seq length =
      (List.range (length - t.wordsize + 1)).map
        (fun p => (FormatLookup.window_code seq p t.wordsize, p - 1)) := by
  unfold query_words
  have h0 := sc_first_word_code seq hs 0 t.wordsize 0 (by omega)
  simp only [Nat.zero_add, FormatLookup.window_code] at h0
  rw [h0, hm]
  have := rolling_words_eq t.wordsize hw1 hw seq hs (length - t.wordsize) 0
  rw [Nat.zero_add] at this
  rw [this, List.range_eq_range', List.range'_succ]
  rfl

end ScanSequences

namespace ScanSequences

theorem buffer_of_lt (data : List Nat) (h : ∀ x ∈ data, x < 4) : ∀ j, buffer_of data j < 4 := by
  intro j
  unfold buffer_of
  by_cases hj : j < data.length
  · rw [List.getD_eq_getElem _ _ hj]
    exact h _ (List.getElem_mem _)
  · rw [List.getD_eq_default _ _ (by omega)]
    norm_num

theorem open_lookupfile_mask_mask_of (w : Nat) (hw : w ≤ 15) :
    open_lookupfile_mask w = FormatLookup.mask_of w := by
  unfold open_lookupfile_mask FormatLookup.mask_of
  rw [Nat.mod_eq_of_lt (by omega)]
  rfl

theorem open_lookupfile_mask_eq (w : Nat) (hw : w ≤ 15) : open_lookupfile_mask w = 4 ^ w - 1 := by
  rw [open_lookupfile_mask_mask_of w hw, FormatLookup.mask_of_pow w hw, pow_mul]
  norm_num

end ScanSequences

/-- C40: for a word size from 2 to 15 and a sequence of 2-bit codes of length
`L >= w` (below 2^32), the words the builder computes with `|` for the windows at
offsets `0 .. L-w`, the words the scanner computes with `+` (with the mask
`open_lookupfile` derives from the word size), and the base-4 values of the
windows are the same list, and every value is at most the builder's mask,
which is `4^w - 1`. -/
theorem FormatLookup.builder_scanner_words_agree (t : ScanSequences.ltable)
    (hw2 : 2 ≤ t.wordsize) (hw : t.wordsize ≤ 15)
    (hm : t.mask = ScanSequences.open_lookupfile_mask t.wordsize)
    (seq : Nat → Nat) (hs : ∀ j, seq j < 4) (length : Nat) (hl : t.wordsize ≤ length)
    (hlen : length < 4294967296) :
    (FormatLookup.seq_words t.wordsize (FormatLookup.mask_of t.wordsize) seq length).map
        Prod.fst =
      (ScanSequences.query_words t seq length).map Prod.fst ∧
    (ScanSequences.query_words t seq length).map Prod.fst =
      (List.range (length - t.wordsize + 1)).map
        (fun p => FormatLookup.window_code seq p t.wordsize) ∧
    FormatLookup.mask_of t.wordsize = 4 ^ t.wordsize - 1 ∧
    ∀ p, FormatLookup.window_code seq p t.wordsize ≤ FormatLookup.mask_of t.wordsize := by
  have hm' : t.mask = 4 ^ t.wordsize - 1 := by
    rw [hm, ScanSequences.open_lookupfile_mask_eq _ hw]
  have h1 := ScanSequences.query_words_eq t (by omega) hw hm' seq hs length
  have h2 := FormatLookup.seq_words_eq t.wordsize (by omega) hw seq hs length hl hlen
  have h3 : FormatLookup.mask_of t.wordsize = 4 ^ t.wordsize - 1 := by
    have : ScanSequences.open_lookupfile_mask t.wordsize = FormatLookup.mask_of t.wordsize :=
      ScanSequences.open_lookupfile_mask_mask_of _ hw
    rw [← this, ScanSequences.open_lookupfile_mask_eq _ hw]
  refine ⟨by rw [h1, h2], ?_, h3, ?_⟩
  · rw [h1, List.map_map]
    rfl
  · intro p
    have := FormatLookup.window_code_lt seq hs p t.wordsize
    rw [h3]
    omega

set_option maxRecDepth 100000 in
/-- Witness for C40: the read CCCCGGGGTTTT with word size 4. -/
theorem FormatLookup.builder_scanner_words_agree_witness :
    ((FormatLookup.seq_words 4 (FormatLookup.mask_of 4)
      (ScanSequences.buffer_of [1, 1, 1, 1, 2, 2, 2, 2, 3, 3, 3, 3]) 12).map Prod.fst =
      [85, 86, 90, 106, 170, 171, 175, 191, 255]) ∧
    ((FormatLookup.seq_words 4 (FormatLookup.mask_of 4)
      (ScanSequences.buffer_of [1, 1, 1, 1, 2, 2, 2, 2, 3, 3, 3, 3]) 12).map Prod.fst =
      (ScanSequences.query_words
        { wordsize := 4, mask := ScanSequences.open_lookupfile_mask 4, ltable_start := 0,
          ltable_end := 2, lookup := ScanSequences.s1_lookup }
        (ScanSequences.buffer_of [1, 1, 1, 1, 2, 2, 2, 2, 3, 3, 3, 3]) 12).map Prod.fst) :=
  ⟨by decide,
    (FormatLookup.builder_scanner_words_agree
      { wordsize := 4, mask := ScanSequences.open_lookupfile_mask 4, ltable_start := 0,
        ltable_end := 2, lookup := ScanSequences.s1_lookup }
      (by decide) (by decide) rfl
      (ScanSequences.buffer_of [1, 1, 1, 1, 2, 2, 2, 2, 3, 3, 3, 3])
      (ScanSequences.buffer_of_lt _ (by decide)) 12 (by decide) (by decide)).1⟩

namespace SpanningTree

/-- The loop of `spanning_tree` returns after extracting every member, and the
invariant holds for the order of extraction. -/
theorem prim_loop_order {adj : Nat → List fasta_t} {comp : List Nat} {root : Nat}
    (hnd : comp.Nodup) (hroot : root ∈ comp) (hconn : Connected adj comp)
    (hmin : ∀ u ∈ comp, ∀ e ∈ adj u, e.s2 ∈ comp → INT_MIN < e.score) :
    ∀ (k : Nat) (ord : List Nat) (st : prim_state), PrimInv adj comp root ord st →
      ord.length + k = comp.length →
      ∃ st', prim_loop adj comp (fun v => decide (v ∈ comp)) k st = some st' ∧
        PrimInv adj comp root
          (ord ++ prim_order adj comp (fun v => decide (v ∈ comp)) k st) st' ∧
        (ord ++ prim_order adj comp (fun v => decide (v ∈ comp)) k st).length =
          comp.length := by
  intro k
  induction k with
  | zero =>
    intro ord st hinv hlen
    refine ⟨st, rfl, ?_, ?_⟩
    · simpa [prim_order] using hinv
    · simpa [prim_order] using hlen
  | succ k ih =>
    intro ord st hinv hlen
    obtain ⟨z, hz, _, _, hinv'⟩ := primInv_step hnd hroot hconn hmin hinv (by omega)
    rw [prim_loop, prim_order, hz, if_neg (by omega), if_neg (by omega), Int.toNat_ofNat]
    obtain ⟨st', h1, h2, h3⟩ := ih (ord ++ [z]) _ hinv'
      (by rw [List.length_append, List.length_singleton]; omega)
    rw [List.append_assoc, List.singleton_append] at h2 h3
    exact ⟨st', h1, h2, h3⟩

theorem head_of_inv {adj : Nat → List fasta_t} {comp : List Nat} {root : Nat}
    {ord : List Nat} {st : prim_state} (hinv : PrimInv adj comp root ord st)
    (hne : ord ≠ []) : ord.head? = some root := by
  match ord, hne, hinv with
  | x :: rest, _, hinv =>
    rcases hinv.o_root x (List.mem_cons_self _ _) with h | ⟨pre, post, h1, h2⟩
    · rw [h]; rfl
    · exfalso
      match pre, h1, h2 with
      | y :: pre', h1, _ =>
        simp only [List.cons_append, List.cons.injEq] at h1
        have hx : x ∈ rest := by
          rw [h1.2]
          exact List.mem_append_right _ (List.mem_cons_self _ _)
        exact (List.nodup_cons.mp hinv.o_nodup).1 hx

end SpanningTree

/-- C38: for a component without repeated members, connected through adjacency
entries between members, the scores being alignment scores, which are above
`INT_MIN` (an entry is only recorded for a score of at least 75,
`scan_sequences.c` line 430), the loop of `spanning_tree` started with
`key[root] = 0` for a member `root` returns; it extracts every member once, the
root first; every member `v` other than the root ends with a predecessor `p[v]` that is a member extracted before `v` and has the
adjacency entry `(v, key[v])`; following `p` from any member leads to the root;
and the members other than the root, one chosen edge each, are `size - 1`. -/
theorem SpanningTree.prim_loop_spanning_tree (adj : Nat → List SpanningTree.fasta_t)
    (comp : List Nat) (root : Nat) (hnd : comp.Nodup) (hroot : root ∈ comp)
    (hconn : SpanningTree.Connected adj comp)
    (hmin : ∀ u ∈ comp, ∀ e ∈ adj u, e.s2 ∈ comp → SpanningTree.INT_MIN < e.score) :
    ∃ st, SpanningTree.prim_loop adj comp (fun v => decide (v ∈ comp)) comp.length
        { SpanningTree.prim_init with
          key := SpanningTree.store SpanningTree.prim_init.key root 0 } = some st ∧
      (SpanningTree.prim_order adj comp (fun v => decide (v ∈ comp)) comp.length
        { SpanningTree.prim_init with
          key := SpanningTree.store SpanningTree.prim_init.key root 0 }).Perm comp ∧
      (SpanningTree.prim_order adj comp (fun v => decide (v ∈ comp)) comp.length
        { SpanningTree.prim_init with
          key := SpanningTree.store SpanningTree.prim_init.key root 0 }).head? = some root ∧
      (∀ v ∈ comp, v ≠ root → ∃ a ∈ comp,
        SpanningTree.Before
          (SpanningTree.prim_order adj comp (fun v => decide (v ∈ comp)) comp.length
            { SpanningTree.prim_init with
              key := SpanningTree.store SpanningTree.prim_init.key root 0 }) a v ∧
        st.p v = (a : Int) ∧ { s2 := v, score := st.key v } ∈ adj a) ∧
      (∀ v ∈ comp, ∃ k, (fun x => (st.p x).toNat)^[k] v = root) ∧
      (comp.filter (fun v => decide (v ≠ root))).length = comp.length - 1 := by
  obtain ⟨st, h1, hinv, hlen⟩ := SpanningTree.prim_loop_order hnd hroot hconn hmin
    comp.length [] _ (SpanningTree.primInv_init adj comp root) (by simp)
  rw [List.nil_append] at hinv hlen
  have hperm := (List.subperm_of_subset hinv.o_nodup hinv.o_sub).perm_of_length_le
    (by omega)
  have hall : ∀ v ∈ comp, v ∈ SpanningTree.prim_order adj comp (fun v => decide (v ∈ comp))
      comp.length { SpanningTree.prim_init with
        key := SpanningTree.store SpanningTree.prim_init.key root 0 } :=
    fun v hv => hperm.mem_iff.mpr hv
  have hne : SpanningTree.prim_order adj comp (fun v => decide (v ∈ comp))
      comp.length { SpanningTree.prim_init with
        key := SpanningTree.store SpanningTree.prim_init.key root 0 } ≠ [] :=
    List.ne_nil_of_mem (hall root hroot)
  refine ⟨st, h1, hperm, SpanningTree.head_of_inv hinv hne, ?_,
    (SpanningTree.prim_tree hinv hroot hall).2.2, ?_⟩
  · intro v hv hvr
    obtain ⟨a, a1, a2, a3⟩ := hinv.used_par v (hall v hv) hvr
    exact ⟨a, hinv.o_sub a (SpanningTree.before_mem a1).1, a1, a2, a3⟩
  · have h2 : comp.filter (fun v => decide (v ≠ root)) = comp.erase root := by
      rw [hnd.erase_eq_filter]
      apply List.filter_congr
      intro x _
      by_cases hx : x = root <;> simp [hx]
    rw [h2, List.length_erase_of_mem hroot]

/-- Witness for C38: the triangle with scores 5, 3, 9, from the root 1. -/
theorem SpanningTree.prim_loop_spanning_tree_witness :
    (SpanningTree.prim_order
      (SpanningTree.adj_of [[(1, 5), (2, 3)], [(0, 5), (2, 9)], [(0, 3), (1, 9)]]) [0, 1, 2]
      (fun v => decide (v ∈ [0, 1, 2])) 3
      { SpanningTree.prim_init with
        key := SpanningTree.store SpanningTree.prim_init.key 1 0 } = [1, 2, 0]) ∧
    ∃ st, SpanningTree.prim_loop
        (SpanningTree.adj_of [[(1, 5), (2, 3)], [(0, 5), (2, 9)], [(0, 3), (1, 9)]]) [0, 1, 2]
        (fun v => decide (v ∈ [0, 1, 2])) ([0, 1, 2] : List Nat).length
        { SpanningTree.prim_init with
          key := SpanningTree.store SpanningTree.prim_init.key 1 0 } = some st ∧
      (∀ v ∈ ([0, 1, 2] : List Nat), ∃ k, (fun x => (st.p x).toNat)^[k] v = 1) :=
  ⟨by decide,
    (SpanningTree.prim_loop_spanning_tree _ [0, 1, 2] 1 (by decide) (by decide)
      SpanningTree.triangle_connected SpanningTree.triangle_scores).imp
      (fun _ h => ⟨h.1, h.2.2.2.2.1⟩)⟩

namespace SpanningTree

theorem unc_mono (n_seq : Nat) (c c' : Nat → Bool) (h : ∀ v, c v = true → c' v = true) :
    unc n_seq c' ≤ unc n_seq c := by
  unfold unc
  apply Finset.card_le_card
  intro v hv
  simp only [Finset.mem_filter, Finset.mem_range] at hv ⊢
  refine ⟨hv.1, ?_⟩
  cases hc : c v with
  | false => rfl
  | true => rw [h v hc] at hv; exact absurd hv.2 (by decide)

theorem unc_lt (n_seq : Nat) (c c' : Nat → Bool) (h : ∀ v, c v = true → c' v = true)
    (n : Nat) (hn : n < n_seq) (h0 : c n = false) (h1 : c' n = true) :
    unc n_seq c' < unc n_seq c := by
  unfold unc
  apply Finset.card_lt_card
  rw [Finset.ssubset_iff_of_subset]
  · refine ⟨n, ?_, ?_⟩
    · simp only [Finset.mem_filter, Finset.mem_range]
      exact ⟨hn, h0⟩
    · simp only [Finset.mem_filter, Finset.mem_range]
      rw [h1]
      intro hh
      exact absurd hh.2 (by decide)
  · intro v hv
    simp only [Finset.mem_filter, Finset.mem_range] at hv ⊢
    refine ⟨hv.1, ?_⟩
    cases hc : c v with
    | false => rfl
    | true => rw [h v hc] at hv; exact absurd hv.2 (by decide)

theorem visitable_of (n_seq n : Nat) (hn : n < n_seq)
    (h : n ≠ n_seq / 2 ∨ n = 0) : Visitable n_seq n := by
  unfold Visitable mate
  refine ⟨hn, ?_, ?_⟩
  · split
    · omega
    · rcases h with h | h
      · omega
      · omega
  · intro h2
    rcases h with h | h
    · exact h
    · omega

theorem cc_dfs_edges_ok (n_seq : Nat) (adj : Nat → List fasta_t) (fuel : Nat)
    (hv : VisitOk n_seq adj fuel) (n : Nat) :
    ∀ (es : List fasta_t) (st : cc_state), (∀ e ∈ es, e.s2 < n_seq) →
      st.color (n_seq / 2) = true → unc n_seq st.color ≤ fuel →
      ∃ st' new, cc_dfs_edges n_seq (cc_dfs_visit n_seq adj fuel) n es st = some st' ∧
        (∀ v, st.color v = true → st'.color v = true) ∧
        st'.component = st.component ++ new ∧ ∀ x ∈ new, Visitable n_seq x := by
  intro es
  induction es with
  | nil =>
    intro st _ _ _
    exact ⟨st, [], rfl, fun _ h => h, by simp, by intro x hx; cases hx⟩
  | cons e es ih =>
    intro st hes hh hf
    have he := hes e (List.mem_cons_self _ _)
    have hes' : ∀ e' ∈ es, e'.s2 < n_seq := fun e' h => hes e' (List.mem_cons_of_mem _ h)
    rw [cc_dfs_edges, if_neg (by omega)]
    by_cases hc : st.color e.s2 = false
    · rw [if_pos hc]
      obtain ⟨st1, new1, h1, h2, _, h4, h5, h6⟩ := hv st e.s2 he hc (Or.inl hh) hf
      rw [h1]
      simp only []
      obtain ⟨st', new2, g1, g2, g3, g4⟩ := ih
        { st1 with tree_edges := store st1.tree_edges n (st1.tree_edges n ++ [e.s2]) }
        hes' h4 (le_trans (unc_mono n_seq _ _ h2) hf)
      refine ⟨st', new1 ++ new2, g1, fun v h => g2 v (h2 v h), ?_, ?_⟩
      · rw [g3]
        simp only []
        rw [h5, List.append_assoc]
      · intro x hx
        rcases List.mem_append.mp hx with hx | hx
        · exact h6 x hx
        · exact g4 x hx
    · rw [if_neg hc]
      exact ih { st with back_edges := store st.back_edges n (st.back_edges n ++ [e.s2]) }
        hes' hh hf

theorem cc_dfs_visit_ok (n_seq : Nat) (adj : Nat → List fasta_t)
    (hr : ∀ u, u < n_seq → ∀ e ∈ adj u, e.s2 < n_seq) :
    ∀ fuel, VisitOk n_seq adj fuel := by
  intro fuel
  induction fuel with
  | zero =>
    intro st n hn hc _ hf
    exfalso
    have : 0 < unc n_seq st.color := by
      unfold unc
      apply Finset.card_pos.mpr
      exact ⟨n, by simp only [Finset.mem_filter, Finset.mem_range]; exact ⟨hn, hc⟩⟩
    omega
  | succ fuel ih =>
    intro st n hn hc hh hf
    have hvis : Visitable n_seq n := by
      apply visitable_of n_seq n hn
      rcases hh with hh | hh
      · left
        intro e
        rw [← e, hc] at hh
        cases hh
      · exact Or.inr hh
    have hmate : mate n_seq n = n_seq / 2 ∨ st.color (n_seq / 2) = true := by
      rcases hh with hh | hh
      · exact Or.inr hh
      · left
        rw [hh]
        unfold mate
        rw [if_neg (by omega)]
        omega
    rw [cc_dfs_visit, if_neg (by have := hvis.2.1; omega)]
    have hm : ∀ v, st.color v = true →
        store (store st.color n true) (mate n_seq n) true v = true := by
      intro v h
      unfold store
      split
      · rfl
      · split
        · rfl
        · exact h
    have hn' : store (store st.color n true) (mate n_seq n) true n = true := by
      unfold store
      split
      · rfl
      · simp
    have hh' : store (store st.color n true) (mate n_seq n) true (n_seq / 2) = true := by
      rcases hmate with e | e
      · rw [← e]
        unfold store
        simp
      · exact hm _ e
    have hlt := unc_lt n_seq st.color _ hm n hn hc hn'
    obtain ⟨st', new, g1, g2, g3, g4⟩ := cc_dfs_edges_ok n_seq adj fuel ih n (adj n)
      { st with color := store (store st.color n true) (mate n_seq n) true,
                component := st.component ++ [n] }
      (hr n hn) hh' (by simp only []; omega)
    refine ⟨st', n :: new, g1, fun v h => g2 v (hm v h), g2 n hn', g2 _ hh', ?_, ?_⟩
    · rw [g3]
      simp
    · intro x hx
      rcases List.mem_cons.mp hx with hx | hx
      · rw [hx]; exact hvis
      · exact g4 x hx

theorem cc_loop_ok (n_seq : Nat) (adj : Nat → List fasta_t)
    (hr : ∀ u, u < n_seq → ∀ e ∈ adj u, e.s2 < n_seq) :
    ∀ (is : List Nat) (st : cc_state) (comps : List (List Nat)),
      (∀ i ∈ is, i < n_seq) → st.color (n_seq / 2) = true →
      (∀ c ∈ comps, ∀ x ∈ c, Visitable n_seq x) →
      ∃ st' comps', cc_loop n_seq adj n_seq is st comps = some (st', comps') ∧
        ∀ c ∈ comps', ∀ x ∈ c, Visitable n_seq x := by
  intro is
  induction is with
  | nil => intro st comps _ _ hP; exact ⟨st, comps, rfl, hP⟩
  | cons i is ih =>
    intro st comps his hh hP
    have his' : ∀ j ∈ is, j < n_seq := fun j hj => his j (List.mem_cons_of_mem _ hj)
    rw [cc_loop]
    by_cases hc : st.color i = true
    · rw [if_pos hc]
      exact ih st comps his' hh hP
    · rw [if_neg hc]
      have hc' : st.color i = false := by simpa using hc
      obtain ⟨st1, new, h1, h2, _, h4, h5, h6⟩ := cc_dfs_visit_ok n_seq adj hr n_seq
        { st with component := [] } i (his i (List.mem_cons_self _ _)) hc' (Or.inl hh)
        (by
          unfold unc
          calc _ ≤ (Finset.range n_seq).card := Finset.card_filter_le _ _
            _ = n_seq := Finset.card_range _)
      rw [h1]
      simp only []
      apply ih st1 _ his' h4
      intro c hcm x hx
      rcases List.mem_append.mp hcm with hcm | hcm
      · exact hP c hcm x hx
      · rw [List.mem_singleton] at hcm
        rw [hcm, h5] at hx
        simp only [List.nil_append] at hx
        exact h6 x hx

end SpanningTree

/-- C36: for every `n_seq` and every adjacency input with targets below `n_seq`, the
component-discovery loop of `spanning_tree.c` returns without an access outside
`color[0 .. n_seq)`; every node `cc_dfs_visit` is invoked on (the members of the
components) is below `n_seq`, so is the mate index coloured with it, and for
`n_seq >= 2` the node is never `n_seq/2`. -/
theorem SpanningTree.cc_loop_mates_in_range (n_seq : Nat)
    (adj : Nat → List SpanningTree.fasta_t)
    (hr : ∀ u, u < n_seq → ∀ e ∈ adj u, e.s2 < n_seq) :
    ∃ st comps, SpanningTree.cc_loop n_seq adj n_seq (List.range n_seq)
        SpanningTree.cc_init [] = some (st, comps) ∧
      ∀ c ∈ comps, ∀ x ∈ c,
        x < n_seq ∧ SpanningTree.mate n_seq x < n_seq ∧ (2 ≤ n_seq → x ≠ n_seq / 2) := by
  cases n_seq with
  | zero => exact ⟨SpanningTree.cc_init, [], rfl, by intro c hc; cases hc⟩
  | succ m =>
    rw [List.range_succ_eq_map, SpanningTree.cc_loop]
    have hc0 : SpanningTree.cc_init.color 0 = false := rfl
    rw [if_neg (by rw [hc0]; decide)]
    obtain ⟨st1, new, h1, h2, _, h4, h5, h6⟩ :=
      SpanningTree.cc_dfs_visit_ok (m + 1) adj hr (m + 1)
        { SpanningTree.cc_init with component := [] } 0 (by omega) rfl (Or.inr rfl)
        (by
          unfold SpanningTree.unc
          calc _ ≤ (Finset.range (m + 1)).card := Finset.card_filter_le _ _
            _ = m + 1 := Finset.card_range _)
    rw [h1]
    simp only []
    obtain ⟨st', comps', g1, g2⟩ := SpanningTree.cc_loop_ok (m + 1) adj hr
      ((List.range m).map Nat.succ) st1 ([] ++ [st1.component])
      (by
        intro i hi
        obtain ⟨j, hj, rfl⟩ := List.mem_map.mp hi
        have := List.mem_range.mp hj
        omega)
      h4
      (by
        intro c hcm x hx
        simp only [List.nil_append, List.mem_singleton] at hcm
        rw [hcm, h5] at hx
        simp only [List.nil_append] at hx
        exact h6 x hx)
    exact ⟨st', comps', g1, g2⟩

/-- Witness for C36: four sequences, the pairs 0 - 1 and 2 - 3 adjacent; the visits
of 0 and 1 colour their mates 2 and 3 as well. -/
theorem SpanningTree.cc_loop_mates_in_range_witness :
    (∀ u, u < 4 → ∀ e ∈ SpanningTree.adj_of [[(1, 80)], [(0, 80)], [(3, 80)], [(2, 80)]] u,
      e.s2 < 4) ∧
    (SpanningTree.cc_loop 4 (SpanningTree.adj_of [[(1, 80)], [(0, 80)], [(3, 80)], [(2, 80)]])
      4 (List.range 4) SpanningTree.cc_init []).map (fun r => r.2) = some [[0, 1]] ∧
    ∃ st comps, SpanningTree.cc_loop 4
        (SpanningTree.adj_of [[(1, 80)], [(0, 80)], [(3, 80)], [(2, 80)]]) 4 (List.range 4)
        SpanningTree.cc_init [] = some (st, comps) ∧
      ∀ c ∈ comps, ∀ x ∈ c,
        x < 4 ∧ SpanningTree.mate 4 x < 4 ∧ (2 ≤ 4 → x ≠ 4 / 2) :=
  have hr : ∀ u, u < 4 → ∀ e ∈ SpanningTree.adj_of
      [[(1, 80)], [(0, 80)], [(3, 80)], [(2, 80)]] u, e.s2 < 4 := by
    intro u hu
    interval_cases u <;> simp [SpanningTree.adj_of]
  ⟨hr, by decide, SpanningTree.cc_loop_mates_in_range 4 _ hr⟩
namespace DfsCluster

/-- What a run of the search does to the tree edges: the number of tree edges
`x -> v` stays as it is for every `v` that the run does not colour (and for the
node of a visit itself); every other node `v` coloured by the run gets exactly
one new tree edge, from the active node or from a node coloured by the run. -/
theorem run_tree {adj : Nat → List fasta_t} {chimeric : Nat → Bool}
    {st : dfs_state} {n : Nat} {m : Option (List fasta_t)} {st' : dfs_state}
    (h : Run adj chimeric st n m st') :
    (∀ v, (st.color v = true ∨ st'.color v = false ∨ (m = none ∧ v = n)) →
      ∀ x, (st'.tree_edges x).count v = (st.tree_edges x).count v) ∧
    (∀ v, st.color v = false → st'.color v = true → ¬ (m = none ∧ v = n) →
      ∃ p, (p = n ∨ (st.color p = false ∧ st'.color p = true)) ∧
        (st'.tree_edges p).count v = (st.tree_edges p).count v + 1 ∧
        ∀ x, x ≠ p → (st'.tree_edges x).count v = (st.tree_edges x).count v) := by
  induction h with
  | visit st n st' h1 ih =>
    obtain ⟨A, B⟩ := ih
    refine ⟨?_, ?_⟩
    · intro v hv x
      apply A v
      rcases hv with hv | hv | ⟨_, hv⟩
      · left
        by_cases hvn : v = n
        · rw [hvn]; exact store_same _ _ _
        · simp only [store_other _ _ _ _ hvn]; exact hv
      · exact Or.inr (Or.inl hv)
      · left
        rw [hv]; exact store_same _ _ _
    · intro v hv hv' hvn
      have hvn' : v ≠ n := fun e => hvn ⟨rfl, e⟩
      obtain ⟨p, hp, h2, h3⟩ := B v (by simp only [store_other _ _ _ _ hvn']; exact hv) hv'
        (by rintro ⟨e, _⟩; cases e)
      refine ⟨p, ?_, h2, h3⟩
      rcases hp with hp | hp
      · exact Or.inl hp
      · by_cases hpn : p = n
        · exact Or.inl hpn
        · right
          have := hp.1
          simp only [store_other _ _ _ _ hpn] at this
          exact ⟨this, hp.2⟩
  | done st n =>
    refine ⟨fun _ _ _ => rfl, ?_⟩
    intro v hv hv'
    rw [hv] at hv'; cases hv'
  | skip st n e es st' _ _ ih =>
    obtain ⟨A, B⟩ := ih
    refine ⟨?_, ?_⟩
    · intro v hv x
      apply A v
      rcases hv with hv | hv | ⟨e', _⟩
      · exact Or.inl hv
      · exact Or.inr (Or.inl hv)
      · cases e'
    · intro v hv hv' _
      exact B v hv hv' (by rintro ⟨e', _⟩; cases e')
  | tree st n e es st1 st' _ hcol h1 h2 ih1 ih2 =>
    obtain ⟨A1, B1⟩ := ih1
    obtain ⟨A2, B2⟩ := ih2
    have hc1 : st1.color e.s2 = true := run_color_self h1
    have hc' : st'.color e.s2 = true := run_mono h2 _ hc1
    have happ : ∀ v x, v ≠ e.s2 →
        ((store st1.tree_edges n (st1.tree_edges n ++ [e.s2])) x).count v =
          (st1.tree_edges x).count v := by
      intro v x hv
      by_cases hx : x = n
      · rw [hx, store_same, List.count_append, List.count_singleton]
        simp [Ne.symm hv]
      · rw [store_other _ _ _ _ hx]
    refine ⟨?_, ?_⟩
    · intro v hv x
      have hve : v ≠ e.s2 := by
        intro e'
        rcases hv with hv | hv | ⟨e'', _⟩
        · rw [e', hcol] at hv; cases hv
        · rw [e', hc'] at hv; cases hv
        · cases e''
      have hv1 : st.color v = true ∨ st1.color v = false := by
        rcases hv with hv | hv | ⟨e'', _⟩
        · exact Or.inl hv
        · right
          cases hh : st1.color v with
          | false => rfl
          | true => rw [run_mono h2 v hh] at hv; cases hv
        · cases e''
      have a1 := A1 v (by
        rcases hv1 with hv1 | hv1
        · exact Or.inl hv1
        · exact Or.inr (Or.inl hv1)) x
      have a2 := A2 v (by
        rcases hv with hv | hv | ⟨e'', _⟩
        · exact Or.inl (run_mono h1 v hv)
        · exact Or.inr (Or.inl hv)
        · cases e'') x
      simp only [] at a2
      rw [a2, happ v x hve, a1]
    · intro v hv hv' _
      by_cases hve : v = e.s2
      · refine ⟨n, Or.inl rfl, ?_, ?_⟩
        · have a1 := A1 v (Or.inr (Or.inr ⟨rfl, hve⟩)) n
          have a2 := A2 v (Or.inl (by rw [hve]; exact hc1)) n
          simp only [store_same] at a2
          rw [a2, List.count_append, a1, hve, List.count_singleton]
          simp
        · intro x hx
          have a1 := A1 v (Or.inr (Or.inr ⟨rfl, hve⟩)) x
          have a2 := A2 v (Or.inl (by rw [hve]; exact hc1)) x
          simp only [store_other _ _ _ _ hx] at a2
          rw [a2, a1]
      · cases hh : st1.color v with
        | true =>
          obtain ⟨p, hp, b2, b3⟩ := B1 v hv hh (by rintro ⟨_, e'⟩; exact hve e')
          have hpnew : st.color p = false ∧ st'.color p = true := by
            rcases hp with hp | hp
            · rw [hp]; exact ⟨hcol, hc'⟩
            · exact ⟨hp.1, run_mono h2 _ hp.2⟩
          refine ⟨p, Or.inr hpnew, ?_, ?_⟩
          · have a2 := A2 v (Or.inl hh) p
            simp only [] at a2
            rw [a2, happ v p hve, b2]
          · intro x hx
            have a2 := A2 v (Or.inl hh) x
            simp only [] at a2
            rw [a2, happ v x hve, b3 x hx]
        | false =>
          have a1 := fun x => A1 v (Or.inr (Or.inl hh)) x
          obtain ⟨p, hp, b2, b3⟩ := B2 v hh hv' (by rintro ⟨e', _⟩; cases e')
          simp only [] at b2 b3
          refine ⟨p, ?_, ?_, ?_⟩
          · rcases hp with hp | hp
            · exact Or.inl hp
            · right
              refine ⟨?_, hp.2⟩
              cases hp0 : st.color p with
              | false => rfl
              | true =>
                have := hp.1
                simp only [] at this
                rw [run_mono h1 p hp0] at this; cases this
          · rw [b2, happ v p hve, a1 p]
          · intro x hx
            rw [b3 x hx, happ v x hve, a1 x]
  | back st n e es st' _ _ _ ih =>
    obtain ⟨A, B⟩ := ih
    refine ⟨?_, ?_⟩
    · intro v hv x
      apply A v
      rcases hv with hv | hv | ⟨e', _⟩
      · exact Or.inl hv
      · exact Or.inr (Or.inl hv)
      · cases e'
    · intro v hv hv' _
      exact B v hv hv' (by rintro ⟨e', _⟩; cases e')

/-- Tree-edge lists only grow. -/
theorem run_tree_mono {adj : Nat → List fasta_t} {chimeric : Nat → Bool}
    {st : dfs_state} {n : Nat} {m : Option (List fasta_t)} {st' : dfs_state}
    (h : Run adj chimeric st n m st') :
    ∀ x v, v ∈ st.tree_edges x → v ∈ st'.tree_edges x := by
  intro x v hv
  obtain ⟨A, B⟩ := run_tree h
  have hpos := List.count_pos_iff.mpr hv
  apply List.count_pos_iff.mp
  by_cases hcase : st.color v = true ∨ st'.color v = false ∨ (m = none ∧ v = n)
  · rw [A v hcase x]; exact hpos
  · push_neg at hcase
    obtain ⟨c1, c2, c3⟩ := hcase
    have c1' : st.color v = false := by simpa using c1
    have c2' : st'.color v = true := by simpa using c2
    obtain ⟨p, _, b2, b3⟩ := B v c1' c2' (by rintro ⟨a, b⟩; exact c3 a b)
    by_cases hx : x = p
    · rw [hx, b2]; omega
    · rw [b3 x hx]; exact hpos

/-- Every node coloured by a run is reached from the active node along the tree
edges left by the run. -/
theorem run_tree_reach {adj : Nat → List fasta_t} {chimeric : Nat → Bool}
    {st : dfs_state} {n : Nat} {m : Option (List fasta_t)} {st' : dfs_state}
    (h : Run adj chimeric st n m st') :
    ∀ v, st.color v = false → st'.color v = true → TreeAnc st'.tree_edges n v := by
  induction h with
  | visit st n st' h1 ih =>
    intro v hv hv'
    by_cases hvn : v = n
    · rw [hvn]; exact Relation.ReflTransGen.refl
    · exact ih v (by simp only [store_other _ _ _ _ hvn]; exact hv) hv'
  | done st n =>
    intro v hv hv'
    rw [hv] at hv'; cases hv'
  | skip st n e es st' _ _ ih => exact ih
  | tree st n e es st1 st' _ hcol h1 h2 ih1 ih2 =>
    intro v hv hv'
    cases hh : st1.color v with
    | true =>
      have a := ih1 v hv hh
      have hmono : ∀ x w, w ∈ st1.tree_edges x → w ∈ st'.tree_edges x := by
        intro x w hw
        apply run_tree_mono h2
        simp only []
        by_cases hx : x = n
        · rw [hx, store_same]
          rw [hx] at hw
          exact List.mem_append_left _ hw
        · rw [store_other _ _ _ _ hx]; exact hw
      have hedge : e.s2 ∈ st'.tree_edges n := by
        apply run_tree_mono h2
        simp only [store_same]
        exact List.mem_append_right _ (List.mem_singleton.mpr rfl)
      exact Relation.ReflTransGen.head hedge
        (Relation.ReflTransGen.mono (fun p c hpc => hmono p c hpc) a)
    | false => exact ih2 v hh hv'
  | back st n e es st' _ _ _ ih => exact ih

theorem treeInv_step {adj : Nat → List fasta_t} {chimeric : Nat → Bool}
    (st : dfs_state) (comps : List (List Nat)) (i : Nat) (st1 : dfs_state)
    (hP : TreeInv st comps) (hc : st.color i = false)
    (hrun : Run adj chimeric { st with component := [] } i none st1) :
    TreeInv st1 (comps ++ [st1.component]) := by
  obtain ⟨p1, p2, p3⟩ := hP
  obtain ⟨A, B⟩ := run_tree hrun
  simp only [] at A B
  obtain ⟨new, hnew, hnd, hmem⟩ := run_component hrun (fun _ => hc)
  simp only [List.nil_append] at hnew hmem
  obtain ⟨rest, hhead⟩ := run_component_head hrun
  simp only [List.nil_append] at hhead
  have hzero : ∀ v, st.color v = false → ∀ x, (st.tree_edges x).count v = 0 := by
    intro v hv x
    apply List.count_eq_zero_of_not_mem
    intro hin
    rw [p1 x v hin] at hv; cases hv
  have hmono := run_tree_mono hrun
  simp only [] at hmono
  refine ⟨?_, ?_, ?_⟩
  · intro x v hv
    cases hv1 : st1.color v with
    | true => rfl
    | false =>
      have := A v (Or.inr (Or.inl hv1)) x
      have hpos := List.count_pos_iff.mpr hv
      rw [this] at hpos
      have h0 := p1 x v (List.count_pos_iff.mp hpos)
      rw [run_mono hrun v h0] at hv1; cases hv1
  · intro c hcm v hv
    rcases List.mem_append.mp hcm with hcm | hcm
    · exact run_mono hrun v (p2 c hcm v hv)
    · rw [List.mem_singleton] at hcm
      rw [hcm, hnew] at hv
      exact ((hmem v).mp hv).2
  · intro c hcm
    rcases List.mem_append.mp hcm with hcm | hcm
    · obtain ⟨root, rest', e, q1, q2, q3⟩ := p3 c hcm
      have hkeep : ∀ v ∈ c, ∀ x, (st1.tree_edges x).count v = (st.tree_edges x).count v :=
        fun v hv x => A v (Or.inl (p2 c hcm v hv)) x
      refine ⟨root, rest', e, ?_, ?_, ?_⟩
      · intro x hin
        have := List.count_pos_iff.mpr hin
        rw [hkeep root (by rw [e]; exact List.mem_cons_self _ _) x] at this
        exact q1 x (List.count_pos_iff.mp this)
      · intro v hv
        have hvc : v ∈ c := by rw [e]; exact List.mem_cons_of_mem _ hv
        obtain ⟨p, hp, c1, c2⟩ := q2 v hv
        refine ⟨p, hp, by rw [hkeep v hvc p]; exact c1, ?_⟩
        intro x hx hin
        have := List.count_pos_iff.mpr hin
        rw [hkeep v hvc x] at this
        exact c2 x hx (List.count_pos_iff.mp this)
      · intro v hv
        exact Relation.ReflTransGen.mono (fun p c hpc => hmono p c hpc) (q3 v hv)
    · rw [List.mem_singleton] at hcm
      rw [hcm, hhead]
      have hnew' : new = i :: rest := by rw [← hnew, hhead]
      refine ⟨i, rest, rfl, ?_, ?_, ?_⟩
      · intro x hin
        have := List.count_pos_iff.mpr hin
        rw [A i (Or.inr (Or.inr ⟨trivial, rfl⟩)) x, hzero i hc x] at this
        omega
      · intro v hv
        have hvnew : v ∈ new := by rw [hnew']; exact List.mem_cons_of_mem _ hv
        have hvi : v ≠ i := by
          intro e
          rw [hnew'] at hnd
          exact (List.nodup_cons.mp hnd).1 (e ▸ hv)
        obtain ⟨v0, v1⟩ := (hmem v).mp hvnew
        obtain ⟨p, hp, b2, b3⟩ := B v v0 v1 (by rintro ⟨_, e⟩; exact hvi e)
        refine ⟨p, ?_, by rw [b2, hzero v v0 p], ?_⟩
        · rw [← hnew']
          rcases hp with hp | hp
          · rw [hp, hnew']; exact List.mem_cons_self _ _
          · exact (hmem p).mpr hp
        · intro x hx hin
          have := List.count_pos_iff.mpr hin
          rw [b3 x hx, hzero v v0 x] at this
          omega
      · intro v hv
        rw [← hnew'] at hv
        obtain ⟨v0, v1⟩ := (hmem v).mp hv
        exact run_tree_reach hrun v v0 v1

end DfsCluster

/-- C39: for every adjacency input (with targets below `n_seq`), `connected_components`
returns, which includes the return of every `scan_artipoint` recursion; and in
every component the first member, the root, is the target of no tree edge, every
other member is the target of exactly one tree edge, whose source is a member of
the same component, and every member is reached from the root along tree edges:
the tree edges form a rooted spanning tree of the component. -/
theorem DfsCluster.connected_components_tree_edges (n_seq : Nat)
    (adj : Nat → List DfsCluster.fasta_t) (chimeric : Nat → Bool)
    (hr : ∀ u, u < n_seq → ∀ e ∈ adj u, e.s2 < n_seq) :
    ∃ r, DfsCluster.connected_components n_seq adj chimeric = some r ∧
      ∀ c ∈ r.components, ∃ root rest, c = root :: rest ∧
        (∀ x, root ∉ r.tree_edges x) ∧
        (∀ v ∈ rest, ∃ p ∈ c, (r.tree_edges p).count v = 1 ∧
          ∀ x, x ≠ p → v ∉ r.tree_edges x) ∧
        ∀ v ∈ c, DfsCluster.TreeAnc r.tree_edges root v := by
  obtain ⟨st, comps, ap, na, _, _, h3, hP, _⟩ :=
    @DfsCluster.connected_components_spec adj chimeric n_seq hr DfsCluster.TreeInv
      ⟨(by intro x v h; cases h), (by intro c hc; cases hc), (by intro c hc; cases hc)⟩
      (fun s c i s1 hp _ hc _ hrun => DfsCluster.treeInv_step s c i s1 hp hc hrun)
  exact ⟨_, h3, hP.2.2⟩

/-- Witness for C39: the path 0 - 1 - 2 with node 3 marked chimeric, and the single
node 4. -/
theorem DfsCluster.connected_components_tree_edges_witness :
    (∀ u, u < 5 → ∀ e ∈ DfsCluster.adj_of
        [[(1, 80)], [(0, 80), (2, 90)], [(1, 90), (3, 75)], [(2, 75)], []] u, e.s2 < 5) ∧
    (DfsCluster.connected_components 5
        (DfsCluster.adj_of [[(1, 80)], [(0, 80), (2, 90)], [(1, 90), (3, 75)], [(2, 75)], []])
        (DfsCluster.chimeric_of [3])).map
      (fun r => (r.components, [0, 1, 2, 4].map r.tree_edges)) =
      some ([[0, 1, 2], [4]], [[1], [2], [], []]) ∧
    ∃ r, DfsCluster.connected_components 5
        (DfsCluster.adj_of [[(1, 80)], [(0, 80), (2, 90)], [(1, 90), (3, 75)], [(2, 75)], []])
        (DfsCluster.chimeric_of [3]) = some r ∧
      ∀ c ∈ r.components, ∃ root rest, c = root :: rest ∧
        (∀ x, root ∉ r.tree_edges x) ∧
        (∀ v ∈ rest, ∃ p ∈ c, (r.tree_edges p).count v = 1 ∧
          ∀ x, x ≠ p → v ∉ r.tree_edges x) ∧
        ∀ v ∈ c, DfsCluster.TreeAnc r.tree_edges root v :=
  have hr : ∀ u, u < 5 → ∀ e ∈ DfsCluster.adj_of
      [[(1, 80)], [(0, 80), (2, 90)], [(1, 90), (3, 75)], [(2, 75)], []] u, e.s2 < 5 := by
    intro u hu
    interval_cases u <;> simp [DfsCluster.adj_of]
  ⟨hr, by decide, DfsCluster.connected_components_tree_edges 5 _ _ hr⟩

namespace DfsCluster

theorem foldl_min_lt_iff (xs : List Nat) :
    ∀ (a t : Nat), xs.foldl min a < t ↔ a < t ∨ ∃ y ∈ xs, y < t := by
  induction xs with
  | nil => intro a t; simp
  | cons x xs ih =>
    intro a t
    rw [List.foldl_cons, ih, min_lt_iff]
    constructor
    · rintro ((h | h) | ⟨y, hy, h⟩)
      · exact Or.inl h
      · exact Or.inr ⟨x, List.mem_cons_self _ _, h⟩
      · exact Or.inr ⟨y, List.mem_cons_of_mem _ hy, h⟩
    · rintro (h | ⟨y, hy, h⟩)
      · exact Or.inl (Or.inl h)
      · rcases List.mem_cons.mp hy with e | e
        · subst e; exact Or.inl (Or.inr h)
        · exact Or.inr ⟨y, e, h⟩

theorem nat_eq_of_lt_iff {a b : Nat} (h : ∀ t, a < t ↔ b < t) : a = b := by
  have h1 := (h (a + 1)).mp (Nat.lt_succ_self a)
  have h2 := (h (b + 1)).mpr (Nat.lt_succ_self b)
  omega

theorem foldl_min_le_init (xs : List Nat) (a : Nat) : xs.foldl min a ≤ a := by
  by_contra h
  have := (foldl_min_lt_iff xs a (xs.foldl min a)).mpr (Or.inl (by omega))
  omega

theorem foldl_min_le_mem (xs : List Nat) (a y : Nat) (hy : y ∈ xs) : xs.foldl min a ≤ y := by
  by_contra h
  have := (foldl_min_lt_iff xs a (xs.foldl min a)).mpr (Or.inr ⟨y, hy, by omega⟩)
  omega

theorem foldl_min_init (xs : List Nat) (a M : Nat) (h : a ≤ M) :
    xs.foldl min a = min a (xs.foldl min M) := by
  apply nat_eq_of_lt_iff
  intro t
  rw [min_lt_iff, foldl_min_lt_iff, foldl_min_lt_iff]
  constructor
  · rintro (h1 | h1)
    · exact Or.inl h1
    · exact Or.inr (Or.inr h1)
  · rintro (h1 | h1 | h1)
    · exact Or.inl h1
    · exact Or.inl (by omega)
    · exact Or.inr h1

/-- The back-edge loop of `scan_artipoint` is a fold of `min` over the levels of
the targets. -/
theorem scan_back_fold (level : Nat → Nat) :
    ∀ (bs : List Nat) (m : Nat),
      scan_artipoint_back level bs m = (bs.map level).foldl min m := by
  intro bs
  induction bs with
  | nil => intro m; rfl
  | cons b bs ih =>
    intro m
    rw [scan_artipoint_back, ih, List.map_cons, List.foldl_cons]
    congr 1
    by_cases h : level b < m
    · rw [if_pos h, Nat.min_eq_right (le_of_lt h)]
    · rw [if_neg h, Nat.min_eq_left (not_lt.mp h)]

theorem scan_forward_loop_spec (scan : Nat → Option Bool) (P : Nat → Prop) :
    ∀ (cs : List Nat), (∀ c ∈ cs, ∃ r, scan c = some r ∧ (r = true ↔ P c)) →
      ∃ r, scan_forward_loop scan cs = some r ∧ (r = true ↔ ∃ c ∈ cs, P c) := by
  intro cs
  induction cs with
  | nil =>
    intro _
    exact ⟨false, rfl, by simp⟩
  | cons c cs ih =>
    intro h
    obtain ⟨r, hr, hP⟩ := h c (List.mem_cons_self _ _)
    obtain ⟨r', hr', hP'⟩ := ih (fun c' hc' => h c' (List.mem_cons_of_mem _ hc'))
    cases r with
    | true =>
      refine ⟨true, by rw [scan_forward_loop, hr], ?_⟩
      exact iff_of_true rfl ⟨c, List.mem_cons_self _ _, hP.mp rfl⟩
    | false =>
      refine ⟨r', by rw [scan_forward_loop, hr]; exact hr', ?_⟩
      rw [hP']
      constructor
      · rintro ⟨c', hc', h'⟩
        exact ⟨c', List.mem_cons_of_mem _ hc', h'⟩
      · rintro ⟨c', hc', h'⟩
        rcases List.mem_cons.mp hc' with e | e
        · subst e
          have := hP.mpr h'
          cases this
        · exact ⟨c', e, h'⟩

theorem scan_descendant_back_spec (scan : Nat → Option Bool) (v : Nat) (P : Nat → Prop) :
    ∀ (bs : List Nat), (∀ b ∈ bs, ∃ r, scan b = some r ∧ (r = true ↔ P b)) →
      ∃ r, scan_descendant_back scan v bs = some r ∧
        (r = true ↔ ∃ b ∈ bs, b ≠ v ∧ P b) := by
  intro bs
  induction bs with
  | nil =>
    intro _
    exact ⟨false, rfl, by simp⟩
  | cons b bs ih =>
    intro h
    obtain ⟨r, hr, hP⟩ := h b (List.mem_cons_self _ _)
    obtain ⟨r', hr', hP'⟩ := ih (fun c' hc' => h c' (List.mem_cons_of_mem _ hc'))
    have hrest : (r' = true ↔ ∃ b' ∈ b :: bs, b' ≠ v ∧ P b') ∨ (b ≠ v ∧ P b) := by
      by_cases hb : b ≠ v ∧ P b
      · exact Or.inr hb
      · left
        rw [hP']
        constructor
        · rintro ⟨c', hc', h'⟩
          exact ⟨c', List.mem_cons_of_mem _ hc', h'⟩
        · rintro ⟨c', hc', h'⟩
          rcases List.mem_cons.mp hc' with e | e
          · subst e; exact absurd h' hb
          · exact ⟨c', e, h'⟩
    by_cases hbv : b = v
    · refine ⟨r', by rw [scan_descendant_back, if_pos hbv]; exact hr', ?_⟩
      rcases hrest with h1 | h1
      · exact h1
      · exact absurd hbv h1.1
    · cases r with
      | true =>
        refine ⟨true, by rw [scan_descendant_back, if_neg hbv, hr], ?_⟩
        exact iff_of_true rfl ⟨b, List.mem_cons_self _ _, hbv, hP.mp rfl⟩
      | false =>
        refine ⟨r', by rw [scan_descendant_back, if_neg hbv, hr]; exact hr', ?_⟩
        rcases hrest with h1 | h1
        · exact h1
        · have := hP.mpr h1.2
          cases this

theorem scan_atri_point_loop_spec (scan : Nat → Option Bool) (P : Nat → Prop) :
    ∀ (cs : List Nat), (∀ c ∈ cs, ∃ r, scan c = some r ∧ (r = true ↔ P c)) →
      ∃ r, scan_atri_point_loop scan cs = some r ∧ (r = true ↔ ∃ c ∈ cs, ¬ P c) := by
  intro cs
  induction cs with
  | nil =>
    intro _
    exact ⟨false, rfl, by simp⟩
  | cons c cs ih =>
    intro h
    obtain ⟨r, hr, hP⟩ := h c (List.mem_cons_self _ _)
    obtain ⟨r', hr', hP'⟩ := ih (fun c' hc' => h c' (List.mem_cons_of_mem _ hc'))
    cases r with
    | false =>
      refine ⟨true, by rw [scan_atri_point_loop, hr], ?_⟩
      refine iff_of_true rfl ⟨c, List.mem_cons_self _ _, ?_⟩
      intro hp
      have := hP.mpr hp
      cases this
    | true =>
      refine ⟨r', by rw [scan_atri_point_loop, hr]; exact hr', ?_⟩
      rw [hP']
      constructor
      · rintro ⟨c', hc', h'⟩
        exact ⟨c', List.mem_cons_of_mem _ hc', h'⟩
      · rintro ⟨c', hc', h'⟩
        rcases List.mem_cons.mp hc' with e | e
        · subst e
          exact absurd (hP.mp rfl) h'
        · exact ⟨c', e, h'⟩

/-- `scan_forward(candidate, b)` returns, and returns 1 iff `candidate` is `b` or
lies below `b` in the tree. -/
theorem scan_forward_spec (te : Nat → List Nat) (v : Nat) :
    ∀ (fuel b : Nat), TreeHeight te b fuel →
      ∃ r, scan_forward te fuel v b = some r ∧ (r = true ↔ TreeAnc te b v) := by
  intro fuel
  induction fuel with
  | zero => intro b h; exact absurd h (by simp [TreeHeight])
  | succ fuel ih =>
    intro b h
    rw [scan_forward]
    by_cases hbv : b = v
    · rw [if_pos hbv, hbv]
      exact ⟨true, rfl, iff_of_true rfl Relation.ReflTransGen.refl⟩
    · rw [if_neg hbv]
      obtain ⟨r, hr, hP⟩ := scan_forward_loop_spec (scan_forward te fuel v)
        (fun c => TreeAnc te c v) (te b) (fun c hc => ih c (h c hc))
      refine ⟨r, hr, ?_⟩
      rw [hP]
      constructor
      · rintro ⟨c, hc, h'⟩
        exact Relation.ReflTransGen.head hc h'
      · intro h'
        rcases Relation.ReflTransGen.cases_head h' with e | ⟨c, hc, h''⟩
        · exact absurd e hbv
        · exact ⟨c, hc, h''⟩

/-- `scan_descendant(candidate, d)` returns, and returns 1 iff some node in the tree
below `d` (`d` included) has a back edge to a node other than `candidate` that has
`candidate` in the tree below it. -/
theorem scan_descendant_spec (te be : Nat → List Nat) (v ffuel : Nat)
    (hH : ∀ b, TreeHeight te b ffuel) :
    ∀ (fuel d : Nat), TreeHeight te d fuel →
      ∃ r, scan_descendant te be ffuel fuel v d = some r ∧
        (r = true ↔ ∃ x, TreeAnc te d x ∧ ∃ b ∈ be x, b ≠ v ∧ TreeAnc te b v) := by
  intro fuel
  induction fuel with
  | zero => intro d h; exact absurd h (by simp [TreeHeight])
  | succ fuel ih =>
    intro d h
    obtain ⟨r1, hr1, hP1⟩ := scan_descendant_back_spec (scan_forward te ffuel v) v
      (fun b => TreeAnc te b v) (be d) (fun b _ => scan_forward_spec te v ffuel b (hH b))
    obtain ⟨r2, hr2, hP2⟩ := scan_forward_loop_spec (scan_descendant te be ffuel fuel v)
      (fun c => ∃ x, TreeAnc te c x ∧ ∃ b ∈ be x, b ≠ v ∧ TreeAnc te b v) (te d)
      (fun c hc => ih c (h c hc))
    cases r1 with
    | true =>
      refine ⟨true, by rw [scan_descendant, hr1], ?_⟩
      obtain ⟨b, hb, hbv, hanc⟩ := hP1.mp rfl
      exact iff_of_true rfl ⟨d, Relation.ReflTransGen.refl, b, hb, hbv, hanc⟩
    | false =>
      refine ⟨r2, by rw [scan_descendant, hr1]; exact hr2, ?_⟩
      rw [hP2]
      constructor
      · rintro ⟨c, hc, x, hx, hb⟩
        exact ⟨x, Relation.ReflTransGen.head hc hx, hb⟩
      · rintro ⟨x, hx, b, hb, hbv, hanc⟩
        rcases Relation.ReflTransGen.cases_head hx with e | ⟨c, hc, h''⟩
        · subst e
          have := hP1.mpr ⟨b, hb, hbv, hanc⟩
          cases this
        · exact ⟨c, hc, x, h'', b, hb, hbv, hanc⟩

/-- `scan_atri_point(v)` returns, and returns 1 iff `v` has a child below which no
node has a back edge to a node other than `v` with `v` in the tree below it. -/
theorem scan_atri_point_spec (te be : Nat → List Nat) (v fuel : Nat)
    (hH : ∀ b, TreeHeight te b fuel) :
    ∃ r, scan_atri_point te be fuel v = some r ∧
      (r = true ↔ ∃ k ∈ te v,
        ¬ ∃ x, TreeAnc te k x ∧ ∃ b ∈ be x, b ≠ v ∧ TreeAnc te b v) :=
  scan_atri_point_loop_spec (scan_descendant te be fuel fuel v)
    (fun k => ∃ x, TreeAnc te k x ∧ ∃ b ∈ be x, b ≠ v ∧ TreeAnc te b v) (te v)
    (fun k _ => scan_descendant_spec te be v fuel hH fuel k (hH k))

/-! ### The tree of one component -/

/-- In a rooted tree every tree edge into a member comes from a member, and a
member has at most one such source. -/
theorem rooted_parent {te : Nat → List Nat} {c : List Nat} (hT : RootedTree te c)
    {w p : Nat} (hw : w ∈ c) (hp : w ∈ te p) :
    p ∈ c ∧ ∀ q, w ∈ te q → q = p := by
  obtain ⟨root, rest, hc, h1, h2, _⟩ := hT
  rw [hc] at hw
  rcases List.mem_cons.mp hw with e | e
  · rw [e] at hp; exact absurd hp (h1 p)
  · obtain ⟨p0, hp0, _, hu⟩ := h2 w e
    have hpp : p = p0 := by
      by_contra hne
      exact hu p hne hp
    refine ⟨hpp ▸ hp0, ?_⟩
    intro q hq
    by_contra hne
    exact hu q (by rw [← hpp]; exact hne) hq

theorem anc_mem {te : Nat → List Nat} {c : List Nat}
    (hM : ∀ p ∈ c, ∀ w ∈ te p, w ∈ c) {a x : Nat} (ha : a ∈ c) (h : TreeAnc te a x) :
    x ∈ c := by
  induction h with
  | refl => exact ha
  | tail _ hbc ih => exact hM _ ih _ hbc

theorem anc_mem_rev {te : Nat → List Nat} {c : List Nat} (hT : RootedTree te c)
    {a x : Nat} (hx : x ∈ c) (h : TreeAnc te a x) : a ∈ c := by
  induction h with
  | refl => exact hx
  | tail _ hbc ih => exact ih (rooted_parent hT hx hbc).1

/-- Levels grow along tree edges. -/
theorem anc_level {te : Nat → List Nat} {c : List Nat} {lv : Nat → Nat}
    (hM : ∀ p ∈ c, ∀ w ∈ te p, w ∈ c)
    (hlv : ∀ p ∈ c, ∀ w ∈ te p, lv w = lv p + 1)
    {a x : Nat} (ha : a ∈ c) (h : TreeAnc te a x) :
    lv a ≤ lv x ∧ (a ≠ x → lv a < lv x) := by
  induction h with
  | refl => exact ⟨le_refl _, fun h => absurd rfl h⟩
  | tail hab hbc ih =>
    have := hlv _ (anc_mem hM ha hab) _ hbc
    exact ⟨by omega, fun _ => by omega⟩

/-- Two ancestors of a member are comparable. -/
theorem anc_comparable {te : Nat → List Nat} {c : List Nat} (hT : RootedTree te c)
    {a b x : Nat} (hx : x ∈ c) (ha : TreeAnc te a x) (hb : TreeAnc te b x) :
    TreeAnc te a b ∨ TreeAnc te b a := by
  induction ha generalizing b with
  | refl => exact Or.inr hb
  | tail hay hyx ih =>
    rcases Relation.ReflTransGen.cases_tail hb with e | ⟨y', hby', hy'x⟩
    · rw [← e]
      exact Or.inl (Relation.ReflTransGen.tail hay hyx)
    · have hp := rooted_parent hT hx hyx
      have : y' = _ := hp.2 y' hy'x
      rw [this] at hby'
      exact ih hp.1 hby'

/-- The value returned for `k` is below `t` iff some node in the tree below `k` has
a back edge to a node at a level below `t`. -/
theorem ret_lt_iff {te be : Nat → List Nat} {c : List Nat} {lv ret : Nat → Nat}
    (hM : ∀ p ∈ c, ∀ w ∈ te p, w ∈ c)
    (hret : ∀ v ∈ c, RetEq te be lv ret v) (t : Nat) (ht : t ≤ INT_MAX) :
    ∀ (h k : Nat), TreeHeight te k h → k ∈ c →
      (ret k < t ↔ ∃ x, TreeAnc te k x ∧ ∃ b ∈ be x, lv b < t) := by
  intro h
  induction h with
  | zero => intro k hk; exact absurd hk (by simp [TreeHeight])
  | succ h ih =>
    intro k hk hkc
    rw [hret k hkc, foldl_min_lt_iff]
    constructor
    · rintro (h1 | ⟨y, hy, hyt⟩)
      · omega
      · rcases List.mem_append.mp hy with hy | hy
        · obtain ⟨w, hw, rfl⟩ := List.mem_map.mp hy
          obtain ⟨x, hx, hb⟩ := (ih w (hk w hw) (hM k hkc w hw)).mp hyt
          exact ⟨x, Relation.ReflTransGen.head hw hx, hb⟩
        · obtain ⟨b, hb, rfl⟩ := List.mem_map.mp hy
          exact ⟨k, Relation.ReflTransGen.refl, b, hb, hyt⟩
    · rintro ⟨x, hx, b, hb, hbt⟩
      right
      rcases Relation.ReflTransGen.cases_head hx with e | ⟨w, hw, hwx⟩
      · subst e
        exact ⟨lv b, List.mem_append_right _ (List.mem_map.mpr ⟨b, hb, rfl⟩), hbt⟩
      · exact ⟨ret w, List.mem_append_left _ (List.mem_map.mpr ⟨w, hw, rfl⟩),
          (ih w (hk w hw) (hM k hkc w hw)).mpr ⟨x, hwx, b, hb, hbt⟩⟩

/-- The two articulation tests on the final arrays: for a non-root member `v`,
`scan_atri_point(v)` returns 1 iff a child of `v` returned a value not below the
level of `v`. -/
theorem atri_agree {te be : Nat → List Nat} {c : List Nat} {lv ret : Nat → Nat}
    {n_seq : Nat} (hT : RootedTree te c)
    (hM : ∀ p ∈ c, ∀ w ∈ te p, w ∈ c)
    (hlv : ∀ p ∈ c, ∀ w ∈ te p, lv w = lv p + 1)
    (hle : ∀ v ∈ c, lv v ≤ INT_MAX ∧ ret v ≤ INT_MAX)
    (hret : ∀ v ∈ c, RetEq te be lv ret v)
    (hA : ∀ x ∈ c, ∀ b ∈ be x, TreeAnc te b x ∨ TreeAnc te x b)
    (hH : ∀ x, TreeHeight te x n_seq) (v : Nat) (hv : v ∈ c) :
    ∃ r, scan_atri_point te be n_seq v = some r ∧
      (r = true ↔ ∃ k ∈ te v, lv v ≤ ret k) := by
  obtain ⟨r, hr, hP⟩ := scan_atri_point_spec te be v n_seq hH
  refine ⟨r, hr, ?_⟩
  rw [hP]
  have key : ∀ k ∈ te v, (ret k < lv v ↔
      ∃ x, TreeAnc te k x ∧ ∃ b ∈ be x, b ≠ v ∧ TreeAnc te b v) := by
    intro k hk
    have hkc : k ∈ c := hM v hv k hk
    have hlk : lv k = lv v + 1 := hlv v hv k hk
    rw [ret_lt_iff hM hret (lv v) (hle v hv).1 n_seq k (hH k) hkc]
    constructor
    · rintro ⟨x, hx, b, hb, hbt⟩
      refine ⟨x, hx, b, hb, by intro e; rw [e] at hbt; omega, ?_⟩
      have hxc : x ∈ c := anc_mem hM hkc hx
      have hkx := (anc_level hM hlv hkc hx).1
      rcases hA x hxc b hb with h1 | h1
      · have hvx : TreeAnc te v x := Relation.ReflTransGen.head hk hx
        rcases anc_comparable hT hxc h1 hvx with h2 | h2
        · exact h2
        · have := (anc_level hM hlv hv h2).1
          omega
      · have := (anc_level hM hlv hxc h1).1
        omega
    · rintro ⟨x, hx, b, hb, hbv, hanc⟩
      have hbc : b ∈ c := anc_mem_rev hT hv hanc
      exact ⟨x, hx, b, hb, (anc_level hM hlv hbc hanc).2 hbv⟩
  constructor
  · rintro ⟨k, hk, hn⟩
    refine ⟨k, hk, ?_⟩
    by_contra hlt
    exact hn ((key k hk).mp (by omega))
  · rintro ⟨k, hk, hge⟩
    refine ⟨k, hk, ?_⟩
    intro hn
    have := (key k hk).mpr hn
    omega

theorem low_children_spec (lowf : Nat → Option Nat) (ret : Nat → Nat) :
    ∀ (ws : List Nat), (∀ w ∈ ws, lowf w = some (ret w)) →
      low_children lowf ws = some (ws.map ret) := by
  intro ws
  induction ws with
  | nil => intro _; rfl
  | cons w ws ih =>
    intro h
    rw [low_children, h w (List.mem_cons_self _ _),
      ih (fun w' hw' => h w' (List.mem_cons_of_mem _ hw'))]
    rfl

/-- When every member's returned value is at most its level, the returned values
are the values `low` of the description. -/
theorem low_eq_ret {te be : Nat → List Nat} {c : List Nat} {lv ret : Nat → Nat}
    (hM : ∀ p ∈ c, ∀ w ∈ te p, w ∈ c)
    (hle : ∀ v ∈ c, lv v ≤ INT_MAX ∧ ret v ≤ INT_MAX)
    (hret : ∀ v ∈ c, RetEq te be lv ret v)
    (hlow : ∀ v ∈ c, ret v ≤ lv v) :
    ∀ (h v : Nat), TreeHeight te v h → v ∈ c → low te be lv h v = some (ret v) := by
  intro h
  induction h with
  | zero => intro v hv; exact absurd hv (by simp [TreeHeight])
  | succ h ih =>
    intro v hv hvc
    rw [low, low_children_spec _ ret (te v) (fun w hw => ih w (hv w hw) (hM v hvc w hw))]
    simp only []
    rw [foldl_min_init _ _ INT_MAX (hle v hvc).1, ← hret v hvc,
      Nat.min_eq_right (hlow v hvc)]

end DfsCluster

namespace DfsCluster

theorem scan_children_ret_erase
    (scan : arti_state → Nat → Nat → Option (Nat × arti_state))
    (scanr : arti_state → (Nat → Nat) → Nat → Nat → Option (Nat × arti_state × (Nat → Nat)))
    (hs : ∀ st ret c l, (scanr st ret c l).map (fun r => (r.1, r.2.1)) = scan st c l)
    (l : Nat) :
    ∀ (cs : List Nat) (st : arti_state) (ret : Nat → Nat) (a : Bool) (m : Nat),
      (scan_artipoint_children_ret scanr l cs st ret a m).map
          (fun r => (r.1, r.2.1, r.2.2.1)) =
        scan_artipoint_children scan l cs st a m := by
  intro cs
  induction cs with
  | nil => intro st ret a m; rfl
  | cons c cs ih =>
    intro st ret a m
    rw [scan_artipoint_children_ret, scan_artipoint_children, ← hs st ret c (l + 1)]
    cases h : scanr st ret c (l + 1) with
    | none => rfl
    | some r =>
      obtain ⟨cl, st1, ret1⟩ := r
      simp only [Option.map_some']
      split
      · exact ih _ _ _ _
      · exact ih _ _ _ _

/-- Dropping the record of returned values from `scan_artipoint_ret` leaves
`scan_artipoint`. -/
theorem scan_artipoint_ret_erase (te be : Nat → List Nat) :
    ∀ (fuel : Nat) (st : arti_state) (ret : Nat → Nat) (node l : Nat),
      (scan_artipoint_ret te be fuel st ret node l).map (fun r => (r.1, r.2.1)) =
        scan_artipoint te be fuel st node l := by
  intro fuel
  induction fuel with
  | zero => intro st ret node l; rfl
  | succ fuel ih =>
    intro st ret node l
    rw [scan_artipoint_ret, scan_artipoint,
      ← scan_children_ret_erase (scan_artipoint te be fuel) (scan_artipoint_ret te be fuel)
        ih l (te node) { st with level := store st.level node l } ret false INT_MAX]
    cases h : scan_artipoint_children_ret (scan_artipoint_ret te be fuel) l (te node)
        { st with level := store st.level node l } ret false INT_MAX with
    | none => rfl
    | some r =>
      obtain ⟨a, m, st1, ret1⟩ := r
      simp only [Option.map_some']
      split <;> rfl

/-- No cross edges: with symmetric adjacency lists, every back edge recorded by a
run joins its source to one of its ancestors or descendants in the tree.  The
hypothesis on `st` says that the coloured nodes that still have an uncoloured
neighbour are the active node and its ancestors. -/
theorem run_back_anc {adj : Nat → List fasta_t} {chimeric : Nat → Bool} {n_seq : Nat}
    (hr : ∀ u, u < n_seq → ∀ e ∈ adj u, e.s2 < n_seq) (hs : SymmetricAdj n_seq adj)
    (te : Nat → List Nat)
    {st : dfs_state} {n : Nat} {m : Option (List fasta_t)} {st' : dfs_state}
    (h : Run adj chimeric st n m st') :
    n < n_seq → chimeric n = false →
    (∀ x, NewIn st.color st'.color x → te x = st'.tree_edges x) →
    (∀ x, st.color x = false → st.back_edges x = []) →
    (∀ y, st.color y = true → (∃ z, Linked adj chimeric y z ∧ st.color z = false) →
      TreeAnc te y n) →
    (m = none → st.color n = false →
      ∀ x, NewIn st.color st'.color x → TreeAnc te n x ∧
        ∀ b ∈ st'.back_edges x, TreeAnc te b x ∨ TreeAnc te x b) ∧
    (∀ es, m = some es → st.color n = true → (∀ e ∈ es, e ∈ adj n) →
      te n = st'.tree_edges n →
      (∀ y, st.color y = true → Linked adj chimeric n y →
        TreeAnc te y n ∨ TreeAnc te n y) →
      (∀ x, NewIn st.color st'.color x → TreeAnc te n x ∧
        ∀ b ∈ st'.back_edges x, TreeAnc te b x ∨ TreeAnc te x b) ∧
      (∀ b ∈ st'.back_edges n, b ∈ st.back_edges n ∨
        TreeAnc te b n ∨ TreeAnc te n b)) := by
  induction h with
  | visit st n st' h1 ih =>
    intro hn hch hfin hempty hstack
    refine ⟨?_, by intro es h; cases h⟩
    intro _ hcol
    have hn' : st'.color n = true := run_mono h1 n (store_same _ _ _)
    have hfin0 : ∀ x, NewIn (store st.color n true) st'.color x → te x = st'.tree_edges x := by
      intro x hx
      have hxn : x ≠ n := by
        intro e
        have := hx.1
        rw [e, store_same] at this; cases this
      have := hx.1
      rw [store_other _ _ _ _ hxn] at this
      exact hfin x ⟨this, hx.2⟩
    have hempty0 : ∀ x, store st.color n true x = false → st.back_edges x = [] := by
      intro x hx
      have hxn : x ≠ n := by intro e; rw [e, store_same] at hx; cases hx
      rw [store_other _ _ _ _ hxn] at hx
      exact hempty x hx
    have hstack0 : ∀ y, store st.color n true y = true →
        (∃ z, Linked adj chimeric y z ∧ store st.color n true z = false) →
        TreeAnc te y n := by
      intro y hy hz
      by_cases hyn : y = n
      · rw [hyn]; exact Relation.ReflTransGen.refl
      · rw [store_other _ _ _ _ hyn] at hy
        obtain ⟨z, hl, hz⟩ := hz
        have hzn : z ≠ n := by intro e; rw [e, store_same] at hz; cases hz
        rw [store_other _ _ _ _ hzn] at hz
        exact hstack y hy ⟨z, hl, hz⟩
    have hnbr : ∀ y, store st.color n true y = true → Linked adj chimeric n y →
        TreeAnc te y n ∨ TreeAnc te n y := by
      intro y hy hl
      by_cases hyn : y = n
      · rw [hyn]; exact Or.inl Relation.ReflTransGen.refl
      · rw [store_other _ _ _ _ hyn] at hy
        exact Or.inl (hstack y hy ⟨n, linked_symm hr hs hn hl, hcol⟩)
    obtain ⟨A, B⟩ := (ih hn hch hfin0 hempty0 hstack0).2 (adj n) rfl (store_same _ _ _)
      (fun e he => he) (hfin n ⟨hcol, hn'⟩) hnbr
    intro x hx
    by_cases hxn : x = n
    · rw [hxn]
      refine ⟨Relation.ReflTransGen.refl, ?_⟩
      intro b hb
      rcases B b hb with h0 | h0
      · simp only [] at h0
        rw [hempty n hcol] at h0; cases h0
      · exact h0
    · exact A x ⟨(store_other _ _ _ _ hxn).trans hx.1, hx.2⟩
  | done st n =>
    intro hn hch hfin hempty hstack
    refine ⟨(by intro h; cases h), ?_⟩
    intro es _ _ _ _ _
    refine ⟨?_, fun b hb => Or.inl hb⟩
    intro x hx
    have := hx.1
    rw [hx.2] at this; cases this
  | skip st n e es st' hc h1 ih =>
    intro hn hch hfin hempty hstack
    refine ⟨(by intro h; cases h), ?_⟩
    intro es' hm hcol hes hte hnbr
    cases hm
    exact (ih hn hch hfin hempty hstack).2 es rfl hcol
      (fun e' he' => hes e' (List.mem_cons_of_mem _ he')) hte hnbr
  | tree st n e es st1 st' hc hcol0 h1 h2 ih1 ih2 =>
    intro hn hch hfin hempty hstack
    refine ⟨(by intro h; cases h), ?_⟩
    intro es' hm hcol hes hte hnbr
    cases hm
    have hcn : e.s2 < n_seq := hr n hn e (hes e (List.mem_cons_self _ _))
    have hm1 : ∀ v, st.color v = true → st1.color v = true := run_mono h1
    have hm2 : ∀ v, st1.color v = true → st'.color v = true := fun v hv => run_mono h2 v hv
    have hc1 : st1.color e.s2 = true := run_color_self h1
    have hcne : e.s2 ≠ n := by intro e'; rw [e', hcol] at hcol0; cases hcol0
    have hfr1 := run_frame h1 n (Ne.symm hcne) (Or.inl hcol)
    have hold : ∀ v, st1.color v = false → st.color v = false := by
      intro v hv
      cases hv0 : st.color v with
      | false => rfl
      | true => rw [hm1 v hv0] at hv; cases hv
    have hkid : e.s2 ∈ te n := by
      rw [hte]
      apply run_tree_mono h2
      simp only [store_same]
      exact List.mem_append_right _ (List.mem_singleton.mpr rfl)
    have hfr2 : ∀ x, x ≠ n → st1.color x = true →
        st'.tree_edges x = st1.tree_edges x ∧ st'.back_edges x = st1.back_edges x := by
      intro x hxn hx
      have b := run_frame h2 x hxn (Or.inl hx)
      simp only [store_other _ _ _ _ hxn] at b
      exact b
    have hnew1 : ∀ x, NewIn st.color st1.color x → x ≠ n := by
      intro x hx e'
      have := hx.1
      rw [e', hcol] at this
      cases this
    have hfin1 : ∀ x, NewIn st.color st1.color x → te x = st1.tree_edges x := by
      intro x hx
      rw [hfin x ⟨hx.1, hm2 x hx.2⟩, (hfr2 x (hnew1 x hx) hx.2).1]
    have hstack1 : ∀ y, st.color y = true →
        (∃ z, Linked adj chimeric y z ∧ st.color z = false) → TreeAnc te y e.s2 :=
      fun y hy hz => Relation.ReflTransGen.tail (hstack y hy hz) hkid
    have V := (ih1 hcn hc hfin1 hempty hstack1).1 rfl hcol0
    have hfin2 : ∀ x, NewIn st1.color st'.color x → te x = st'.tree_edges x :=
      fun x hx => hfin x ⟨hold x hx.1, hx.2⟩
    have hempty2 : ∀ x, st1.color x = false → st1.back_edges x = [] := by
      intro x hx
      have hxc : x ≠ e.s2 := by intro e'; rw [e', hc1] at hx; cases hx
      rw [(run_frame h1 x hxc (Or.inr hx)).2]
      exact hempty x (hold x hx)
    have hclosed := (run_closed h1).1
    have hstack2 : ∀ y, st1.color y = true →
        (∃ z, Linked adj chimeric y z ∧ st1.color z = false) → TreeAnc te y n := by
      intro y hy hz
      obtain ⟨z, hl, hz⟩ := hz
      cases hy0 : st.color y with
      | true => exact hstack y hy0 ⟨z, hl, hold z hz⟩
      | false =>
        obtain ⟨_, hzc, e', he', hez⟩ := hl
        have := hclosed y hy0 hy e' he' (by rw [hez]; exact hzc)
        rw [hez, hz] at this; cases this
    have hnbr2 : ∀ y, st1.color y = true → Linked adj chimeric n y →
        TreeAnc te y n ∨ TreeAnc te n y := by
      intro y hy hl
      cases hy0 : st.color y with
      | true => exact hnbr y hy0 hl
      | false => exact Or.inr (Relation.ReflTransGen.head hkid (V y ⟨hy0, hy⟩).1)
    obtain ⟨A, B⟩ := (ih2 hn hch hfin2 hempty2 hstack2).2 es rfl (hm1 n hcol)
      (fun e' he' => hes e' (List.mem_cons_of_mem _ he')) hte hnbr2
    refine ⟨?_, ?_⟩
    · intro x hx
      cases hx1 : st1.color x with
      | true =>
        have hxN : NewIn st.color st1.color x := ⟨hx.1, hx1⟩
        obtain ⟨a, b⟩ := V x hxN
        refine ⟨Relation.ReflTransGen.head hkid a, ?_⟩
        rw [(hfr2 x (hnew1 x hxN) hx1).2]
        exact b
      | false => exact A x ⟨hx1, hx.2⟩
    · intro b hb
      rcases B b hb with h0 | h0
      · simp only [] at h0
        rw [hfr1.2] at h0
        exact Or.inl h0
      · exact Or.inr h0
  | back st n e es st' hc hcol1 h1 ih =>
    intro hn hch hfin hempty hstack
    refine ⟨(by intro h; cases h), ?_⟩
    intro es' hm hcol hes hte hnbr
    cases hm
    have hempty' : ∀ x, st.color x = false →
        store st.back_edges n (st.back_edges n ++ [e.s2]) x = [] := by
      intro x hx
      have hxn : x ≠ n := by intro e; rw [e, hcol] at hx; cases hx
      rw [store_other _ _ _ _ hxn]
      exact hempty x hx
    obtain ⟨A, B⟩ := (ih hn hch hfin hempty' hstack).2 es rfl hcol
      (fun e' he' => hes e' (List.mem_cons_of_mem _ he')) hte hnbr
    refine ⟨A, ?_⟩
    intro b hb
    rcases B b hb with h0 | h0
    · simp only [store_same] at h0
      rcases List.mem_append.mp h0 with h0 | h0
      · exact Or.inl h0
      · rw [List.mem_singleton] at h0
        rw [h0]
        exact Or.inr (hnbr e.s2 hcol1 ⟨hch, hc, e, hes e (List.mem_cons_self _ _), rfl⟩)
    · exact Or.inr h0

end DfsCluster

namespace DfsCluster

/-- One round of the tree-edge loop of `scan_artipoint_ret`, with the two tests on
`child_level` folded into one. -/
theorem scan_children_ret_step
    (scan : arti_state → (Nat → Nat) → Nat → Nat → Option (Nat × arti_state × (Nat → Nat)))
    (l c : Nat) (cs : List Nat) (st st1 : arti_state) (ret ret1 : Nat → Nat)
    (atri : Bool) (mn0 mnc : Nat) (hl : l ≤ INT_MAX) (h0 : mn0 ≤ INT_MAX)
    (hscan : scan st ret c (l + 1) = some (mnc, st1, ret1)) :
    scan_artipoint_children_ret scan l (c :: cs) st ret atri mn0 =
      scan_artipoint_children_ret scan l cs st1 ret1 (decide (l ≤ mnc) || atri)
        (min mn0 mnc) := by
  rw [scan_artipoint_children_ret, hscan]
  simp only []
  by_cases hmax : mnc = INT_MAX
  · rw [if_pos hmax]
    have h1 : decide (l ≤ mnc) = true := by rw [hmax]; exact decide_eq_true hl
    have h2 : min mn0 mnc = mn0 := by rw [hmax]; exact Nat.min_eq_left h0
    rw [h1, h2, Bool.true_or]
  · rw [if_neg hmax]
    have h1 : (if mnc ≥ l then true else atri) = (decide (l ≤ mnc) || atri) := by
      by_cases hge : l ≤ mnc
      · rw [if_pos hge, decide_eq_true hge, Bool.true_or]
      · rw [if_neg hge, decide_eq_false hge, Bool.false_or]
    have h2 : (if mnc < mn0 then mnc else mn0) = min mn0 mnc := by
      by_cases hlt : mnc < mn0
      · rw [if_pos hlt, Nat.min_eq_right (le_of_lt hlt)]
      · rw [if_neg hlt, Nat.min_eq_left (not_lt.mp hlt)]
    rw [h1, h2]

theorem map_congr_mem {α : Type} (f g : Nat → α) (xs : List Nat)
    (h : ∀ x ∈ xs, f x = g x) : xs.map f = xs.map g :=
  List.map_congr_left h

/-- `RetEq` only looks at the node, its children and its back-edge targets. -/
theorem retEq_congr {te be : Nat → List Nat} {lv lv' ret ret' : Nat → Nat} {v : Nat}
    (h : RetEq te be lv ret v) (hv : ret' v = ret v)
    (hk : ∀ w ∈ te v, ret' w = ret w) (hb : ∀ b ∈ be v, lv' b = lv b) :
    RetEq te be lv' ret' v := by
  unfold RetEq at h ⊢
  rw [hv, h, map_congr_mem ret' ret (te v) hk, map_congr_mem lv' lv (be v) hb]

/-- The rest of the tree-edge loop after the scan of the child `k`. -/
theorem loopRet_tree {te be : Nat → List Nat} {n l k : Nat} {col col1 col' : Nat → Bool}
    {ast ast1 ast' : arti_state} {ret ret1 ret' : Nat → Nat}
    {atri atri' : Bool} {mn0 mnc mn' : Nat} {cs bs : List Nat}
    (hm1 : ∀ v, col v = true → col1 v = true) (hm2 : ∀ v, col1 v = true → col' v = true)
    (hcol0 : col k = false) (hc1 : col1 k = true)
    (V : VisitRet te be k (l + 1) col col1 ast ast1 ret ret1 mnc)
    (L : LoopRet te be n l col1 col' ast1 ast' ret1 ret'
      (decide (l ≤ mnc) || atri) atri' (min mn0 mnc) mn' cs bs) :
    LoopRet te be n l col col' ast ast' ret ret' atri atri' mn0 mn' (k :: cs) bs := by
  have hsplit := newIn_split hm1 hm2
  have hold : ∀ v, col1 v = true → ast'.level v = ast1.level v ∧
      ast'.arti_points v = ast1.arti_points v ∧ ret' v = ret1 v := by
    intro v hv
    apply L.frame v
    intro hN
    have := hN.1
    rw [hv] at this; cases this
  have hretk : ret' k = mnc := by rw [(hold k hc1).2.2, V.ret_self]
  exact
    { frame := by
        intro v hv
        rw [hsplit] at hv
        have a := L.frame v (fun h => hv (Or.inr h))
        have b := V.frame v (fun h => hv (Or.inl h))
        exact ⟨a.1.trans b.1, a.2.1.trans b.2.1, a.2.2.trans b.2.2⟩
      lev_cs := by
        intro c hc
        rcases List.mem_cons.mp hc with e | e
        · rw [e, (hold k hc1).1, V.lev_self]
        · exact L.lev_cs c e
      lev_kids := by
        intro p hp w hw
        rcases (hsplit p).mp hp with h | h
        · rw [(hold p h.2).1, (hold w (V.kids_new p h w hw).2).1]
          exact V.lev_kids p h w hw
        · exact L.lev_kids p h w hw
      bound := by
        intro v hv
        rcases (hsplit v).mp hv with h | h
        · rw [(hold v h.2).1, (hold v h.2).2.2]
          exact V.bound v h
        · exact L.bound v h
      mn_eq := by
        rw [L.mn_eq, List.map_cons, List.foldl_cons, hretk]
      atri_iff := by
        rw [L.atri_iff]
        constructor
        · rintro (h | ⟨c, hc, h⟩)
          · rcases Bool.or_eq_true_iff.mp h with h | h
            · exact Or.inr ⟨k, List.mem_cons_self _ _, by rw [hretk]; exact of_decide_eq_true h⟩
            · exact Or.inl h
          · exact Or.inr ⟨c, List.mem_cons_of_mem _ hc, h⟩
        · rintro (h | ⟨c, hc, h⟩)
          · exact Or.inl (by rw [h, Bool.or_true])
          · rcases List.mem_cons.mp hc with e | e
            · left
              rw [e, hretk] at h
              rw [decide_eq_true h, Bool.true_or]
            · exact Or.inr ⟨c, e, h⟩
      ret_eq := by
        intro v hv
        rcases (hsplit v).mp hv with h | h
        · exact retEq_congr (V.ret_eq v h) (hold v h.2).2.2
            (fun w hw => (hold w (V.kids_new v h w hw).2).2.2)
            (fun b hb => (hold b (V.backs_col v h b hb)).1)
        · exact L.ret_eq v h
      flag := by
        intro v hv h0
        rcases (hsplit v).mp hv with h | h
        · rw [(hold v h.2).2.1, (hold v h.2).1, V.flag v h (fun hh => by omega) h0]
          constructor
          · rintro ⟨c, hc, hle⟩
            exact ⟨c, hc, by rw [(hold c (V.kids_new v h c hc).2).2.2]; exact hle⟩
          · rintro ⟨c, hc, hle⟩
            exact ⟨c, hc, by rw [← (hold c (V.kids_new v h c hc).2).2.2]; exact hle⟩
        · have hn1 : ¬ NewIn col col1 v := by
            intro hh
            have := h.1
            rw [hh.2] at this; cases this
          exact L.flag v h (by rw [(V.frame v hn1).2.1]; exact h0)
      cs_new := by
        intro c hc
        rcases List.mem_cons.mp hc with e | e
        · rw [e]; exact ⟨hcol0, hm2 k hc1⟩
        · exact (hsplit c).mpr (Or.inr (L.cs_new c e))
      kids_new := by
        intro p hp w hw
        rcases (hsplit p).mp hp with h | h
        · exact (hsplit w).mpr (Or.inl (V.kids_new p h w hw))
        · exact (hsplit w).mpr (Or.inr (L.kids_new p h w hw))
      bs_col := L.bs_col
      backs_col := by
        intro p hp b hb
        rcases (hsplit p).mp hp with h | h
        · exact hm2 b (V.backs_col p h b hb)
        · exact L.backs_col p h b hb }

/-- The call for `n` once its tree-edge loop is known. -/
theorem visitRet_of_loop {te be : Nat → List Nat} {n l : Nat} {col col' : Nat → Bool}
    {ast ast1 ast' : arti_state} {ret ret1 : Nat → Nat} {atri' : Bool} {mn' : Nat}
    (hl : l ≤ INT_MAX) (hcol : col n = false)
    (hm : ∀ v, store col n true v = true → col' v = true)
    (L : LoopRet te be n l (store col n true) col'
      { ast with level := store ast.level n l } ast1 ret ret1
      false atri' INT_MAX mn' (te n) (be n))
    (hlev : ast'.level = ast1.level)
    (hap : ∀ v, v ≠ n → ast'.arti_points v = ast1.arti_points v)
    (hapn : ast'.arti_points n = ((atri' && l != 0) || ast1.arti_points n)) :
    VisitRet te be n l col col' ast ast'
      ret (store ret1 n (scan_artipoint_back ast1.level (be n) mn'))
      (scan_artipoint_back ast1.level (be n) mn') := by
  have hnew : ∀ v, NewIn col col' v → v ≠ n → NewIn (store col n true) col' v := by
    intro v hv hvn
    exact ⟨(store_other _ _ _ _ hvn).trans hv.1, hv.2⟩
  have hnew' : ∀ v, NewIn (store col n true) col' v → NewIn col col' v ∧ v ≠ n := by
    intro v hv
    have hvn : v ≠ n := by
      intro e
      have := hv.1
      rw [e, store_same] at this; cases this
    have := hv.1
    rw [store_other _ _ _ _ hvn] at this
    exact ⟨⟨this, hv.2⟩, hvn⟩
  have hnN : ¬ NewIn (store col n true) col' n := by
    intro h
    exact (hnew' n h).2 rfl
  have hfn := L.frame n hnN
  simp only [store_same] at hfn
  have hkn : ∀ v, NewIn col col' v → ∀ w ∈ te v, w ≠ n := by
    intro v hv w hw
    by_cases hvn : v = n
    · exact (hnew' w (L.cs_new w (hvn ▸ hw))).2
    · exact (hnew' w (L.kids_new v (hnew v hv hvn) w hw)).2
  have hmn' : mn' ≤ INT_MAX := by
    rw [L.mn_eq]; exact foldl_min_le_init _ _
  have hmn : scan_artipoint_back ast1.level (be n) mn' ≤ INT_MAX :=
    le_trans (scan_back_spec ast1.level (be n) mn').1 hmn'
  exact
    { frame := by
        intro v hv
        have hvn : v ≠ n := by
          intro e
          rw [e] at hv
          exact hv ⟨hcol, hm n (store_same _ _ _)⟩
        have a := L.frame v (fun h => hv (hnew' v h).1)
        simp only [store_other _ _ _ _ hvn] at a
        rw [hlev, hap v hvn, store_other _ _ _ _ hvn]
        exact a
      lev_self := by rw [hlev]; exact hfn.1
      lev_kids := by
        intro p hp w hw
        rw [hlev]
        by_cases hpn : p = n
        · rw [hpn, hfn.1]
          exact L.lev_cs w (hpn ▸ hw)
        · exact L.lev_kids p (hnew p hp hpn) w hw
      bound := by
        intro v hv
        rw [hlev]
        by_cases hvn : v = n
        · rw [hvn, hfn.1, store_same]
          exact ⟨hl, hmn⟩
        · rw [store_other _ _ _ _ hvn]
          exact L.bound v (hnew v hv hvn)
      ret_self := store_same _ _ _
      ret_eq := by
        intro v hv
        rw [hlev]
        by_cases hvn : v = n
        · unfold RetEq
          rw [hvn, store_same, scan_back_fold, L.mn_eq, ← List.foldl_append]
          rw [map_congr_mem (store ret1 n _) ret1 (te n)
            (fun w hw => store_other _ _ _ _ (hkn n (hvn ▸ hv) w hw))]
        · exact retEq_congr (L.ret_eq v (hnew v hv hvn)) (store_other _ _ _ _ hvn)
            (fun w hw => store_other _ _ _ _ (hkn v hv w hw)) (fun _ _ => rfl)
      root_flag := by
        intro hl0
        rw [hapn, hl0, hfn.2.1]
        simp
      flag := by
        intro v hv hnr h0
        rw [hlev]
        have hk : (∃ k ∈ te v, ast1.level v ≤
              store ret1 n (scan_artipoint_back ast1.level (be n) mn') k) ↔
            ∃ k ∈ te v, ast1.level v ≤ ret1 k := by
          constructor
          · rintro ⟨k, hk, hle⟩
            exact ⟨k, hk, by rw [store_other _ _ _ _ (hkn v hv k hk)] at hle; exact hle⟩
          · rintro ⟨k, hk, hle⟩
            exact ⟨k, hk, by rw [store_other _ _ _ _ (hkn v hv k hk)]; exact hle⟩
        rw [hk]
        by_cases hvn : v = n
        · have hl0 : l ≠ 0 := fun e => hnr ⟨hvn, e⟩
          rw [hvn] at h0 ⊢
          rw [hapn, hfn.2.1, h0, Bool.or_false, hfn.1]
          have hlb : (l != 0) = true := by simpa using hl0
          rw [hlb, Bool.and_true, L.atri_iff]
          constructor
          · rintro (h | h)
            · cases h
            · exact h
          · exact fun h => Or.inr h
        · rw [hap v hvn]
          apply L.flag v (hnew v hv hvn)
          show ast.arti_points v = false
          exact h0
      kids_new := by
        intro p hp w hw
        by_cases hpn : p = n
        · exact (hnew' w (L.cs_new w (hpn ▸ hw))).1
        · exact (hnew' w (L.kids_new p (hnew p hp hpn) w hw)).1
      backs_col := by
        intro p hp b hb
        by_cases hpn : p = n
        · exact L.bs_col b (hpn ▸ hb)
        · exact L.backs_col p (hnew p hp hpn) b hb }

/-- The traced articulation scan follows the search: for a visit of `n` (first
part) and for the rest of the adjacency loop of `n` (second part), run on the
final edge arrays `te`, `be`, it returns and has done what `VisitRet` / `LoopRet`
say. -/
theorem scan_ret_run {adj : Nat → List fasta_t} {chimeric : Nat → Bool} {n_seq : Nat}
    (hr : ∀ u, u < n_seq → ∀ e ∈ adj u, e.s2 < n_seq)
    (hmax : n_seq ≤ INT_MAX) (te be : Nat → List Nat)
    {st : dfs_state} {n : Nat} {m : Option (List fasta_t)} {st' : dfs_state}
    (h : Run adj chimeric st n m st') :
    n < n_seq →
    (∀ x, NewIn st.color st'.color x →
      te x = st'.tree_edges x ∧ be x = st'.back_edges x) →
    (∀ x, st.color x = false → st.tree_edges x = [] ∧ st.back_edges x = []) →
    ∀ (fuel : Nat), uncolored n_seq st ≤ fuel →
    ∀ (ast : arti_state) (ret : Nat → Nat) (l : Nat),
    (m = none → st.color n = false → l + uncolored n_seq st ≤ n_seq →
      ∃ mn ast' ret', scan_artipoint_ret te be fuel ast ret n l = some (mn, ast', ret') ∧
        VisitRet te be n l st.color st'.color ast ast' ret ret' mn) ∧
    (∀ es, m = some es → st.color n = true → (∀ e ∈ es, e ∈ adj n) →
      l + 1 + uncolored n_seq st ≤ n_seq → ast.level n = l →
      ∀ (atri : Bool) (mn0 : Nat), mn0 ≤ INT_MAX →
      ∃ cs bs atri' mn' ast' ret',
        st'.tree_edges n = st.tree_edges n ++ cs ∧
        st'.back_edges n = st.back_edges n ++ bs ∧
        scan_artipoint_children_ret (scan_artipoint_ret te be fuel) l cs ast ret atri mn0 =
          some (atri', mn', ast', ret') ∧
        LoopRet te be n l st.color st'.color ast ast' ret ret' atri atri' mn0 mn' cs bs) := by
  induction h with
  | visit st n st' h1 ih =>
    intro hn hfin hempty fuel hfuel ast ret l
    refine ⟨?_, by intro es h; cases h⟩
    intro _ hcol hlev
    have hpos : 0 < uncolored n_seq st := uncolored_pos st n hn hcol
    obtain ⟨f, rfl⟩ : ∃ f, fuel = f + 1 := ⟨fuel - 1, by omega⟩
    have hst := uncolored_store st n hn hcol st.tree_edges st.back_edges (st.component ++ [n])
    have hm : ∀ v, store st.color n true v = true → st'.color v = true :=
      fun v hv => run_mono h1 v hv
    have hfin0 : ∀ x, NewIn (store st.color n true) st'.color x →
        te x = st'.tree_edges x ∧ be x = st'.back_edges x := by
      intro x hx
      have hxn : x ≠ n := by
        intro e
        have := hx.1
        rw [e, store_same] at this; cases this
      have := hx.1
      rw [store_other _ _ _ _ hxn] at this
      exact hfin x ⟨this, hx.2⟩
    have hempty0 : ∀ x, store st.color n true x = false →
        st.tree_edges x = [] ∧ st.back_edges x = [] := by
      intro x hx
      have hxn : x ≠ n := by intro e; rw [e, store_same] at hx; cases hx
      rw [store_other _ _ _ _ hxn] at hx
      exact hempty x hx
    obtain ⟨cs, bs, atri', mn', ast1, ret1, b1, b2, b4, L⟩ :=
      (ih hn hfin0 hempty0 f (by omega) { ast with level := store ast.level n l } ret l).2
        (adj n) rfl (store_same _ _ _) (fun e he => he) (by omega) (store_same _ _ _)
        false INT_MAX (le_refl _)
    simp only [] at b1 b2
    have hn' : st'.color n = true := hm n (store_same _ _ _)
    have hte : te n = cs := by
      rw [(hfin n ⟨hcol, hn'⟩).1, b1, (hempty n hcol).1, List.nil_append]
    have hbe : be n = bs := by
      rw [(hfin n ⟨hcol, hn'⟩).2, b2, (hempty n hcol).2, List.nil_append]
    rw [← hte, ← hbe] at L
    refine ⟨scan_artipoint_back ast1.level (be n) mn',
      if (atri' && l != 0) = true then
        { ast1 with arti_points := store ast1.arti_points n true, n_arti := ast1.n_arti + 1 }
      else ast1, store ret1 n (scan_artipoint_back ast1.level (be n) mn'), ?_, ?_⟩
    · rw [scan_artipoint_ret, hte, b4]
      simp only [hbe]
      split <;> rfl
    · refine visitRet_of_loop (by omega) hcol hm L ?_ ?_ ?_
      · split <;> rfl
      · intro v hvn
        split
        · exact store_other _ _ _ _ hvn
        · rfl
      · split
        · rename_i hc
          rw [hc, Bool.true_or]
          exact store_same _ _ _
        · rename_i hc
          have : (atri' && l != 0) = false := by simpa using hc
          rw [this, Bool.false_or]
  | done st n =>
    intro hn hfin hempty fuel hfuel ast ret l
    refine ⟨(by intro h; cases h), ?_⟩
    intro es hm hcol hes hlev hlevn atri mn0 hmn0
    have hnone : ∀ v, ¬ NewIn st.color st.color v := by
      intro v hv
      have h1 := hv.1
      rw [hv.2] at h1; cases h1
    refine ⟨[], [], atri, mn0, ast, ret, by simp, by simp, rfl, ?_⟩
    exact
      { frame := fun v _ => ⟨rfl, rfl, rfl⟩
        lev_cs := by intro c hc; cases hc
        lev_kids := fun p hp => absurd hp (hnone p)
        bound := fun p hp => absurd hp (hnone p)
        mn_eq := rfl
        atri_iff := by simp
        ret_eq := fun p hp => absurd hp (hnone p)
        flag := fun p hp => absurd hp (hnone p)
        cs_new := by intro c hc; cases hc
        kids_new := fun p hp => absurd hp (hnone p)
        bs_col := by intro c hc; cases hc
        backs_col := fun p hp => absurd hp (hnone p) }
  | skip st n e es st' hc h1 ih =>
    intro hn hfin hempty fuel hfuel ast ret l
    refine ⟨(by intro h; cases h), ?_⟩
    intro es' hm hcol hes hlev hlevn atri mn0 hmn0
    cases hm
    exact (ih hn hfin hempty fuel hfuel ast ret l).2 es rfl hcol
      (fun e' he' => hes e' (List.mem_cons_of_mem _ he')) hlev hlevn atri mn0 hmn0
  | tree st n e es st1 st' hc hcol0 h1 h2 ih1 ih2 =>
    intro hn hfin hempty fuel hfuel ast ret l
    refine ⟨(by intro h; cases h), ?_⟩
    intro es' hm hcol hes hlev hlevn atri mn0 hmn0
    cases hm
    have hcn : e.s2 < n_seq := hr n hn e (hes e (List.mem_cons_self _ _))
    have hm1 : ∀ v, st.color v = true → st1.color v = true := run_mono h1
    have hm2 : ∀ v, st1.color v = true → st'.color v = true := fun v hv => run_mono h2 v hv
    have hc1 : st1.color e.s2 = true := run_color_self h1
    have hcne : e.s2 ≠ n := by intro e'; rw [e', hcol] at hcol0; cases hcol0
    have hfr1 := run_frame h1 n (Ne.symm hcne) (Or.inl hcol)
    have hl : l ≤ INT_MAX := by omega
    have hnNc : ¬ NewIn st.color st1.color n := by
      intro hv
      have := hv.1
      rw [hcol] at this; cases this
    have hold : ∀ v, st1.color v = false → st.color v = false := by
      intro v hv
      cases hv0 : st.color v with
      | false => rfl
      | true => rw [hm1 v hv0] at hv; cases hv
    have hfin1 : ∀ x, NewIn st.color st1.color x →
        te x = st1.tree_edges x ∧ be x = st1.back_edges x := by
      intro x hx
      have hxn : x ≠ n := by intro e'; rw [e'] at hx; exact hnNc hx
      have a := hfin x ⟨hx.1, hm2 x hx.2⟩
      have b := run_frame h2 x hxn (Or.inl hx.2)
      simp only [store_other _ _ _ _ hxn] at b
      exact ⟨a.1.trans b.1, a.2.trans b.2⟩
    obtain ⟨mnc, ast1, ret1, hscan, V⟩ :=
      (ih1 hcn hfin1 hempty fuel hfuel ast ret (l + 1)).1 rfl hcol0 (by omega)
    have hfin2 : ∀ x, NewIn st1.color st'.color x →
        te x = st'.tree_edges x ∧ be x = st'.back_edges x :=
      fun x hx => hfin x ⟨hold x hx.1, hx.2⟩
    have hempty2 : ∀ x, st1.color x = false →
        store st1.tree_edges n (st1.tree_edges n ++ [e.s2]) x = [] ∧ st1.back_edges x = [] := by
      intro x hx
      have hxn : x ≠ n := by intro e'; rw [e', hm1 n hcol] at hx; cases hx
      have hxc : x ≠ e.s2 := by intro e'; rw [e', hc1] at hx; cases hx
      rw [store_other _ _ _ _ hxn]
      have a := run_frame h1 x hxc (Or.inr hx)
      rw [a.1, a.2]
      exact hempty x (hold x hx)
    have hunc : uncolored n_seq
        { st1 with tree_edges := store st1.tree_edges n (st1.tree_edges n ++ [e.s2]) } ≤
        uncolored n_seq st := uncolored_mono hm1
    have hlevn2 : ast1.level n = l := by rw [(V.frame n hnNc).1]; exact hlevn
    obtain ⟨cs, bs, atri', mn', ast', ret', b1, b2, b4, L⟩ :=
      (ih2 hn hfin2 hempty2 fuel (le_trans hunc hfuel) ast1 ret1 l).2 es rfl (hm1 n hcol)
        (fun e' he' => hes e' (List.mem_cons_of_mem _ he')) (by omega) hlevn2
        (decide (l ≤ mnc) || atri) (min mn0 mnc)
        (le_trans (Nat.min_le_left _ _) hmn0)
    simp only [store_same] at b1
    simp only [] at b2
    refine ⟨e.s2 :: cs, bs, atri', mn', ast', ret', ?_, ?_, ?_, ?_⟩
    · rw [b1, hfr1.1, List.append_assoc, List.singleton_append]
    · rw [b2, hfr1.2]
    · rw [scan_children_ret_step _ l e.s2 cs ast ast1 ret ret1 atri mn0 mnc hl hmn0 hscan]
      exact b4
    · exact loopRet_tree hm1 hm2 hcol0 hc1 V L
  | back st n e es st' hc hcol1 h1 ih =>
    intro hn hfin hempty fuel hfuel ast ret l
    refine ⟨(by intro h; cases h), ?_⟩
    intro es' hm hcol hes hlev hlevn atri mn0 hmn0
    cases hm
    have hempty' : ∀ x, st.color x = false →
        st.tree_edges x = [] ∧ store st.back_edges n (st.back_edges n ++ [e.s2]) x = [] := by
      intro x hx
      have hxn : x ≠ n := by intro e; rw [e, hcol] at hx; cases hx
      rw [store_other _ _ _ _ hxn]
      exact hempty x hx
    obtain ⟨cs, bs, atri', mn', ast', ret', a1, a2, a4, a5⟩ :=
      (ih hn hfin hempty' fuel hfuel ast ret l).2 es rfl hcol
        (fun e' he' => hes e' (List.mem_cons_of_mem _ he')) hlev hlevn atri mn0 hmn0
    refine ⟨cs, e.s2 :: bs, atri', mn', ast', ret', a1, ?_, a4, ?_⟩
    · rw [a2]
      simp only [store_same, List.append_assoc, List.singleton_append]
    · exact
        { frame := a5.frame
          lev_cs := a5.lev_cs
          lev_kids := a5.lev_kids
          bound := a5.bound
          mn_eq := a5.mn_eq
          atri_iff := a5.atri_iff
          ret_eq := a5.ret_eq
          flag := a5.flag
          cs_new := a5.cs_new
          kids_new := a5.kids_new
          bs_col := by
            intro b hb
            rcases List.mem_cons.mp hb with hb | hb
            · subst hb; exact run_mono h1 _ hcol1
            · exact a5.bs_col b hb
          backs_col := a5.backs_col }

end DfsCluster

namespace DfsCluster

theorem treeHeight_anc {te : Nat → List Nat} {k : Nat} {a x : Nat}
    (h : TreeHeight te a k) (hax : TreeAnc te a x) : TreeHeight te x k := by
  induction hax with
  | refl => exact h
  | tail _ hyx ih =>
    cases k with
    | zero => exact absurd ih (by simp [TreeHeight])
    | succ j => exact treeHeight_mono (ih _ hyx) (Nat.le_succ j)

/-- A node lies in one component only. -/
theorem comp_unique : ∀ {comps : List (List Nat)}, comps.flatten.Nodup →
    ∀ {c c' : List Nat}, c ∈ comps → c' ∈ comps → ∀ {x : Nat}, x ∈ c → x ∈ c' → c = c' := by
  intro comps
  induction comps with
  | nil => intro _ c c' hc; cases hc
  | cons a as ih =>
    intro hnd c c' hc hc' x hx hx'
    rw [List.flatten_cons, List.nodup_append] at hnd
    obtain ⟨_, hnd2, hdisj⟩ := hnd
    rcases List.mem_cons.mp hc with e | e
    · rcases List.mem_cons.mp hc' with e' | e'
      · rw [e, e']
      · rw [e] at hx
        exact absurd (List.mem_flatten.mpr ⟨c', e', hx'⟩) (fun h => hdisj hx h)
    · rcases List.mem_cons.mp hc' with e' | e'
      · rw [e'] at hx'
        exact absurd (List.mem_flatten.mpr ⟨c, e, hx⟩) (fun h => hdisj hx' h)
      · exact ih hnd2 e e' hx hx'

/-- The traced articulation scan of a component just discovered by a top-level
visit. -/
theorem retSpec_of_run {adj : Nat → List fasta_t} {chimeric : Nat → Bool} {n_seq : Nat}
    (hr : ∀ u, u < n_seq → ∀ e ∈ adj u, e.s2 < n_seq) (hmax : n_seq ≤ INT_MAX)
    (st : dfs_state) (i : Nat) (st1 : dfs_state)
    (hempty : EdgeFree st) (hi : i < n_seq) (hc : st.color i = false)
    (hrun : Run adj chimeric { st with component := [] } i none st1)
    (te be : Nat → List Nat)
    (hfin : ∀ x, st1.color x = true → te x = st1.tree_edges x ∧ be x = st1.back_edges x) :
    RetSpec n_seq te be st1.component := by
  obtain ⟨new, hnew, hnd, hmem⟩ := run_component hrun (fun _ => hc)
  obtain ⟨rest0, hrest⟩ := run_component_head hrun
  simp only [List.nil_append] at hnew hrest hmem
  have hmem' : ∀ v, v ∈ st1.component ↔ NewIn st.color st1.color v := by
    intro v; rw [hnew]; exact hmem v
  intro root rest hcr ap na ret0
  rw [hrest] at hcr
  obtain ⟨hroot, hrr⟩ := List.cons.inj hcr
  subst hroot
  subst hrr
  have hunc := uncolored_le n_seq { st with component := [] }
  obtain ⟨mn, ast', ret, hscan, V⟩ :=
    (scan_ret_run hr hmax te be hrun hi (fun x hx => hfin x hx.2) hempty n_seq hunc
      { level := fun _ => 0, arti_points := ap, n_arti := na } ret0 0).1 rfl hc (by omega)
  have hnd' : (i :: rest0).Nodup := by rw [← hrest, hnew]; exact hnd
  refine ⟨mn, ast', ret, hscan, V.lev_self, ?_, ?_, ?_, ?_, ?_⟩
  · intro p hp w hw
    exact V.lev_kids p ((hmem' p).mp (hrest ▸ hp)) w hw
  · intro v hv
    exact V.bound v ((hmem' v).mp (hrest ▸ hv))
  · intro v hv
    exact V.ret_eq v ((hmem' v).mp (hrest ▸ hv))
  · intro v hv
    by_cases hvi : v = i
    · rw [hvi]; exact V.root_flag rfl
    · have hvc : v ∉ st1.component := by
        rw [hrest]
        intro h
        rcases List.mem_cons.mp h with e | e
        · exact hvi e
        · exact hv e
      exact (V.frame v (fun h => hvc ((hmem' v).mpr h))).2.1
  · intro v hv h0
    have hvi : v ≠ i := by
      intro e
      rw [e] at hv
      exact (List.nodup_cons.mp hnd').1 hv
    exact V.flag v ((hmem' v).mp (hrest ▸ List.mem_cons_of_mem _ hv))
      (fun h => hvi h.1) h0

theorem retInv_step {adj : Nat → List fasta_t} {chimeric : Nat → Bool} {n_seq : Nat}
    (hr : ∀ u, u < n_seq → ∀ e ∈ adj u, e.s2 < n_seq) (hmax : n_seq ≤ INT_MAX)
    (st : dfs_state) (comps : List (List Nat)) (i : Nat) (st1 : dfs_state)
    (hP : RetInv n_seq st comps) (hi : i < n_seq) (hc : st.color i = false)
    (hrun : Run adj chimeric { st with component := [] } i none st1) :
    RetInv n_seq st1 (comps ++ [st1.component]) := by
  obtain ⟨p2, p3⟩ := hP
  have hm : ∀ v, st.color v = true → st1.color v = true := fun v hv => run_mono hrun v hv
  refine ⟨?_, ?_⟩
  · intro x hx
    have hxi : x ≠ i := by
      intro e; rw [e, run_color_self hrun] at hx; cases hx
    have a := run_frame hrun x hxi (Or.inr hx)
    simp only [] at a
    rw [a.1, a.2]
    apply p2
    cases h0 : st.color x with
    | false => rfl
    | true => rw [hm x h0] at hx; cases hx
  · intro c hcm te be hfin
    rcases List.mem_append.mp hcm with hcm | hcm
    · apply p3 c hcm te be
      intro x hx
      have hxi : x ≠ i := by intro e; rw [e, hc] at hx; cases hx
      have a := run_frame hrun x hxi (Or.inl hx)
      simp only [] at a
      rw [← a.1, ← a.2]
      exact hfin x (hm x hx)
    · have hceq : c = st1.component := by simpa using hcm
      rw [hceq]
      exact retSpec_of_run hr hmax st i st1 p2 hi hc hrun te be hfin

theorem ancInv_step {adj : Nat → List fasta_t} {chimeric : Nat → Bool} {n_seq : Nat}
    (hr : ∀ u, u < n_seq → ∀ e ∈ adj u, e.s2 < n_seq) (hs : SymmetricAdj n_seq adj)
    (st : dfs_state) (comps : List (List Nat)) (i : Nat) (st1 : dfs_state)
    (hC : ConnInv n_seq adj chimeric st comps) (hE : EdgeFree st)
    (hP : AncInv st comps) (hi : i < n_seq)
    (hc : st.color i = false) (hch : chimeric i = false)
    (hrun : Run adj chimeric { st with component := [] } i none st1) :
    AncInv st1 (comps ++ [st1.component]) := by
  obtain ⟨⟨p1, _, _⟩, _, p3, _⟩ := hC
  obtain ⟨new, hnew, _, hmem⟩ := run_component hrun (fun _ => hc)
  simp only [List.nil_append] at hnew hmem
  have hmono := run_tree_mono hrun
  simp only [] at hmono
  intro c hcm x hx b hb
  rcases List.mem_append.mp hcm with hcm | hcm
  · have hxc : st.color x = true := (p1 x).mpr (List.mem_flatten.mpr ⟨c, hcm, hx⟩)
    have hxi : x ≠ i := by intro e; rw [e, hc] at hxc; cases hxc
    have a := run_frame hrun x hxi (Or.inl hxc)
    simp only [] at a
    rw [a.2] at hb
    rcases hP c hcm x hx b hb with h | h
    · exact Or.inl (Relation.ReflTransGen.mono (fun p q hpq => hmono p q hpq) h)
    · exact Or.inr (Relation.ReflTransGen.mono (fun p q hpq => hmono p q hpq) h)
  · have hceq : c = st1.component := by simpa using hcm
    rw [hceq, hnew] at hx
    have hstack : ∀ y, st.color y = true →
        (∃ z, Linked adj chimeric y z ∧ st.color z = false) →
        TreeAnc st1.tree_edges y i := by
      rintro y hy ⟨z, hl, hz⟩
      obtain ⟨c', hc', hyc⟩ := List.mem_flatten.mp ((p1 y).mp hy)
      have := (p1 z).mpr (List.mem_flatten.mpr ⟨c', hc', p3 c' hc' y hyc z hl⟩)
      rw [hz] at this; cases this
    exact ((run_back_anc hr hs st1.tree_edges hrun hi hch (fun _ _ => rfl)
      (fun x hx => (hE x hx).2) hstack).1 rfl hc x ((hmem x).mp hx)).2 b hb

theorem scanInv_step {adj : Nat → List fasta_t} {chimeric : Nat → Bool} {n_seq : Nat}
    (hr : ∀ u, u < n_seq → ∀ e ∈ adj u, e.s2 < n_seq) (hs : SymmetricAdj n_seq adj)
    (hmax : n_seq ≤ INT_MAX)
    (st : dfs_state) (comps : List (List Nat)) (i : Nat) (st1 : dfs_state)
    (hP : ScanInv n_seq adj chimeric st comps) (hi : i < n_seq)
    (hc : st.color i = false) (hch : chimeric i = false)
    (hrun : Run adj chimeric { st with component := [] } i none st1) :
    ScanInv n_seq adj chimeric st1 (comps ++ [st1.component]) := by
  obtain ⟨q1, q2, q3, q4, q5, q6⟩ := hP
  exact ⟨connInv_step hr hs st comps i st1 q1 hi hc hch hrun,
    heightInv_step hr st comps i st1 q2 hi hc hrun,
    treeInv_step st comps i st1 q3 hc hrun,
    listsInv_step st comps i st1 q4 hc hrun,
    ancInv_step hr hs st comps i st1 q1 q4.1 q5 hi hc hch hrun,
    retInv_step hr hmax st comps i st1 q6 hi hc hrun⟩

theorem scanInv_init (n_seq : Nat) (adj : Nat → List fasta_t) (chimeric : Nat → Bool) :
    ScanInv n_seq adj chimeric dfs_init [] := by
  refine ⟨⟨⟨(by intro v; simp [dfs_init]), (by simp), (by intro v h; simp [dfs_init] at h)⟩,
      (by intro v h; simp [dfs_init] at h), (by intro c hc; cases hc),
      (by intro c hc; cases hc)⟩,
    ⟨fun _ _ => rfl, (by intro c hc; cases hc)⟩,
    ⟨(by intro x v h; cases h), (by intro c hc; cases hc), (by intro c hc; cases hc)⟩,
    ⟨(by intro x _; exact ⟨rfl, rfl⟩), (by intro x h; simp [dfs_init] at h)⟩,
    (by intro c hc; cases hc),
    ⟨(by intro x _; exact ⟨rfl, rfl⟩), (by intro c hc; cases hc)⟩⟩

/-- What the invariants say of one component in the final state. -/
theorem final_tree {adj : Nat → List fasta_t} {chimeric : Nat → Bool} {n_seq : Nat}
    {st : dfs_state} {comps : List (List Nat)}
    (hP : ScanInv n_seq adj chimeric st comps) {c : List Nat} (hc : c ∈ comps) :
    RootedTree st.tree_edges c ∧
    (∀ p ∈ c, ∀ w ∈ st.tree_edges p, w ∈ c) ∧
    (∀ x ∈ c, ∀ b ∈ st.back_edges x,
      TreeAnc st.tree_edges b x ∨ TreeAnc st.tree_edges x b) ∧
    (∀ x, TreeHeight st.tree_edges x n_seq) ∧
    RetSpec n_seq st.tree_edges st.back_edges c := by
  obtain ⟨⟨⟨p1, p2, _⟩, prange, _, _⟩, ⟨h1, h2⟩, ⟨t1, _, t3⟩, _, hA, ⟨_, hR⟩⟩ := hP
  have hT := t3 c hc
  refine ⟨hT, ?_, hA c hc, ?_, hR c hc _ _ (fun _ _ => ⟨rfl, rfl⟩)⟩
  · intro p hp w hw
    have hwc : st.color w = true := t1 p w hw
    obtain ⟨c', hc', hwc'⟩ := List.mem_flatten.mp ((p1 w).mp hwc)
    have hpc' := (rooted_parent (t3 c' hc') hwc' hw).1
    rw [comp_unique p2 hc hc' hp hpc']
    exact hwc'
  · obtain ⟨root, rest, hcr, _, _, _⟩ := hT
    have hpos : 1 ≤ n_seq := by
      have := prange root ((p1 root).mpr (List.mem_flatten.mpr ⟨c, hc, by rw [hcr]; exact List.mem_cons_self _ _⟩))
      omega
    intro x
    cases hx : st.color x with
    | false =>
      have : TreeHeight st.tree_edges x 1 := by
        intro w hw
        rw [h1 x hx] at hw; cases hw
      exact treeHeight_mono this hpos
    | true =>
      obtain ⟨c', hc', hxc'⟩ := List.mem_flatten.mp ((p1 x).mp hx)
      obtain ⟨root', rest', hcr', _, _, hreach⟩ := t3 c' hc'
      have hroot := h2 c' hc' root' (by rw [hcr']; rfl) st.tree_edges (fun _ _ => rfl)
      exact treeHeight_anc hroot (hreach x hxc')

/-- With symmetric adjacency lists the value returned for a member of a component
of at least two nodes is at most the member's level: a non-root member has a
back edge to its parent, and the root has a child. -/
theorem ret_le_level {adj : Nat → List fasta_t} {chimeric : Nat → Bool} {n_seq : Nat}
    (hs : SymmetricAdj n_seq adj)
    {st : dfs_state} {comps : List (List Nat)}
    (hP : ScanInv n_seq adj chimeric st comps) {c : List Nat} (hc : c ∈ comps)
    {root : Nat} {rest : List Nat} (hcr : c = root :: rest) (hne : rest ≠ [])
    {lv ret : Nat → Nat} (hlv0 : lv root = 0)
    (hlv : ∀ p ∈ c, ∀ w ∈ st.tree_edges p, lv w = lv p + 1)
    (hret : ∀ v ∈ c, RetEq st.tree_edges st.back_edges lv ret v) :
    ∀ v ∈ c, ret v ≤ lv v := by
  obtain ⟨hT, hM, _, _, _⟩ := final_tree hP hc
  obtain ⟨⟨⟨p1, _, p3⟩, prange, _, _⟩, _, _, ⟨_, hL⟩, _, _⟩ := hP
  have hcol : ∀ v ∈ c, st.color v = true :=
    fun v hv => (p1 v).mpr (List.mem_flatten.mpr ⟨c, hc, hv⟩)
  obtain ⟨root', rest', hcr', hroot, hpar, hreach⟩ := hT
  rw [hcr] at hcr'
  obtain ⟨e1, e2⟩ := List.cons.inj hcr'
  subst e1
  subst e2
  have hlive : ∀ x y, y ∈ live_targets chimeric (adj x) ↔
      chimeric y = false ∧ ∃ e ∈ adj x, e.s2 = y := by
    intro x y
    unfold live_targets
    rw [List.mem_map]
    constructor
    · rintro ⟨e, he, rfl⟩
      rw [List.mem_filter] at he
      exact ⟨by simpa using he.2, e, he.1, rfl⟩
    · rintro ⟨hy, e, he, rfl⟩
      exact ⟨e, List.mem_filter.mpr ⟨he, by simpa using hy⟩, rfl⟩
  have hnonroot : ∀ v ∈ rest, ret v < lv v := by
    intro v hv
    have hvc : v ∈ c := by rw [hcr]; exact List.mem_cons_of_mem _ hv
    obtain ⟨p, hp, hcount, _⟩ := hpar v hv
    have hvp : v ∈ st.tree_edges p := List.count_pos_iff.mp (by omega)
    have hlvv := hlv p hp v hvp
    have h1 : v ∈ live_targets chimeric (adj p) :=
      (hL p (hcol p hp)).subset (List.mem_append_left _ hvp)
    obtain ⟨_, hadj⟩ := (hlive p v).mp h1
    have hadj' := (hs p v (prange p (hcol p hp)) (prange v (hcol v hvc))).mp hadj
    have h2 : p ∈ live_targets chimeric (adj v) :=
      (hlive v p).mpr ⟨p3 p (hcol p hp), hadj'⟩
    have h3 := (hL v (hcol v hvc)).symm.subset h2
    rcases List.mem_append.mp h3 with h3 | h3
    · have := hlv v hvc p h3
      omega
    · rw [hret v hvc]
      have := foldl_min_le_mem ((st.tree_edges v).map ret ++ (st.back_edges v).map lv)
        INT_MAX (lv p) (List.mem_append_right _ (List.mem_map.mpr ⟨p, h3, rfl⟩))
      omega
  intro v hv
  rw [hcr] at hv
  rcases List.mem_cons.mp hv with e | e
  · rw [e]
    obtain ⟨w, rest1, hw⟩ := List.exists_cons_of_ne_nil hne
    have hwr : w ∈ rest := by rw [hw]; exact List.mem_cons_self _ _
    have hwc : w ∈ c := by rw [hcr]; exact List.mem_cons_of_mem _ hwr
    have hwroot : w ≠ root := by
      intro e'
      obtain ⟨p, _, hcount, _⟩ := hpar w hwr
      have : w ∈ st.tree_edges p := List.count_pos_iff.mp (by omega)
      rw [e'] at this
      exact hroot p this
    have hrw := hreach w hwc
    rcases Relation.ReflTransGen.cases_head hrw with e' | ⟨k, hk, _⟩
    · exact absurd e'.symm hwroot
    · have hrc : root ∈ c := by rw [hcr]; exact List.mem_cons_self _ _
      have hkc : k ∈ c := hM root hrc k hk
      have hkr : k ∈ rest := by
        rw [hcr] at hkc
        rcases List.mem_cons.mp hkc with e'' | e''
        · rw [e''] at hk
          exact absurd hk (hroot root)
        · exact e''
      have h1 := hnonroot k hkr
      have h2 := hlv root hrc k hk
      rw [hret root hrc]
      have := foldl_min_le_mem ((st.tree_edges root).map ret ++ (st.back_edges root).map lv)
        INT_MAX (ret k) (List.mem_append_left _ (List.mem_map.mpr ⟨k, hk, rfl⟩))
      omega
  · exact le_of_lt (hnonroot v e)

/-- The reporting loop, for any description `Q` of the flags that the scan of a
component sets at its non-root members. -/
theorem arti_loop_tail (te be : Nat → List Nat) (n_seq : Nat) (Q : Nat → Prop) :
    ∀ (comps : List (List Nat)), comps.flatten.Nodup →
      (∀ c ∈ comps, ∀ (ap : Nat → Bool) (na : Nat), ∃ ap' na',
        (if c.length > 1 then scan_arti_points te be n_seq c ap na else some (ap, na)) =
          some (ap', na') ∧
        (∀ v, v ∉ c → ap' v = ap v) ∧
        (∀ v ∈ c.tail, ap v = false → (ap' v = true ↔ Q v))) →
      ∀ (ap : Nat → Bool) (na : Nat), ∃ ap' na',
        arti_loop te be n_seq comps ap na = some (ap', na') ∧
        (∀ v, v ∉ comps.flatten → ap' v = ap v) ∧
        (∀ c ∈ comps, ∀ v ∈ c.tail, ap v = false → (ap' v = true ↔ Q v)) := by
  intro comps
  induction comps with
  | nil =>
    intro _ _ ap na
    exact ⟨ap, na, rfl, fun _ _ => rfl, by intro c hc; cases hc⟩
  | cons c cs ih =>
    intro hnd hspec ap na
    rw [List.flatten_cons, List.nodup_append] at hnd
    obtain ⟨_, hnd2, hdisj⟩ := hnd
    obtain ⟨ap1, na1, e1, f1, g1⟩ := hspec c (List.mem_cons_self _ _) ap na
    obtain ⟨ap', na', e2, f2, g2⟩ := ih hnd2
      (fun c' hc' => hspec c' (List.mem_cons_of_mem _ hc')) ap1 na1
    have hstep : arti_loop te be n_seq (c :: cs) ap na = arti_loop te be n_seq cs ap1 na1 := by
      rw [arti_loop]
      by_cases hlen : c.length > 1
      · rw [if_pos hlen] at e1 ⊢
        rw [e1]
      · rw [if_neg hlen] at e1 ⊢
        simp only [Option.some.injEq, Prod.mk.injEq] at e1
        rw [e1.1, e1.2]
    refine ⟨ap', na', by rw [hstep, e2], ?_, ?_⟩
    · intro v hv
      rw [List.flatten_cons, List.mem_append, not_or] at hv
      rw [f2 v hv.2, f1 v hv.1]
    · intro c' hc' v hv h0
      rcases List.mem_cons.mp hc' with e | e
      · rw [e] at hv
        have hvc : v ∈ c := List.mem_of_mem_tail hv
        rw [f2 v (fun h => hdisj hvc h)]
        exact g1 v hv h0
      · have hvc' : v ∈ c' := List.mem_of_mem_tail hv
        have hvf : v ∈ cs.flatten := List.mem_flatten.mpr ⟨c', e, hvc'⟩
        have hvc : v ∉ c := fun h => hdisj h hvf
        exact g2 c' e v hv (by rw [f1 v hvc]; exact h0)

/-- The articulation scan of one component flags a non-root member iff
`scan_atri_point` returns 1 for it. -/
theorem comp_atri {adj : Nat → List fasta_t} {chimeric : Nat → Bool} {n_seq : Nat}
    {st : dfs_state} {comps : List (List Nat)}
    (hP : ScanInv n_seq adj chimeric st comps) {c : List Nat} (hc : c ∈ comps) :
    (∀ v ∈ c, ∃ r, scan_atri_point st.tree_edges st.back_edges n_seq v = some r) ∧
    ∀ (ap : Nat → Bool) (na : Nat), ∃ ap' na',
      (if c.length > 1 then scan_arti_points st.tree_edges st.back_edges n_seq c ap na
        else some (ap, na)) = some (ap', na') ∧
      (∀ v, v ∉ c → ap' v = ap v) ∧
      (∀ v ∈ c.tail, ap v = false →
        (ap' v = true ↔
          scan_atri_point st.tree_edges st.back_edges n_seq v = some true)) := by
  obtain ⟨hT, hM, hA, hH, hR⟩ := final_tree hP hc
  refine ⟨?_, ?_⟩
  · intro v _
    obtain ⟨r, hr, _⟩ := scan_atri_point_spec st.tree_edges st.back_edges v n_seq hH
    exact ⟨r, hr⟩
  · intro ap na
    obtain ⟨root, rest, hcr, hroot, hpar, _⟩ := id hT
    by_cases hlen : c.length > 1
    · rw [if_pos hlen]
      obtain ⟨k, rest1, hrest⟩ : ∃ k rest1, rest = k :: rest1 := by
        cases rest with
        | nil => rw [hcr] at hlen; simp at hlen
        | cons k rest1 => exact ⟨k, rest1, rfl⟩
      obtain ⟨mn, ast', ret, hscan, hlv0, hlv, hle, hret, hfr, hflag⟩ := hR root rest hcr
        (if (st.tree_edges root).length > 1 then store ap root true else ap) na (fun _ => 0)
      have herase := scan_artipoint_ret_erase st.tree_edges st.back_edges n_seq
        { level := fun _ => 0,
          arti_points := if (st.tree_edges root).length > 1 then store ap root true else ap,
          n_arti := na } (fun _ => 0) root 0
      rw [hscan] at herase
      simp only [Option.map_some'] at herase
      have hrootne : ∀ v ∈ rest, v ≠ root := by
        intro v hv e
        obtain ⟨p, _, hcount, _⟩ := hpar v hv
        have : v ∈ st.tree_edges p := List.count_pos_iff.mp (by omega)
        rw [e] at this
        exact hroot p this
      have hap0 : ∀ v, v ≠ root →
          (if (st.tree_edges root).length > 1 then store ap root true else ap) v = ap v := by
        intro v hv
        split
        · exact store_other _ _ _ _ hv
        · rfl
      refine ⟨ast'.arti_points, ast'.n_arti, ?_, ?_, ?_⟩
      · rw [hcr, hrest, scan_arti_points]
        rw [← herase]
      · intro v hv
        rw [hcr] at hv
        have hvr : v ∉ rest := fun h => hv (List.mem_cons_of_mem _ h)
        have hvroot : v ≠ root := fun e => hv (e ▸ List.mem_cons_self _ _)
        rw [hfr v hvr, hap0 v hvroot]
      · intro v hv h0
        rw [hcr, List.tail_cons] at hv
        have hvc : v ∈ c := by rw [hcr]; exact List.mem_cons_of_mem _ hv
        obtain ⟨r, hr, hiff⟩ := atri_agree hT hM hlv hle hret hA hH v hvc
        rw [hflag v hv (by rw [hap0 v (hrootne v hv)]; exact h0), ← hiff, hr]
        constructor
        · intro h; rw [h]
        · intro h; exact Option.some.inj h
    · rw [if_neg hlen]
      refine ⟨ap, na, rfl, fun _ _ => rfl, ?_⟩
      intro v hv
      rw [hcr] at hlen hv
      cases rest with
      | nil => cases hv
      | cons k rest1 => simp at hlen

end DfsCluster

/-- C37. For every symmetric adjacency input with targets below `n_seq` (an `int`,
so at most `INT_MAX`), `connected_components` returns, and for every node `v` of a
component other than its first member, the root of its tree, `scan_atri_point(v)`
run on the tree and back edges left by `cc_dfs_visit` returns 1 iff
`scan_artipoint` has set `arti_points[v]`. -/
theorem DfsCluster.scan_atri_point_agrees (n_seq : Nat)
    (adj : Nat → List DfsCluster.fasta_t) (chimeric : Nat → Bool)
    (hr : ∀ u, u < n_seq → ∀ e ∈ adj u, e.s2 < n_seq)
    (hs : DfsCluster.SymmetricAdj n_seq adj) (hmax : n_seq ≤ DfsCluster.INT_MAX) :
    ∃ r, DfsCluster.connected_components n_seq adj chimeric = some r ∧
      ∀ c ∈ r.components, ∀ v ∈ c.tail,
        DfsCluster.scan_atri_point r.tree_edges r.back_edges n_seq v =
          some (r.arti_points v) := by
  obtain ⟨st, comps, ap, na, _, h2, h3, hP, _⟩ :=
    @DfsCluster.connected_components_spec adj chimeric n_seq hr
      (DfsCluster.ScanInv n_seq adj chimeric) (DfsCluster.scanInv_init n_seq adj chimeric)
      (fun s c i s1 hp hi hc hch hrun =>
        DfsCluster.scanInv_step hr hs hmax s c i s1 hp hi hc hch hrun)
  obtain ⟨ap', na', e, _, g⟩ := DfsCluster.arti_loop_tail st.tree_edges st.back_edges n_seq
    (fun v => DfsCluster.scan_atri_point st.tree_edges st.back_edges n_seq v = some true)
    comps hP.1.1.2.1 (fun c hc => (DfsCluster.comp_atri hP hc).2) (fun _ => false) 0
  rw [h2] at e
  simp only [Option.some.injEq, Prod.mk.injEq] at e
  refine ⟨_, h3, ?_⟩
  intro c hc v hv
  simp only [] at hc ⊢
  obtain ⟨r, hr'⟩ := (DfsCluster.comp_atri hP hc).1 v (List.mem_of_mem_tail hv)
  have hiff := g c hc v hv rfl
  rw [← e.1] at hiff
  rw [hr'] at hiff ⊢
  cases r with
  | true => rw [hiff.mpr rfl]
  | false =>
    cases hap : ap v with
    | false => rfl
    | true =>
      have := hiff.mp hap
      cases this

/-- C31. For every symmetric adjacency input with targets below `n_seq` (an `int`,
so at most `INT_MAX`), `connected_components` returns, and the scan of every
component of at least two nodes, started as `scan_arti_points` starts it (from its
first member at level 0, every level cleared), returns: the first member stays at
level 0, every tree edge goes one level down, and the value returned for each
member `v` is `low(v)` as the description defines it from these levels. -/
theorem DfsCluster.scan_artipoint_value_is_low (n_seq : Nat)
    (adj : Nat → List DfsCluster.fasta_t) (chimeric : Nat → Bool)
    (hr : ∀ u, u < n_seq → ∀ e ∈ adj u, e.s2 < n_seq)
    (hs : DfsCluster.SymmetricAdj n_seq adj) (hmax : n_seq ≤ DfsCluster.INT_MAX) :
    ∃ r, DfsCluster.connected_components n_seq adj chimeric = some r ∧
      ∀ c ∈ r.components, ∀ root rest, c = root :: rest → rest ≠ [] →
        ∀ (ap : Nat → Bool) (na : Nat) (ret0 : Nat → Nat), ∃ mn ast' ret,
          DfsCluster.scan_artipoint_ret r.tree_edges r.back_edges n_seq
            { level := fun _ => 0, arti_points := ap, n_arti := na } ret0 root 0 =
            some (mn, ast', ret) ∧
          DfsCluster.scan_artipoint r.tree_edges r.back_edges n_seq
            { level := fun _ => 0, arti_points := ap, n_arti := na } root 0 =
            some (mn, ast') ∧
          ast'.level root = 0 ∧
          (∀ p ∈ c, ∀ w ∈ r.tree_edges p, ast'.level w = ast'.level p + 1) ∧
          ∀ v ∈ c, DfsCluster.low r.tree_edges r.back_edges ast'.level n_seq v =
            some (ret v) := by
  obtain ⟨st, comps, ap, na, _, h2, h3, hP, _⟩ :=
    @DfsCluster.connected_components_spec adj chimeric n_seq hr
      (DfsCluster.ScanInv n_seq adj chimeric) (DfsCluster.scanInv_init n_seq adj chimeric)
      (fun s c i s1 hp hi hc hch hrun =>
        DfsCluster.scanInv_step hr hs hmax s c i s1 hp hi hc hch hrun)
  refine ⟨_, h3, ?_⟩
  intro c hc root rest hcr hne ap0 na0 ret0
  simp only [] at hc ⊢
  obtain ⟨_, hM, _, hH, hR⟩ := DfsCluster.final_tree hP hc
  obtain ⟨mn, ast', ret, hscan, hlv0, hlv, hle, hret, _, _⟩ := hR root rest hcr ap0 na0 ret0
  have herase := DfsCluster.scan_artipoint_ret_erase st.tree_edges st.back_edges n_seq
    { level := fun _ => 0, arti_points := ap0, n_arti := na0 } ret0 root 0
  rw [hscan] at herase
  simp only [Option.map_some'] at herase
  refine ⟨mn, ast', ret, hscan, herase.symm, hlv0, hlv, ?_⟩
  intro v hv
  exact DfsCluster.low_eq_ret hM hle hret
    (DfsCluster.ret_le_level hs hP hc hcr hne hlv0 hlv hret) n_seq v (hH v) hv

set_option maxRecDepth 100000 in
/-- Witness for C37: the triangle 0 - 1 - 2 with the pendant node 3 hanging off
node 2.  The search makes the chain 0 -> 1 -> 2 -> 3; node 2 is the articulation
point, and both tests say so. -/
theorem DfsCluster.scan_atri_point_agrees_witness :
    (∀ u, u < 4 → ∀ e ∈ DfsCluster.adj_of
        [[(1, 80), (2, 70)], [(0, 80), (2, 90)], [(1, 90), (0, 70), (3, 60)], [(2, 60)]] u,
        e.s2 < 4) ∧
    DfsCluster.SymmetricAdj 4 (DfsCluster.adj_of
      [[(1, 80), (2, 70)], [(0, 80), (2, 90)], [(1, 90), (0, 70), (3, 60)], [(2, 60)]]) ∧
    4 ≤ DfsCluster.INT_MAX ∧
    (DfsCluster.connected_components 4
        (DfsCluster.adj_of
          [[(1, 80), (2, 70)], [(0, 80), (2, 90)], [(1, 90), (0, 70), (3, 60)], [(2, 60)]])
        (DfsCluster.chimeric_of [])).map
      (fun r => (r.components,
        [1, 2, 3].map (DfsCluster.scan_atri_point r.tree_edges r.back_edges 4),
        [1, 2, 3].map r.arti_points)) =
      some ([[0, 1, 2, 3]], [some false, some true, some false], [false, true, false]) ∧
    ∃ r, DfsCluster.connected_components 4
        (DfsCluster.adj_of
          [[(1, 80), (2, 70)], [(0, 80), (2, 90)], [(1, 90), (0, 70), (3, 60)], [(2, 60)]])
        (DfsCluster.chimeric_of []) = some r ∧
      ∀ c ∈ r.components, ∀ v ∈ c.tail,
        DfsCluster.scan_atri_point r.tree_edges r.back_edges 4 v =
          some (r.arti_points v) :=
  have hr : ∀ u, u < 4 → ∀ e ∈ DfsCluster.adj_of
      [[(1, 80), (2, 70)], [(0, 80), (2, 90)], [(1, 90), (0, 70), (3, 60)], [(2, 60)]] u,
      e.s2 < 4 := by
    intro u hu
    interval_cases u <;> simp [DfsCluster.adj_of]
  have hs : DfsCluster.SymmetricAdj 4 (DfsCluster.adj_of
      [[(1, 80), (2, 70)], [(0, 80), (2, 90)], [(1, 90), (0, 70), (3, 60)], [(2, 60)]]) := by
    intro u v hu hv
    interval_cases u <;> interval_cases v <;> simp [DfsCluster.adj_of]
  ⟨hr, hs, by decide, by decide,
    DfsCluster.scan_atri_point_agrees 4 _ _ hr hs (by decide)⟩

set_option maxRecDepth 100000 in
/-- Witness for C31: the same graph.  The levels are 0, 1, 2, 3 down the chain
0 -> 1 -> 2 -> 3; nodes 1 and 2 reach level 0 through the back edge 2 -> 0, node 3
only reaches its parent at level 2. -/
theorem DfsCluster.scan_artipoint_value_is_low_witness :
    (∀ u, u < 4 → ∀ e ∈ DfsCluster.adj_of
        [[(1, 80), (2, 70)], [(0, 80), (2, 90)], [(1, 90), (0, 70), (3, 60)], [(2, 60)]] u,
        e.s2 < 4) ∧
    DfsCluster.SymmetricAdj 4 (DfsCluster.adj_of
      [[(1, 80), (2, 70)], [(0, 80), (2, 90)], [(1, 90), (0, 70), (3, 60)], [(2, 60)]]) ∧
    4 ≤ DfsCluster.INT_MAX ∧
    ((DfsCluster.connected_components 4
        (DfsCluster.adj_of
          [[(1, 80), (2, 70)], [(0, 80), (2, 90)], [(1, 90), (0, 70), (3, 60)], [(2, 60)]])
        (DfsCluster.chimeric_of [])).bind
      (fun r => (DfsCluster.scan_artipoint_ret r.tree_edges r.back_edges 4
          { level := fun _ => 0, arti_points := fun _ => false, n_arti := 0 }
          (fun _ => 0) 0 0).map
        (fun x => ([0, 1, 2, 3].map x.2.1.level, [0, 1, 2, 3].map x.2.2,
          [0, 1, 2, 3].map (DfsCluster.low r.tree_edges r.back_edges x.2.1.level 4))))) =
      some ([0, 1, 2, 3], [0, 0, 0, 2], [some 0, some 0, some 0, some 2]) ∧
    ∃ r, DfsCluster.connected_components 4
        (DfsCluster.adj_of
          [[(1, 80), (2, 70)], [(0, 80), (2, 90)], [(1, 90), (0, 70), (3, 60)], [(2, 60)]])
        (DfsCluster.chimeric_of []) = some r ∧
      ∀ c ∈ r.components, ∀ root rest, c = root :: rest → rest ≠ [] →
        ∀ (ap : Nat → Bool) (na : Nat) (ret0 : Nat → Nat), ∃ mn ast' ret,
          DfsCluster.scan_artipoint_ret r.tree_edges r.back_edges 4
            { level := fun _ => 0, arti_points := ap, n_arti := na } ret0 root 0 =
            some (mn, ast', ret) ∧
          DfsCluster.scan_artipoint r.tree_edges r.back_edges 4
            { level := fun _ => 0, arti_points := ap, n_arti := na } root 0 =
            some (mn, ast') ∧
          ast'.level root = 0 ∧
          (∀ p ∈ c, ∀ w ∈ r.tree_edges p, ast'.level w = ast'.level p + 1) ∧
          ∀ v ∈ c, DfsCluster.low r.tree_edges r.back_edges ast'.level 4 v =
            some (ret v) :=
  have hr : ∀ u, u < 4 → ∀ e ∈ DfsCluster.adj_of
      [[(1, 80), (2, 70)], [(0, 80), (2, 90)], [(1, 90), (0, 70), (3, 60)], [(2, 60)]] u,
      e.s2 < 4 := by
    intro u hu
    interval_cases u <;> simp [DfsCluster.adj_of]
  have hs : DfsCluster.SymmetricAdj 4 (DfsCluster.adj_of
      [[(1, 80), (2, 70)], [(0, 80), (2, 90)], [(1, 90), (0, 70), (3, 60)], [(2, 60)]]) := by
    intro u v hu hv
    interval_cases u <;> interval_cases v <;> simp [DfsCluster.adj_of]
  ⟨hr, hs, by decide, by decide,
    DfsCluster.scan_artipoint_value_is_low 4 _ _ hr hs (by decide)⟩
